import Mathlib

/-!
# The `parsec` lexer: a shallow embedding of `Lexer.cpp` / `Token.h`

The scanner of `src/src/Lexer.cpp` is translated function by function.

* A `const char*` is a `List Char`; reading `m_src[i]` is `List.getD` with the
  terminating NUL as the default, so the C string denoted by a list ends at its
  first NUL (or at the end of the list).  A null pointer is `none`.
* `std::string` (token text, accumulation buffer) is a `List Char`.
* The `uint32_t` fields `m_index`, `m_line`, `m_offset` are natural numbers below
  2^32: every `++` and `+=` on them, and every sum computed in `unsigned int`, is
  reduced modulo 2^32 by `wrap32` (`int` and `unsigned int` have 32 bits, `size_t`
  has 64).  On an input whose terminating NUL lies at or beyond index 2^32 the index
  wraps before it reaches the terminator and no call returns
  (`generateTokens_beyond_index_range`); the claims that describe a whole scan
  therefore carry the bound `length < 4294967296` on the input, except where they
  only speak of calls that return, which by `generateTokens_returns_unbounded` never
  wrap the index.
* `std::runtime_error` thrown by `Lexer::error` is the outcome `Res.error`, which
  keeps the message and the lexer state at the throw.
* Every `while` loop is a recursive function on a step budget; a loop that
  exhausts its budget yields the distinct outcome `Res.timeout`, which by
  `generateTokens_total` no call of `generateTokens` produces on an input of fewer
  than 2^32 characters.  On a longer input, where the index wraps, the budget can
  run out on a run that the code carries on with; nothing is concluded from a
  timeout there.
-/

namespace parsec

/-! ## Token.h -/

/-- Token categories, in the order of `enum class TokenType`. -/
inductive TokenType
  | INVALID
  | EOF_TOKEN
  | IF
  | ELSE
  | FOR
  | WHILE
  | DO
  | RETURN
  | INT
  | FLOAT
  | BOOL
  | VOID
  | TRUE
  | FALSE
  | IDENTIFIER
  | NUMBER
  | STRING
  | CHAR
  | PLUS
  | MINUS
  | MULTIPLY
  | DIVIDE
  | MODULO
  | ASSIGN
  | EQUAL
  | NOT_EQUAL
  | LESS_THAN
  | GREATER_THAN
  | LESS_EQUAL
  | GREATER_EQUAL
  | LOGICAL_AND
  | LOGICAL_OR
  | LOGICAL_NOT
  | PARENTHESIS_OPEN
  | PARENTHESIS_CLOSE
  | BRACE_OPEN
  | BRACE_CLOSE
  | BRACKET_OPEN
  | BRACKET_CLOSE
  | SEMICOLON
  | COMMA
  | DOT
  deriving DecidableEq, Repr

/-- The class `Token`: a category and the token text; both constructor arguments
have the defaults of the C++ constructor. -/
structure Token where
  m_type : TokenType := TokenType.INVALID
  m_value : List Char := []
  deriving DecidableEq, Repr

/-! ## Character checks -/

/-- The constant `STRING_TERMINATION_CHAR`, the NUL byte. -/
def STRING_TERMINATION_CHAR : Char := Char.ofNat 0

/-- The constant `NEW_LINE_CHAR`. -/
def NEW_LINE_CHAR : Char := '\n'

/-- The double quote character. -/
def QUOTE_CHAR : Char := Char.ofNat 34

/-- The backslash character. -/
def BACKSLASH_CHAR : Char := Char.ofNat 92

def isBlank (chr : Char) : Bool :=
  chr == ' ' || chr == '\n' || chr == '\t' || chr == '\r'

def isAlpha (chr : Char) : Bool :=
  (decide ('A' ≤ chr) && decide (chr ≤ 'Z')) || (decide ('a' ≤ chr) && decide (chr ≤ 'z')) || chr == '_'

def isDigit (chr : Char) : Bool :=
  decide ('0' ≤ chr) && decide (chr ≤ '9')

def isAlphaNumeric (chr : Char) : Bool :=
  isAlpha chr || isDigit chr

def isOperator (chr : Char) : Bool :=
  chr == '+' || chr == '-' || chr == '*' || chr == '/' || chr == '%' || chr == '=' || chr == '<' ||
    chr == '>' || chr == '!' || chr == '.' || chr == '&' || chr == '|'

def isDelimiter (chr : Char) : Bool :=
  chr == '(' || chr == ')' || chr == '\x7b' || chr == '\x7d' || chr == '[' || chr == ']' ||
    chr == ';' || chr == ','

/-! ## Mapping tables -/

/-- The keyword table `KEYWORDS`. -/
def KEYWORDS : List (List Char × TokenType) :=
  [ (['i', 'f'], TokenType.IF),
    (['e', 'l', 's', 'e'], TokenType.ELSE),
    (['f', 'o', 'r'], TokenType.FOR),
    (['w', 'h', 'i', 'l', 'e'], TokenType.WHILE),
    (['d', 'o'], TokenType.DO),
    (['r', 'e', 't', 'u', 'r', 'n'], TokenType.RETURN),
    (['i', 'n', 't'], TokenType.INT),
    (['f', 'l', 'o', 'a', 't'], TokenType.FLOAT),
    (['b', 'o', 'o', 'l'], TokenType.BOOL),
    (['v', 'o', 'i', 'd'], TokenType.VOID),
    (['t', 'r', 'u', 'e'], TokenType.TRUE),
    (['f', 'a', 'l', 's', 'e'], TokenType.FALSE) ]

/-- The operator table `OPERATORS`, in the order of the source. -/
def OPERATORS : List (List Char × TokenType) :=
  [ (['=', '='], TokenType.EQUAL),
    (['!', '='], TokenType.NOT_EQUAL),
    (['<', '='], TokenType.LESS_EQUAL),
    (['>', '='], TokenType.GREATER_EQUAL),
    (['&', '&'], TokenType.LOGICAL_AND),
    (['|', '|'], TokenType.LOGICAL_OR),
    (['='], TokenType.ASSIGN),
    (['!'], TokenType.LOGICAL_NOT),
    (['<'], TokenType.LESS_THAN),
    (['>'], TokenType.GREATER_THAN),
    (['+'], TokenType.PLUS),
    (['-'], TokenType.MINUS),
    (['*'], TokenType.MULTIPLY),
    (['/'], TokenType.DIVIDE),
    (['%'], TokenType.MODULO),
    (['.'], TokenType.DOT) ]

/-! ## Lexer state and outcomes -/

/-- The data members of `class Lexer`.  The three `uint32_t` counters are natural
numbers; every assignment to them in the functions below is reduced modulo 2^32. -/
structure Lexer where
  m_src : List Char
  m_index : Nat
  m_line : Nat
  m_offset : Nat
  m_token_buffer : List Char
  m_tokens : List Token
  deriving DecidableEq, Repr

/-- The byte `src[i]` of a C string: past the end of the list it is the NUL. -/
def charAt (src : List Char) (i : Nat) : Char :=
  src.getD i STRING_TERMINATION_CHAR

/-- Outcome of a member function: normal return with a value and the new state, an
exception with its message and the state at the throw, or an exhausted budget. -/
inductive Res (α : Type)
  | ok : α → Lexer → Res α
  | error : String → Lexer → Res α
  | timeout : Res α
  deriving DecidableEq, Repr

/-- Sequencing: run `f` on a normal return, pass an exception or a timeout on. -/
def Res.bind {α β : Type} (r : Res α) (f : α → Lexer → Res β) : Res β :=
  match r with
  | Res.ok a s => f a s
  | Res.error msg s => Res.error msg s
  | Res.timeout => Res.timeout

/-- The text built by `Lexer::error`. -/
def errorMessage (line offset : Nat) : String :=
  "Lexer error at line " ++ toString line ++ ":" ++ toString offset

/-- The function `Lexer::error`: always throws. -/
def Lexer.error {α : Type} (s : Lexer) : Res α :=
  Res.error (errorMessage s.m_line s.m_offset) s

/-! ## bufferToToken and consumeTokenBuffer -/

/-- The number-validation loop of `bufferToToken`; the flag is `has_decimal_point`,
the result `is_valid_number`. -/
def numberLoop : List Char → Bool → Bool
  | [], _ => true
  | c :: cs, has_decimal_point =>
    if c == '.' && !has_decimal_point then numberLoop cs true
    else if !isDigit c then false
    else numberLoop cs has_decimal_point

/-- The identifier-validation loop of `bufferToToken`; the result is
`is_valid_identifier`. -/
def identifierLoop : List Char → Bool
  | [] => true
  | c :: cs => if !isAlphaNumeric c then false else identifierLoop cs

def bufferToToken (buffer : List Char) : Token :=
  match buffer with
  | [] => Token.mk TokenType.INVALID buffer
  | c0 :: _ =>
    match KEYWORDS.lookup buffer with
    | some type => Token.mk type []
    | none =>
      if isDigit c0 then
        if numberLoop buffer false then Token.mk TokenType.NUMBER buffer
        else Token.mk TokenType.INVALID buffer
      else if isAlpha c0 then
        if identifierLoop buffer then Token.mk TokenType.IDENTIFIER buffer
        else Token.mk TokenType.INVALID buffer
      else Token.mk TokenType.INVALID buffer

def Lexer.consumeTokenBuffer (s : Lexer) : Res Unit :=
  if !s.m_token_buffer.isEmpty then
    let token := bufferToToken s.m_token_buffer
    if token.m_type = TokenType.INVALID then s.error
    else Res.ok () { s with m_tokens := s.m_tokens ++ [token], m_token_buffer := [] }
  else Res.ok () s

/-! ## Unsigned 32-bit counters -/

/-- The value that a `uint32_t` holds after it is assigned `n`: unsigned arithmetic
wraps modulo 2^32.  It is applied at every `++` and `+=` on `m_index`, `m_line`,
`m_offset` (and on `pos`, `line`, `offset` in `parseStringLiteral`) and to the
sums `m_index + 0`, `m_index + 1`, `pos + 1`, which C++ computes in `unsigned int`.
The sum `m_index + i` of `handleOperators`, with `i` a `size_t`, is computed in
`size_t` (64 bits) and does not wrap. -/
def wrap32 (n : Nat) : Nat :=
  n % 4294967296

/-! ## parseStringLiteral -/

/-- The reference parameters `pos`, `line`, `offset` (all `uint32_t`) and the local
`value` of `parseStringLiteral`. -/
structure StrState where
  value : List Char
  pos : Nat
  line : Nat
  offset : Nat
  deriving DecidableEq, Repr

/-- The `while` loop of `parseStringLiteral`; every branch of the `switch` on the
escaped character appends that character. -/
def parseStringLoop (src : List Char) : Nat → StrState → Option StrState
  | 0, _ => none
  | fuel + 1, st =>
    if charAt src st.pos != STRING_TERMINATION_CHAR && charAt src st.pos != QUOTE_CHAR then
      if charAt src st.pos == BACKSLASH_CHAR &&
          charAt src (wrap32 (st.pos + 1)) != STRING_TERMINATION_CHAR then
        let st1 : StrState :=
          { st with value := st.value ++ [charAt src st.pos], pos := wrap32 (st.pos + 1),
                    offset := wrap32 (st.offset + 1) }
        let st2 : StrState := { st1 with value := st1.value ++ [charAt src st1.pos] }
        parseStringLoop src fuel
          { st2 with pos := wrap32 (st2.pos + 1), offset := wrap32 (st2.offset + 1) }
      else if charAt src st.pos == '\n' then
        let st1 : StrState :=
          { st with line := wrap32 (st.line + 1), offset := 1,
                    value := st.value ++ [charAt src st.pos] }
        parseStringLoop src fuel
          { st1 with pos := wrap32 (st1.pos + 1), offset := wrap32 (st1.offset + 1) }
      else
        let st1 : StrState := { st with value := st.value ++ [charAt src st.pos] }
        parseStringLoop src fuel
          { st1 with pos := wrap32 (st1.pos + 1), offset := wrap32 (st1.offset + 1) }
    else some st

/-- The function `parseStringLiteral`: the token and the updated `pos`, `line`,
`offset` (in the final `StrState`); `none` when the loop budget runs out. -/
def parseStringLiteral (src : List Char) (pos line offset : Nat) : Option (Token × StrState) :=
  match parseStringLoop src (src.length + 1)
      { value := [QUOTE_CHAR], pos := wrap32 (pos + 1), line := line,
        offset := wrap32 (offset + 1) } with
  | none => none
  | some st =>
    if charAt src st.pos == QUOTE_CHAR then
      let st1 : StrState :=
        { st with value := st.value ++ [QUOTE_CHAR], pos := wrap32 (st.pos + 1),
                  offset := wrap32 (st.offset + 1) }
      some (Token.mk TokenType.STRING st1.value, st1)
    else some (Token.mk TokenType.INVALID st.value, st)

/-! ## Lexer handlers -/

/-- The loop of `handleLineComments`. -/
def lineCommentLoop : Nat → Lexer → Res Unit
  | 0, _ => Res.timeout
  | fuel + 1, s =>
    if charAt s.m_src s.m_index != STRING_TERMINATION_CHAR && charAt s.m_src s.m_index != NEW_LINE_CHAR then
      lineCommentLoop fuel
        { s with m_index := wrap32 (s.m_index + 1), m_offset := wrap32 (s.m_offset + 1) }
    else Res.ok () s

def Lexer.handleLineComments (s : Lexer) : Res Unit :=
  s.consumeTokenBuffer.bind fun _ s1 =>
    lineCommentLoop (s1.m_src.length + 1)
      { s1 with m_index := wrap32 (s1.m_index + 2), m_offset := wrap32 (s1.m_offset + 2) }

/-- The loop of `handleMultilineComments`. -/
def multilineCommentLoop : Nat → Lexer → Res Unit
  | 0, _ => Res.timeout
  | fuel + 1, s =>
    if charAt s.m_src s.m_index != STRING_TERMINATION_CHAR then
      let chr0 := charAt s.m_src (wrap32 (s.m_index + 0))
      let chr1 := charAt s.m_src (wrap32 (s.m_index + 1))
      if chr0 == '*' && chr1 == '/' then
        Res.ok () { s with m_index := wrap32 (s.m_index + 2), m_offset := wrap32 (s.m_offset + 2) }
      else if chr0 == NEW_LINE_CHAR then
        multilineCommentLoop fuel
          { s with m_index := wrap32 (s.m_index + 1), m_line := wrap32 (s.m_line + 1),
                   m_offset := 1 }
      else
        multilineCommentLoop fuel
          { s with m_index := wrap32 (s.m_index + 1), m_offset := wrap32 (s.m_offset + 1) }
    else Res.ok () s

def Lexer.handleMultilineComments (s : Lexer) : Res Unit :=
  s.consumeTokenBuffer.bind fun _ s1 =>
    multilineCommentLoop (s1.m_src.length + 1)
      { s1 with m_index := wrap32 (s1.m_index + 2), m_offset := wrap32 (s1.m_offset + 2) }

def Lexer.handleComments (s : Lexer) : Res Bool :=
  let chr0 := charAt s.m_src (wrap32 (s.m_index + 0))
  if chr0 != '/' then Res.ok false s
  else
    let chr1 := charAt s.m_src (wrap32 (s.m_index + 1))
    if chr1 == '/' then s.handleLineComments.bind fun _ s1 => Res.ok true s1
    else if chr1 == '*' then s.handleMultilineComments.bind fun _ s1 => Res.ok true s1
    else Res.ok false s

/-- The loop of `handleWhiteSpaces`; the flag is `contains_whitespace`. -/
def whiteSpacesLoop : Nat → Lexer → Bool → Res Bool
  | 0, _, _ => Res.timeout
  | fuel + 1, s, contains_whitespace =>
    if isBlank (charAt s.m_src s.m_index) then
      (if !contains_whitespace then s.consumeTokenBuffer else Res.ok () s).bind fun _ s1 =>
        let chr := charAt s1.m_src s1.m_index
        let s2 : Lexer :=
          if chr == NEW_LINE_CHAR then { s1 with m_offset := 1, m_line := wrap32 (s1.m_line + 1) }
          else { s1 with m_offset := wrap32 (s1.m_offset + 1) }
        whiteSpacesLoop fuel { s2 with m_index := wrap32 (s2.m_index + 1) } true
    else Res.ok contains_whitespace s

def Lexer.handleWhiteSpaces (s : Lexer) : Res Bool :=
  whiteSpacesLoop (s.m_src.length + 1) s false

def Lexer.handleStringLiterals (s : Lexer) : Res Bool :=
  let chr0 := charAt s.m_src s.m_index
  if chr0 == QUOTE_CHAR then
    s.consumeTokenBuffer.bind fun _ s1 =>
      match parseStringLiteral s1.m_src s1.m_index s1.m_line s1.m_offset with
      | none => Res.timeout
      | some (string_token, st) =>
        let s2 : Lexer := { s1 with m_index := st.pos, m_line := st.line, m_offset := st.offset }
        if string_token.m_type = TokenType.INVALID then s2.error
        else Res.ok true { s2 with m_tokens := s2.m_tokens ++ [string_token] }
  else Res.ok false s

def Lexer.handleAlphaNumericChars (s : Lexer) : Res Bool :=
  let chr0 := charAt s.m_src s.m_index
  if isAlphaNumeric chr0 ||
      (chr0 == '.' && !s.m_token_buffer.isEmpty && isDigit (s.m_token_buffer.getLastD STRING_TERMINATION_CHAR)) then
    Res.ok true
      { s with m_token_buffer := s.m_token_buffer ++ [chr0], m_index := wrap32 (s.m_index + 1),
               m_offset := wrap32 (s.m_offset + 1) }
  else Res.ok false s

/-- The `switch` of `handleDelimeters`. -/
def delimiterType (chr0 : Char) : TokenType :=
  if chr0 == '(' then TokenType.PARENTHESIS_OPEN
  else if chr0 == ')' then TokenType.PARENTHESIS_CLOSE
  else if chr0 == '\x7b' then TokenType.BRACE_OPEN
  else if chr0 == '\x7d' then TokenType.BRACE_CLOSE
  else if chr0 == '[' then TokenType.BRACKET_OPEN
  else if chr0 == ']' then TokenType.BRACKET_CLOSE
  else if chr0 == ',' then TokenType.COMMA
  else if chr0 == ';' then TokenType.SEMICOLON
  else TokenType.INVALID

def Lexer.handleDelimeters (s : Lexer) : Res Bool :=
  let chr0 := charAt s.m_src s.m_index
  if isDelimiter chr0 then
    let type := delimiterType chr0
    if type = TokenType.INVALID then s.error
    else
      Res.ok true
        { s with m_tokens := s.m_tokens ++ [Token.mk type []], m_index := wrap32 (s.m_index + 1) }
  else Res.ok false s

/-- The inner loop of `handleOperators`: does the spelling, from its `i`-th
character on, match the source from `m_index + i` on (result `matches`).  The index
`m_index + i` is a `size_t` and does not wrap. -/
def operatorMatches (s : Lexer) : List Char → Nat → Bool
  | [], _ => true
  | c :: cs, i =>
    if charAt s.m_src (s.m_index + i) == STRING_TERMINATION_CHAR || charAt s.m_src (s.m_index + i) != c then false
    else operatorMatches s cs (i + 1)

/-- The outer loop of `handleOperators` over the remaining entries of the table. -/
def operatorsLoop (s : Lexer) : List (List Char × TokenType) → Res Bool
  | [] => Res.ok false s
  | (op_str, token_type) :: rest =>
    let op_length := op_str.length
    if operatorMatches s op_str 0 then
      Res.ok true
        { s with m_tokens := s.m_tokens ++ [Token.mk token_type []],
                 m_index := wrap32 (s.m_index + op_length),
                 m_offset := wrap32 (s.m_offset + op_length) }
    else operatorsLoop s rest

def Lexer.handleOperators (s : Lexer) : Res Bool :=
  operatorsLoop s OPERATORS

/-! ## generateTokens -/

/-- One iteration of the scan loop of `generateTokens`: the handlers in their
priority order, a `continue` being the early normal return. -/
def Lexer.scanStep (s : Lexer) : Res Unit :=
  s.handleStringLiterals.bind fun b1 s1 =>
    if b1 then Res.ok () s1
    else s1.handleComments.bind fun b2 s2 =>
      if b2 then Res.ok () s2
      else s2.handleAlphaNumericChars.bind fun b3 s3 =>
        if b3 then Res.ok () s3
        else s3.consumeTokenBuffer.bind fun _ s4 =>
          s4.handleWhiteSpaces.bind fun b5 s5 =>
            if b5 then Res.ok () s5
            else s5.handleDelimeters.bind fun b6 s6 =>
              if b6 then Res.ok () s6
              else s6.handleOperators.bind fun b7 s7 =>
                if b7 then Res.ok () s7
                else s7.error

/-- The scan loop of `generateTokens`, returning `m_tokens` when the cursor is on
the terminating NUL. -/
def scanLoop : Nat → Lexer → Res (List Token)
  | 0, _ => Res.timeout
  | fuel + 1, s =>
    if charAt s.m_src s.m_index != STRING_TERMINATION_CHAR then
      s.scanStep.bind fun _ s1 => scanLoop fuel s1
    else Res.ok s.m_tokens s

/-- The function `Lexer::generateTokens`, run from the prior state `self` of the
object; `none` is the null pointer. -/
def Lexer.generateTokens (self : Lexer) (src : Option (List Char)) : Res (List Token) :=
  let s0 : Lexer :=
    { self with m_tokens := [], m_token_buffer := [], m_index := 0, m_line := 1, m_offset := 1 }
  match src with
  | none => Res.ok s0.m_tokens s0
  | some src =>
    let s1 : Lexer := { s0 with m_src := src }
    scanLoop (src.length + 1) s1

/-- A default-constructed `Lexer` (fields that C++ leaves indeterminate are zero). -/
def Lexer.new : Lexer :=
  { m_src := [], m_index := 0, m_line := 0, m_offset := 0, m_token_buffer := [], m_tokens := [] }

/-- The observable outcome of a call: the returned token sequence or the message of
the exception. -/
inductive Outcome
  | tokens : List Token → Outcome
  | lexError : String → Outcome
  | diverges : Outcome
  deriving DecidableEq, Repr

def Res.outcome (r : Res (List Token)) : Outcome :=
  match r with
  | Res.ok ts _ => Outcome.tokens ts
  | Res.error msg _ => Outcome.lexError msg
  | Res.timeout => Outcome.diverges

/-! ## The same functions on counters that do not wrap

The functions below are the functions above with every `wrap32` left out: their
counters are unbounded natural numbers.  They are not a translation of the source
but the reference semantics in which the proofs are carried out; the theorems of
the section on wrap-around show that, as long as the terminating NUL lies below
index 2^32, a run of the functions above is the run of these functions with its
line and column counters reduced modulo 2^32.  Each carries the name of its
original with the suffix `U`. -/

/-- The `while` loop of `parseStringLiteralU`; every branch of the `switch` on the
escaped character appends that character. -/
def parseStringLoopU (src : List Char) : Nat → StrState → Option StrState
  | 0, _ => none
  | fuel + 1, st =>
    if charAt src st.pos != STRING_TERMINATION_CHAR && charAt src st.pos != QUOTE_CHAR then
      if charAt src st.pos == BACKSLASH_CHAR && charAt src (st.pos + 1) != STRING_TERMINATION_CHAR then
        let st1 : StrState :=
          { st with value := st.value ++ [charAt src st.pos], pos := st.pos + 1, offset := st.offset + 1 }
        let st2 : StrState := { st1 with value := st1.value ++ [charAt src st1.pos] }
        parseStringLoopU src fuel { st2 with pos := st2.pos + 1, offset := st2.offset + 1 }
      else if charAt src st.pos == '\n' then
        let st1 : StrState :=
          { st with line := st.line + 1, offset := 1, value := st.value ++ [charAt src st.pos] }
        parseStringLoopU src fuel { st1 with pos := st1.pos + 1, offset := st1.offset + 1 }
      else
        let st1 : StrState := { st with value := st.value ++ [charAt src st.pos] }
        parseStringLoopU src fuel { st1 with pos := st1.pos + 1, offset := st1.offset + 1 }
    else some st

/-- The function `parseStringLiteralU`: the token and the updated `pos`, `line`,
`offset` (in the final `StrState`); `none` when the loop budget runs out. -/
def parseStringLiteralU (src : List Char) (pos line offset : Nat) : Option (Token × StrState) :=
  match parseStringLoopU src (src.length + 1)
      { value := [QUOTE_CHAR], pos := pos + 1, line := line, offset := offset + 1 } with
  | none => none
  | some st =>
    if charAt src st.pos == QUOTE_CHAR then
      let st1 : StrState :=
        { st with value := st.value ++ [QUOTE_CHAR], pos := st.pos + 1, offset := st.offset + 1 }
      some (Token.mk TokenType.STRING st1.value, st1)
    else some (Token.mk TokenType.INVALID st.value, st)

/-- The loop of `handleLineCommentsU`. -/
def lineCommentLoopU : Nat → Lexer → Res Unit
  | 0, _ => Res.timeout
  | fuel + 1, s =>
    if charAt s.m_src s.m_index != STRING_TERMINATION_CHAR && charAt s.m_src s.m_index != NEW_LINE_CHAR then
      lineCommentLoopU fuel { s with m_index := s.m_index + 1, m_offset := s.m_offset + 1 }
    else Res.ok () s

def Lexer.handleLineCommentsU (s : Lexer) : Res Unit :=
  s.consumeTokenBuffer.bind fun _ s1 =>
    lineCommentLoopU (s1.m_src.length + 1) { s1 with m_index := s1.m_index + 2, m_offset := s1.m_offset + 2 }

/-- The loop of `handleMultilineCommentsU`. -/
def multilineCommentLoopU : Nat → Lexer → Res Unit
  | 0, _ => Res.timeout
  | fuel + 1, s =>
    if charAt s.m_src s.m_index != STRING_TERMINATION_CHAR then
      let chr0 := charAt s.m_src (s.m_index + 0)
      let chr1 := charAt s.m_src (s.m_index + 1)
      if chr0 == '*' && chr1 == '/' then
        Res.ok () { s with m_index := s.m_index + 2, m_offset := s.m_offset + 2 }
      else if chr0 == NEW_LINE_CHAR then
        multilineCommentLoopU fuel { s with m_index := s.m_index + 1, m_line := s.m_line + 1, m_offset := 1 }
      else
        multilineCommentLoopU fuel { s with m_index := s.m_index + 1, m_offset := s.m_offset + 1 }
    else Res.ok () s

def Lexer.handleMultilineCommentsU (s : Lexer) : Res Unit :=
  s.consumeTokenBuffer.bind fun _ s1 =>
    multilineCommentLoopU (s1.m_src.length + 1)
      { s1 with m_index := s1.m_index + 2, m_offset := s1.m_offset + 2 }

def Lexer.handleCommentsU (s : Lexer) : Res Bool :=
  let chr0 := charAt s.m_src (s.m_index + 0)
  if chr0 != '/' then Res.ok false s
  else
    let chr1 := charAt s.m_src (s.m_index + 1)
    if chr1 == '/' then s.handleLineCommentsU.bind fun _ s1 => Res.ok true s1
    else if chr1 == '*' then s.handleMultilineCommentsU.bind fun _ s1 => Res.ok true s1
    else Res.ok false s

/-- The loop of `handleWhiteSpacesU`; the flag is `contains_whitespace`. -/
def whiteSpacesLoopU : Nat → Lexer → Bool → Res Bool
  | 0, _, _ => Res.timeout
  | fuel + 1, s, contains_whitespace =>
    if isBlank (charAt s.m_src s.m_index) then
      (if !contains_whitespace then s.consumeTokenBuffer else Res.ok () s).bind fun _ s1 =>
        let chr := charAt s1.m_src s1.m_index
        let s2 : Lexer :=
          if chr == NEW_LINE_CHAR then { s1 with m_offset := 1, m_line := s1.m_line + 1 }
          else { s1 with m_offset := s1.m_offset + 1 }
        whiteSpacesLoopU fuel { s2 with m_index := s2.m_index + 1 } true
    else Res.ok contains_whitespace s

def Lexer.handleWhiteSpacesU (s : Lexer) : Res Bool :=
  whiteSpacesLoopU (s.m_src.length + 1) s false

def Lexer.handleStringLiteralsU (s : Lexer) : Res Bool :=
  let chr0 := charAt s.m_src s.m_index
  if chr0 == QUOTE_CHAR then
    s.consumeTokenBuffer.bind fun _ s1 =>
      match parseStringLiteralU s1.m_src s1.m_index s1.m_line s1.m_offset with
      | none => Res.timeout
      | some (string_token, st) =>
        let s2 : Lexer := { s1 with m_index := st.pos, m_line := st.line, m_offset := st.offset }
        if string_token.m_type = TokenType.INVALID then s2.error
        else Res.ok true { s2 with m_tokens := s2.m_tokens ++ [string_token] }
  else Res.ok false s

def Lexer.handleAlphaNumericCharsU (s : Lexer) : Res Bool :=
  let chr0 := charAt s.m_src s.m_index
  if isAlphaNumeric chr0 ||
      (chr0 == '.' && !s.m_token_buffer.isEmpty && isDigit (s.m_token_buffer.getLastD STRING_TERMINATION_CHAR)) then
    Res.ok true
      { s with m_token_buffer := s.m_token_buffer ++ [chr0], m_index := s.m_index + 1, m_offset := s.m_offset + 1 }
  else Res.ok false s

def Lexer.handleDelimetersU (s : Lexer) : Res Bool :=
  let chr0 := charAt s.m_src s.m_index
  if isDelimiter chr0 then
    let type := delimiterType chr0
    if type = TokenType.INVALID then s.error
    else Res.ok true { s with m_tokens := s.m_tokens ++ [Token.mk type []], m_index := s.m_index + 1 }
  else Res.ok false s

/-- The outer loop of `handleOperatorsU` over the remaining entries of the table. -/
def operatorsLoopU (s : Lexer) : List (List Char × TokenType) → Res Bool
  | [] => Res.ok false s
  | (op_str, token_type) :: rest =>
    let op_length := op_str.length
    if operatorMatches s op_str 0 then
      Res.ok true
        { s with m_tokens := s.m_tokens ++ [Token.mk token_type []],
                 m_index := s.m_index + op_length, m_offset := s.m_offset + op_length }
    else operatorsLoopU s rest

def Lexer.handleOperatorsU (s : Lexer) : Res Bool :=
  operatorsLoopU s OPERATORS

/-- One iteration of the scan loop of `generateTokensU`: the handlers in their
priority order, a `continue` being the early normal return. -/
def Lexer.scanStepU (s : Lexer) : Res Unit :=
  s.handleStringLiteralsU.bind fun b1 s1 =>
    if b1 then Res.ok () s1
    else s1.handleCommentsU.bind fun b2 s2 =>
      if b2 then Res.ok () s2
      else s2.handleAlphaNumericCharsU.bind fun b3 s3 =>
        if b3 then Res.ok () s3
        else s3.consumeTokenBuffer.bind fun _ s4 =>
          s4.handleWhiteSpacesU.bind fun b5 s5 =>
            if b5 then Res.ok () s5
            else s5.handleDelimetersU.bind fun b6 s6 =>
              if b6 then Res.ok () s6
              else s6.handleOperatorsU.bind fun b7 s7 =>
                if b7 then Res.ok () s7
                else s7.error

/-- The scan loop of `generateTokensU`, returning `m_tokens` when the cursor is on
the terminating NUL. -/
def scanLoopU : Nat → Lexer → Res (List Token)
  | 0, _ => Res.timeout
  | fuel + 1, s =>
    if charAt s.m_src s.m_index != STRING_TERMINATION_CHAR then
      s.scanStepU.bind fun _ s1 => scanLoopU fuel s1
    else Res.ok s.m_tokens s

/-- The function `generateTokensU`, run from the prior state `self` of the
object; `none` is the null pointer. -/
def Lexer.generateTokensU (self : Lexer) (src : Option (List Char)) : Res (List Token) :=
  let s0 : Lexer :=
    { self with m_tokens := [], m_token_buffer := [], m_index := 0, m_line := 1, m_offset := 1 }
  match src with
  | none => Res.ok s0.m_tokens s0
  | some src =>
    let s1 : Lexer := { s0 with m_src := src }
    scanLoopU (src.length + 1) s1

/-! ## Specification-side vocabulary -/

/-- The true 1-based line of byte index `i` of `src`: one more than the number of
newline characters before `i`. -/
def trueLine (src : List Char) (i : Nat) : Nat :=
  1 + (src.take i).count NEW_LINE_CHAR

/-- The true 1-based column of byte index `i` of `src`: one more than the number of
characters between the last newline before `i` (or the start) and `i`. -/
def trueColumn (src : List Char) (i : Nat) : Nat :=
  1 + ((src.take i).reverse.takeWhile (fun c => c != NEW_LINE_CHAR)).length

/-- The remaining input at byte index `i`: the characters from `i` up to, not
including, the terminating NUL. -/
def remainingInput (src : List Char) (i : Nat) : List Char :=
  (src.drop i).takeWhile (fun c => c != STRING_TERMINATION_CHAR)

/-- A string body made of units: one character other than the quote, the backslash
and the NUL, or a backslash followed by one character other than the NUL. -/
inductive StringBody : List Char → Prop
  | nil : StringBody []
  | plain (c : Char) (rest : List Char) :
      c ≠ QUOTE_CHAR → c ≠ BACKSLASH_CHAR → c ≠ STRING_TERMINATION_CHAR →
      StringBody rest → StringBody (c :: rest)
  | escape (c : Char) (rest : List Char) :
      c ≠ STRING_TERMINATION_CHAR → StringBody rest → StringBody (BACKSLASH_CHAR :: c :: rest)

/-- The tail of an unterminated string: units of one character other than the quote
and the backslash, or a backslash followed by any one character, optionally
followed by one trailing backslash. -/
inductive OpenStringBody : List Char → Prop
  | nil : OpenStringBody []
  | trailing : OpenStringBody [BACKSLASH_CHAR]
  | plain (c : Char) (rest : List Char) :
      c ≠ QUOTE_CHAR → c ≠ BACKSLASH_CHAR → OpenStringBody rest → OpenStringBody (c :: rest)
  | escape (c : Char) (rest : List Char) :
      OpenStringBody rest → OpenStringBody (BACKSLASH_CHAR :: c :: rest)

/-- Texts made only of blank characters, line comments (two slashes and non-newline
characters up to a newline or the end of the text) and closed block comments
(slash-star, a body without star-slash, star-slash). -/
inductive Trivia : List Char → Prop
  | nil : Trivia []
  | blank (c : Char) (rest : List Char) : isBlank c = true → Trivia rest → Trivia (c :: rest)
  | lineCommentAtEnd (body : List Char) : NEW_LINE_CHAR ∉ body → Trivia ('/' :: '/' :: body)
  | lineComment (body rest : List Char) :
      NEW_LINE_CHAR ∉ body → Trivia rest → Trivia ('/' :: '/' :: (body ++ NEW_LINE_CHAR :: rest))
  | blockComment (body rest : List Char) :
      ¬ (['*', '/'] <:+: body) → Trivia rest → Trivia ('/' :: '*' :: (body ++ '*' :: '/' :: rest))

/-- The normal return of `r`, if there is one, satisfies `Q`. -/
def Res.Returns {α : Type} (r : Res α) (Q : α → Lexer → Prop) : Prop :=
  match r with
  | Res.ok a s => Q a s
  | Res.error _ _ => True
  | Res.timeout => True

/-- The call `r` does not exhaust its budget; its normal return satisfies `Q` and
the state at its throw satisfies `E`. -/
def Res.Total {α : Type} (r : Res α) (Q : α → Lexer → Prop) (E : Lexer → Prop) : Prop :=
  match r with
  | Res.ok a s => Q a s
  | Res.error _ s => E s
  | Res.timeout => False

/-- The cursor is not past the end of the source, and neither counter is more than
one ahead of the index. -/
def Lexer.inBounds (s : Lexer) : Prop :=
  s.m_index ≤ s.m_src.length ∧ s.m_line ≤ s.m_index + 1 ∧ s.m_offset ≤ s.m_index + 1

/-- From `s` to `s1` the source is the same, the index has not gone back and the
bounds still hold. -/
def Lexer.advancesTo (s s1 : Lexer) : Prop :=
  s1.m_src = s.m_src ∧ s.m_index ≤ s1.m_index ∧ s1.inBounds

/-- The categories the scanner may hand out: everything except the two sentinels
and the reserved CHAR. -/
def emittable (t : TokenType) : Prop :=
  t ≠ TokenType.INVALID ∧ t ≠ TokenType.EOF_TOKEN ∧ t ≠ TokenType.CHAR

instance (t : TokenType) : Decidable (emittable t) := by
  unfold emittable
  infer_instance

/-- The categories of the eight delimiter characters. -/
def DELIMITER_TYPES : List TokenType :=
  [ TokenType.PARENTHESIS_OPEN, TokenType.PARENTHESIS_CLOSE, TokenType.BRACE_OPEN,
    TokenType.BRACE_CLOSE, TokenType.BRACKET_OPEN, TokenType.BRACKET_CLOSE, TokenType.COMMA,
    TokenType.SEMICOLON ]

/-- A keyword, IDENTIFIER, NUMBER, STRING, operator or delimiter category. -/
def isLexemeCategory (t : TokenType) : Prop :=
  t ∈ KEYWORDS.map Prod.snd ∨ t = TokenType.IDENTIFIER ∨ t = TokenType.NUMBER ∨
    t = TokenType.STRING ∨ t ∈ OPERATORS.map Prod.snd ∨ t ∈ DELIMITER_TYPES

instance (t : TokenType) : Decidable (isLexemeCategory t) := by
  unfold isLexemeCategory
  infer_instance

/-- Every token collected so far has an emittable category. -/
def Lexer.tokensEmittable (s : Lexer) : Prop :=
  ∀ t ∈ s.m_tokens, emittable t.m_type

/-- Every character is a digit except at most one period. -/
def validNumberText (b : List Char) : Prop :=
  (∀ c ∈ b, isDigit c = true ∨ c = '.') ∧ b.count '.' ≤ 1

/-- Every character is a letter, a digit or an underscore. -/
def validIdentifierText (b : List Char) : Prop :=
  ∀ c ∈ b, isAlphaNumeric c = true

instance (b : List Char) : Decidable (validNumberText b) := by
  unfold validNumberText
  infer_instance

instance (b : List Char) : Decidable (validIdentifierText b) := by
  unfold validIdentifierText
  infer_instance

/-- The state in which `generateTokensU` enters its scan loop on `src`. -/
def Lexer.start (src : List Char) : Lexer :=
  { m_src := src, m_index := 0, m_line := 1, m_offset := 1, m_token_buffer := [], m_tokens := [] }

/-- State `s0` is `s` after a `consumeTokenBuffer` that returned: `s` itself when
the buffer was empty, otherwise `s` with the token of the buffer, which is not
INVALID, appended and the buffer cleared. -/
def Lexer.flushed (s s0 : Lexer) : Prop :=
  (s.m_token_buffer = [] ∧ s0 = s) ∨
  (s.m_token_buffer ≠ [] ∧ (bufferToToken s.m_token_buffer).m_type ≠ TokenType.INVALID ∧
    s0 = { s with m_tokens := s.m_tokens ++ [bufferToToken s.m_token_buffer], m_token_buffer := [] })

/-- Between `s` and `s1` only the cursor (index, line, column) may differ. -/
def Lexer.cursorMoved (s s1 : Lexer) : Prop :=
  s1.m_src = s.m_src ∧ s1.m_token_buffer = s.m_token_buffer ∧ s1.m_tokens = s.m_tokens

/-- What one iteration of the scan loop that returns normally does to the state, by
the handler that took it: a string literal, a comment or a run of blanks, one more
buffered character, a delimiter or an operator. -/
inductive ScanEffectU (s : Lexer) : Lexer → Prop
  | stringLiteral (s0 : Lexer) (st : StrState) :
      s.flushed s0 →
      charAt s0.m_src s0.m_index = QUOTE_CHAR →
      parseStringLiteralU s0.m_src s0.m_index s0.m_line s0.m_offset =
        some (Token.mk TokenType.STRING st.value, st) →
      ScanEffectU s
        { s0 with m_index := st.pos, m_line := st.line, m_offset := st.offset,
                  m_tokens := s0.m_tokens ++ [Token.mk TokenType.STRING st.value] }
  | skipped (s0 s1 : Lexer) : s.flushed s0 → s0.cursorMoved s1 → ScanEffectU s s1
  | accumulated :
      (isAlphaNumeric (charAt s.m_src s.m_index) ||
        (charAt s.m_src s.m_index == '.' && !s.m_token_buffer.isEmpty &&
          isDigit (s.m_token_buffer.getLastD STRING_TERMINATION_CHAR))) = true →
      ScanEffectU s
        { s with m_token_buffer := s.m_token_buffer ++ [charAt s.m_src s.m_index],
                 m_index := s.m_index + 1, m_offset := s.m_offset + 1 }
  | delimiter (s0 : Lexer) :
      s.flushed s0 →
      isDelimiter (charAt s0.m_src s0.m_index) = true →
      delimiterType (charAt s0.m_src s0.m_index) ≠ TokenType.INVALID →
      ScanEffectU s
        { s0 with m_tokens := s0.m_tokens ++ [Token.mk (delimiterType (charAt s0.m_src s0.m_index)) []],
                  m_index := s0.m_index + 1 }
  | operator (s0 : Lexer) (p : List Char × TokenType) :
      s.flushed s0 → p ∈ OPERATORS → operatorMatches s0 p.1 0 = true →
      ScanEffectU s
        { s0 with m_tokens := s0.m_tokens ++ [Token.mk p.2 []],
                  m_index := s0.m_index + p.1.length, m_offset := s0.m_offset + p.1.length }

/-- State `s2` is the head of the scan loop `n` iterations after its head `s`,
none of them having thrown. -/
inductive ScanStepsU : Lexer → Nat → Lexer → Prop
  | done (s : Lexer) : ScanStepsU s 0 s
  | step (s s1 s2 : Lexer) (n : Nat) :
      charAt s.m_src s.m_index ≠ STRING_TERMINATION_CHAR → s.scanStepU = Res.ok () s1 →
      ScanStepsU s1 n s2 → ScanStepsU s (n + 1) s2

/-- The position of the terminating NUL of the C string that `src` denotes. -/
def terminatorPosition (src : List Char) : Nat :=
  (remainingInput src 0).length

/-- Both counters hold the true 1-based position of the cursor. -/
def Lexer.positionExact (s : Lexer) : Prop :=
  s.m_line = trueLine s.m_src s.m_index ∧ s.m_offset = trueColumn s.m_src s.m_index

/-- Texts made only of blank characters, line comments closed by their newline and
closed block comments, the comment bodies being free of the NUL. -/
inductive TriviaPrefix : List Char → Prop
  | nil : TriviaPrefix []
  | blank (c : Char) (rest : List Char) :
      isBlank c = true → TriviaPrefix rest → TriviaPrefix (c :: rest)
  | lineComment (body rest : List Char) :
      NEW_LINE_CHAR ∉ body → STRING_TERMINATION_CHAR ∉ body → TriviaPrefix rest →
      TriviaPrefix ('/' :: '/' :: (body ++ NEW_LINE_CHAR :: rest))
  | blockComment (body rest : List Char) :
      ¬ (['*', '/'] <:+: body) → STRING_TERMINATION_CHAR ∉ body → TriviaPrefix rest →
      TriviaPrefix ('/' :: '*' :: (body ++ '*' :: '/' :: rest))

/-- A character that no handler takes when it ends the input: not the NUL, not a
quote, not alphanumeric, not blank, not a delimiter and not an operator spelling. -/
def unrecognised (c : Char) : Prop :=
  c ≠ STRING_TERMINATION_CHAR ∧ c ≠ QUOTE_CHAR ∧ isAlphaNumeric c = false ∧ isBlank c = false ∧
    isDelimiter c = false ∧ ∀ p ∈ OPERATORS, p.1 ≠ [c]

instance (c : Char) : Decidable (unrecognised c) := by
  unfold unrecognised
  infer_instance

/-- State `t` sees the same remaining text as state `s`, holds the same buffer and
holds the tokens of `s` after the tokens `pre`; its source is at least as long. -/
def Lexer.sameView (pre : List Token) (t s : Lexer) : Prop :=
  t.m_src.drop t.m_index = s.m_src.drop s.m_index ∧ t.m_token_buffer = s.m_token_buffer ∧
    t.m_tokens = pre ++ s.m_tokens ∧ s.m_src.length ≤ t.m_src.length

/-- The state `s` of a lexer that reads the source `src` instead. -/
def Lexer.withSource (s : Lexer) (src : List Char) : Lexer :=
  { s with m_src := src }

/-- Sources `A` and `B` hold the same characters below index `L`, where `A` holds a
blank and `B` a slash; `A` is not the longer one. -/
def agreeBelow (L : Nat) (A B : List Char) : Prop :=
  (∀ i, i < L → charAt A i = charAt B i) ∧ charAt A L = ' ' ∧ charAt B L = '/' ∧
    A.length ≤ B.length

/-- The end of `p` is not inside a string literal or a comment: the scan of `p`
followed by a blank has a head of its loop, at or before the end of `p`, from which
`p` holds only blanks, so that no string or comment handler takes the character that
follows `p`. -/
def endsOutsideLiteralAndCommentU (p : List Char) : Prop :=
  ∃ (n : Nat) (s : Lexer), ScanStepsU (Lexer.start (p ++ [' '])) n s ∧ s.m_index ≤ p.length ∧
    ∀ c ∈ p.drop s.m_index, isBlank c = true

/-- The last character of `p` is a slash that the scan of `p` followed by a blank
takes as the division operator: a head of its loop stands on that slash. -/
def endsWithSlashOperatorU (p : List Char) : Prop :=
  ∃ (n : Nat) (s : Lexer), ScanStepsU (Lexer.start (p ++ [' '])) n s ∧
    s.m_index + 1 = p.length ∧ charAt s.m_src s.m_index = '/'

/-- What is left of the text `r` of a line comment once the comment has been read:
`r` from its first newline or NUL on. -/
def afterLineComment (r : List Char) : List Char :=
  r.dropWhile (fun c => c != STRING_TERMINATION_CHAR && c != NEW_LINE_CHAR)
/-- The state `s` as a lexer object holds it: the line and column counters reduced
modulo 2^32. -/
def Lexer.wrapped (s : Lexer) : Lexer :=
  { s with m_line := wrap32 s.m_line, m_offset := wrap32 s.m_offset }

/-- The state of `parseStringLiteral` with its line and column counters reduced
modulo 2^32. -/
def StrState.wrapped (st : StrState) : StrState :=
  { st with line := wrap32 st.line, offset := wrap32 st.offset }

/-- The outcome `r` with the counters of its state reduced modulo 2^32; the message
of an exception is the one `Lexer::error` builds from the reduced counters. -/
def Res.wrapped {α : Type} (r : Res α) : Res α :=
  match r with
  | Res.ok a s => Res.ok a s.wrapped
  | Res.error _ s => Res.error (errorMessage s.wrapped.m_line s.wrapped.m_offset) s.wrapped
  | Res.timeout => Res.timeout

/-- The outcome `rf` of a function is the outcome `ru` of its counterpart without
wrap-around, counters reduced, and a normal return of the latter leaves the source
`src` in place and the index at most `k`. -/
def Res.Wraps {α : Type} (rf ru : Res α) (src : List Char) (k : Nat) : Prop :=
  rf = ru.wrapped ∧ ru.Returns (fun _ s1 => s1.m_src = src ∧ s1.m_index ≤ k)

/-- State `s2` is the head of the scan loop `n` iterations after its head `s`,
none of them having thrown. -/
inductive ScanSteps : Lexer → Nat → Lexer → Prop
  | done (s : Lexer) : ScanSteps s 0 s
  | step (s s1 s2 : Lexer) (n : Nat) :
      charAt s.m_src s.m_index ≠ STRING_TERMINATION_CHAR → s.scanStep = Res.ok () s1 →
      ScanSteps s1 n s2 → ScanSteps s (n + 1) s2

/-- The state reads the source `src` and its index is a value of `uint32_t`. -/
def Lexer.indexFits (src : List Char) (s : Lexer) : Prop :=
  s.m_src = src ∧ s.m_index < 4294967296

/-- The end of `p` is not inside a string literal or a comment: the scan of `p`
followed by a blank has a head of its loop, at or before the end of `p`, from which
`p` holds only blanks, so that no string or comment handler takes the character that
follows `p`. -/
def endsOutsideLiteralAndComment (p : List Char) : Prop :=
  ∃ (n : Nat) (s : Lexer), ScanSteps (Lexer.start (p ++ [' '])) n s ∧ s.m_index ≤ p.length ∧
    ∀ c ∈ p.drop s.m_index, isBlank c = true

/-- The last character of `p` is a slash that the scan of `p` followed by a blank
takes as the division operator: a head of its loop stands on that slash. -/
def endsWithSlashOperator (p : List Char) : Prop :=
  ∃ (n : Nat) (s : Lexer), ScanSteps (Lexer.start (p ++ [' '])) n s ∧
    s.m_index + 1 = p.length ∧ charAt s.m_src s.m_index = '/'
/-! ## The lexical classes in the words of the specification

The definitions of this section are not translated from the source: they write down
what the specification says of the reserved words, of letters and of digits, so that
`bufferToToken` can be compared with it. -/

/-- The twelve reserved words with their category tags: `if, else, for, while, do,
return, int, float, bool, void, true, false`, case-sensitive and spelt exactly. -/
def RESERVED_WORDS : List (List Char × TokenType) :=
  [ ("if".toList, TokenType.IF), ("else".toList, TokenType.ELSE), ("for".toList, TokenType.FOR),
    ("while".toList, TokenType.WHILE), ("do".toList, TokenType.DO),
    ("return".toList, TokenType.RETURN), ("int".toList, TokenType.INT),
    ("float".toList, TokenType.FLOAT), ("bool".toList, TokenType.BOOL),
    ("void".toList, TokenType.VOID), ("true".toList, TokenType.TRUE),
    ("false".toList, TokenType.FALSE) ]

/-- An ASCII digit. -/
def isDecimalDigit (c : Char) : Prop :=
  c ∈ "0123456789".toList

/-- An ASCII letter or the underscore. -/
def isLetterOrUnderscore (c : Char) : Prop :=
  c ∈ "abcdefghijklmnopqrstuvwxyz".toList ∨ c ∈ "ABCDEFGHIJKLMNOPQRSTUVWXYZ".toList ∨ c = '_'

/-- Every character is a digit except at most one period. -/
def digitsWithOnePeriodAtMost (b : List Char) : Prop :=
  (∀ c ∈ b, isDecimalDigit c ∨ c = '.') ∧ b.count '.' ≤ 1

/-- Every character is alphanumeric or an underscore. -/
def lettersDigitsUnderscores (b : List Char) : Prop :=
  ∀ c ∈ b, isLetterOrUnderscore c ∨ isDecimalDigit c

instance (c : Char) : Decidable (isDecimalDigit c) := by
  unfold isDecimalDigit
  infer_instance

instance (c : Char) : Decidable (isLetterOrUnderscore c) := by
  unfold isLetterOrUnderscore
  infer_instance

instance (b : List Char) : Decidable (digitsWithOnePeriodAtMost b) := by
  unfold digitsWithOnePeriodAtMost
  infer_instance

instance (b : List Char) : Decidable (lettersDigitsUnderscores b) := by
  unfold lettersDigitsUnderscores
  infer_instance
/-! ## Reading the source -/

theorem charAt_nil (i : Nat) : charAt [] i = STRING_TERMINATION_CHAR := by
  simp [charAt]

theorem charAt_cons_zero (a : Char) (l : List Char) : charAt (a :: l) 0 = a := by
  simp [charAt]

theorem charAt_cons_succ (a : Char) (l : List Char) (i : Nat) :
    charAt (a :: l) (i + 1) = charAt l i := by
  simp [charAt]

/-- Reading at `i + k` is reading at `k` in the suffix that starts at `i`. -/
theorem charAt_add (src : List Char) (i k : Nat) :
    charAt src (i + k) = charAt (src.drop i) k := by
  induction src generalizing i with
  | nil => simp [charAt_nil]
  | cons a l ih =>
    cases i with
    | zero => simp
    | succ j =>
      have h : j + 1 + k = (j + k) + 1 := by omega
      rw [h, charAt_cons_succ, ih]
      simp

theorem charAt_eq_drop (src : List Char) (i : Nat) : charAt src i = charAt (src.drop i) 0 := by
  have h := charAt_add src i 0
  simpa using h

/-- A byte that is not the NUL lies inside the list. -/
theorem lt_length_of_charAt_ne (src : List Char) (i : Nat)
    (h : charAt src i ≠ STRING_TERMINATION_CHAR) : i < src.length := by
  by_contra hlt
  apply h
  unfold charAt
  rw [List.getD_eq_default]
  omega

theorem drop_succ_of_drop_eq_cons {src : List Char} {i : Nat} {c : Char} {rest : List Char}
    (h : src.drop i = c :: rest) : src.drop (i + 1) = rest := by
  have h1 : src.drop (i + 1) = (src.drop i).drop 1 := by
    rw [List.drop_drop, Nat.add_comm]
  rw [h1, h]
  rfl

theorem drop_add_of_drop_eq_append {src : List Char} {i : Nat} (a b : List Char)
    (h : src.drop i = a ++ b) : src.drop (i + a.length) = b := by
  have h1 : src.drop (i + a.length) = (src.drop i).drop a.length := by
    rw [List.drop_drop, Nat.add_comm]
  rw [h1, h]
  simp

theorem remainingInput_step (src : List Char) (i : Nat) :
    remainingInput src i =
      if charAt src i = STRING_TERMINATION_CHAR then []
      else charAt src i :: remainingInput src (i + 1) := by
  induction src generalizing i with
  | nil => simp [remainingInput, charAt_nil]
  | cons a l ih =>
    cases i with
    | zero =>
      by_cases h : a = STRING_TERMINATION_CHAR
      · simp [remainingInput, charAt_cons_zero, h]
      · simp [remainingInput, charAt_cons_zero, h]
    | succ j =>
      have h := ih j
      simp only [remainingInput, List.drop_succ_cons, charAt_cons_succ] at h ⊢
      exact h

/-! ## Operators -/

/-- The inner loop of `handleOperatorsU` accepts a NUL-free spelling exactly when the
spelling is a prefix of the remaining input. -/
theorem operatorMatches_iff (s : Lexer) (op : List Char) (i : Nat)
    (hop : STRING_TERMINATION_CHAR ∉ op) :
    operatorMatches s op i = true ↔ ∃ t, remainingInput s.m_src (s.m_index + i) = op ++ t := by
  induction op generalizing i with
  | nil => simp [operatorMatches]
  | cons c cs ih =>
    have hc : c ≠ STRING_TERMINATION_CHAR := fun h => hop (by simp [h])
    have hcs : STRING_TERMINATION_CHAR ∉ cs := fun h => hop (by simp [h])
    rw [remainingInput_step]
    unfold operatorMatches
    by_cases h0 : charAt s.m_src (s.m_index + i) = STRING_TERMINATION_CHAR
    · simp [h0]
    · by_cases h1 : charAt s.m_src (s.m_index + i) = c
      · have hi := ih (i + 1) hcs
        have hadd : s.m_index + (i + 1) = s.m_index + i + 1 := by omega
        rw [hadd] at hi
        simp only [h1, beq_iff_eq, hc, bne_self_eq_false, Bool.or_self, Bool.false_eq_true,
          if_false, List.cons_append, List.cons.injEq, true_and]
        rw [h1] at h0
        simpa [h0] using hi
      · simp [h0, h1]

/-- The outer loop of `handleOperatorsU` emits the first entry of the table whose
spelling matches, if any. -/
theorem operatorsLoopU_eq (s : Lexer) (tbl : List (List Char × TokenType)) :
    operatorsLoopU s tbl =
      match tbl.find? (fun p => operatorMatches s p.1 0) with
      | some p =>
        Res.ok true
          { s with m_tokens := s.m_tokens ++ [Token.mk p.2 []],
                   m_index := s.m_index + p.1.length, m_offset := s.m_offset + p.1.length }
      | none => Res.ok false s := by
  induction tbl with
  | nil => rfl
  | cons a l ih =>
    obtain ⟨op, ty⟩ := a
    unfold operatorsLoopU
    by_cases h : operatorMatches s op 0 = true
    · simp [h]
    · simp [h, ih]

/-- In a table sorted by non-increasing spelling length the first entry that
satisfies a test is at least as long as every entry that satisfies it. -/
theorem find_first_is_longest (P : List Char × TokenType → Bool) :
    ∀ tbl : List (List Char × TokenType),
      tbl.Pairwise (fun p q => q.1.length ≤ p.1.length) →
      ∀ x, tbl.find? P = some x → ∀ y ∈ tbl, P y = true → y.1.length ≤ x.1.length := by
  intro tbl
  induction tbl with
  | nil => intro _ x hx; simp at hx
  | cons a l ih =>
    intro hs x hx y hy hPy
    rw [List.pairwise_cons] at hs
    by_cases hPa : P a = true
    · rw [List.find?_cons_of_pos _ hPa] at hx
      have hxa : a = x := by simpa using hx
      subst hxa
      rcases List.mem_cons.mp hy with h | h
      · rw [h]
      · exact hs.1 y h
    · rw [List.find?_cons_of_neg _ hPa] at hx
      rcases List.mem_cons.mp hy with h | h
      · subst h
        exact absurd hPy hPa
      · exact ih hs.2 x hx y h hPy

theorem OPERATORS_sorted : OPERATORS.Pairwise (fun p q => q.1.length ≤ p.1.length) := by
  decide

theorem OPERATORS_nul_free : ∀ p ∈ OPERATORS, STRING_TERMINATION_CHAR ∉ p.1 := by
  decide

theorem OPERATORS_functional :
    ∀ p ∈ OPERATORS, ∀ q ∈ OPERATORS, p.1 = q.1 → p.2 = q.2 := by
  decide

theorem charAt_of_drop_eq_cons {src : List Char} {i : Nat} {c : Char} {rest : List Char}
    (h : src.drop i = c :: rest) : charAt src i = c := by
  rw [charAt_eq_drop, h, charAt_cons_zero]

theorem charAt_succ_of_drop_eq_cons {src : List Char} {i : Nat} {c : Char} {rest : List Char}
    (h : src.drop i = c :: rest) : charAt src (i + 1) = charAt rest 0 := by
  rw [charAt_add, h, charAt_cons_succ]

theorem charAt_of_drop_eq_nil {src : List Char} {i : Nat} (h : src.drop i = []) :
    charAt src i = STRING_TERMINATION_CHAR := by
  rw [charAt_eq_drop, h, charAt_nil]

/-! ## String literals -/

/-- On a body of units followed by a quote the loop of `parseStringLiteralU` copies
the body and stops on the quote. -/
theorem parseStringLoopU_body (src : List Char) (body : List Char) (hb : StringBody body) :
    ∀ (fuel : Nat) (st : StrState) (tail : List Char),
      src.drop st.pos = body ++ QUOTE_CHAR :: tail → body.length < fuel →
      ∃ st1, parseStringLoopU src fuel st = some st1 ∧ st1.value = st.value ++ body ∧
        st1.pos = st.pos + body.length := by
  induction hb with
  | nil =>
    intro fuel st tail hd hf
    obtain ⟨f, rfl⟩ : ∃ f, fuel = f + 1 := ⟨fuel - 1, by omega⟩
    have h0 : charAt src st.pos = QUOTE_CHAR := charAt_of_drop_eq_cons hd
    refine ⟨st, ?_, by simp, by simp⟩
    rw [parseStringLoopU]
    simp [h0]
  | plain c rest hq hbs hn _ ih =>
    intro fuel st tail hd hf
    obtain ⟨f, rfl⟩ : ∃ f, fuel = f + 1 := ⟨fuel - 1, by omega⟩
    have h0 : charAt src st.pos = c := charAt_of_drop_eq_cons hd
    have hd1 : src.drop (st.pos + 1) = rest ++ QUOTE_CHAR :: tail := drop_succ_of_drop_eq_cons hd
    have hf1 : rest.length < f := by
      simp only [List.length_cons] at hf
      omega
    rw [parseStringLoopU]
    by_cases hnl : c = '\n'
    · obtain ⟨st1, h1, h2, h3⟩ :=
        ih f { value := st.value ++ [c], pos := st.pos + 1, line := st.line + 1, offset := 1 + 1 }
          tail hd1 hf1
      refine ⟨st1, ?_, ?_, ?_⟩
      · simp only [h0, bne_iff_ne, ne_eq, hn, not_false_eq_true, hq, Bool.and_self, if_true,
          beq_iff_eq, hbs, Bool.false_and, Bool.false_eq_true, if_false, hnl]
        rw [← h1, hnl]
        rfl
      · rw [h2]
        simp
      · rw [h3]
        simp only [List.length_cons]
        omega
    · obtain ⟨st1, h1, h2, h3⟩ :=
        ih f { value := st.value ++ [c], pos := st.pos + 1, line := st.line, offset := st.offset + 1 }
          tail hd1 hf1
      refine ⟨st1, ?_, ?_, ?_⟩
      · have hnl1 : c ≠ NEW_LINE_CHAR := hnl
        simpa [h0, hn, hq, hbs, hnl, hnl1] using h1
      · rw [h2]
        simp
      · rw [h3]
        simp only [List.length_cons]
        omega
  | escape c rest hn _ ih =>
    intro fuel st tail hd hf
    obtain ⟨f, rfl⟩ : ∃ f, fuel = f + 1 := ⟨fuel - 1, by omega⟩
    have h0 : charAt src st.pos = BACKSLASH_CHAR := charAt_of_drop_eq_cons hd
    have h1 : charAt src (st.pos + 1) = c := by
      rw [charAt_succ_of_drop_eq_cons hd]
      rfl
    have hd2 : src.drop (st.pos + 1 + 1) = rest ++ QUOTE_CHAR :: tail :=
      drop_succ_of_drop_eq_cons (drop_succ_of_drop_eq_cons hd)
    have hf1 : rest.length < f := by
      simp only [List.length_cons] at hf
      omega
    obtain ⟨st1, e1, e2, e3⟩ :=
      ih f { value := st.value ++ [BACKSLASH_CHAR] ++ [c], pos := st.pos + 1 + 1, line := st.line,
             offset := st.offset + 1 + 1 } tail hd2 hf1
    refine ⟨st1, ?_, ?_, ?_⟩
    · rw [parseStringLoopU]
      have hbn : BACKSLASH_CHAR ≠ STRING_TERMINATION_CHAR := by decide
      have hbq : BACKSLASH_CHAR ≠ QUOTE_CHAR := by decide
      simp only [h0, h1, bne_iff_ne, ne_eq, hbn, not_false_eq_true, hbq, Bool.and_self, if_true,
        beq_self_eq_true, hn, Bool.true_and, decide_True]
      exact e1
    · rw [e2]
      simp
    · rw [e3]
      simp only [List.length_cons]
      omega

theorem consumeTokenBuffer_of_empty (s : Lexer) (h : s.m_token_buffer = []) :
    s.consumeTokenBuffer = Res.ok () s := by
  simp [Lexer.consumeTokenBuffer, h]

theorem length_le_of_drop_eq_append {src : List Char} {i : Nat} {a b : List Char}
    (h : src.drop i = a ++ b) : a.length + b.length ≤ src.length - i := by
  have h1 : (src.drop i).length = a.length + b.length := by rw [h, List.length_append]
  have h2 : (src.drop i).length = src.length - i := List.length_drop i src
  omega

/-- On a closed string literal `handleStringLiteralsU` appends one STRING token whose
text is the literal with both quotes, and moves the index past the closing quote. -/
theorem handleStringLiteralsU_closed (s : Lexer) (body tail : List Char) (hb : StringBody body)
    (hd : s.m_src.drop s.m_index = QUOTE_CHAR :: (body ++ QUOTE_CHAR :: tail))
    (hbuf : s.m_token_buffer = []) :
    ∃ s1, s.handleStringLiteralsU = Res.ok true s1 ∧ s1.m_src = s.m_src ∧
      s1.m_index = s.m_index + body.length + 2 ∧
      s1.m_tokens = s.m_tokens ++ [Token.mk TokenType.STRING (QUOTE_CHAR :: (body ++ [QUOTE_CHAR]))] ∧
      s1.m_token_buffer = [] := by
  have h0 : charAt s.m_src s.m_index = QUOTE_CHAR := charAt_of_drop_eq_cons hd
  have hd1 : s.m_src.drop (s.m_index + 1) = body ++ QUOTE_CHAR :: tail :=
    drop_succ_of_drop_eq_cons hd
  have hlen : body.length < s.m_src.length + 1 := by
    have := length_le_of_drop_eq_append hd1
    omega
  obtain ⟨st1, e1, e2, e3⟩ :=
    parseStringLoopU_body s.m_src body hb (s.m_src.length + 1)
      { value := [QUOTE_CHAR], pos := s.m_index + 1, line := s.m_line, offset := s.m_offset + 1 }
      tail hd1 hlen
  simp only at e2 e3
  have hd2 : s.m_src.drop st1.pos = QUOTE_CHAR :: tail := by
    rw [e3]
    exact drop_add_of_drop_eq_append body _ hd1
  have h1 : charAt s.m_src st1.pos = QUOTE_CHAR := charAt_of_drop_eq_cons hd2
  have hp : parseStringLiteralU s.m_src s.m_index s.m_line s.m_offset =
      some (Token.mk TokenType.STRING (st1.value ++ [QUOTE_CHAR]),
        { st1 with value := st1.value ++ [QUOTE_CHAR], pos := st1.pos + 1, offset := st1.offset + 1 }) := by
    unfold parseStringLiteralU
    rw [e1]
    simp [h1]
  refine ⟨{ s with m_index := st1.pos + 1, m_line := st1.line, m_offset := st1.offset + 1,
                   m_tokens := s.m_tokens ++ [Token.mk TokenType.STRING (st1.value ++ [QUOTE_CHAR])] },
    ?_, rfl, ?_, ?_, hbuf⟩
  · unfold Lexer.handleStringLiteralsU
    simp only [h0, beq_self_eq_true, if_true]
    rw [consumeTokenBuffer_of_empty s hbuf]
    simp only [Res.bind]
    rw [hp]
    simp
  · simp only
    omega
  · simp only [e2]
    simp

/-- On an unterminated string tail the loop of `parseStringLiteralU` stops on the
terminating NUL. -/
theorem parseStringLoopU_open (src : List Char) (body : List Char) (hb : OpenStringBody body) :
    ∀ (fuel : Nat) (st : StrState), src.drop st.pos = body → body.length < fuel →
      ∃ st1, parseStringLoopU src fuel st = some st1 ∧
        charAt src st1.pos = STRING_TERMINATION_CHAR := by
  have hbn : BACKSLASH_CHAR ≠ STRING_TERMINATION_CHAR := by decide
  have hbq : BACKSLASH_CHAR ≠ QUOTE_CHAR := by decide
  have hbl : BACKSLASH_CHAR ≠ '\n' := by decide
  -- a cursor already on the NUL ends the loop at once
  have stop : ∀ (f : Nat) (st : StrState), charAt src st.pos = STRING_TERMINATION_CHAR →
      ∃ st1, parseStringLoopU src (f + 1) st = some st1 ∧
        charAt src st1.pos = STRING_TERMINATION_CHAR := by
    intro f st h
    refine ⟨st, ?_, h⟩
    rw [parseStringLoopU]
    simp [h]
  -- a lone backslash before the NUL is copied by the last branch
  have lone : ∀ (f : Nat) (st : StrState), charAt src st.pos = BACKSLASH_CHAR →
      charAt src (st.pos + 1) = STRING_TERMINATION_CHAR →
      ∃ st1, parseStringLoopU src (f + 1 + 1) st = some st1 ∧
        charAt src st1.pos = STRING_TERMINATION_CHAR := by
    intro f st h0 h1
    obtain ⟨st1, e1, e2⟩ :=
      stop f { value := st.value ++ [BACKSLASH_CHAR], pos := st.pos + 1, line := st.line,
               offset := st.offset + 1 } h1
    refine ⟨st1, ?_, e2⟩
    rw [parseStringLoopU]
    have hbl1 : BACKSLASH_CHAR ≠ NEW_LINE_CHAR := hbl
    simpa [h0, h1, hbn, hbq, hbl, hbl1] using e1
  induction hb with
  | nil =>
    intro fuel st hd hf
    obtain ⟨f, rfl⟩ : ∃ f, fuel = f + 1 := ⟨fuel - 1, by omega⟩
    exact stop f st (charAt_of_drop_eq_nil hd)
  | trailing =>
    intro fuel st hd hf
    simp only [List.length_singleton] at hf
    obtain ⟨f, rfl⟩ : ∃ f, fuel = f + 1 + 1 := ⟨fuel - 2, by omega⟩
    refine lone f st (charAt_of_drop_eq_cons hd) ?_
    rw [charAt_succ_of_drop_eq_cons hd, charAt_nil]
  | plain c rest hq hbs _ ih =>
    intro fuel st hd hf
    simp only [List.length_cons] at hf
    obtain ⟨f, rfl⟩ : ∃ f, fuel = f + 1 := ⟨fuel - 1, by omega⟩
    have h0 : charAt src st.pos = c := charAt_of_drop_eq_cons hd
    have hd1 : src.drop (st.pos + 1) = rest := drop_succ_of_drop_eq_cons hd
    by_cases hn : c = STRING_TERMINATION_CHAR
    · exact stop f st (by rw [h0, hn])
    · by_cases hnl : c = '\n'
      · obtain ⟨st1, e1, e2⟩ :=
          ih f { value := st.value ++ [c], pos := st.pos + 1, line := st.line + 1, offset := 1 + 1 }
            hd1 (by omega)
        refine ⟨st1, ?_, e2⟩
        rw [parseStringLoopU]
        simp only [h0, bne_iff_ne, ne_eq, hn, not_false_eq_true, hq, Bool.and_self, if_true,
          beq_iff_eq, hbs, Bool.false_and, Bool.false_eq_true, if_false, hnl]
        rw [← e1, hnl]
        rfl
      · obtain ⟨st1, e1, e2⟩ :=
          ih f { value := st.value ++ [c], pos := st.pos + 1, line := st.line, offset := st.offset + 1 }
            hd1 (by omega)
        refine ⟨st1, ?_, e2⟩
        rw [parseStringLoopU]
        have hnl1 : c ≠ NEW_LINE_CHAR := hnl
        simpa [h0, hn, hq, hbs, hnl, hnl1] using e1
  | escape c rest _ ih =>
    intro fuel st hd hf
    simp only [List.length_cons] at hf
    obtain ⟨f, rfl⟩ : ∃ f, fuel = f + 1 + 1 := ⟨fuel - 2, by omega⟩
    have h0 : charAt src st.pos = BACKSLASH_CHAR := charAt_of_drop_eq_cons hd
    have h1 : charAt src (st.pos + 1) = c := by
      rw [charAt_succ_of_drop_eq_cons hd]
      rfl
    have hd2 : src.drop (st.pos + 1 + 1) = rest :=
      drop_succ_of_drop_eq_cons (drop_succ_of_drop_eq_cons hd)
    by_cases hn : c = STRING_TERMINATION_CHAR
    · exact lone f st h0 (by rw [h1, hn])
    · obtain ⟨st1, e1, e2⟩ :=
        ih (f + 1) { value := st.value ++ [BACKSLASH_CHAR] ++ [c], pos := st.pos + 1 + 1,
                     line := st.line, offset := st.offset + 1 + 1 } hd2 (by omega)
      refine ⟨st1, ?_, e2⟩
      rw [parseStringLoopU]
      simp only [h0, h1, bne_iff_ne, ne_eq, hbn, not_false_eq_true, hbq, Bool.and_self, if_true,
        beq_self_eq_true, hn, Bool.true_and, decide_True]
      exact e1

/-- On an unterminated string literal `handleStringLiteralsU` raises the error, with
the cursor on the terminating NUL. -/
theorem handleStringLiteralsU_open (s : Lexer) (body : List Char) (hb : OpenStringBody body)
    (hd : s.m_src.drop s.m_index = QUOTE_CHAR :: body) (hbuf : s.m_token_buffer = []) :
    ∃ s1, s.handleStringLiteralsU = Res.error (errorMessage s1.m_line s1.m_offset) s1 ∧
      charAt s1.m_src s1.m_index = STRING_TERMINATION_CHAR := by
  have h0 : charAt s.m_src s.m_index = QUOTE_CHAR := charAt_of_drop_eq_cons hd
  have hd1 : s.m_src.drop (s.m_index + 1) = body := drop_succ_of_drop_eq_cons hd
  have hlen : body.length < s.m_src.length + 1 := by
    have h1 : (s.m_src.drop (s.m_index + 1)).length = body.length := by rw [hd1]
    have h2 := List.length_drop (s.m_index + 1) s.m_src
    omega
  obtain ⟨st1, e1, e2⟩ :=
    parseStringLoopU_open s.m_src body hb (s.m_src.length + 1)
      { value := [QUOTE_CHAR], pos := s.m_index + 1, line := s.m_line, offset := s.m_offset + 1 }
      hd1 hlen
  have hp : parseStringLiteralU s.m_src s.m_index s.m_line s.m_offset =
      some (Token.mk TokenType.INVALID st1.value, st1) := by
    unfold parseStringLiteralU
    rw [e1]
    have hne : STRING_TERMINATION_CHAR ≠ QUOTE_CHAR := by decide
    simp [e2, hne]
  refine ⟨{ s with m_index := st1.pos, m_line := st1.line, m_offset := st1.offset }, ?_, e2⟩
  unfold Lexer.handleStringLiteralsU
  simp only [h0, beq_self_eq_true, if_true]
  rw [consumeTokenBuffer_of_empty s hbuf]
  simp only [Res.bind]
  rw [hp]
  simp [Lexer.error]

/-! ## Whitespace and comments -/

theorem isBlank_facts {c : Char} (h : isBlank c = true) :
    c ≠ STRING_TERMINATION_CHAR ∧ c ≠ QUOTE_CHAR ∧ c ≠ '/' ∧ isAlphaNumeric c = false ∧ c ≠ '.' := by
  have h1 : ((c = ' ' ∨ c = '\n') ∨ c = '\t') ∨ c = '\r' := by
    simpa [isBlank] using h
  rcases h1 with ((rfl | rfl) | rfl) | rfl <;> decide

theorem handleStringLiteralsU_of_ne (s : Lexer) (h : charAt s.m_src s.m_index ≠ QUOTE_CHAR) :
    s.handleStringLiteralsU = Res.ok false s := by
  simp [Lexer.handleStringLiteralsU, h]

theorem handleCommentsU_of_ne (s : Lexer) (h : charAt s.m_src s.m_index ≠ '/') :
    s.handleCommentsU = Res.ok false s := by
  simp [Lexer.handleCommentsU, h]

theorem handleAlphaNumericCharsU_of_not (s : Lexer)
    (h : isAlphaNumeric (charAt s.m_src s.m_index) = false) (hdot : charAt s.m_src s.m_index ≠ '.') :
    s.handleAlphaNumericCharsU = Res.ok false s := by
  simp [Lexer.handleAlphaNumericCharsU, h, hdot]

/-- The loop of `handleLineCommentsU` runs over a newline-free body and stops on the
terminator or at the text that follows the body, touching neither the tokens nor
the buffer. -/
theorem lineCommentLoopU_body (body : List Char) (hb : NEW_LINE_CHAR ∉ body) :
    ∀ (fuel : Nat) (s : Lexer) (tail : List Char),
      s.m_src.drop s.m_index = body ++ tail →
      (tail = [] ∨ ∃ r, tail = NEW_LINE_CHAR :: r) → body.length < fuel →
      ∃ s1, lineCommentLoopU fuel s = Res.ok () s1 ∧ s1.m_src = s.m_src ∧
        s1.m_tokens = s.m_tokens ∧ s1.m_token_buffer = s.m_token_buffer ∧
        (charAt s1.m_src s1.m_index = STRING_TERMINATION_CHAR ∨ s1.m_src.drop s1.m_index = tail) := by
  induction body with
  | nil =>
    intro fuel s tail hd ht hf
    obtain ⟨f, rfl⟩ : ∃ f, fuel = f + 1 := ⟨fuel - 1, by omega⟩
    refine ⟨s, ?_, rfl, rfl, rfl, Or.inr (by simpa using hd)⟩
    rw [lineCommentLoopU]
    rcases ht with rfl | ⟨r, rfl⟩
    · have h0 : charAt s.m_src s.m_index = STRING_TERMINATION_CHAR :=
        charAt_of_drop_eq_nil (by simpa using hd)
      simp [h0]
    · have h0 : charAt s.m_src s.m_index = NEW_LINE_CHAR :=
        charAt_of_drop_eq_cons (by simpa using hd)
      simp [h0]
  | cons c cs ih =>
    intro fuel s tail hd ht hf
    simp only [List.length_cons] at hf
    obtain ⟨f, rfl⟩ : ∃ f, fuel = f + 1 := ⟨fuel - 1, by omega⟩
    have hc : c ≠ NEW_LINE_CHAR := fun h => hb (by simp [h])
    have hcs : NEW_LINE_CHAR ∉ cs := fun h => hb (by simp [h])
    have hd0 : s.m_src.drop s.m_index = c :: (cs ++ tail) := by simpa using hd
    have h0 : charAt s.m_src s.m_index = c := charAt_of_drop_eq_cons hd0
    rw [lineCommentLoopU]
    by_cases hn : c = STRING_TERMINATION_CHAR
    · refine ⟨s, ?_, rfl, rfl, rfl, Or.inl (by rw [h0, hn])⟩
      simp [h0, hn]
    · obtain ⟨s1, e1, e2, e3, e4, e5⟩ :=
        ih hcs f { s with m_index := s.m_index + 1, m_offset := s.m_offset + 1 } tail
          (drop_succ_of_drop_eq_cons hd0) ht (by omega)
      refine ⟨s1, ?_, e2, e3, e4, e5⟩
      simpa [h0, hn, hc] using e1

/-- The loop of `handleMultilineCommentsU` runs over a body without star-slash and
stops on the terminator or just past the closing star-slash, touching neither the
tokens nor the buffer. -/
theorem multilineCommentLoopU_body (body : List Char) :
    ¬ (['*', '/'] <:+: body) →
    ∀ (fuel : Nat) (s : Lexer) (tail : List Char),
      s.m_src.drop s.m_index = body ++ '*' :: '/' :: tail → body.length < fuel →
      ∃ s1, multilineCommentLoopU fuel s = Res.ok () s1 ∧ s1.m_src = s.m_src ∧
        s1.m_tokens = s.m_tokens ∧ s1.m_token_buffer = s.m_token_buffer ∧
        (charAt s1.m_src s1.m_index = STRING_TERMINATION_CHAR ∨ s1.m_src.drop s1.m_index = tail) := by
  induction body with
  | nil =>
    intro _ fuel s tail hd hf
    obtain ⟨f, rfl⟩ : ∃ f, fuel = f + 1 := ⟨fuel - 1, by omega⟩
    have hd0 : s.m_src.drop s.m_index = '*' :: '/' :: tail := by simpa using hd
    have h0 : charAt s.m_src s.m_index = '*' := charAt_of_drop_eq_cons hd0
    have h1 : charAt s.m_src (s.m_index + 1) = '/' := by
      rw [charAt_succ_of_drop_eq_cons hd0]
      rfl
    refine ⟨{ s with m_index := s.m_index + 2, m_offset := s.m_offset + 2 }, ?_, rfl, rfl, rfl,
      Or.inr ?_⟩
    · rw [multilineCommentLoopU]
      have hne : ('*' : Char) ≠ STRING_TERMINATION_CHAR := by decide
      simp [h0, h1, hne]
    · exact drop_succ_of_drop_eq_cons (drop_succ_of_drop_eq_cons hd0)
  | cons c cs ih =>
    intro hb fuel s tail hd hf
    simp only [List.length_cons] at hf
    obtain ⟨f, rfl⟩ : ∃ f, fuel = f + 1 := ⟨fuel - 1, by omega⟩
    have hcs : ¬ (['*', '/'] <:+: cs) := fun h => hb (List.infix_cons h)
    have hd0 : s.m_src.drop s.m_index = c :: (cs ++ '*' :: '/' :: tail) := by simpa using hd
    have h0 : charAt s.m_src s.m_index = c := charAt_of_drop_eq_cons hd0
    have h1 : charAt s.m_src (s.m_index + 1) = charAt (cs ++ '*' :: '/' :: tail) 0 :=
      charAt_succ_of_drop_eq_cons hd0
    have hclose : ¬ (c = '*' ∧ charAt s.m_src (s.m_index + 1) = '/') := by
      rintro ⟨hc, hc1⟩
      rw [h1] at hc1
      cases cs with
      | nil =>
        rw [List.nil_append, charAt_cons_zero] at hc1
        exact absurd hc1 (by decide)
      | cons d ds =>
        rw [List.cons_append, charAt_cons_zero] at hc1
        apply hb
        rw [hc, hc1]
        exact ⟨[], ds, rfl⟩
    rw [multilineCommentLoopU]
    by_cases hn : c = STRING_TERMINATION_CHAR
    · refine ⟨s, ?_, rfl, rfl, rfl, Or.inl (by rw [h0, hn])⟩
      simp [h0, hn]
    · by_cases hnl : c = NEW_LINE_CHAR
      · obtain ⟨s1, e1, e2, e3, e4, e5⟩ :=
          ih hcs f { s with m_index := s.m_index + 1, m_line := s.m_line + 1, m_offset := 1 } tail
            (drop_succ_of_drop_eq_cons hd0) (by omega)
        refine ⟨s1, ?_, e2, e3, e4, e5⟩
        have hstar : ¬ (c = '*') := by rw [hnl]; decide
        simp only [bne_iff_ne, ne_eq, h0, hn, not_false_eq_true, if_true, Nat.add_zero, beq_iff_eq,
          hstar, Bool.false_and, Bool.false_eq_true, if_false, hnl]
        rw [← hnl]
        simpa [hnl] using e1
      · obtain ⟨s1, e1, e2, e3, e4, e5⟩ :=
          ih hcs f { s with m_index := s.m_index + 1, m_offset := s.m_offset + 1 } tail
            (drop_succ_of_drop_eq_cons hd0) (by omega)
        refine ⟨s1, ?_, e2, e3, e4, e5⟩
        by_cases hstar : c = '*'
        · have hsl : ¬ (charAt s.m_src (s.m_index + 1) = '/') := fun h => hclose ⟨hstar, h⟩
          simpa [h0, hn, hnl, hsl] using e1
        · simpa [h0, hn, hnl, hstar] using e1

/-- On a trivia text the loop of `handleWhiteSpacesU` consumes the leading blanks,
leaving a shorter trivia text when there was a blank to consume, and reports
whether it consumed one. -/
theorem whiteSpacesLoopU_trivia (rest : List Char) (ht : Trivia rest) :
    ∀ (fuel : Nat) (s : Lexer) (cw : Bool),
      s.m_src.drop s.m_index = rest → s.m_token_buffer = [] → rest.length < fuel →
      ∃ b s1 rest1, whiteSpacesLoopU fuel s cw = Res.ok b s1 ∧ s1.m_src = s.m_src ∧
        s1.m_tokens = s.m_tokens ∧ s1.m_token_buffer = [] ∧
        s1.m_src.drop s1.m_index = rest1 ∧ Trivia rest1 ∧ rest1.length ≤ rest.length ∧
        ((cw = true ∨ isBlank (charAt s.m_src s.m_index) = true) → b = true) ∧
        (isBlank (charAt s.m_src s.m_index) = true → rest1.length < rest.length) := by
  -- a first character that is not blank ends the loop at once
  have stop : ∀ (f : Nat) (s : Lexer) (cw : Bool) (r : List Char), Trivia r →
      s.m_src.drop s.m_index = r → s.m_token_buffer = [] →
      isBlank (charAt s.m_src s.m_index) = false →
      ∃ b s1 rest1, whiteSpacesLoopU (f + 1) s cw = Res.ok b s1 ∧ s1.m_src = s.m_src ∧
        s1.m_tokens = s.m_tokens ∧ s1.m_token_buffer = [] ∧
        s1.m_src.drop s1.m_index = rest1 ∧ Trivia rest1 ∧ rest1.length ≤ r.length ∧
        ((cw = true ∨ isBlank (charAt s.m_src s.m_index) = true) → b = true) ∧
        (isBlank (charAt s.m_src s.m_index) = true → rest1.length < r.length) := by
    intro f s cw r hr hd hbuf hnb
    refine ⟨cw, s, r, ?_, rfl, rfl, hbuf, hd, hr, le_refl _, ?_, ?_⟩
    · rw [whiteSpacesLoopU]
      simp [hnb]
    · rintro (h | h)
      · exact h
      · rw [hnb] at h
        exact absurd h (by decide)
    · intro h
      rw [hnb] at h
      exact absurd h (by decide)
  have slash : isBlank '/' = false := by decide
  induction ht with
  | nil =>
    intro fuel s cw hd hbuf hf
    obtain ⟨f, rfl⟩ : ∃ f, fuel = f + 1 := ⟨fuel - 1, by omega⟩
    refine stop f s cw [] Trivia.nil hd hbuf ?_
    rw [charAt_of_drop_eq_nil hd]
    decide
  | blank c r hc hr ih =>
    intro fuel s cw hd hbuf hf
    simp only [List.length_cons] at hf
    obtain ⟨f, rfl⟩ : ∃ f, fuel = f + 1 := ⟨fuel - 1, by omega⟩
    have h0 : charAt s.m_src s.m_index = c := charAt_of_drop_eq_cons hd
    have hflush : (if (!cw) = true then s.consumeTokenBuffer else Res.ok () s) = Res.ok () s := by
      cases cw <;> simp [consumeTokenBuffer_of_empty s hbuf]
    have hd1 : s.m_src.drop (s.m_index + 1) = r := drop_succ_of_drop_eq_cons hd
    by_cases hnl : c = NEW_LINE_CHAR
    · obtain ⟨b, s1, rest1, e1, e2, e3, e4, e5, e6, e7, e8, _⟩ :=
        ih f { s with m_offset := 1, m_line := s.m_line + 1, m_index := s.m_index + 1 } true
          hd1 hbuf (by omega)
      refine ⟨b, s1, rest1, ?_, e2, e3, e4, e5, e6, ?_, fun _ => e8 (Or.inl rfl), ?_⟩
      · rw [whiteSpacesLoopU, h0, hc]
        simp only [if_true]
        rw [hflush]
        simp only [Res.bind, h0, hnl, beq_self_eq_true, if_true]
        exact e1
      · simp only [List.length_cons]
        omega
      · intro _
        simp only [List.length_cons]
        omega
    · obtain ⟨b, s1, rest1, e1, e2, e3, e4, e5, e6, e7, e8, _⟩ :=
        ih f { s with m_offset := s.m_offset + 1, m_index := s.m_index + 1 } true
          hd1 hbuf (by omega)
      refine ⟨b, s1, rest1, ?_, e2, e3, e4, e5, e6, ?_, fun _ => e8 (Or.inl rfl), ?_⟩
      · rw [whiteSpacesLoopU, h0, hc]
        simp only [if_true]
        rw [hflush]
        simp only [Res.bind, h0, beq_iff_eq, hnl, if_false]
        exact e1
      · simp only [List.length_cons]
        omega
      · intro _
        simp only [List.length_cons]
        omega
  | lineCommentAtEnd body hb =>
    intro fuel s cw hd hbuf hf
    obtain ⟨f, rfl⟩ : ∃ f, fuel = f + 1 := ⟨fuel - 1, by omega⟩
    refine stop f s cw _ (Trivia.lineCommentAtEnd body hb) hd hbuf ?_
    rw [charAt_of_drop_eq_cons hd]
    exact slash
  | lineComment body r hb hr _ =>
    intro fuel s cw hd hbuf hf
    obtain ⟨f, rfl⟩ : ∃ f, fuel = f + 1 := ⟨fuel - 1, by omega⟩
    refine stop f s cw _ (Trivia.lineComment body r hb hr) hd hbuf ?_
    rw [charAt_of_drop_eq_cons hd]
    exact slash
  | blockComment body r hb hr _ =>
    intro fuel s cw hd hbuf hf
    obtain ⟨f, rfl⟩ : ∃ f, fuel = f + 1 := ⟨fuel - 1, by omega⟩
    refine stop f s cw _ (Trivia.blockComment body r hb hr) hd hbuf ?_
    rw [charAt_of_drop_eq_cons hd]
    exact slash

/-- On a line comment `handleCommentsU` returns true with the cursor on the
terminator or on the text that follows the comment body. -/
theorem handleCommentsU_line (s : Lexer) (body tail : List Char) (hb : NEW_LINE_CHAR ∉ body)
    (hd : s.m_src.drop s.m_index = '/' :: '/' :: (body ++ tail))
    (ht : tail = [] ∨ ∃ r, tail = NEW_LINE_CHAR :: r) (hbuf : s.m_token_buffer = []) :
    ∃ s1, s.handleCommentsU = Res.ok true s1 ∧ s1.m_src = s.m_src ∧ s1.m_tokens = s.m_tokens ∧
      s1.m_token_buffer = [] ∧
      (charAt s1.m_src s1.m_index = STRING_TERMINATION_CHAR ∨ s1.m_src.drop s1.m_index = tail) := by
  have h0 : charAt s.m_src s.m_index = '/' := charAt_of_drop_eq_cons hd
  have h1 : charAt s.m_src (s.m_index + 1) = '/' := by
    rw [charAt_succ_of_drop_eq_cons hd]
    rfl
  have hd2 : s.m_src.drop (s.m_index + 2) = body ++ tail :=
    drop_succ_of_drop_eq_cons (drop_succ_of_drop_eq_cons hd)
  have hlen : body.length < s.m_src.length + 1 := by
    have := length_le_of_drop_eq_append hd2
    omega
  obtain ⟨s1, e1, e2, e3, e4, e5⟩ :=
    lineCommentLoopU_body body hb (s.m_src.length + 1)
      { s with m_index := s.m_index + 2, m_offset := s.m_offset + 2 } tail hd2 ht hlen
  refine ⟨s1, ?_, e2, e3, e4.trans hbuf, e5⟩
  unfold Lexer.handleCommentsU Lexer.handleLineCommentsU
  rw [consumeTokenBuffer_of_empty s hbuf]
  simp only [Nat.add_zero, h0, h1, bne_self_eq_false, Bool.false_eq_true, if_false,
    beq_self_eq_true, if_true, Res.bind]
  rw [e1]

/-- On a closed block comment `handleCommentsU` returns true with the cursor on the
terminator or just past the closing star-slash. -/
theorem handleCommentsU_block (s : Lexer) (body tail : List Char)
    (hb : ¬ (['*', '/'] <:+: body))
    (hd : s.m_src.drop s.m_index = '/' :: '*' :: (body ++ '*' :: '/' :: tail))
    (hbuf : s.m_token_buffer = []) :
    ∃ s1, s.handleCommentsU = Res.ok true s1 ∧ s1.m_src = s.m_src ∧ s1.m_tokens = s.m_tokens ∧
      s1.m_token_buffer = [] ∧
      (charAt s1.m_src s1.m_index = STRING_TERMINATION_CHAR ∨ s1.m_src.drop s1.m_index = tail) := by
  have h0 : charAt s.m_src s.m_index = '/' := charAt_of_drop_eq_cons hd
  have h1 : charAt s.m_src (s.m_index + 1) = '*' := by
    rw [charAt_succ_of_drop_eq_cons hd]
    rfl
  have hd2 : s.m_src.drop (s.m_index + 2) = body ++ '*' :: '/' :: tail :=
    drop_succ_of_drop_eq_cons (drop_succ_of_drop_eq_cons hd)
  have hlen : body.length < s.m_src.length + 1 := by
    have := length_le_of_drop_eq_append hd2
    omega
  obtain ⟨s1, e1, e2, e3, e4, e5⟩ :=
    multilineCommentLoopU_body body hb (s.m_src.length + 1)
      { s with m_index := s.m_index + 2, m_offset := s.m_offset + 2 } tail hd2 hlen
  refine ⟨s1, ?_, e2, e3, e4.trans hbuf, e5⟩
  have hne : ¬ (('*' : Char) = '/') := by decide
  unfold Lexer.handleCommentsU Lexer.handleMultilineCommentsU
  rw [consumeTokenBuffer_of_empty s hbuf]
  simp only [Nat.add_zero, h0, h1, bne_self_eq_false, Bool.false_eq_true, if_false,
    beq_iff_eq, hne, beq_self_eq_true, if_true, Res.bind]
  rw [e1]

theorem scanLoopU_at_terminator (f : Nat) (s : Lexer)
    (h : charAt s.m_src s.m_index = STRING_TERMINATION_CHAR) :
    scanLoopU (f + 1) s = Res.ok s.m_tokens s := by
  rw [scanLoopU]
  simp [h]

/-- From a cursor at the head of a trivia text, with an empty buffer and budget for
the text, the scan loop returns the tokens collected so far. -/
theorem scanLoopU_trivia :
    ∀ (n : Nat) (rest : List Char), Trivia rest → rest.length ≤ n →
      ∀ (fuel : Nat) (s : Lexer), s.m_src.drop s.m_index = rest → s.m_token_buffer = [] →
        rest.length < fuel → ∃ s1, scanLoopU fuel s = Res.ok s.m_tokens s1 := by
  intro n
  induction n with
  | zero =>
    intro rest _ hn fuel s hd _ hf
    obtain ⟨f, rfl⟩ : ∃ f, fuel = f + 1 := ⟨fuel - 1, by omega⟩
    have hnil : rest = [] := List.length_eq_zero.mp (by omega)
    rw [hnil] at hd
    exact ⟨s, scanLoopU_at_terminator f s (charAt_of_drop_eq_nil hd)⟩
  | succ m ih =>
    intro rest ht hn fuel s hd hbuf hf
    obtain ⟨f, rfl⟩ : ∃ f, fuel = f + 1 := ⟨fuel - 1, by omega⟩
    -- the loop goes on from the state a handler leaves on a shorter trivia text
    have go : ∀ (s1 : Lexer) (tail : List Char), tail.length < rest.length → 0 < f →
        s.scanStepU = Res.ok () s1 → s1.m_tokens = s.m_tokens → s1.m_token_buffer = [] →
        (charAt s1.m_src s1.m_index = STRING_TERMINATION_CHAR ∨
          (s1.m_src.drop s1.m_index = tail ∧ Trivia tail)) →
        charAt s.m_src s.m_index ≠ STRING_TERMINATION_CHAR →
        ∃ s2, scanLoopU (f + 1) s = Res.ok s.m_tokens s2 := by
      intro s1 tail hlt hfpos hstep htok hb1 hcase hne
      rw [scanLoopU]
      simp only [bne_iff_ne, ne_eq, hne, not_false_eq_true, if_true]
      rw [hstep]
      simp only [Res.bind]
      rw [← htok]
      rcases hcase with h | ⟨h, htr⟩
      · obtain ⟨g, rfl⟩ : ∃ g, f = g + 1 := ⟨f - 1, by omega⟩
        exact ⟨s1, scanLoopU_at_terminator g s1 h⟩
      · exact ih tail htr (by omega) f s1 h hb1 (by omega)
    cases ht with
    | nil =>
      exact ⟨s, scanLoopU_at_terminator f s (charAt_of_drop_eq_nil hd)⟩
    | blank c r hc hr =>
      have h0 : charAt s.m_src s.m_index = c := charAt_of_drop_eq_cons hd
      obtain ⟨hcn, hcq, hcs, hca, hcd⟩ := isBlank_facts hc
      simp only [List.length_cons] at hf hn
      obtain ⟨b, s1, rest1, e1, e2, e3, e4, e5, e6, e7, e8, e9⟩ :=
        whiteSpacesLoopU_trivia (c :: r) (Trivia.blank c r hc hr) (s.m_src.length + 1) s false hd hbuf
          (by
            have h1 : (s.m_src.drop s.m_index).length = (c :: r).length := by rw [hd]
            have h2 := List.length_drop s.m_index s.m_src
            omega)
      have hb : b = true := e8 (Or.inr (by rw [h0]; exact hc))
      have hlt : rest1.length < (c :: r).length := e9 (by rw [h0]; exact hc)
      refine go s1 rest1 hlt (by omega) ?_ e3 e4 (Or.inr ⟨e5, e6⟩) (by rw [h0]; exact hcn)
      unfold Lexer.scanStepU
      rw [handleStringLiteralsU_of_ne s (by rw [h0]; exact hcq)]
      simp only [Res.bind, Bool.false_eq_true, if_false]
      rw [handleCommentsU_of_ne s (by rw [h0]; exact hcs)]
      simp only [Res.bind, Bool.false_eq_true, if_false]
      rw [handleAlphaNumericCharsU_of_not s (by rw [h0]; exact hca) (by rw [h0]; exact hcd)]
      simp only [Res.bind, Bool.false_eq_true, if_false]
      rw [consumeTokenBuffer_of_empty s hbuf]
      simp only [Res.bind]
      unfold Lexer.handleWhiteSpacesU
      rw [e1, hb]
      rfl
    | lineCommentAtEnd body hb =>
      have h0 : charAt s.m_src s.m_index = '/' := charAt_of_drop_eq_cons hd
      simp only [List.length_cons] at hf hn
      obtain ⟨s1, e1, e2, e3, e4, e5⟩ :=
        handleCommentsU_line s body [] hb (by simpa using hd) (Or.inl rfl) hbuf
      have hend : charAt s1.m_src s1.m_index = STRING_TERMINATION_CHAR := by
        rcases e5 with h | h
        · exact h
        · exact charAt_of_drop_eq_nil h
      refine go s1 [] (by simp) (by omega) ?_ e3 e4 (Or.inl hend) (by rw [h0]; decide)
      unfold Lexer.scanStepU
      rw [handleStringLiteralsU_of_ne s (by rw [h0]; decide)]
      simp only [Res.bind, Bool.false_eq_true, if_false]
      rw [e1]
      rfl
    | lineComment body r hb hr =>
      have h0 : charAt s.m_src s.m_index = '/' := charAt_of_drop_eq_cons hd
      simp only [List.length_cons, List.length_append] at hf hn
      obtain ⟨s1, e1, e2, e3, e4, e5⟩ :=
        handleCommentsU_line s body (NEW_LINE_CHAR :: r) hb hd (Or.inr ⟨r, rfl⟩) hbuf
      have hcase : charAt s1.m_src s1.m_index = STRING_TERMINATION_CHAR ∨
          (s1.m_src.drop s1.m_index = NEW_LINE_CHAR :: r ∧ Trivia (NEW_LINE_CHAR :: r)) := by
        rcases e5 with h | h
        · exact Or.inl h
        · exact Or.inr ⟨h, Trivia.blank _ _ (by decide) hr⟩
      refine go s1 (NEW_LINE_CHAR :: r) ?_ (by omega) ?_ e3 e4 hcase (by rw [h0]; decide)
      · simp only [List.length_cons, List.length_append]
        omega
      · unfold Lexer.scanStepU
        rw [handleStringLiteralsU_of_ne s (by rw [h0]; decide)]
        simp only [Res.bind, Bool.false_eq_true, if_false]
        rw [e1]
        rfl
    | blockComment body r hb hr =>
      have h0 : charAt s.m_src s.m_index = '/' := charAt_of_drop_eq_cons hd
      simp only [List.length_cons, List.length_append] at hf hn
      obtain ⟨s1, e1, e2, e3, e4, e5⟩ := handleCommentsU_block s body r hb hd hbuf
      have hcase : charAt s1.m_src s1.m_index = STRING_TERMINATION_CHAR ∨
          (s1.m_src.drop s1.m_index = r ∧ Trivia r) := by
        rcases e5 with h | h
        · exact Or.inl h
        · exact Or.inr ⟨h, hr⟩
      refine go s1 r ?_ (by omega) ?_ e3 e4 hcase (by rw [h0]; decide)
      · simp only [List.length_cons, List.length_append]
        omega
      · unfold Lexer.scanStepU
        rw [handleStringLiteralsU_of_ne s (by rw [h0]; decide)]
        simp only [Res.bind, Bool.false_eq_true, if_false]
        rw [e1]
        rfl

/-! ## Postconditions of normal returns -/

theorem Res.returns_bind {α β : Type} {r : Res α} {f : α → Lexer → Res β}
    {P : α → Lexer → Prop} {Q : β → Lexer → Prop}
    (hr : r.Returns P) (hf : ∀ a s, P a s → (f a s).Returns Q) : (r.bind f).Returns Q := by
  cases r with
  | ok a s => exact hf a s hr
  | error msg s => trivial
  | timeout => trivial

theorem Lexer.returns_error {α : Type} (s : Lexer) (Q : α → Lexer → Prop) :
    (s.error : Res α).Returns Q :=
  trivial

/-- The emittable categories are exactly the keyword, literal, operator and
delimiter categories. -/
theorem emittable_iff_isLexemeCategory (t : TokenType) : emittable t ↔ isLexemeCategory t := by
  cases t <;> decide

theorem tokensEmittable_push {s : Lexer} {t : Token} (hs : s.tokensEmittable)
    (ht : emittable t.m_type) : ∀ u ∈ s.m_tokens ++ [t], emittable u.m_type := by
  intro u hu
  rcases List.mem_append.mp hu with h | h
  · exact hs u h
  · have hut : u = t := by simpa using h
    rw [hut]
    exact ht

theorem KEYWORDS_lookup_emittable (b : List Char) (ty : TokenType)
    (h : KEYWORDS.lookup b = some ty) : emittable ty := by
  have hall : ∀ p ∈ KEYWORDS, emittable p.2 := by decide
  have hmem : ∀ (l : List (List Char × TokenType)), l.lookup b = some ty → (b, ty) ∈ l := by
    intro l
    induction l with
    | nil => intro h; simp at h
    | cons a l ih =>
      intro h
      obtain ⟨k, v⟩ := a
      by_cases hk : b = k
      · subst hk
        simp at h
        simp [h]
      · have hbk : (b == k) = false := by simpa using hk
        rw [List.lookup_cons, hbk] at h
        exact List.mem_cons_of_mem _ (ih h)
  exact hall (b, ty) (hmem KEYWORDS h)

/-- The category chosen by `bufferToToken` is INVALID or emittable. -/
theorem bufferToToken_type (b : List Char) :
    (bufferToToken b).m_type = TokenType.INVALID ∨ emittable (bufferToToken b).m_type := by
  unfold bufferToToken
  split
  · exact Or.inl rfl
  · split
    · next ty hty => exact Or.inr (KEYWORDS_lookup_emittable _ ty hty)
    · split
      · split
        · exact Or.inr (show emittable TokenType.NUMBER by decide)
        · exact Or.inl rfl
      · split
        · split
          · exact Or.inr (show emittable TokenType.IDENTIFIER by decide)
          · exact Or.inl rfl
        · exact Or.inl rfl

theorem consumeTokenBuffer_emittable (s : Lexer) (hs : s.tokensEmittable) :
    s.consumeTokenBuffer.Returns (fun _ s1 => s1.tokensEmittable) := by
  unfold Lexer.consumeTokenBuffer
  split
  · simp only
    split
    · exact Lexer.returns_error _ _
    · next hne =>
      rcases bufferToToken_type s.m_token_buffer with h | h
      · exact absurd h hne
      · exact tokensEmittable_push hs h
  · exact hs

theorem lineCommentLoopU_emittable (fuel : Nat) (s : Lexer) (hs : s.tokensEmittable) :
    (lineCommentLoopU fuel s).Returns (fun _ s1 => s1.tokensEmittable) := by
  induction fuel generalizing s with
  | zero => trivial
  | succ n ih =>
    unfold lineCommentLoopU
    split
    · exact ih _ hs
    · exact hs

theorem multilineCommentLoopU_emittable (fuel : Nat) (s : Lexer) (hs : s.tokensEmittable) :
    (multilineCommentLoopU fuel s).Returns (fun _ s1 => s1.tokensEmittable) := by
  induction fuel generalizing s with
  | zero => trivial
  | succ n ih =>
    unfold multilineCommentLoopU
    split
    · simp only
      split
      · exact hs
      · split
        · exact ih _ hs
        · exact ih _ hs
    · exact hs

theorem handleCommentsU_emittable (s : Lexer) (hs : s.tokensEmittable) :
    s.handleCommentsU.Returns (fun _ s1 => s1.tokensEmittable) := by
  unfold Lexer.handleCommentsU
  simp only
  split
  · exact hs
  · split
    · refine Res.returns_bind (P := fun _ s1 => s1.tokensEmittable) ?_ (fun _ _ h => h)
      unfold Lexer.handleLineCommentsU
      exact Res.returns_bind (consumeTokenBuffer_emittable s hs)
        (fun _ s1 h1 => lineCommentLoopU_emittable _ _ h1)
    · split
      · refine Res.returns_bind (P := fun _ s1 => s1.tokensEmittable) ?_ (fun _ _ h => h)
        unfold Lexer.handleMultilineCommentsU
        exact Res.returns_bind (consumeTokenBuffer_emittable s hs)
          (fun _ s1 h1 => multilineCommentLoopU_emittable _ _ h1)
      · exact hs

theorem whiteSpacesLoopU_emittable (fuel : Nat) (s : Lexer) (b : Bool) (hs : s.tokensEmittable) :
    (whiteSpacesLoopU fuel s b).Returns (fun _ s1 => s1.tokensEmittable) := by
  induction fuel generalizing s b with
  | zero => trivial
  | succ n ih =>
    unfold whiteSpacesLoopU
    split
    · refine Res.returns_bind (P := fun _ s1 => s1.tokensEmittable) ?_ ?_
      · split
        · exact consumeTokenBuffer_emittable s hs
        · exact hs
      · intro _ s1 h1
        simp only
        split
        · exact ih _ _ h1
        · exact ih _ _ h1
    · exact hs

/-- The token built by `parseStringLiteralU` is a STRING or an INVALID. -/
theorem parseStringLiteralU_type (src : List Char) (pos line offset : Nat) (tk : Token)
    (st : StrState) (h : parseStringLiteralU src pos line offset = some (tk, st)) :
    tk.m_type = TokenType.STRING ∨ tk.m_type = TokenType.INVALID := by
  unfold parseStringLiteralU at h
  split at h
  · simp at h
  · split at h
    · simp only [Option.some.injEq, Prod.mk.injEq] at h
      rw [← h.1]
      exact Or.inl rfl
    · simp only [Option.some.injEq, Prod.mk.injEq] at h
      rw [← h.1]
      exact Or.inr rfl

theorem handleStringLiteralsU_emittable (s : Lexer) (hs : s.tokensEmittable) :
    s.handleStringLiteralsU.Returns (fun _ s1 => s1.tokensEmittable) := by
  unfold Lexer.handleStringLiteralsU
  simp only
  split
  · refine Res.returns_bind (consumeTokenBuffer_emittable s hs) ?_
    intro _ s1 h1
    split
    · trivial
    · next tk st hp =>
      split
      · exact Lexer.returns_error _ _
      · next hne =>
        rcases parseStringLiteralU_type _ _ _ _ tk st hp with h | h
        · exact tokensEmittable_push h1 (by rw [h]; decide)
        · exact absurd h hne
  · exact hs

theorem handleAlphaNumericCharsU_emittable (s : Lexer) (hs : s.tokensEmittable) :
    s.handleAlphaNumericCharsU.Returns (fun _ s1 => s1.tokensEmittable) := by
  unfold Lexer.handleAlphaNumericCharsU
  simp only
  split
  · exact hs
  · exact hs

theorem delimiterType_type (c : Char) :
    delimiterType c = TokenType.INVALID ∨ emittable (delimiterType c) := by
  unfold delimiterType
  repeat' split
  all_goals first
    | exact Or.inl rfl
    | exact Or.inr (by decide)

theorem handleDelimetersU_emittable (s : Lexer) (hs : s.tokensEmittable) :
    s.handleDelimetersU.Returns (fun _ s1 => s1.tokensEmittable) := by
  unfold Lexer.handleDelimetersU
  simp only
  split
  · split
    · exact Lexer.returns_error _ _
    · next hne =>
      rcases delimiterType_type (charAt s.m_src s.m_index) with h | h
      · exact absurd h hne
      · exact tokensEmittable_push hs h
  · exact hs

theorem handleOperatorsU_emittable (s : Lexer) (hs : s.tokensEmittable) :
    s.handleOperatorsU.Returns (fun _ s1 => s1.tokensEmittable) := by
  unfold Lexer.handleOperatorsU
  rw [operatorsLoopU_eq]
  split
  · next p hp =>
    have hall : ∀ q ∈ OPERATORS, emittable q.2 := by decide
    exact tokensEmittable_push hs (hall p (List.mem_of_find?_eq_some hp))
  · exact hs

theorem scanStepU_emittable (s : Lexer) (hs : s.tokensEmittable) :
    s.scanStepU.Returns (fun _ s1 => s1.tokensEmittable) := by
  unfold Lexer.scanStepU
  refine Res.returns_bind (handleStringLiteralsU_emittable s hs) ?_
  intro b1 s1 h1
  split
  · exact h1
  refine Res.returns_bind (handleCommentsU_emittable s1 h1) ?_
  intro b2 s2 h2
  split
  · exact h2
  refine Res.returns_bind (handleAlphaNumericCharsU_emittable s2 h2) ?_
  intro b3 s3 h3
  split
  · exact h3
  refine Res.returns_bind (consumeTokenBuffer_emittable s3 h3) ?_
  intro _ s4 h4
  refine Res.returns_bind (whiteSpacesLoopU_emittable _ s4 false h4) ?_
  intro b5 s5 h5
  split
  · exact h5
  refine Res.returns_bind (handleDelimetersU_emittable s5 h5) ?_
  intro b6 s6 h6
  split
  · exact h6
  refine Res.returns_bind (handleOperatorsU_emittable s6 h6) ?_
  intro b7 s7 h7
  split
  · exact h7
  · exact Lexer.returns_error _ _

theorem scanLoopU_emittable (fuel : Nat) (s : Lexer) (hs : s.tokensEmittable) :
    (scanLoopU fuel s).Returns (fun ts _ => ∀ t ∈ ts, emittable t.m_type) := by
  induction fuel generalizing s with
  | zero => trivial
  | succ n ih =>
    unfold scanLoopU
    split
    · exact Res.returns_bind (scanStepU_emittable s hs) (fun _ s1 h1 => ih s1 h1)
    · exact hs

/-! ## Totality and cursor bounds -/

theorem Res.total_bind {α β : Type} {r : Res α} {f : α → Lexer → Res β}
    {P : α → Lexer → Prop} {Q : β → Lexer → Prop} {E : Lexer → Prop}
    (hr : r.Total P E) (hf : ∀ a s, P a s → (f a s).Total Q E) : (r.bind f).Total Q E := by
  cases r with
  | ok a s => exact hf a s hr
  | error msg s => exact hr
  | timeout => exact hr

theorem Res.total_mono {α : Type} {r : Res α} {P Q : α → Lexer → Prop} {E F : Lexer → Prop}
    (hr : r.Total P E) (hq : ∀ a s, P a s → Q a s) (he : ∀ s, E s → F s) : r.Total Q F := by
  cases r with
  | ok a s => exact hq a s hr
  | error msg s => exact he s hr
  | timeout => exact hr

theorem Lexer.advancesTo_refl (s : Lexer) (h : s.inBounds) : s.advancesTo s :=
  ⟨rfl, le_refl _, h⟩

theorem Lexer.advancesTo_trans {s s1 s2 : Lexer} (h1 : s.advancesTo s1) (h2 : s1.advancesTo s2) :
    s.advancesTo s2 :=
  ⟨h2.1.trans h1.1, le_trans h1.2.1 h2.2.1, h2.2.2⟩

/-- Neither outcome of `consumeTokenBuffer` moves the cursor or the counters. -/
theorem consumeTokenBuffer_total (s : Lexer) (h : s.inBounds) :
    s.consumeTokenBuffer.Total
      (fun _ s1 => s.advancesTo s1 ∧ s1.m_index = s.m_index) (fun s1 => s.advancesTo s1) := by
  unfold Lexer.consumeTokenBuffer
  split
  · simp only
    split
    · exact Lexer.advancesTo_refl s h
    · exact ⟨⟨rfl, le_refl _, h⟩, rfl⟩
  · exact ⟨Lexer.advancesTo_refl s h, rfl⟩

theorem lineCommentLoopU_total (fuel : Nat) (s : Lexer) (h : s.inBounds)
    (hf : s.m_src.length - s.m_index < fuel) :
    (lineCommentLoopU fuel s).Total (fun _ s1 => s.advancesTo s1) (fun s1 => s.advancesTo s1) := by
  induction fuel generalizing s with
  | zero => omega
  | succ n ih =>
    unfold lineCommentLoopU
    split
    · next hc =>
      have hne : charAt s.m_src s.m_index ≠ STRING_TERMINATION_CHAR := by
        intro h0
        simp [h0] at hc
      have hlt := lt_length_of_charAt_ne _ _ hne
      obtain ⟨h1, h2, h3⟩ := h
      have hb : Lexer.inBounds { s with m_index := s.m_index + 1, m_offset := s.m_offset + 1 } :=
        ⟨by simp only; omega, by simp only; omega, by simp only; omega⟩
      refine Res.total_mono (ih _ hb (by simp only; omega)) ?_ ?_
      · intro _ s1 hs1
        exact ⟨hs1.1, by have := hs1.2.1; simp only at this; omega, hs1.2.2⟩
      · intro s1 hs1
        exact ⟨hs1.1, by have := hs1.2.1; simp only at this; omega, hs1.2.2⟩
    · exact Lexer.advancesTo_refl s h

theorem multilineCommentLoopU_total (fuel : Nat) (s : Lexer) (h : s.inBounds)
    (hf : s.m_src.length - s.m_index < fuel) :
    (multilineCommentLoopU fuel s).Total (fun _ s1 => s.advancesTo s1)
      (fun s1 => s.advancesTo s1) := by
  induction fuel generalizing s with
  | zero => omega
  | succ n ih =>
    unfold multilineCommentLoopU
    split
    · next hc =>
      have hne : charAt s.m_src s.m_index ≠ STRING_TERMINATION_CHAR := by
        intro h0
        simp [h0] at hc
      have hlt := lt_length_of_charAt_ne _ _ hne
      obtain ⟨h1, h2, h3⟩ := h
      simp only
      split
      · next hclose =>
        have h1ne : charAt s.m_src (s.m_index + 1) ≠ STRING_TERMINATION_CHAR := by
          intro h0
          simp only [Bool.and_eq_true, beq_iff_eq] at hclose
          rw [h0] at hclose
          exact absurd hclose.2 (by decide)
        have hlt1 := lt_length_of_charAt_ne _ _ h1ne
        exact ⟨rfl, by simp only; omega, by simp only; omega, by simp only; omega,
          by simp only; omega⟩
      · split
        · have hb : Lexer.inBounds
              { s with m_index := s.m_index + 1, m_line := s.m_line + 1, m_offset := 1 } :=
            ⟨by simp only; omega, by simp only; omega, by simp only; omega⟩
          refine Res.total_mono (ih _ hb (by simp only; omega)) ?_ ?_
          · intro _ s1 hs1
            exact ⟨hs1.1, by have := hs1.2.1; simp only at this; omega, hs1.2.2⟩
          · intro s1 hs1
            exact ⟨hs1.1, by have := hs1.2.1; simp only at this; omega, hs1.2.2⟩
        · have hb : Lexer.inBounds { s with m_index := s.m_index + 1, m_offset := s.m_offset + 1 } :=
            ⟨by simp only; omega, by simp only; omega, by simp only; omega⟩
          refine Res.total_mono (ih _ hb (by simp only; omega)) ?_ ?_
          · intro _ s1 hs1
            exact ⟨hs1.1, by have := hs1.2.1; simp only at this; omega, hs1.2.2⟩
          · intro s1 hs1
            exact ⟨hs1.1, by have := hs1.2.1; simp only at this; omega, hs1.2.2⟩
    · exact Lexer.advancesTo_refl s h

theorem handleCommentsU_total (s : Lexer) (h : s.inBounds) :
    s.handleCommentsU.Total
      (fun b s1 => s.advancesTo s1 ∧ (b = true → s.m_index < s1.m_index))
      (fun s1 => s.advancesTo s1) := by
  unfold Lexer.handleCommentsU
  simp only [Nat.add_zero]
  split
  · exact ⟨Lexer.advancesTo_refl s h, fun hb => absurd hb (by decide)⟩
  · next hc0 =>
    have h0 : charAt s.m_src s.m_index = '/' := by simpa using hc0
    have hlt0 : s.m_index < s.m_src.length :=
      lt_length_of_charAt_ne _ _ (by rw [h0]; decide)
    have opened : ∀ c : Char, c ≠ STRING_TERMINATION_CHAR → charAt s.m_src (s.m_index + 1) = c →
        ∀ s1 : Lexer, s.advancesTo s1 ∧ s1.m_index = s.m_index →
          Lexer.inBounds { s1 with m_index := s1.m_index + 2, m_offset := s1.m_offset + 2 } ∧
          s1.m_src.length - (s1.m_index + 2) < s1.m_src.length + 1 := by
      intro c hc h1 s1 hs1
      have hlt1 : s.m_index + 1 < s.m_src.length :=
        lt_length_of_charAt_ne _ _ (by rw [h1]; exact hc)
      obtain ⟨⟨e1, _, e3, e4, e5⟩, e6⟩ := hs1
      refine ⟨⟨?_, ?_, ?_⟩, ?_⟩
      · simp only
        rw [e1, e6]
        omega
      · simp only
        omega
      · simp only
        omega
      · omega
    have close : ∀ (s1 s2 : Lexer), s.advancesTo s1 ∧ s1.m_index = s.m_index →
        Lexer.advancesTo { s1 with m_index := s1.m_index + 2, m_offset := s1.m_offset + 2 } s2 →
        s.advancesTo s2 ∧ s.m_index < s2.m_index := by
      intro s1 s2 hs1 hs2
      obtain ⟨⟨e1, _, _⟩, e6⟩ := hs1
      obtain ⟨f1, f2, f3⟩ := hs2
      simp only at f1 f2
      exact ⟨⟨f1.trans e1, by omega, f3⟩, by omega⟩
    split
    · next hc1 =>
      have h1 : charAt s.m_src (s.m_index + 1) = '/' := by simpa using hc1
      unfold Lexer.handleLineCommentsU
      refine Res.total_bind (P := fun _ s2 => s.advancesTo s2 ∧ s.m_index < s2.m_index) ?_ ?_
      · refine Res.total_bind (consumeTokenBuffer_total s h) ?_
        intro _ s1 hs1
        obtain ⟨hb, hfuel⟩ := opened '/' (by decide) h1 s1 hs1
        refine Res.total_mono (lineCommentLoopU_total _ _ hb hfuel) ?_ ?_
        · intro _ s2 hs2
          exact close s1 s2 hs1 hs2
        · intro s2 hs2
          exact (close s1 s2 hs1 hs2).1
      · intro _ s2 hs2
        exact ⟨hs2.1, fun _ => hs2.2⟩
    · split
      · next hc1 =>
        have h1 : charAt s.m_src (s.m_index + 1) = '*' := by simpa using hc1
        unfold Lexer.handleMultilineCommentsU
        refine Res.total_bind (P := fun _ s2 => s.advancesTo s2 ∧ s.m_index < s2.m_index) ?_ ?_
        · refine Res.total_bind (consumeTokenBuffer_total s h) ?_
          intro _ s1 hs1
          obtain ⟨hb, hfuel⟩ := opened '*' (by decide) h1 s1 hs1
          refine Res.total_mono (multilineCommentLoopU_total _ _ hb hfuel) ?_ ?_
          · intro _ s2 hs2
            exact close s1 s2 hs1 hs2
          · intro s2 hs2
            exact (close s1 s2 hs1 hs2).1
        · intro _ s2 hs2
          exact ⟨hs2.1, fun _ => hs2.2⟩
      · exact ⟨Lexer.advancesTo_refl s h, fun hb => absurd hb (by decide)⟩

theorem whiteSpacesLoopU_total (fuel : Nat) (s : Lexer) (cw : Bool) (h : s.inBounds)
    (hf : s.m_src.length - s.m_index < fuel) :
    (whiteSpacesLoopU fuel s cw).Total
      (fun b s1 => s.advancesTo s1 ∧ (b = true → cw = true ∨ s.m_index < s1.m_index))
      (fun s1 => s.advancesTo s1) := by
  induction fuel generalizing s cw with
  | zero => omega
  | succ n ih =>
    unfold whiteSpacesLoopU
    split
    · next hc =>
      have hne : charAt s.m_src s.m_index ≠ STRING_TERMINATION_CHAR := by
        intro h0
        rw [h0] at hc
        exact absurd hc (by decide)
      have hlt := lt_length_of_charAt_ne _ _ hne
      refine Res.total_bind (P := fun _ s1 => s.advancesTo s1 ∧ s1.m_index = s.m_index) ?_ ?_
      · split
        · exact consumeTokenBuffer_total s h
        · exact ⟨Lexer.advancesTo_refl s h, rfl⟩
      · intro _ s1 hs1
        obtain ⟨⟨e1, _, e3, e4, e5⟩, e6⟩ := hs1
        have fin : ∀ t : Lexer, t.m_src = s1.m_src → t.m_index = s1.m_index + 1 →
            t.m_line ≤ s1.m_line + 1 → t.m_offset ≤ s1.m_offset + 1 →
            (whiteSpacesLoopU n t true).Total
              (fun b s2 => s.advancesTo s2 ∧ (b = true → cw = true ∨ s.m_index < s2.m_index))
              (fun s2 => s.advancesTo s2) := by
          intro t t1 t2 t3 t4
          have hb : t.inBounds := ⟨by rw [t1, t2, e1, e6]; omega, by omega, by omega⟩
          refine Res.total_mono (ih t true hb (by rw [t1, t2, e1, e6]; omega)) ?_ ?_
          · intro b s2 hs2
            obtain ⟨⟨f1, f2, f3⟩, _⟩ := hs2
            exact ⟨⟨f1.trans (t1.trans e1), by omega, f3⟩, fun _ => Or.inr (by omega)⟩
          · intro s2 hs2
            obtain ⟨f1, f2, f3⟩ := hs2
            exact ⟨f1.trans (t1.trans e1), by omega, f3⟩
        simp only
        split
        · exact fin _ rfl rfl (by simp only; omega) (by simp only; omega)
        · exact fin _ rfl rfl (by simp only; omega) (by simp only; omega)
    · exact ⟨Lexer.advancesTo_refl s h, fun hb => Or.inl hb⟩

/-- The loop of `parseStringLiteralU` ends within its budget, on the terminator or on
a quote, without leaving the source. -/
theorem parseStringLoopU_total (src : List Char) (fuel : Nat) (st : StrState)
    (hp : st.pos ≤ src.length) (hl : st.line ≤ st.pos + 1) (ho : st.offset ≤ st.pos + 1)
    (hf : src.length - st.pos < fuel) :
    ∃ st1, parseStringLoopU src fuel st = some st1 ∧ st.pos ≤ st1.pos ∧ st1.pos ≤ src.length ∧
      st1.line ≤ st1.pos + 1 ∧ st1.offset ≤ st1.pos + 1 := by
  induction fuel generalizing st with
  | zero => omega
  | succ n ih =>
    unfold parseStringLoopU
    split
    · next hc =>
      have hne : charAt src st.pos ≠ STRING_TERMINATION_CHAR := by
        intro h0
        simp [h0] at hc
      have hlt := lt_length_of_charAt_ne _ _ hne
      split
      · next hesc =>
        have h1ne : charAt src (st.pos + 1) ≠ STRING_TERMINATION_CHAR := by
          intro h0
          simp [h0] at hesc
        have hlt1 := lt_length_of_charAt_ne _ _ h1ne
        obtain ⟨st1, e1, e2, e3, e4, e5⟩ :=
          ih { value := st.value ++ [charAt src st.pos] ++ [charAt src (st.pos + 1)],
               pos := st.pos + 1 + 1, line := st.line, offset := st.offset + 1 + 1 }
            (by simp only; omega) (by simp only; omega) (by simp only; omega)
            (by simp only; omega)
        exact ⟨st1, e1, by simp only at e2; omega, e3, e4, e5⟩
      · split
        · obtain ⟨st1, e1, e2, e3, e4, e5⟩ :=
            ih { value := st.value ++ [charAt src st.pos], pos := st.pos + 1, line := st.line + 1,
                 offset := 1 + 1 }
              (by simp only; omega) (by simp only; omega) (by simp only; omega)
              (by simp only; omega)
          exact ⟨st1, e1, by simp only at e2; omega, e3, e4, e5⟩
        · obtain ⟨st1, e1, e2, e3, e4, e5⟩ :=
            ih { value := st.value ++ [charAt src st.pos], pos := st.pos + 1, line := st.line,
                 offset := st.offset + 1 }
              (by simp only; omega) (by simp only; omega) (by simp only; omega)
              (by simp only; omega)
          exact ⟨st1, e1, by simp only at e2; omega, e3, e4, e5⟩
    · exact ⟨st, rfl, le_refl _, hp, hl, ho⟩

/-- The function `parseStringLiteralU`, started on a byte before the terminator,
returns within its budget, past that byte and inside the source. -/
theorem parseStringLiteralU_total (src : List Char) (pos line offset : Nat)
    (hp : pos < src.length) (hl : line ≤ pos + 1) (ho : offset ≤ pos + 1) :
    ∃ tk st, parseStringLiteralU src pos line offset = some (tk, st) ∧ pos < st.pos ∧
      st.pos ≤ src.length ∧ st.line ≤ st.pos + 1 ∧ st.offset ≤ st.pos + 1 := by
  obtain ⟨st, p1, p2, p3, p4, p5⟩ :=
    parseStringLoopU_total src (src.length + 1)
      { value := [QUOTE_CHAR], pos := pos + 1, line := line, offset := offset + 1 }
      (by simp only; omega) (by simp only; omega) (by simp only; omega) (by simp only; omega)
  simp only at p2
  unfold parseStringLiteralU
  rw [p1]
  simp only
  by_cases hq : charAt src st.pos = QUOTE_CHAR
  · have hlt1 : st.pos < src.length := lt_length_of_charAt_ne _ _ (by rw [hq]; decide)
    refine ⟨_, _, by simp only [hq, beq_self_eq_true, if_true]; rfl, ?_, ?_, ?_, ?_⟩
    · simp only
      omega
    · simp only
      omega
    · simp only
      omega
    · simp only
      omega
  · refine ⟨_, _, by simp only [beq_iff_eq, hq, if_false]; rfl, ?_, p3, p4, p5⟩
    omega

theorem handleStringLiteralsU_total (s : Lexer) (h : s.inBounds) :
    s.handleStringLiteralsU.Total
      (fun b s1 => s.advancesTo s1 ∧ (b = true → s.m_index < s1.m_index))
      (fun s1 => s.advancesTo s1) := by
  unfold Lexer.handleStringLiteralsU
  simp only
  split
  · next hc0 =>
    have h0 : charAt s.m_src s.m_index = QUOTE_CHAR := by simpa using hc0
    have hlt0 : s.m_index < s.m_src.length :=
      lt_length_of_charAt_ne _ _ (by rw [h0]; decide)
    refine Res.total_bind (consumeTokenBuffer_total s h) ?_
    intro _ s1 hs1
    obtain ⟨⟨e1, _, e3, e4, e5⟩, e6⟩ := hs1
    obtain ⟨tk, st, p1, p2, p3, p4, p5⟩ :=
      parseStringLiteralU_total s1.m_src s1.m_index s1.m_line s1.m_offset
        (by rw [e1, e6]; omega) e4 e5
    rw [p1]
    simp only
    split
    · exact ⟨e1, by simp only; omega, by simp only; omega, by simp only; omega,
        by simp only; omega⟩
    · exact ⟨⟨e1, by simp only; omega, by simp only; omega, by simp only; omega,
        by simp only; omega⟩, fun _ => by simp only; omega⟩
  · exact ⟨Lexer.advancesTo_refl s h, fun hb => absurd hb (by decide)⟩

theorem handleAlphaNumericCharsU_total (s : Lexer) (h : s.inBounds) :
    s.handleAlphaNumericCharsU.Total
      (fun b s1 => s.advancesTo s1 ∧ (b = true → s.m_index < s1.m_index))
      (fun s1 => s.advancesTo s1) := by
  unfold Lexer.handleAlphaNumericCharsU
  simp only
  split
  · next hc =>
    have hne : charAt s.m_src s.m_index ≠ STRING_TERMINATION_CHAR := by
      intro h0
      rw [h0] at hc
      have ha : isAlphaNumeric STRING_TERMINATION_CHAR = false := by decide
      have hd : (STRING_TERMINATION_CHAR == '.') = false := by decide
      simp [ha, hd] at hc
    have hlt := lt_length_of_charAt_ne _ _ hne
    obtain ⟨h1, h2, h3⟩ := h
    exact ⟨⟨rfl, by simp only; omega, by simp only; omega, by simp only; omega,
      by simp only; omega⟩, fun _ => by simp only; omega⟩
  · exact ⟨Lexer.advancesTo_refl s h, fun hb => absurd hb (by decide)⟩

theorem handleDelimetersU_total (s : Lexer) (h : s.inBounds) :
    s.handleDelimetersU.Total
      (fun b s1 => s.advancesTo s1 ∧ (b = true → s.m_index < s1.m_index))
      (fun s1 => s.advancesTo s1) := by
  unfold Lexer.handleDelimetersU
  simp only
  split
  · next hc =>
    have hne : charAt s.m_src s.m_index ≠ STRING_TERMINATION_CHAR := by
      intro h0
      rw [h0] at hc
      exact absurd hc (by decide)
    have hlt := lt_length_of_charAt_ne _ _ hne
    obtain ⟨h1, h2, h3⟩ := h
    split
    · exact Lexer.advancesTo_refl s ⟨h1, h2, h3⟩
    · exact ⟨⟨rfl, by simp only; omega, by simp only; omega, by simp only; omega,
        by simp only; omega⟩, fun _ => by simp only; omega⟩
  · exact ⟨Lexer.advancesTo_refl s h, fun hb => absurd hb (by decide)⟩

/-- A spelling that matches lies before the terminator. -/
theorem operatorMatches_length (s : Lexer) (op : List Char) (i : Nat)
    (hm : operatorMatches s op i = true) (hi : s.m_index + i ≤ s.m_src.length) :
    s.m_index + i + op.length ≤ s.m_src.length := by
  induction op generalizing i with
  | nil => simpa using hi
  | cons c cs ih =>
    unfold operatorMatches at hm
    split at hm
    · exact absurd hm (by decide)
    · next hc =>
      have hne : charAt s.m_src (s.m_index + i) ≠ STRING_TERMINATION_CHAR := by
        intro h0
        simp [h0] at hc
      have hlt := lt_length_of_charAt_ne _ _ hne
      have := ih (i + 1) hm (by omega)
      simp only [List.length_cons]
      omega

theorem handleOperatorsU_total (s : Lexer) (h : s.inBounds) :
    s.handleOperatorsU.Total
      (fun b s1 => s.advancesTo s1 ∧ (b = true → s.m_index < s1.m_index))
      (fun s1 => s.advancesTo s1) := by
  unfold Lexer.handleOperatorsU
  rw [operatorsLoopU_eq]
  split
  · next p hp =>
    have hmem : p ∈ OPERATORS := List.mem_of_find?_eq_some hp
    have hpos : ∀ q ∈ OPERATORS, 0 < q.1.length := by decide
    have hlen := hpos p hmem
    have hm : operatorMatches s p.1 0 = true := by
      have := List.find?_some hp
      simpa using this
    have hle := operatorMatches_length s p.1 0 hm (by simpa using h.1)
    obtain ⟨h1, h2, h3⟩ := h
    exact ⟨⟨rfl, by simp only; omega, by simp only; omega, by simp only; omega,
      by simp only; omega⟩, fun _ => by simp only; omega⟩
  · exact ⟨Lexer.advancesTo_refl s h, fun hb => absurd hb (by decide)⟩

/-- One iteration of the scan loop throws or moves the index strictly forward, and
never exhausts a budget. -/
theorem scanStepU_total (s : Lexer) (h : s.inBounds) :
    s.scanStepU.Total (fun _ s1 => s.advancesTo s1 ∧ s.m_index < s1.m_index)
      (fun s1 => s.advancesTo s1) := by
  -- what a handler guarantees from `t`, carried back to `s`
  have lift : ∀ {α : Type} (t : Lexer) (r : Res α) (Q : α → Lexer → Prop), s.advancesTo t →
      r.Total Q (fun t1 => t.advancesTo t1) →
      r.Total (fun a t1 => Q a t1) (fun t1 => s.advancesTo t1) := by
    intro α t r Q ht hr
    exact Res.total_mono hr (fun _ _ hq => hq) (fun t1 h1 => Lexer.advancesTo_trans ht h1)
  have fwd : ∀ (t t1 : Lexer), s.advancesTo t → t.advancesTo t1 → t.m_index < t1.m_index →
      s.advancesTo t1 ∧ s.m_index < t1.m_index := by
    intro t t1 ht ht1 hlt
    exact ⟨Lexer.advancesTo_trans ht ht1, lt_of_le_of_lt ht.2.1 hlt⟩
  unfold Lexer.scanStepU
  refine Res.total_bind (lift s _ _ (Lexer.advancesTo_refl s h) (handleStringLiteralsU_total s h)) ?_
  intro b1 s1 ⟨a1, p1⟩
  split
  · next hb => exact ⟨a1, p1 hb⟩
  refine Res.total_bind (lift s1 _ _ a1 (handleCommentsU_total s1 a1.2.2)) ?_
  intro b2 s2 ⟨a2, p2⟩
  split
  · next hb => exact fwd s1 s2 a1 a2 (p2 hb)
  have c2 := Lexer.advancesTo_trans a1 a2
  refine Res.total_bind (lift s2 _ _ c2 (handleAlphaNumericCharsU_total s2 a2.2.2)) ?_
  intro b3 s3 ⟨a3, p3⟩
  split
  · next hb => exact fwd s2 s3 c2 a3 (p3 hb)
  have c3 := Lexer.advancesTo_trans c2 a3
  refine Res.total_bind (lift s3 _ _ c3 (consumeTokenBuffer_total s3 a3.2.2)) ?_
  intro _ s4 ⟨a4, _⟩
  have c4 := Lexer.advancesTo_trans c3 a4
  refine Res.total_bind
    (lift s4 _ _ c4 (whiteSpacesLoopU_total (s4.m_src.length + 1) s4 false a4.2.2 (by omega))) ?_
  intro b5 s5 ⟨a5, p5⟩
  split
  · next hb =>
    rcases p5 hb with hf | hlt
    · exact absurd hf (by decide)
    · exact fwd s4 s5 c4 a5 hlt
  have c5 := Lexer.advancesTo_trans c4 a5
  refine Res.total_bind (lift s5 _ _ c5 (handleDelimetersU_total s5 a5.2.2)) ?_
  intro b6 s6 ⟨a6, p6⟩
  split
  · next hb => exact fwd s5 s6 c5 a6 (p6 hb)
  have c6 := Lexer.advancesTo_trans c5 a6
  refine Res.total_bind (lift s6 _ _ c6 (handleOperatorsU_total s6 a6.2.2)) ?_
  intro b7 s7 ⟨a7, p7⟩
  split
  · next hb => exact fwd s6 s7 c6 a7 (p7 hb)
  · exact Lexer.advancesTo_trans c6 a7

/-- The scan loop, given budget for the bytes that remain, returns or throws; it
ends with the cursor inside the source, on the terminator when it returns. -/
theorem scanLoopU_total (fuel : Nat) (s : Lexer) (h : s.inBounds)
    (hf : s.m_src.length - s.m_index < fuel) :
    (scanLoopU fuel s).Total
      (fun _ s1 => s.advancesTo s1 ∧ charAt s1.m_src s1.m_index = STRING_TERMINATION_CHAR)
      (fun s1 => s.advancesTo s1) := by
  induction fuel generalizing s with
  | zero => omega
  | succ n ih =>
    unfold scanLoopU
    split
    · next hc =>
      have hne : charAt s.m_src s.m_index ≠ STRING_TERMINATION_CHAR := by
        intro h0
        simp [h0] at hc
      have hlt := lt_length_of_charAt_ne _ _ hne
      refine Res.total_bind (scanStepU_total s h) ?_
      intro _ s1 ⟨a1, p1⟩
      have hn : s1.m_src.length - s1.m_index < n := by
        rw [a1.1]
        omega
      refine Res.total_mono (ih s1 a1.2.2 hn) ?_ ?_
      · intro _ s2 hs2
        exact ⟨Lexer.advancesTo_trans a1 hs2.1, hs2.2⟩
      · intro s2 hs2
        exact Lexer.advancesTo_trans a1 hs2
    · next hc =>
      have h0 : charAt s.m_src s.m_index = STRING_TERMINATION_CHAR := by simpa using hc
      exact ⟨Lexer.advancesTo_refl s h, h0⟩

/-- The function `generateTokensU` always returns or throws, and it leaves the index
inside the source and both counters at most one ahead of the index. -/
theorem generateTokensU_total (self : Lexer) (src : Option (List Char)) :
    (self.generateTokensU src).Total (fun _ s1 => s1.inBounds) (fun s1 => s1.inBounds) := by
  cases src with
  | none =>
    exact ⟨Nat.zero_le _, le_refl _, le_refl _⟩
  | some l =>
    have h0 : Lexer.inBounds
        { m_src := l, m_index := 0, m_line := 1, m_offset := 1, m_token_buffer := [],
          m_tokens := [] } :=
      ⟨Nat.zero_le _, le_refl _, le_refl _⟩
    have := scanLoopU_total (l.length + 1) _ h0 (by simp only; omega)
    exact Res.total_mono this (fun _ _ hq => hq.1.2.2) (fun _ he => he.2.2)

theorem generateTokensU_ne_timeout (self : Lexer) (src : Option (List Char)) :
    (self.generateTokensU src).outcome ≠ Outcome.diverges := by
  have h := generateTokensU_total self src
  cases hg : self.generateTokensU src with
  | ok ts s1 => simp [Res.outcome]
  | error msg s1 => simp [Res.outcome]
  | timeout =>
    rw [hg] at h
    exact absurd h (by simp [Res.Total])

/-- After the reset at its head, `generateTokensU` runs the scan loop from the
initial cursor whatever the prior state was. -/
theorem generateTokensU_some (self : Lexer) (src : List Char) :
    self.generateTokensU (some src) =
      scanLoopU (src.length + 1)
        { m_src := src, m_index := 0, m_line := 1, m_offset := 1, m_token_buffer := [], m_tokens := [] } :=
  rfl

/-! ## Buffer validation -/

theorem numberLoop_iff (b : List Char) (has_decimal_point : Bool) :
    numberLoop b has_decimal_point = true ↔
      (∀ c ∈ b, isDigit c = true ∨ c = '.') ∧
        b.count '.' + (if has_decimal_point = true then 1 else 0) ≤ 1 := by
  induction b generalizing has_decimal_point with
  | nil => cases has_decimal_point <;> simp [numberLoop]
  | cons c cs ih =>
    have hdot : isDigit '.' = false := by decide
    unfold numberLoop
    by_cases hc : c = '.'
    · subst hc
      cases has_decimal_point with
      | false =>
        simp only [beq_self_eq_true, Bool.not_false, Bool.and_self, if_true, ih true,
          List.mem_cons, forall_eq_or_imp, or_true, true_and, List.count_cons_self,
          Bool.false_eq_true, if_false, Nat.add_zero]
      | true =>
        simp only [beq_self_eq_true, Bool.not_true, Bool.and_false, Bool.false_eq_true, if_false,
          hdot, Bool.not_false, if_true, List.mem_cons, forall_eq_or_imp, or_true, true_and,
          List.count_cons_self, false_iff, not_and, not_le]
        intro _
        omega
    · have hbeq : (c == '.') = false := by simpa using hc
      by_cases hd : isDigit c = true
      · simp [hbeq, hd, hc, ih has_decimal_point, List.count_cons]
      · have hd' : isDigit c = false := by simpa using hd
        simp [hbeq, hd', hc]

theorem numberLoop_false_iff (b : List Char) : numberLoop b false = true ↔ validNumberText b := by
  rw [numberLoop_iff]
  simp [validNumberText]

theorem identifierLoop_iff (b : List Char) : identifierLoop b = true ↔ validIdentifierText b := by
  induction b with
  | nil => simp [identifierLoop, validIdentifierText]
  | cons c cs ih =>
    unfold identifierLoop
    by_cases hc : isAlphaNumeric c = true
    · simp only [hc, Bool.not_true, Bool.false_eq_true, if_false, ih]
      simp [validIdentifierText, hc]
    · simp only [hc, Bool.not_false, if_true]
      simp [validIdentifierText, hc]

theorem lookup_some_mem {b : List Char} {ty : TokenType} :
    ∀ (l : List (List Char × TokenType)), l.lookup b = some ty → (b, ty) ∈ l := by
  intro l
  induction l with
  | nil => intro h; simp at h
  | cons a l ih =>
    intro h
    obtain ⟨k, v⟩ := a
    by_cases hk : b = k
    · subst hk
      simp at h
      simp [h]
    · have hbk : (b == k) = false := by simpa using hk
      rw [List.lookup_cons, hbk] at h
      exact List.mem_cons_of_mem _ (ih h)

theorem lookup_none_not_mem {b : List Char} :
    ∀ (l : List (List Char × TokenType)), l.lookup b = none → b ∉ l.map Prod.fst := by
  intro l
  induction l with
  | nil => intro _ h; simp at h
  | cons a l ih =>
    intro h
    obtain ⟨k, v⟩ := a
    by_cases hk : b = k
    · subst hk
      simp at h
    · have hbk : (b == k) = false := by simpa using hk
      rw [List.lookup_cons, hbk] at h
      intro hm
      rcases List.mem_cons.mp hm with h1 | h1
      · exact hk h1
      · exact ih h h1

theorem KEYWORDS_lookup_of_mem {b : List Char} {ty : TokenType} (h : (b, ty) ∈ KEYWORDS) :
    KEYWORDS.lookup b = some ty := by
  simp only [KEYWORDS, List.mem_cons, Prod.mk.injEq, List.mem_singleton, List.not_mem_nil,
    or_false] at h
  rcases h with h | h | h | h | h | h | h | h | h | h | h | h <;>
    (obtain ⟨rfl, rfl⟩ := h; decide)

theorem KEYWORDS_lookup_of_not_mem {b : List Char} (h : b ∉ KEYWORDS.map Prod.fst) :
    KEYWORDS.lookup b = none := by
  cases hl : KEYWORDS.lookup b with
  | none => rfl
  | some ty =>
    exact absurd (List.mem_map_of_mem Prod.fst (lookup_some_mem KEYWORDS hl)) h

/-! ## The effect of one iteration -/

theorem consumeTokenBuffer_ok_flushed (s s0 : Lexer) (u : Unit)
    (h : s.consumeTokenBuffer = Res.ok u s0) : s.flushed s0 := by
  unfold Lexer.consumeTokenBuffer at h
  split at h
  · next hne =>
    have hb : s.m_token_buffer ≠ [] := by
      intro h0
      simp [h0] at hne
    simp only at h
    split at h
    · simp [Lexer.error] at h
    · next hi =>
      simp only [Res.ok.injEq, true_and] at h
      exact Or.inr ⟨hb, hi, h.symm⟩
  · next hne =>
    have hb : s.m_token_buffer = [] := by
      cases hbuf : s.m_token_buffer with
      | nil => rfl
      | cons a l => simp [hbuf] at hne
    simp only [Res.ok.injEq, true_and] at h
    exact Or.inl ⟨hb, h.symm⟩

theorem Lexer.flushed_buffer {s s0 : Lexer} (h : s.flushed s0) : s0.m_token_buffer = [] := by
  rcases h with ⟨hb, rfl⟩ | ⟨_, _, rfl⟩
  · exact hb
  · rfl

theorem Lexer.flushed_cursor {s s0 : Lexer} (h : s.flushed s0) :
    s0.m_src = s.m_src ∧ s0.m_index = s.m_index ∧ s0.m_line = s.m_line ∧
      s0.m_offset = s.m_offset := by
  rcases h with ⟨_, rfl⟩ | ⟨_, _, rfl⟩
  · exact ⟨rfl, rfl, rfl, rfl⟩
  · exact ⟨rfl, rfl, rfl, rfl⟩

theorem Lexer.flushed_of_empty {s s0 : Lexer} (h : s.flushed s0) (hb : s.m_token_buffer = []) :
    s0 = s := by
  rcases h with ⟨_, h0⟩ | ⟨hne, _, _⟩
  · exact h0
  · exact absurd hb hne

theorem Lexer.cursorMoved_refl (s : Lexer) : s.cursorMoved s :=
  ⟨rfl, rfl, rfl⟩

theorem Lexer.cursorMoved_trans {s s1 s2 : Lexer} (h1 : s.cursorMoved s1)
    (h2 : s1.cursorMoved s2) : s.cursorMoved s2 :=
  ⟨h2.1.trans h1.1, h2.2.1.trans h1.2.1, h2.2.2.trans h1.2.2⟩

theorem lineCommentLoopU_moved (fuel : Nat) (s s1 : Lexer) (u : Unit)
    (h : lineCommentLoopU fuel s = Res.ok u s1) : s.cursorMoved s1 := by
  induction fuel generalizing s with
  | zero => simp [lineCommentLoopU] at h
  | succ n ih =>
    rw [lineCommentLoopU] at h
    split at h
    · have hm := ih _ h
      exact ⟨hm.1, hm.2.1, hm.2.2⟩
    · simp only [Res.ok.injEq, true_and] at h
      rw [← h]
      exact Lexer.cursorMoved_refl s

theorem multilineCommentLoopU_moved (fuel : Nat) (s s1 : Lexer) (u : Unit)
    (h : multilineCommentLoopU fuel s = Res.ok u s1) : s.cursorMoved s1 := by
  induction fuel generalizing s with
  | zero => simp [multilineCommentLoopU] at h
  | succ n ih =>
    rw [multilineCommentLoopU] at h
    split at h
    · simp only at h
      split at h
      · simp only [Res.ok.injEq, true_and] at h
        rw [← h]
        exact ⟨rfl, rfl, rfl⟩
      · split at h
        · have hm := ih _ h
          exact ⟨hm.1, hm.2.1, hm.2.2⟩
        · have hm := ih _ h
          exact ⟨hm.1, hm.2.1, hm.2.2⟩
    · simp only [Res.ok.injEq, true_and] at h
      rw [← h]
      exact Lexer.cursorMoved_refl s

theorem Res.bind_eq_ok {α β : Type} {r : Res α} {f : α → Lexer → Res β} {b : β} {s1 : Lexer}
    (h : r.bind f = Res.ok b s1) : ∃ a s0, r = Res.ok a s0 ∧ f a s0 = Res.ok b s1 := by
  cases r with
  | ok a s0 => exact ⟨a, s0, rfl, h⟩
  | error msg s0 => simp [Res.bind] at h
  | timeout => simp [Res.bind] at h

/-- A normal return of `handleCommentsU`: false without any change, or true after a
flush and a move of the cursor. -/
theorem handleCommentsU_ok (s s1 : Lexer) (b : Bool) (h : s.handleCommentsU = Res.ok b s1) :
    (b = false ∧ s1 = s) ∨ (b = true ∧ ∃ s0, s.flushed s0 ∧ s0.cursorMoved s1) := by
  unfold Lexer.handleCommentsU at h
  simp only [Nat.add_zero] at h
  split at h
  · simp only [Res.ok.injEq] at h
    exact Or.inl ⟨h.1.symm, h.2.symm⟩
  · split at h
    · obtain ⟨u, s2, h1, h2⟩ := Res.bind_eq_ok h
      simp only [Res.ok.injEq] at h2
      unfold Lexer.handleLineCommentsU at h1
      obtain ⟨u0, s0, h3, h4⟩ := Res.bind_eq_ok h1
      have hm := lineCommentLoopU_moved _ _ _ _ h4
      rw [h2.2] at hm
      exact Or.inr ⟨h2.1.symm, s0, consumeTokenBuffer_ok_flushed _ _ _ h3,
        ⟨hm.1, hm.2.1, hm.2.2⟩⟩
    · split at h
      · obtain ⟨u, s2, h1, h2⟩ := Res.bind_eq_ok h
        simp only [Res.ok.injEq] at h2
        unfold Lexer.handleMultilineCommentsU at h1
        obtain ⟨u0, s0, h3, h4⟩ := Res.bind_eq_ok h1
        have hm := multilineCommentLoopU_moved _ _ _ _ h4
        rw [h2.2] at hm
        exact Or.inr ⟨h2.1.symm, s0, consumeTokenBuffer_ok_flushed _ _ _ h3,
          ⟨hm.1, hm.2.1, hm.2.2⟩⟩
      · simp only [Res.ok.injEq] at h
        exact Or.inl ⟨h.1.symm, h.2.symm⟩

/-- A normal return of the loop of `handleWhiteSpacesU` entered with an empty
buffer: only the cursor moved, and the flag is true once it was true. -/
theorem whiteSpacesLoopU_ok (fuel : Nat) (s s1 : Lexer) (cw b : Bool)
    (hb : s.m_token_buffer = []) (h : whiteSpacesLoopU fuel s cw = Res.ok b s1) :
    s.cursorMoved s1 ∧ (cw = true → b = true) ∧ (b = false → s1 = s) := by
  induction fuel generalizing s cw with
  | zero => simp [whiteSpacesLoopU] at h
  | succ n ih =>
    rw [whiteSpacesLoopU] at h
    split at h
    · have hflush : (if (!cw) = true then s.consumeTokenBuffer else Res.ok () s) = Res.ok () s := by
        cases cw <;> simp [consumeTokenBuffer_of_empty s hb]
      rw [hflush] at h
      simp only [Res.bind] at h
      split at h
      · have key := fun hb1 => ih _ true hb1 h
        obtain ⟨m, t, _⟩ := key hb
        refine ⟨⟨m.1, m.2.1, m.2.2⟩, fun _ => t rfl, ?_⟩
        intro hf
        rw [t rfl] at hf
        exact absurd hf (by decide)
      · have key := fun hb1 => ih _ true hb1 h
        obtain ⟨m, t, _⟩ := key hb
        refine ⟨⟨m.1, m.2.1, m.2.2⟩, fun _ => t rfl, ?_⟩
        intro hf
        rw [t rfl] at hf
        exact absurd hf (by decide)
    · simp only [Res.ok.injEq] at h
      rw [← h.2]
      exact ⟨Lexer.cursorMoved_refl s, fun hc => by rw [← h.1]; exact hc, fun _ => rfl⟩

/-- A normal return of `handleStringLiteralsU`: false without any change, or true
after a flush and a closed string literal. -/
theorem handleStringLiteralsU_ok (s s1 : Lexer) (b : Bool)
    (h : s.handleStringLiteralsU = Res.ok b s1) :
    (b = false ∧ s1 = s) ∨
    (b = true ∧ ∃ s0 st, s.flushed s0 ∧ charAt s0.m_src s0.m_index = QUOTE_CHAR ∧
      parseStringLiteralU s0.m_src s0.m_index s0.m_line s0.m_offset =
        some (Token.mk TokenType.STRING st.value, st) ∧
      s1 = { s0 with m_index := st.pos, m_line := st.line, m_offset := st.offset,
                     m_tokens := s0.m_tokens ++ [Token.mk TokenType.STRING st.value] }) := by
  unfold Lexer.handleStringLiteralsU at h
  simp only at h
  split at h
  · next hq =>
    have hq0 : charAt s.m_src s.m_index = QUOTE_CHAR := by simpa using hq
    obtain ⟨u, s0, h1, h2⟩ := Res.bind_eq_ok h
    have hf := consumeTokenBuffer_ok_flushed _ _ _ h1
    obtain ⟨c1, c2, _, _⟩ := Lexer.flushed_cursor hf
    split at h2
    · simp at h2
    · next tk st hp =>
      split at h2
      · simp [Lexer.error] at h2
      · next hne =>
        simp only [Res.ok.injEq] at h2
        have htk : tk = Token.mk TokenType.STRING st.value := by
          unfold parseStringLiteralU at hp
          split at hp
          · simp at hp
          · split at hp
            · simp only [Option.some.injEq, Prod.mk.injEq] at hp
              rw [← hp.1, ← hp.2]
            · simp only [Option.some.injEq, Prod.mk.injEq] at hp
              rw [← hp.1] at hne
              exact absurd rfl hne
        rw [htk] at hp h2
        exact Or.inr ⟨h2.1.symm, s0, st, hf, by rw [c1, c2]; exact hq0, hp, h2.2.symm⟩
  · simp only [Res.ok.injEq] at h
    exact Or.inl ⟨h.1.symm, h.2.symm⟩

theorem handleAlphaNumericCharsU_ok (s s1 : Lexer) (b : Bool)
    (h : s.handleAlphaNumericCharsU = Res.ok b s1) :
    (b = false ∧ s1 = s) ∨
    (b = true ∧
      (isAlphaNumeric (charAt s.m_src s.m_index) ||
        (charAt s.m_src s.m_index == '.' && !s.m_token_buffer.isEmpty &&
          isDigit (s.m_token_buffer.getLastD STRING_TERMINATION_CHAR))) = true ∧
      s1 = { s with m_token_buffer := s.m_token_buffer ++ [charAt s.m_src s.m_index],
                    m_index := s.m_index + 1, m_offset := s.m_offset + 1 }) := by
  unfold Lexer.handleAlphaNumericCharsU at h
  simp only at h
  split at h
  · next hc =>
    simp only [Res.ok.injEq] at h
    exact Or.inr ⟨h.1.symm, hc, h.2.symm⟩
  · simp only [Res.ok.injEq] at h
    exact Or.inl ⟨h.1.symm, h.2.symm⟩

theorem handleDelimetersU_ok (s s1 : Lexer) (b : Bool) (h : s.handleDelimetersU = Res.ok b s1) :
    (b = false ∧ s1 = s) ∨
    (b = true ∧ isDelimiter (charAt s.m_src s.m_index) = true ∧
      delimiterType (charAt s.m_src s.m_index) ≠ TokenType.INVALID ∧
      s1 = { s with m_tokens := s.m_tokens ++ [Token.mk (delimiterType (charAt s.m_src s.m_index)) []],
                    m_index := s.m_index + 1 }) := by
  unfold Lexer.handleDelimetersU at h
  simp only at h
  split at h
  · next hc =>
    split at h
    · simp [Lexer.error] at h
    · next hne =>
      simp only [Res.ok.injEq] at h
      exact Or.inr ⟨h.1.symm, hc, hne, h.2.symm⟩
  · simp only [Res.ok.injEq] at h
    exact Or.inl ⟨h.1.symm, h.2.symm⟩

theorem handleOperatorsU_ok (s s1 : Lexer) (b : Bool) (h : s.handleOperatorsU = Res.ok b s1) :
    (b = false ∧ s1 = s) ∨
    (b = true ∧ ∃ p ∈ OPERATORS, operatorMatches s p.1 0 = true ∧
      s1 = { s with m_tokens := s.m_tokens ++ [Token.mk p.2 []],
                    m_index := s.m_index + p.1.length, m_offset := s.m_offset + p.1.length }) := by
  unfold Lexer.handleOperatorsU at h
  rw [operatorsLoopU_eq] at h
  split at h
  · next p hp =>
    simp only [Res.ok.injEq] at h
    have hm : operatorMatches s p.1 0 = true := by
      have := List.find?_some hp
      simpa using this
    exact Or.inr ⟨h.1.symm, p, List.mem_of_find?_eq_some hp, hm, h.2.symm⟩
  · simp only [Res.ok.injEq] at h
    exact Or.inl ⟨h.1.symm, h.2.symm⟩

/-- One iteration of the scan loop that returns normally has one of the five
effects of `ScanEffectU`. -/
theorem scanStepU_effect (s s1 : Lexer) (u : Unit) (h : s.scanStepU = Res.ok u s1) :
    ScanEffectU s s1 := by
  unfold Lexer.scanStepU at h
  obtain ⟨b1, t1, h1, k1⟩ := Res.bind_eq_ok h
  rcases handleStringLiteralsU_ok _ _ _ h1 with ⟨rfl, rfl⟩ | ⟨rfl, s0, st, hf, hq, hp, rfl⟩
  swap
  · simp only [if_true, Res.ok.injEq, true_and] at k1
    rw [← k1]
    exact ScanEffectU.stringLiteral s0 st hf hq hp
  simp only [Bool.false_eq_true, if_false] at k1
  obtain ⟨b2, t2, h2, k2⟩ := Res.bind_eq_ok k1
  rcases handleCommentsU_ok _ _ _ h2 with ⟨rfl, rfl⟩ | ⟨rfl, s0, hf, hm⟩
  swap
  · simp only [if_true, Res.ok.injEq, true_and] at k2
    rw [← k2]
    exact ScanEffectU.skipped s0 t2 hf hm
  simp only [Bool.false_eq_true, if_false] at k2
  obtain ⟨b3, t3, h3, k3⟩ := Res.bind_eq_ok k2
  rcases handleAlphaNumericCharsU_ok _ _ _ h3 with ⟨rfl, rfl⟩ | ⟨rfl, hc, rfl⟩
  swap
  · simp only [if_true, Res.ok.injEq, true_and] at k3
    rw [← k3]
    exact ScanEffectU.accumulated hc
  simp only [Bool.false_eq_true, if_false] at k3
  obtain ⟨u4, t4, h4, k4⟩ := Res.bind_eq_ok k3
  have hf := consumeTokenBuffer_ok_flushed _ _ _ h4
  obtain ⟨b5, t5, h5, k5⟩ := Res.bind_eq_ok k4
  obtain ⟨hm, _, hfalse⟩ := whiteSpacesLoopU_ok _ _ _ _ _ (Lexer.flushed_buffer hf) h5
  cases b5 with
  | true =>
    simp only [if_true, Res.ok.injEq, true_and] at k5
    rw [← k5]
    exact ScanEffectU.skipped t4 t5 hf hm
  | false =>
    have ht5 := hfalse rfl
    subst ht5
    simp only [Bool.false_eq_true, if_false] at k5
    obtain ⟨b6, t6, h6, k6⟩ := Res.bind_eq_ok k5
    rcases handleDelimetersU_ok _ _ _ h6 with ⟨rfl, rfl⟩ | ⟨rfl, hd, hne, rfl⟩
    swap
    · simp only [if_true, Res.ok.injEq, true_and] at k6
      rw [← k6]
      exact ScanEffectU.delimiter t5 hf hd hne
    simp only [Bool.false_eq_true, if_false] at k6
    obtain ⟨b7, t7, h7, k7⟩ := Res.bind_eq_ok k6
    rcases handleOperatorsU_ok _ _ _ h7 with ⟨rfl, rfl⟩ | ⟨rfl, p, hp, hmatch, rfl⟩
    · simp [Lexer.error] at k7
    · simp only [if_true, Res.ok.injEq, true_and] at k7
      rw [← k7]
      exact ScanEffectU.operator t6 p hf hp hmatch

/-! ## Heads of the scan loop -/

theorem generateTokensU_start (self : Lexer) (src : List Char) :
    self.generateTokensU (some src) = scanLoopU (src.length + 1) (Lexer.start src) :=
  rfl

/-- A scan loop that returns has reached, without a throw, a head on the terminator
and returns the tokens collected there. -/
theorem scanLoopU_ok_steps (fuel : Nat) (s s2 : Lexer) (ts : List Token)
    (h : scanLoopU fuel s = Res.ok ts s2) :
    ∃ n, n < fuel ∧ ScanStepsU s n s2 ∧
      charAt s2.m_src s2.m_index = STRING_TERMINATION_CHAR ∧ ts = s2.m_tokens := by
  induction fuel generalizing s with
  | zero => simp [scanLoopU] at h
  | succ f ih =>
    rw [scanLoopU] at h
    split at h
    · next hc =>
      have hne : charAt s.m_src s.m_index ≠ STRING_TERMINATION_CHAR := by simpa using hc
      obtain ⟨u, s1, h1, h2⟩ := Res.bind_eq_ok h
      obtain ⟨n, hn, hs, he, ht⟩ := ih s1 h2
      exact ⟨n + 1, by omega, ScanStepsU.step s s1 s2 n hne h1 hs, he, ht⟩
    · next hc =>
      have h0 : charAt s.m_src s.m_index = STRING_TERMINATION_CHAR := by simpa using hc
      simp only [Res.ok.injEq] at h
      rw [← h.2]
      exact ⟨0, by omega, ScanStepsU.done s, h0, h.1.symm⟩

/-- A scan loop that throws has reached, without a throw, a head before the
terminator whose iteration throws. -/
theorem scanLoopU_error_steps (fuel : Nat) (s e : Lexer) (msg : String)
    (h : scanLoopU fuel s = Res.error msg e) :
    ∃ n s1, n < fuel ∧ ScanStepsU s n s1 ∧
      charAt s1.m_src s1.m_index ≠ STRING_TERMINATION_CHAR ∧ s1.scanStepU = Res.error msg e := by
  induction fuel generalizing s with
  | zero => simp [scanLoopU] at h
  | succ f ih =>
    rw [scanLoopU] at h
    split at h
    · next hc =>
      have hne : charAt s.m_src s.m_index ≠ STRING_TERMINATION_CHAR := by simpa using hc
      cases hstep : s.scanStepU with
      | ok u s1 =>
        rw [hstep] at h
        simp only [Res.bind] at h
        obtain ⟨n, s2, hn, hs, he, ht⟩ := ih s1 h
        exact ⟨n + 1, s2, by omega, ScanStepsU.step s s1 s2 n hne hstep hs, he, ht⟩
      | error m e1 =>
        rw [hstep] at h
        simp only [Res.bind, Res.error.injEq] at h
        rw [h.1, h.2] at hstep
        exact ⟨0, s, by omega, ScanStepsU.done s, hne, hstep⟩
      | timeout =>
        rw [hstep] at h
        simp [Res.bind] at h
    · simp at h

/-- The scan loop resumes from any head it reaches. -/
theorem scanLoopU_of_steps {s s2 : Lexer} {n : Nat} (h : ScanStepsU s n s2) (f : Nat) :
    scanLoopU (n + f) s = scanLoopU f s2 := by
  induction h with
  | done s => simp
  | step s s1 s2 n hne hstep _ ih =>
    have hn : n + 1 + f = (n + f) + 1 := by omega
    rw [hn, scanLoopU]
    simp only [bne_iff_ne, ne_eq, hne, not_false_eq_true, if_true]
    rw [hstep]
    simp only [Res.bind]
    exact ih

theorem ScanStepsU.snoc {s s1 s2 : Lexer} {n : Nat} (h : ScanStepsU s n s1)
    (hne : charAt s1.m_src s1.m_index ≠ STRING_TERMINATION_CHAR)
    (hstep : s1.scanStepU = Res.ok () s2) : ScanStepsU s (n + 1) s2 := by
  induction h with
  | done s => exact ScanStepsU.step s s2 s2 0 hne hstep (ScanStepsU.done s2)
  | step s t s1 n hne1 hstep1 _ ih =>
    exact ScanStepsU.step s t s2 (n + 1) hne1 hstep1 (ih hne hstep)

/-- A property kept by every iteration holds at every head that is reached. -/
theorem ScanStepsU.invariant (I : Lexer → Prop)
    (hstep : ∀ s s1, I s → charAt s.m_src s.m_index ≠ STRING_TERMINATION_CHAR →
      s.scanStepU = Res.ok () s1 → I s1)
    {s s2 : Lexer} {n : Nat} (h : ScanStepsU s n s2) (hs : I s) : I s2 := by
  induction h with
  | done s => exact hs
  | step s s1 s2 n hne hst _ ih => exact ih (hstep s s1 hs hne hst)

theorem Lexer.start_inBounds (src : List Char) : (Lexer.start src).inBounds :=
  ⟨Nat.zero_le _, le_refl _, le_refl _⟩

/-- Every head that is reached is within bounds, and each iteration has moved the
index forward by at least one. -/
theorem ScanStepsU.advances {s s2 : Lexer} {n : Nat} (h : ScanStepsU s n s2) (hs : s.inBounds) :
    s.advancesTo s2 ∧ s.m_index + n ≤ s2.m_index := by
  induction h with
  | done s => exact ⟨Lexer.advancesTo_refl s hs, le_refl _⟩
  | step s s1 s2 n hne hst _ ih =>
    have ht := scanStepU_total s hs
    rw [hst] at ht
    obtain ⟨a1, p1⟩ := ht
    obtain ⟨a2, p2⟩ := ih a1.2.2
    exact ⟨Lexer.advancesTo_trans a1 a2, by omega⟩

/-! ## Properties of every returned token -/

theorem Lexer.flushed_tokens (P : Token → Prop)
    (hbuf : ∀ b, b ≠ [] → (bufferToToken b).m_type ≠ TokenType.INVALID → P (bufferToToken b))
    {s s0 : Lexer} (hf : s.flushed s0) (hs : ∀ t ∈ s.m_tokens, P t) :
    ∀ t ∈ s0.m_tokens, P t := by
  rcases hf with ⟨_, rfl⟩ | ⟨hne, hi, rfl⟩
  · exact hs
  · intro t ht
    rcases List.mem_append.mp ht with h | h
    · exact hs t h
    · have : t = bufferToToken s.m_token_buffer := by simpa using h
      rw [this]
      exact hbuf _ hne hi

theorem tokens_push (P : Token → Prop) {ts : List Token} {t : Token} (hs : ∀ u ∈ ts, P u)
    (ht : P t) : ∀ u ∈ ts ++ [t], P u := by
  intro u hu
  rcases List.mem_append.mp hu with h | h
  · exact hs u h
  · have : u = t := by simpa using h
    rw [this]
    exact ht

/-- A property that holds of every token a handler can append holds of every token
after an iteration when it held before. -/
theorem ScanEffectU.tokens (P : Token → Prop)
    (hbuf : ∀ b, b ≠ [] → (bufferToToken b).m_type ≠ TokenType.INVALID → P (bufferToToken b))
    (hstr : ∀ (src : List Char) (pos line offset : Nat) (st : StrState),
      charAt src pos = QUOTE_CHAR →
      parseStringLiteralU src pos line offset = some (Token.mk TokenType.STRING st.value, st) →
      P (Token.mk TokenType.STRING st.value))
    (hdel : ∀ c, isDelimiter c = true → delimiterType c ≠ TokenType.INVALID →
      P (Token.mk (delimiterType c) []))
    (hop : ∀ p ∈ OPERATORS, P (Token.mk p.2 []))
    {s s1 : Lexer} (he : ScanEffectU s s1) (hs : ∀ t ∈ s.m_tokens, P t) :
    ∀ t ∈ s1.m_tokens, P t := by
  cases he with
  | stringLiteral s0 st hf hq hp =>
    exact tokens_push P (Lexer.flushed_tokens P hbuf hf hs) (hstr _ _ _ _ st hq hp)
  | skipped s0 s1 hf hm =>
    rw [hm.2.2]
    exact Lexer.flushed_tokens P hbuf hf hs
  | accumulated hc => exact hs
  | delimiter s0 hf hd hne =>
    exact tokens_push P (Lexer.flushed_tokens P hbuf hf hs) (hdel _ hd hne)
  | operator s0 p hf hp hm =>
    exact tokens_push P (Lexer.flushed_tokens P hbuf hf hs) (hop p hp)

/-- A property that holds of every token a handler can append holds of every token
that `generateTokensU` returns. -/
theorem generateTokensU_tokens (P : Token → Prop)
    (hbuf : ∀ b, b ≠ [] → (bufferToToken b).m_type ≠ TokenType.INVALID → P (bufferToToken b))
    (hstr : ∀ (src : List Char) (pos line offset : Nat) (st : StrState),
      charAt src pos = QUOTE_CHAR →
      parseStringLiteralU src pos line offset = some (Token.mk TokenType.STRING st.value, st) →
      P (Token.mk TokenType.STRING st.value))
    (hdel : ∀ c, isDelimiter c = true → delimiterType c ≠ TokenType.INVALID →
      P (Token.mk (delimiterType c) []))
    (hop : ∀ p ∈ OPERATORS, P (Token.mk p.2 []))
    (self : Lexer) (src : Option (List Char)) (ts : List Token)
    (h : (self.generateTokensU src).outcome = Outcome.tokens ts) : ∀ t ∈ ts, P t := by
  cases hg : self.generateTokensU src with
  | ok ts1 s1 =>
    rw [hg] at h
    have hts : ts1 = ts := by simpa [Res.outcome] using h
    subst hts
    cases src with
    | none =>
      have : ts1 = [] := by
        simp only [Lexer.generateTokensU, Res.ok.injEq] at hg
        exact hg.1.symm
      rw [this]
      intro t ht
      simp at ht
    | some l =>
      rw [generateTokensU_start] at hg
      obtain ⟨n, _, hsteps, _, hts⟩ := scanLoopU_ok_steps _ _ _ _ hg
      rw [hts]
      refine ScanStepsU.invariant (fun s => ∀ t ∈ s.m_tokens, P t) ?_ hsteps ?_
      · intro s s1 hs _ hst
        exact ScanEffectU.tokens P hbuf hstr hdel hop (scanStepU_effect s s1 () hst) hs
      · intro t ht
        simp [Lexer.start] at ht
  | error msg s1 =>
    rw [hg] at h
    simp [Res.outcome] at h
  | timeout =>
    rw [hg] at h
    simp [Res.outcome] at h

/-- The four results of `bufferToToken`: a keyword of the table with empty text, a
NUMBER or an IDENTIFIER carrying a validated buffer, or INVALID. -/
theorem bufferToToken_cases (b : List Char) :
    (∃ ty, (b, ty) ∈ KEYWORDS ∧ bufferToToken b = Token.mk ty []) ∨
    (b ∉ KEYWORDS.map Prod.fst ∧ (∃ c cs, b = c :: cs ∧ isDigit c = true) ∧ validNumberText b ∧
      bufferToToken b = Token.mk TokenType.NUMBER b) ∨
    (b ∉ KEYWORDS.map Prod.fst ∧ (∃ c cs, b = c :: cs ∧ isAlpha c = true) ∧
      validIdentifierText b ∧ bufferToToken b = Token.mk TokenType.IDENTIFIER b) ∨
    bufferToToken b = Token.mk TokenType.INVALID b := by
  cases b with
  | nil => exact Or.inr (Or.inr (Or.inr rfl))
  | cons c cs =>
    cases hl : KEYWORDS.lookup (c :: cs) with
    | some ty =>
      refine Or.inl ⟨ty, lookup_some_mem KEYWORDS hl, ?_⟩
      simp [bufferToToken, hl]
    | none =>
      have hk := lookup_none_not_mem KEYWORDS hl
      by_cases hd : isDigit c = true
      · by_cases hn : numberLoop (c :: cs) false = true
        · refine Or.inr (Or.inl ⟨hk, ⟨c, cs, rfl, hd⟩, (numberLoop_false_iff _).mp hn, ?_⟩)
          simp [bufferToToken, hl, hd, hn]
        · refine Or.inr (Or.inr (Or.inr ?_))
          simp [bufferToToken, hl, hd, hn]
      · by_cases ha : isAlpha c = true
        · by_cases hn : identifierLoop (c :: cs) = true
          · refine Or.inr (Or.inr (Or.inl ⟨hk, ⟨c, cs, rfl, ha⟩, (identifierLoop_iff _).mp hn, ?_⟩))
            simp [bufferToToken, hl, hd, ha, hn]
          · refine Or.inr (Or.inr (Or.inr ?_))
            simp [bufferToToken, hl, hd, ha, hn]
        · refine Or.inr (Or.inr (Or.inr ?_))
          simp [bufferToToken, hl, hd, ha]

theorem KEYWORDS_not_literal :
    ∀ p ∈ KEYWORDS, p.2 ≠ TokenType.IDENTIFIER ∧ p.2 ≠ TokenType.NUMBER ∧ p.2 ≠ TokenType.STRING := by
  decide

theorem OPERATORS_not_literal :
    ∀ p ∈ OPERATORS, p.2 ≠ TokenType.IDENTIFIER ∧ p.2 ≠ TokenType.NUMBER ∧ p.2 ≠ TokenType.STRING := by
  decide

theorem delimiterType_mem (c : Char) :
    delimiterType c = TokenType.INVALID ∨ delimiterType c ∈ DELIMITER_TYPES := by
  unfold delimiterType
  repeat' split
  all_goals first
    | exact Or.inl rfl
    | exact Or.inr (by decide)

theorem DELIMITER_TYPES_not_literal :
    ∀ ty ∈ DELIMITER_TYPES,
      ty ≠ TokenType.IDENTIFIER ∧ ty ≠ TokenType.NUMBER ∧ ty ≠ TokenType.STRING := by
  decide

theorem delimiterType_not_literal (c : Char) (h : delimiterType c ≠ TokenType.INVALID) :
    delimiterType c ≠ TokenType.IDENTIFIER ∧ delimiterType c ≠ TokenType.NUMBER ∧
      delimiterType c ≠ TokenType.STRING := by
  rcases delimiterType_mem c with h0 | h0
  · exact absurd h0 h
  · exact DELIMITER_TYPES_not_literal _ h0

/-! ## Token texts are slices of the source -/

theorem take_succ_charAt (src : List Char) (i : Nat)
    (h : charAt src i ≠ STRING_TERMINATION_CHAR) :
    src.take (i + 1) = src.take i ++ [charAt src i] := by
  have hlt := lt_length_of_charAt_ne src i h
  rw [List.take_succ]
  congr 1
  simp [charAt, List.getD_eq_getElem?_getD, List.getElem?_eq_getElem hlt]

theorem suffix_take_push {src v : List Char} {i : Nat} (hv : v <:+ src.take i)
    (h : charAt src i ≠ STRING_TERMINATION_CHAR) : v ++ [charAt src i] <:+ src.take (i + 1) := by
  obtain ⟨u, hu⟩ := hv
  refine ⟨u, ?_⟩
  rw [take_succ_charAt src i h, ← hu, List.append_assoc]

theorem infix_of_suffix_take {src v : List Char} {i : Nat} (hv : v <:+ src.take i) :
    v <:+: src := by
  obtain ⟨u, hu⟩ := hv
  refine ⟨u, src.drop i, ?_⟩
  rw [hu, List.take_append_drop]

/-- The text built by the loop of `parseStringLiteralU` stays a suffix of the source
read so far. -/
theorem parseStringLoopU_slice (src : List Char) (fuel : Nat) (st st1 : StrState)
    (h : parseStringLoopU src fuel st = some st1) (hv : st.value <:+ src.take st.pos) :
    st1.value <:+ src.take st1.pos := by
  induction fuel generalizing st with
  | zero => simp [parseStringLoopU] at h
  | succ n ih =>
    rw [parseStringLoopU] at h
    split at h
    · next hc =>
      have hne : charAt src st.pos ≠ STRING_TERMINATION_CHAR := by
        intro h0
        simp [h0] at hc
      have h1 := suffix_take_push hv hne
      split at h
      · next hesc =>
        have h1ne : charAt src (st.pos + 1) ≠ STRING_TERMINATION_CHAR := by
          intro h0
          simp [h0] at hesc
        exact ih _ h (suffix_take_push h1 h1ne)
      · split at h
        · exact ih _ h h1
        · exact ih _ h h1
    · simp only [Option.some.injEq] at h
      rw [← h]
      exact hv

/-- The text of the token of `parseStringLiteralU`, called on a quote, is the source
from that quote up to the returned position. -/
theorem parseStringLiteralU_slice (src : List Char) (pos line offset : Nat) (tk : Token)
    (st : StrState) (hq : charAt src pos = QUOTE_CHAR)
    (h : parseStringLiteralU src pos line offset = some (tk, st)) :
    tk.m_value <:+ src.take st.pos ∧ tk.m_value ≠ [] := by
  have hqn : QUOTE_CHAR ≠ STRING_TERMINATION_CHAR := by decide
  have h0 : [QUOTE_CHAR] <:+ src.take (pos + 1) := by
    have := suffix_take_push (List.nil_suffix) (by rw [hq]; exact hqn)
    rw [hq] at this
    simpa using this
  unfold parseStringLiteralU at h
  split at h
  · simp at h
  · next st0 hl =>
    have hs := parseStringLoopU_slice src _ _ st0 hl h0
    have hne0 : st0.value ≠ [] := by
      have hlen : ∀ (fuel : Nat) (a b : StrState), parseStringLoopU src fuel a = some b →
          a.value ≠ [] → b.value ≠ [] := by
        intro fuel
        induction fuel with
        | zero => intro a b hab; simp [parseStringLoopU] at hab
        | succ n ih =>
          intro a b hab ha
          rw [parseStringLoopU] at hab
          split at hab
          · split at hab
            · exact ih _ _ hab (by simp)
            · split at hab
              · exact ih _ _ hab (by simp)
              · exact ih _ _ hab (by simp)
          · simp only [Option.some.injEq] at hab
            rw [← hab]
            exact ha
      exact hlen _ _ _ hl (by simp)
    split at h
    · next hc =>
      have hc0 : charAt src st0.pos = QUOTE_CHAR := by simpa using hc
      simp only [Option.some.injEq, Prod.mk.injEq] at h
      rw [← h.1, ← h.2]
      refine ⟨?_, by simp⟩
      have := suffix_take_push hs (by rw [hc0]; exact hqn)
      rw [hc0] at this
      exact this
    · simp only [Option.some.injEq, Prod.mk.injEq] at h
      rw [← h.1, ← h.2]
      exact ⟨hs, hne0⟩

theorem bufferToToken_value (b : List Char) :
    (bufferToToken b).m_value = [] ∨ (bufferToToken b).m_value = b := by
  rcases bufferToToken_cases b with ⟨ty, _, he⟩ | ⟨_, _, _, he⟩ | ⟨_, _, _, he⟩ | he
  · rw [he]
    exact Or.inl rfl
  · rw [he]
    exact Or.inr rfl
  · rw [he]
    exact Or.inr rfl
  · rw [he]
    exact Or.inr rfl

/-- At every head of the scan loop the buffer is the source just before the cursor
and every token text is a contiguous part of the source. -/
theorem ScanEffectU.keeps_slices {s s1 : Lexer} (he : ScanEffectU s s1)
    (hb : s.m_token_buffer <:+ s.m_src.take s.m_index)
    (ht : ∀ t ∈ s.m_tokens, t.m_value <:+: s.m_src) :
    s1.m_src = s.m_src ∧ s1.m_token_buffer <:+ s1.m_src.take s1.m_index ∧
      ∀ t ∈ s1.m_tokens, t.m_value <:+: s1.m_src := by
  have flush : ∀ s0 : Lexer, s.flushed s0 →
      s0.m_src = s.m_src ∧ s0.m_token_buffer = [] ∧ ∀ t ∈ s0.m_tokens, t.m_value <:+: s.m_src := by
    intro s0 hf
    refine ⟨(Lexer.flushed_cursor hf).1, Lexer.flushed_buffer hf, ?_⟩
    rcases hf with ⟨_, rfl⟩ | ⟨_, _, rfl⟩
    · exact ht
    · refine tokens_push (fun t => t.m_value <:+: s.m_src) ht ?_
      rcases bufferToToken_value s.m_token_buffer with h | h
      · show (bufferToToken s.m_token_buffer).m_value <:+: s.m_src
        rw [h]
        exact ⟨[], s.m_src, rfl⟩
      · show (bufferToToken s.m_token_buffer).m_value <:+: s.m_src
        rw [h]
        exact infix_of_suffix_take hb
  cases he with
  | stringLiteral s0 st hf hq hp =>
    obtain ⟨f1, f2, f3⟩ := flush s0 hf
    refine ⟨f1, ?_, ?_⟩
    · show s0.m_token_buffer <:+ _
      rw [f2]
      exact List.nil_suffix
    · show ∀ t ∈ s0.m_tokens ++ [_], t.m_value <:+: s0.m_src
      rw [f1]
      refine tokens_push (fun t => t.m_value <:+: s.m_src) f3 ?_
      have := (parseStringLiteralU_slice _ _ _ _ _ st hq hp).1
      rw [f1] at this
      exact infix_of_suffix_take this
  | skipped s0 s1 hf hm =>
    obtain ⟨f1, f2, f3⟩ := flush s0 hf
    refine ⟨hm.1.trans f1, ?_, ?_⟩
    · rw [hm.2.1, f2]
      exact List.nil_suffix
    · rw [hm.2.2, hm.1, f1]
      exact f3
  | accumulated hc =>
    refine ⟨rfl, ?_, ht⟩
    have hne : charAt s.m_src s.m_index ≠ STRING_TERMINATION_CHAR := by
      intro h0
      rw [h0] at hc
      have ha : isAlphaNumeric STRING_TERMINATION_CHAR = false := by decide
      have hd : (STRING_TERMINATION_CHAR == '.') = false := by decide
      simp [ha, hd] at hc
    exact suffix_take_push hb hne
  | delimiter s0 hf hd hne =>
    obtain ⟨f1, f2, f3⟩ := flush s0 hf
    refine ⟨f1, ?_, ?_⟩
    · show s0.m_token_buffer <:+ _
      rw [f2]
      exact List.nil_suffix
    · show ∀ t ∈ s0.m_tokens ++ [_], t.m_value <:+: s0.m_src
      rw [f1]
      exact tokens_push (fun t => t.m_value <:+: s.m_src) f3 ⟨[], s.m_src, rfl⟩
  | operator s0 p hf hp hm =>
    obtain ⟨f1, f2, f3⟩ := flush s0 hf
    refine ⟨f1, ?_, ?_⟩
    · show s0.m_token_buffer <:+ _
      rw [f2]
      exact List.nil_suffix
    · show ∀ t ∈ s0.m_tokens ++ [_], t.m_value <:+: s0.m_src
      rw [f1]
      exact tokens_push (fun t => t.m_value <:+: s.m_src) f3 ⟨[], s.m_src, rfl⟩

theorem ScanStepsU.slices {src : List Char} {s : Lexer} {n : Nat}
    (h : ScanStepsU (Lexer.start src) n s) :
    s.m_src = src ∧ s.m_token_buffer <:+ src.take s.m_index ∧
      ∀ t ∈ s.m_tokens, t.m_value <:+: src := by
  refine ScanStepsU.invariant
    (fun s => s.m_src = src ∧ s.m_token_buffer <:+ src.take s.m_index ∧
      ∀ t ∈ s.m_tokens, t.m_value <:+: src) ?_ h ?_
  · intro s s1 ⟨h1, h2, h3⟩ _ hst
    have := ScanEffectU.keeps_slices (scanStepU_effect s s1 () hst) (by rw [h1]; exact h2)
      (by rw [h1]; exact h3)
    rw [h1] at this
    obtain ⟨g1, g2, g3⟩ := this
    rw [g1] at g2 g3
    exact ⟨g1, g2, g3⟩
  · refine ⟨rfl, ?_, ?_⟩
    · exact List.nil_suffix
    · intro t ht
      simp [Lexer.start] at ht

/-! ## The accumulation buffer -/

theorem isDigit_false_of_isAlpha {c : Char} (h : isAlpha c = true) : isDigit c = false := by
  have key : ∀ n : Nat, ((65 ≤ n ∧ n ≤ 90) ∨ (97 ≤ n ∧ n ≤ 122) ∨ n = 95) → ¬ (48 ≤ n ∧ n ≤ 57) := by
    intro n hn
    omega
  by_contra hd
  have hd1 : isDigit c = true := by simpa using hd
  have e1 : ('0' ≤ c ∧ c ≤ '9') := by simpa [isDigit] using hd1
  have e2 : (('A' ≤ c ∧ c ≤ 'Z') ∨ ('a' ≤ c ∧ c ≤ 'z')) ∨ c = '_' := by simpa [isAlpha] using h
  have c0 : (48 : Nat) ≤ c.toNat ∧ c.toNat ≤ 57 := by
    have h1 := e1.1
    have h2 := e1.2
    rw [Char.le_def] at h1 h2
    exact ⟨h1, h2⟩
  apply key c.toNat _ c0
  rcases e2 with (⟨h1, h2⟩ | ⟨h1, h2⟩) | h1
  · rw [Char.le_def] at h1 h2
    exact Or.inl ⟨h1, h2⟩
  · rw [Char.le_def] at h1 h2
    exact Or.inr (Or.inl ⟨h1, h2⟩)
  · rw [h1]
    exact Or.inr (Or.inr rfl)

/-- Every buffered character is a letter, a digit, an underscore or a period. -/
theorem ScanEffectU.keeps_buffer_chars {s s1 : Lexer} (he : ScanEffectU s s1)
    (hb : ∀ c ∈ s.m_token_buffer, isAlphaNumeric c = true ∨ c = '.') :
    ∀ c ∈ s1.m_token_buffer, isAlphaNumeric c = true ∨ c = '.' := by
  have empty : ∀ t : Lexer, t.m_token_buffer = [] →
      ∀ c ∈ t.m_token_buffer, isAlphaNumeric c = true ∨ c = '.' := by
    intro t ht c hc
    rw [ht] at hc
    simp at hc
  cases he with
  | stringLiteral s0 st hf hq hp =>
    have h0 : s0.m_token_buffer = [] := Lexer.flushed_buffer hf
    exact empty _ h0
  | skipped s0 s1 hf hm => exact empty _ (hm.2.1.trans (Lexer.flushed_buffer hf))
  | accumulated hc =>
    intro c hmem
    rcases List.mem_append.mp hmem with h | h
    · exact hb c h
    · have hcc : c = charAt s.m_src s.m_index := by simpa using h
      rw [hcc]
      by_cases ha : isAlphaNumeric (charAt s.m_src s.m_index) = true
      · exact Or.inl ha
      · have ha' : isAlphaNumeric (charAt s.m_src s.m_index) = false := by simpa using ha
        simp only [ha', Bool.false_or, Bool.and_eq_true, beq_iff_eq] at hc
        exact Or.inr hc.1.1
  | delimiter s0 hf hd hne =>
    have h0 : s0.m_token_buffer = [] := Lexer.flushed_buffer hf
    exact empty _ h0
  | operator s0 p hf hp hm =>
    have h0 : s0.m_token_buffer = [] := Lexer.flushed_buffer hf
    exact empty _ h0

theorem ScanStepsU.buffer_chars {src : List Char} {s : Lexer} {n : Nat}
    (h : ScanStepsU (Lexer.start src) n s) :
    ∀ c ∈ s.m_token_buffer, isAlphaNumeric c = true ∨ c = '.' := by
  refine ScanStepsU.invariant (fun s => ∀ c ∈ s.m_token_buffer, isAlphaNumeric c = true ∨ c = '.')
    ?_ h ?_
  · intro s s1 hs _ hst
    exact ScanEffectU.keeps_buffer_chars (scanStepU_effect s s1 () hst) hs
  · intro c hc
    simp [Lexer.start] at hc

/-- At every head of the scan loop reached in the scan of any input,
a buffer whose first character is a letter or an underscore and which holds no
period is flushed by `consumeTokenBuffer` into a keyword or IDENTIFIER token,
without a throw. -/
theorem identifier_buffer_flush_of_no_period (src : List Char) (n : Nat) (s : Lexer)
    (hs : ScanStepsU (Lexer.start src) n s) (c : Char) (cs : List Char)
    (hb : s.m_token_buffer = c :: cs) (hc : isAlpha c = true) (hdot : '.' ∉ cs) :
    ∃ tk, s.consumeTokenBuffer =
        Res.ok () { s with m_tokens := s.m_tokens ++ [tk], m_token_buffer := [] } ∧
      (tk.m_type = TokenType.IDENTIFIER ∨ tk.m_type ∈ KEYWORDS.map Prod.snd) := by
  have hchars := ScanStepsU.buffer_chars hs
  rw [hb] at hchars
  have hvalid : validIdentifierText (c :: cs) := by
    intro d hd
    rcases List.mem_cons.mp hd with h | h
    · rw [h]
      simp [isAlphaNumeric, hc]
    · rcases hchars d hd with h1 | h1
      · exact h1
      · rw [h1] at h
        exact absurd h hdot
  have hloop := (identifierLoop_iff _).mpr hvalid
  have hdig := isDigit_false_of_isAlpha hc
  cases hl : KEYWORDS.lookup (c :: cs) with
  | some ty =>
    refine ⟨Token.mk ty [], ?_, Or.inr ?_⟩
    · have hk : ty ≠ TokenType.INVALID := by
        have hall : ∀ p ∈ KEYWORDS, p.2 ≠ TokenType.INVALID := by decide
        exact hall _ (lookup_some_mem KEYWORDS hl)
      simp [Lexer.consumeTokenBuffer, hb, bufferToToken, hl, hk]
    · exact List.mem_map_of_mem Prod.snd (lookup_some_mem KEYWORDS hl)
  | none =>
    refine ⟨Token.mk TokenType.IDENTIFIER (c :: cs), ?_, Or.inl rfl⟩
    simp [Lexer.consumeTokenBuffer, hb, bufferToToken, hl, hdig, hc, hloop]

/-! ## The terminator -/

theorem remainingInput_of_nul_free (src : List Char) (h : STRING_TERMINATION_CHAR ∉ src) :
    remainingInput src 0 = src := by
  unfold remainingInput
  rw [List.drop_zero, List.takeWhile_eq_self_iff]
  intro c hc
  have : c ≠ STRING_TERMINATION_CHAR := fun h0 => h (h0 ▸ hc)
  simpa using this

theorem terminatorPosition_of_nul_free (src : List Char) (h : STRING_TERMINATION_CHAR ∉ src) :
    terminatorPosition src = src.length := by
  unfold terminatorPosition
  rw [remainingInput_of_nul_free src h]

/-! ## Exact positions -/

theorem trueLine_succ (src : List Char) (i : Nat) (h : charAt src i ≠ STRING_TERMINATION_CHAR) :
    trueLine src (i + 1) =
      if charAt src i = NEW_LINE_CHAR then trueLine src i + 1 else trueLine src i := by
  unfold trueLine
  rw [take_succ_charAt src i h, List.count_append]
  by_cases hc : charAt src i = NEW_LINE_CHAR
  · simp [hc]
    omega
  · have hne : (charAt src i == NEW_LINE_CHAR) = false := by simpa using hc
    simp [hc, List.count_cons, hne]

theorem trueColumn_succ (src : List Char) (i : Nat) (h : charAt src i ≠ STRING_TERMINATION_CHAR) :
    trueColumn src (i + 1) =
      if charAt src i = NEW_LINE_CHAR then 1 else trueColumn src i + 1 := by
  unfold trueColumn
  rw [take_succ_charAt src i h, List.reverse_append, List.reverse_singleton, List.singleton_append]
  by_cases hc : charAt src i = NEW_LINE_CHAR
  · simp [hc, List.takeWhile_cons]
  · simp [hc, List.takeWhile_cons]
    omega

/-- Stepping over one character that is not a newline keeps the counters exact when
the column is advanced by one. -/
theorem positionExact_step (s : Lexer) (h : s.positionExact)
    (hn : charAt s.m_src s.m_index ≠ STRING_TERMINATION_CHAR)
    (hl : charAt s.m_src s.m_index ≠ NEW_LINE_CHAR) (t : Lexer) (h1 : t.m_src = s.m_src)
    (h2 : t.m_index = s.m_index + 1) (h3 : t.m_line = s.m_line) (h4 : t.m_offset = s.m_offset + 1) :
    t.positionExact := by
  unfold Lexer.positionExact
  rw [h1, h2, h3, h4, trueLine_succ _ _ hn, trueColumn_succ _ _ hn, if_neg hl, if_neg hl]
  exact ⟨h.1, by rw [h.2]⟩

/-- Stepping over a newline keeps the counters exact when the line is advanced by
one and the column reset to 1. -/
theorem positionExact_newline (s : Lexer) (h : s.positionExact)
    (hl : charAt s.m_src s.m_index = NEW_LINE_CHAR) (t : Lexer) (h1 : t.m_src = s.m_src)
    (h2 : t.m_index = s.m_index + 1) (h3 : t.m_line = s.m_line + 1) (h4 : t.m_offset = 1) :
    t.positionExact := by
  have hn : charAt s.m_src s.m_index ≠ STRING_TERMINATION_CHAR := by
    rw [hl]
    decide
  unfold Lexer.positionExact
  rw [h1, h2, h3, h4, trueLine_succ _ _ hn, trueColumn_succ _ _ hn, if_pos hl, if_pos hl]
  exact ⟨by rw [h.1], rfl⟩

theorem lineCommentLoopU_exact (fuel : Nat) (s : Lexer) (h : s.positionExact) :
    (lineCommentLoopU fuel s).Returns (fun _ s1 => s1.positionExact) := by
  induction fuel generalizing s with
  | zero => trivial
  | succ n ih =>
    unfold lineCommentLoopU
    split
    · next hc =>
      simp only [Bool.and_eq_true, bne_iff_ne, ne_eq] at hc
      exact ih _ (positionExact_step s h hc.1 hc.2 _ rfl rfl rfl rfl)
    · exact h

theorem multilineCommentLoopU_exact (fuel : Nat) (s : Lexer) (h : s.positionExact) :
    (multilineCommentLoopU fuel s).Returns (fun _ s1 => s1.positionExact) := by
  induction fuel generalizing s with
  | zero => trivial
  | succ n ih =>
    unfold multilineCommentLoopU
    split
    · next hc =>
      have hn : charAt s.m_src s.m_index ≠ STRING_TERMINATION_CHAR := by simpa using hc
      simp only [Nat.add_zero]
      split
      · next hclose =>
        simp only [Bool.and_eq_true, beq_iff_eq] at hclose
        have hstar : charAt s.m_src s.m_index ≠ NEW_LINE_CHAR := by
          rw [hclose.1]
          decide
        have e1 := positionExact_step s h hn hstar
          { s with m_index := s.m_index + 1, m_offset := s.m_offset + 1 } rfl rfl rfl rfl
        exact positionExact_step _ e1 (by simp only; rw [hclose.2]; decide)
          (by simp only; rw [hclose.2]; decide) _ rfl rfl rfl rfl
      · split
        · next hnl =>
          have hnl1 : charAt s.m_src s.m_index = NEW_LINE_CHAR := by simpa using hnl
          exact ih _ (positionExact_newline s h hnl1 _ rfl rfl rfl rfl)
        · next hnl =>
          have hnl1 : charAt s.m_src s.m_index ≠ NEW_LINE_CHAR := by simpa using hnl
          exact ih _ (positionExact_step s h hn hnl1 _ rfl rfl rfl rfl)
    · exact h

theorem consumeTokenBuffer_exact (s : Lexer) (h : s.positionExact) :
    s.consumeTokenBuffer.Returns (fun _ s1 => s1.positionExact) := by
  unfold Lexer.consumeTokenBuffer
  split
  · simp only
    split
    · trivial
    · exact h
  · exact h

theorem handleCommentsU_exact (s : Lexer) (h : s.positionExact) :
    s.handleCommentsU.Returns (fun _ s1 => s1.positionExact) := by
  -- past the two characters of a comment opener the counters are exact
  have opened : ∀ c : Char, c ≠ STRING_TERMINATION_CHAR → c ≠ NEW_LINE_CHAR →
      charAt s.m_src s.m_index = '/' → charAt s.m_src (s.m_index + 1) = c →
      ∀ s1 : Lexer, s1.positionExact → s1.m_src = s.m_src → s1.m_index = s.m_index →
        Lexer.positionExact { s1 with m_index := s1.m_index + 2, m_offset := s1.m_offset + 2 } := by
    intro c hc1 hc2 h0 h1 s1 hs1 e1 e2
    have a1 := positionExact_step s1 hs1 (by rw [e1, e2, h0]; decide) (by rw [e1, e2, h0]; decide)
      { s1 with m_index := s1.m_index + 1, m_offset := s1.m_offset + 1 } rfl rfl rfl rfl
    exact positionExact_step _ a1 (by simp only; rw [e1, e2, h1]; exact hc1)
      (by simp only; rw [e1, e2, h1]; exact hc2) _ rfl rfl rfl rfl
  have flush : s.consumeTokenBuffer.Returns
      (fun _ s1 => s1.positionExact ∧ s1.m_src = s.m_src ∧ s1.m_index = s.m_index) := by
    cases hcb : s.consumeTokenBuffer with
    | ok u s0 =>
      have hf := Lexer.flushed_cursor (consumeTokenBuffer_ok_flushed _ _ _ hcb)
      have he := consumeTokenBuffer_exact s h
      rw [hcb] at he
      exact ⟨he, hf.1, hf.2.1⟩
    | error msg e => trivial
    | timeout => trivial
  unfold Lexer.handleCommentsU
  simp only [Nat.add_zero]
  split
  · exact h
  · next hc0 =>
    have h0 : charAt s.m_src s.m_index = '/' := by simpa using hc0
    split
    · next hc1 =>
      have h1 : charAt s.m_src (s.m_index + 1) = '/' := by simpa using hc1
      refine Res.returns_bind (P := fun _ s1 => s1.positionExact) ?_ (fun _ _ hq => hq)
      unfold Lexer.handleLineCommentsU
      refine Res.returns_bind flush ?_
      intro _ s1 ⟨hs1, e1, e2⟩
      exact lineCommentLoopU_exact _ _ (opened '/' (by decide) (by decide) h0 h1 s1 hs1 e1 e2)
    · split
      · next hc1 =>
        have h1 : charAt s.m_src (s.m_index + 1) = '*' := by simpa using hc1
        refine Res.returns_bind (P := fun _ s1 => s1.positionExact) ?_ (fun _ _ hq => hq)
        unfold Lexer.handleMultilineCommentsU
        refine Res.returns_bind flush ?_
        intro _ s1 ⟨hs1, e1, e2⟩
        exact multilineCommentLoopU_exact _ _ (opened '*' (by decide) (by decide) h0 h1 s1 hs1 e1 e2)
      · exact h

theorem whiteSpacesLoopU_exact (fuel : Nat) (s : Lexer) (cw : Bool) (h : s.positionExact) :
    (whiteSpacesLoopU fuel s cw).Returns (fun _ s1 => s1.positionExact) := by
  induction fuel generalizing s cw with
  | zero => trivial
  | succ n ih =>
    unfold whiteSpacesLoopU
    split
    · next hb =>
      have hn : charAt s.m_src s.m_index ≠ STRING_TERMINATION_CHAR := (isBlank_facts hb).1
      refine Res.returns_bind
        (P := fun _ s1 => s1.positionExact ∧ s1.m_src = s.m_src ∧ s1.m_index = s.m_index) ?_ ?_
      · split
        · cases hcb : s.consumeTokenBuffer with
          | ok u s0 =>
            have hf := Lexer.flushed_cursor (consumeTokenBuffer_ok_flushed _ _ _ hcb)
            have he := consumeTokenBuffer_exact s h
            rw [hcb] at he
            exact ⟨he, hf.1, hf.2.1⟩
          | error msg e => trivial
          | timeout => trivial
        · exact ⟨h, rfl, rfl⟩
      · intro _ s1 ⟨hs1, e1, e2⟩
        simp only
        split
        · next hnl =>
          have hnl1 : charAt s1.m_src s1.m_index = NEW_LINE_CHAR := by simpa using hnl
          exact ih _ _ (positionExact_newline s1 hs1 hnl1 _ rfl rfl rfl rfl)
        · next hnl =>
          have hnl1 : charAt s1.m_src s1.m_index ≠ NEW_LINE_CHAR := by simpa using hnl
          exact ih _ _ (positionExact_step s1 hs1 (by rw [e1, e2]; exact hn) hnl1 _ rfl rfl rfl rfl)
    · exact h

/-! ## Scanning a prefix of whitespace and comments -/

theorem lineCommentLoopU_to_newline (body : List Char) (hb : NEW_LINE_CHAR ∉ body)
    (hn : STRING_TERMINATION_CHAR ∉ body) :
    ∀ (fuel : Nat) (s : Lexer) (tail : List Char),
      s.m_src.drop s.m_index = body ++ NEW_LINE_CHAR :: tail → body.length < fuel →
      ∃ s1, lineCommentLoopU fuel s = Res.ok () s1 ∧ s.cursorMoved s1 ∧
        s1.m_src.drop s1.m_index = NEW_LINE_CHAR :: tail := by
  induction body with
  | nil =>
    intro fuel s tail hd hf
    obtain ⟨f, rfl⟩ : ∃ f, fuel = f + 1 := ⟨fuel - 1, by omega⟩
    have hd0 : s.m_src.drop s.m_index = NEW_LINE_CHAR :: tail := by simpa using hd
    have h0 : charAt s.m_src s.m_index = NEW_LINE_CHAR := charAt_of_drop_eq_cons hd0
    refine ⟨s, ?_, Lexer.cursorMoved_refl s, hd0⟩
    rw [lineCommentLoopU]
    simp [h0]
  | cons c cs ih =>
    intro fuel s tail hd hf
    simp only [List.length_cons] at hf
    obtain ⟨f, rfl⟩ : ∃ f, fuel = f + 1 := ⟨fuel - 1, by omega⟩
    have hc : c ≠ NEW_LINE_CHAR := fun h => hb (by simp [h])
    have hc0 : c ≠ STRING_TERMINATION_CHAR := fun h => hn (by simp [h])
    have hd0 : s.m_src.drop s.m_index = c :: (cs ++ NEW_LINE_CHAR :: tail) := by simpa using hd
    have h0 : charAt s.m_src s.m_index = c := charAt_of_drop_eq_cons hd0
    obtain ⟨s1, e1, e2, e3⟩ :=
      ih (fun h => hb (by simp [h])) (fun h => hn (by simp [h])) f
        { s with m_index := s.m_index + 1, m_offset := s.m_offset + 1 } tail
        (drop_succ_of_drop_eq_cons hd0) (by omega)
    refine ⟨s1, ?_, ⟨e2.1, e2.2.1, e2.2.2⟩, e3⟩
    rw [lineCommentLoopU]
    simpa [h0, hc0, hc] using e1

theorem multilineCommentLoopU_closed (body : List Char) (hb : ¬ (['*', '/'] <:+: body))
    (hn : STRING_TERMINATION_CHAR ∉ body) :
    ∀ (fuel : Nat) (s : Lexer) (tail : List Char),
      s.m_src.drop s.m_index = body ++ '*' :: '/' :: tail → body.length < fuel →
      ∃ s1, multilineCommentLoopU fuel s = Res.ok () s1 ∧ s.cursorMoved s1 ∧
        s1.m_src.drop s1.m_index = tail := by
  intro fuel s tail hd hf
  obtain ⟨s1, e1, e2, e3, e4, e5⟩ := multilineCommentLoopU_body body hb fuel s tail hd hf
  refine ⟨s1, e1, ⟨e2, e4, e3⟩, ?_⟩
  -- the loop cannot have stopped on a NUL: the body holds none
  have key : ∀ (b : List Char), ¬ (['*', '/'] <:+: b) → STRING_TERMINATION_CHAR ∉ b →
      ∀ (fuel : Nat) (s s1 : Lexer), s.m_src.drop s.m_index = b ++ '*' :: '/' :: tail →
        multilineCommentLoopU fuel s = Res.ok () s1 → s1.m_src.drop s1.m_index = tail := by
    intro b
    induction b with
    | nil =>
      intro _ _ fuel s s1 hd h
      cases fuel with
      | zero => simp [multilineCommentLoopU] at h
      | succ f =>
        have hd0 : s.m_src.drop s.m_index = '*' :: '/' :: tail := by simpa using hd
        have h0 : charAt s.m_src s.m_index = '*' := charAt_of_drop_eq_cons hd0
        have h1 : charAt s.m_src (s.m_index + 1) = '/' := by
          rw [charAt_succ_of_drop_eq_cons hd0]
          rfl
        have hne : ('*' : Char) ≠ STRING_TERMINATION_CHAR := by decide
        rw [multilineCommentLoopU] at h
        simp only [h0, h1, bne_iff_ne, ne_eq, hne, not_false_eq_true, if_true, Nat.add_zero,
          beq_self_eq_true, Bool.and_self, Res.ok.injEq, true_and] at h
        rw [← h]
        exact drop_succ_of_drop_eq_cons (drop_succ_of_drop_eq_cons hd0)
    | cons c cs ih =>
      intro hb hn fuel s s1 hd h
      cases fuel with
      | zero => simp [multilineCommentLoopU] at h
      | succ f =>
        have hc0 : c ≠ STRING_TERMINATION_CHAR := fun h => hn (by simp [h])
        have hd0 : s.m_src.drop s.m_index = c :: (cs ++ '*' :: '/' :: tail) := by simpa using hd
        have h0 : charAt s.m_src s.m_index = c := charAt_of_drop_eq_cons hd0
        have h1 : charAt s.m_src (s.m_index + 1) = charAt (cs ++ '*' :: '/' :: tail) 0 :=
          charAt_succ_of_drop_eq_cons hd0
        have hclose : ¬ (c = '*' ∧ charAt s.m_src (s.m_index + 1) = '/') := by
          rintro ⟨hc, hc1⟩
          rw [h1] at hc1
          cases cs with
          | nil =>
            rw [List.nil_append, charAt_cons_zero] at hc1
            exact absurd hc1 (by decide)
          | cons d ds =>
            rw [List.cons_append, charAt_cons_zero] at hc1
            apply hb
            rw [hc, hc1]
            exact ⟨[], ds, rfl⟩
        have hd1 := drop_succ_of_drop_eq_cons hd0
        have hcs : ¬ (['*', '/'] <:+: cs) := fun h => hb (List.infix_cons h)
        have hncs : STRING_TERMINATION_CHAR ∉ cs := fun h => hn (by simp [h])
        rw [multilineCommentLoopU] at h
        simp only [h0, bne_iff_ne, ne_eq, hc0, not_false_eq_true, if_true, Nat.add_zero] at h
        split at h
        · next hcl =>
          simp only [Bool.and_eq_true, beq_iff_eq] at hcl
          exact absurd hcl hclose
        · split at h
          · exact ih hcs hncs f _ s1 hd1 h
          · exact ih hcs hncs f _ s1 hd1 h
  exact key body hb hn fuel s s1 hd e1

/-- On a line comment closed by its newline `handleCommentsU` returns true with the
cursor on that newline. -/
theorem handleCommentsU_line_closed (s : Lexer) (body tail : List Char)
    (hb : NEW_LINE_CHAR ∉ body) (hn : STRING_TERMINATION_CHAR ∉ body)
    (hd : s.m_src.drop s.m_index = '/' :: '/' :: (body ++ NEW_LINE_CHAR :: tail))
    (hbuf : s.m_token_buffer = []) :
    ∃ s1, s.handleCommentsU = Res.ok true s1 ∧ s.cursorMoved s1 ∧
      s1.m_src.drop s1.m_index = NEW_LINE_CHAR :: tail := by
  have h0 : charAt s.m_src s.m_index = '/' := charAt_of_drop_eq_cons hd
  have h1 : charAt s.m_src (s.m_index + 1) = '/' := by
    rw [charAt_succ_of_drop_eq_cons hd]
    rfl
  have hd2 : s.m_src.drop (s.m_index + 2) = body ++ NEW_LINE_CHAR :: tail :=
    drop_succ_of_drop_eq_cons (drop_succ_of_drop_eq_cons hd)
  have hlen : body.length < s.m_src.length + 1 := by
    have := length_le_of_drop_eq_append hd2
    omega
  obtain ⟨s1, e1, e2, e3⟩ :=
    lineCommentLoopU_to_newline body hb hn (s.m_src.length + 1)
      { s with m_index := s.m_index + 2, m_offset := s.m_offset + 2 } tail hd2 hlen
  refine ⟨s1, ?_, ⟨e2.1, e2.2.1, e2.2.2⟩, e3⟩
  unfold Lexer.handleCommentsU Lexer.handleLineCommentsU
  rw [consumeTokenBuffer_of_empty s hbuf]
  simp only [Nat.add_zero, h0, h1, bne_self_eq_false, Bool.false_eq_true, if_false,
    beq_self_eq_true, if_true, Res.bind]
  rw [e1]

/-- On a closed block comment with a body free of the NUL `handleCommentsU` returns
true with the cursor just past the closing star-slash. -/
theorem handleCommentsU_block_closed (s : Lexer) (body tail : List Char)
    (hb : ¬ (['*', '/'] <:+: body)) (hn : STRING_TERMINATION_CHAR ∉ body)
    (hd : s.m_src.drop s.m_index = '/' :: '*' :: (body ++ '*' :: '/' :: tail))
    (hbuf : s.m_token_buffer = []) :
    ∃ s1, s.handleCommentsU = Res.ok true s1 ∧ s.cursorMoved s1 ∧
      s1.m_src.drop s1.m_index = tail := by
  have h0 : charAt s.m_src s.m_index = '/' := charAt_of_drop_eq_cons hd
  have h1 : charAt s.m_src (s.m_index + 1) = '*' := by
    rw [charAt_succ_of_drop_eq_cons hd]
    rfl
  have hd2 : s.m_src.drop (s.m_index + 2) = body ++ '*' :: '/' :: tail :=
    drop_succ_of_drop_eq_cons (drop_succ_of_drop_eq_cons hd)
  have hlen : body.length < s.m_src.length + 1 := by
    have := length_le_of_drop_eq_append hd2
    omega
  obtain ⟨s1, e1, e2, e3⟩ :=
    multilineCommentLoopU_closed body hb hn (s.m_src.length + 1)
      { s with m_index := s.m_index + 2, m_offset := s.m_offset + 2 } tail hd2 hlen
  refine ⟨s1, ?_, ⟨e2.1, e2.2.1, e2.2.2⟩, e3⟩
  have hne : ¬ (('*' : Char) = '/') := by decide
  unfold Lexer.handleCommentsU Lexer.handleMultilineCommentsU
  rw [consumeTokenBuffer_of_empty s hbuf]
  simp only [Nat.add_zero, h0, h1, bne_self_eq_false, Bool.false_eq_true, if_false,
    beq_iff_eq, hne, beq_self_eq_true, if_true, Res.bind]
  rw [e1]

/-- On a prefix of whitespace and comments followed by a text that does not start
with a blank, the loop of `handleWhiteSpacesU` consumes the leading blanks of the
prefix. -/
theorem whiteSpacesLoopU_triviaPrefix (tail : List Char) (htail : isBlank (charAt tail 0) = false)
    (rest : List Char) (ht : TriviaPrefix rest) :
    ∀ (fuel : Nat) (s : Lexer) (cw : Bool),
      s.m_src.drop s.m_index = rest ++ tail → s.m_token_buffer = [] → rest.length < fuel →
      ∃ b s1 rest1, whiteSpacesLoopU fuel s cw = Res.ok b s1 ∧ s.cursorMoved s1 ∧
        s1.m_src.drop s1.m_index = rest1 ++ tail ∧ TriviaPrefix rest1 ∧
        rest1.length ≤ rest.length ∧
        ((cw = true ∨ isBlank (charAt s.m_src s.m_index) = true) → b = true) ∧
        (isBlank (charAt s.m_src s.m_index) = true → rest1.length < rest.length) := by
  have stop : ∀ (f : Nat) (s : Lexer) (cw : Bool) (r : List Char), TriviaPrefix r →
      s.m_src.drop s.m_index = r ++ tail → isBlank (charAt s.m_src s.m_index) = false →
      ∃ b s1 rest1, whiteSpacesLoopU (f + 1) s cw = Res.ok b s1 ∧ s.cursorMoved s1 ∧
        s1.m_src.drop s1.m_index = rest1 ++ tail ∧ TriviaPrefix rest1 ∧
        rest1.length ≤ r.length ∧
        ((cw = true ∨ isBlank (charAt s.m_src s.m_index) = true) → b = true) ∧
        (isBlank (charAt s.m_src s.m_index) = true → rest1.length < r.length) := by
    intro f s cw r hr hd hnb
    refine ⟨cw, s, r, ?_, Lexer.cursorMoved_refl s, hd, hr, le_refl _, ?_, ?_⟩
    · rw [whiteSpacesLoopU]
      simp [hnb]
    · rintro (h | h)
      · exact h
      · rw [hnb] at h
        exact absurd h (by decide)
    · intro h
      rw [hnb] at h
      exact absurd h (by decide)
  have slash : isBlank '/' = false := by decide
  induction ht with
  | nil =>
    intro fuel s cw hd hbuf hf
    obtain ⟨f, rfl⟩ : ∃ f, fuel = f + 1 := ⟨fuel - 1, by omega⟩
    refine stop f s cw [] TriviaPrefix.nil hd ?_
    rw [charAt_eq_drop, hd]
    exact htail
  | blank c r hc hr ih =>
    intro fuel s cw hd hbuf hf
    simp only [List.length_cons] at hf
    obtain ⟨f, rfl⟩ : ∃ f, fuel = f + 1 := ⟨fuel - 1, by omega⟩
    have hd0 : s.m_src.drop s.m_index = c :: (r ++ tail) := by simpa using hd
    have h0 : charAt s.m_src s.m_index = c := charAt_of_drop_eq_cons hd0
    have hflush : (if (!cw) = true then s.consumeTokenBuffer else Res.ok () s) = Res.ok () s := by
      cases cw <;> simp [consumeTokenBuffer_of_empty s hbuf]
    have hd1 : s.m_src.drop (s.m_index + 1) = r ++ tail := drop_succ_of_drop_eq_cons hd0
    by_cases hnl : c = NEW_LINE_CHAR
    · obtain ⟨b, s1, rest1, e1, e2, e3, e4, e5, e6, _⟩ :=
        ih f { s with m_offset := 1, m_line := s.m_line + 1, m_index := s.m_index + 1 } true
          hd1 hbuf (by omega)
      refine ⟨b, s1, rest1, ?_, ⟨e2.1, e2.2.1, e2.2.2⟩, e3, e4, ?_, fun _ => e6 (Or.inl rfl), ?_⟩
      · rw [whiteSpacesLoopU, h0, hc]
        simp only [if_true]
        rw [hflush]
        simp only [Res.bind, h0, hnl, beq_self_eq_true, if_true]
        exact e1
      · simp only [List.length_cons]
        omega
      · intro _
        simp only [List.length_cons]
        omega
    · obtain ⟨b, s1, rest1, e1, e2, e3, e4, e5, e6, _⟩ :=
        ih f { s with m_offset := s.m_offset + 1, m_index := s.m_index + 1 } true
          hd1 hbuf (by omega)
      refine ⟨b, s1, rest1, ?_, ⟨e2.1, e2.2.1, e2.2.2⟩, e3, e4, ?_, fun _ => e6 (Or.inl rfl), ?_⟩
      · rw [whiteSpacesLoopU, h0, hc]
        simp only [if_true]
        rw [hflush]
        simp only [Res.bind, h0, beq_iff_eq, hnl, if_false]
        exact e1
      · simp only [List.length_cons]
        omega
      · intro _
        simp only [List.length_cons]
        omega
  | lineComment body r hb hn hr _ =>
    intro fuel s cw hd hbuf hf
    obtain ⟨f, rfl⟩ : ∃ f, fuel = f + 1 := ⟨fuel - 1, by omega⟩
    refine stop f s cw _ (TriviaPrefix.lineComment body r hb hn hr) hd ?_
    rw [charAt_of_drop_eq_cons (by simpa using hd)]
    exact slash
  | blockComment body r hb hn hr _ =>
    intro fuel s cw hd hbuf hf
    obtain ⟨f, rfl⟩ : ∃ f, fuel = f + 1 := ⟨fuel - 1, by omega⟩
    refine stop f s cw _ (TriviaPrefix.blockComment body r hb hn hr) hd ?_
    rw [charAt_of_drop_eq_cons (by simpa using hd)]
    exact slash

/-! ## An unrecognised character after whitespace and comments -/

theorem operatorMatches_last (s : Lexer) (c : Char) (hd : s.m_src.drop s.m_index = [c])
    (op : List Char) (h0 : op ≠ []) (h1 : op ≠ [c]) : operatorMatches s op 0 = false := by
  have hc : charAt s.m_src s.m_index = c := charAt_of_drop_eq_cons hd
  have hn : charAt s.m_src (s.m_index + 1) = STRING_TERMINATION_CHAR := by
    rw [charAt_succ_of_drop_eq_cons hd]
    rfl
  cases op with
  | nil => exact absurd rfl h0
  | cons a as =>
    unfold operatorMatches
    by_cases ha : c = a
    · cases as with
      | nil =>
        rw [ha] at h1
        exact absurd rfl h1
      | cons b bs =>
        unfold operatorMatches
        simp [hc, hn]
    · simp [hc, ha]

theorem operatorsLoopU_last (s : Lexer) (c : Char) (hd : s.m_src.drop s.m_index = [c]) :
    ∀ tbl : List (List Char × TokenType), (∀ p ∈ tbl, p.1 ≠ [] ∧ p.1 ≠ [c]) →
      operatorsLoopU s tbl = Res.ok false s := by
  intro tbl
  induction tbl with
  | nil => intro _; rfl
  | cons a l ih =>
    intro h
    obtain ⟨op, ty⟩ := a
    have ha := h (op, ty) (List.mem_cons_self _ _)
    unfold operatorsLoopU
    simp only [operatorMatches_last s c hd op ha.1 ha.2, Bool.false_eq_true, if_false]
    exact ih (fun p hp => h p (List.mem_cons_of_mem _ hp))

/-- On an unrecognised last character, with an empty buffer, one iteration of the
scan loop throws from the state it was entered in. -/
theorem scanStepU_unrecognised (s : Lexer) (c : Char) (hc : unrecognised c)
    (hd : s.m_src.drop s.m_index = [c]) (hbuf : s.m_token_buffer = []) :
    s.scanStepU = Res.error (errorMessage s.m_line s.m_offset) s := by
  obtain ⟨hnul, hq, ha, hb, hdl, hop⟩ := hc
  have h0 : charAt s.m_src s.m_index = c := charAt_of_drop_eq_cons hd
  have hslash : c ≠ '/' := fun h => hop (['/'], TokenType.DIVIDE) (by decide) (by rw [h])
  have hdot : c ≠ '.' := fun h => hop (['.'], TokenType.DOT) (by decide) (by rw [h])
  have hws : s.handleWhiteSpacesU = Res.ok false s := by
    unfold Lexer.handleWhiteSpacesU
    rw [whiteSpacesLoopU]
    simp [h0, hb]
  have hdel : s.handleDelimetersU = Res.ok false s := by
    simp [Lexer.handleDelimetersU, h0, hdl]
  have hops : s.handleOperatorsU = Res.ok false s := by
    unfold Lexer.handleOperatorsU
    refine operatorsLoopU_last s c hd OPERATORS ?_
    intro p hp
    refine ⟨?_, hop p hp⟩
    revert p
    decide
  unfold Lexer.scanStepU
  rw [handleStringLiteralsU_of_ne s (by rw [h0]; exact hq)]
  simp only [Res.bind, Bool.false_eq_true, if_false]
  rw [handleCommentsU_of_ne s (by rw [h0]; exact hslash)]
  simp only [Res.bind, Bool.false_eq_true, if_false]
  rw [handleAlphaNumericCharsU_of_not s (by rw [h0]; exact ha) (by rw [h0]; exact hdot)]
  simp only [Res.bind, Bool.false_eq_true, if_false]
  rw [consumeTokenBuffer_of_empty s hbuf]
  simp only [Res.bind]
  rw [hws]
  simp only [Res.bind, Bool.false_eq_true, if_false]
  rw [hdel]
  simp only [Res.bind, Bool.false_eq_true, if_false]
  rw [hops]
  simp only [Res.bind, Bool.false_eq_true, if_false]
  rfl

/-- From a cursor at the head of a prefix of whitespace and comments that is followed
by one unrecognised character ending the input, with an empty buffer, exact counters
and budget for the prefix, the scan loop throws with the counters exact and the
cursor on that character. -/
theorem scanLoopU_triviaPrefix (c : Char) (hc : unrecognised c) :
    ∀ (n : Nat) (rest : List Char), TriviaPrefix rest → rest.length ≤ n →
      ∀ (fuel : Nat) (s : Lexer), s.m_src.drop s.m_index = rest ++ [c] → s.m_token_buffer = [] →
        s.positionExact → rest.length < fuel →
        ∃ e, scanLoopU fuel s = Res.error (errorMessage e.m_line e.m_offset) e ∧
          e.m_src = s.m_src ∧ e.positionExact ∧ e.m_src.drop e.m_index = [c] := by
  have htail : isBlank (charAt [c] 0) = false := by
    rw [charAt_cons_zero]
    exact hc.2.2.2.1
  intro n
  induction n with
  | zero =>
    intro rest _ hn fuel s hd hbuf hex hf
    obtain ⟨f, rfl⟩ : ∃ f, fuel = f + 1 := ⟨fuel - 1, by omega⟩
    have hnil : rest = [] := List.length_eq_zero.mp (by omega)
    rw [hnil, List.nil_append] at hd
    refine ⟨s, ?_, rfl, hex, hd⟩
    rw [scanLoopU]
    have hne : charAt s.m_src s.m_index ≠ STRING_TERMINATION_CHAR := by
      rw [charAt_of_drop_eq_cons hd]
      exact hc.1
    simp only [bne_iff_ne, ne_eq, hne, not_false_eq_true, if_true]
    rw [scanStepU_unrecognised s c hc hd hbuf]
    rfl
  | succ m ih =>
    intro rest ht hn fuel s hd hbuf hex hf
    obtain ⟨f, rfl⟩ : ∃ f, fuel = f + 1 := ⟨fuel - 1, by omega⟩
    -- the loop goes on from the state a handler leaves on a shorter prefix
    have go : ∀ (s1 : Lexer) (rest1 : List Char), rest1.length < rest.length →
        s.scanStepU = Res.ok () s1 → s.cursorMoved s1 → s1.positionExact →
        s1.m_src.drop s1.m_index = rest1 ++ [c] → TriviaPrefix rest1 →
        charAt s.m_src s.m_index ≠ STRING_TERMINATION_CHAR →
        ∃ e, scanLoopU (f + 1) s = Res.error (errorMessage e.m_line e.m_offset) e ∧
          e.m_src = s.m_src ∧ e.positionExact ∧ e.m_src.drop e.m_index = [c] := by
      intro s1 rest1 hlt hstep hmv hex1 hd1 ht1 hne
      obtain ⟨e, e1, e2, e3, e4⟩ :=
        ih rest1 ht1 (by omega) f s1 hd1 (by rw [hmv.2.1]; exact hbuf) hex1 (by omega)
      refine ⟨e, ?_, by rw [e2, hmv.1], e3, e4⟩
      rw [scanLoopU]
      simp only [bne_iff_ne, ne_eq, hne, not_false_eq_true, if_true]
      rw [hstep]
      simp only [Res.bind]
      exact e1
    cases ht with
    | nil =>
      rw [List.nil_append] at hd
      refine ⟨s, ?_, rfl, hex, hd⟩
      rw [scanLoopU]
      have hne : charAt s.m_src s.m_index ≠ STRING_TERMINATION_CHAR := by
        rw [charAt_of_drop_eq_cons hd]
        exact hc.1
      simp only [bne_iff_ne, ne_eq, hne, not_false_eq_true, if_true]
      rw [scanStepU_unrecognised s c hc hd hbuf]
      rfl
    | blank c0 r hc0 hr =>
      have hd0 : s.m_src.drop s.m_index = c0 :: (r ++ [c]) := by simpa using hd
      have h0 : charAt s.m_src s.m_index = c0 := charAt_of_drop_eq_cons hd0
      obtain ⟨hcn, hcq, hcs, hca, hcd⟩ := isBlank_facts hc0
      obtain ⟨b, s1, rest1, e1, e2, e3, e4, e5, e6, e7⟩ :=
        whiteSpacesLoopU_triviaPrefix [c] htail (c0 :: r) (TriviaPrefix.blank c0 r hc0 hr)
          (s.m_src.length + 1) s false hd hbuf
          (by
            have h1 : (s.m_src.drop s.m_index).length = (c0 :: r ++ [c]).length := by rw [hd]
            have h2 := List.length_drop s.m_index s.m_src
            simp only [List.length_append, List.length_cons, List.length_nil] at h1 ⊢
            omega)
      have hb : b = true := e6 (Or.inr (by rw [h0]; exact hc0))
      have hlt : rest1.length < (c0 :: r).length := e7 (by rw [h0]; exact hc0)
      have hex1 : s1.positionExact := by
        have := whiteSpacesLoopU_exact (s.m_src.length + 1) s false hex
        rw [e1] at this
        exact this
      refine go s1 rest1 hlt ?_ e2 hex1 e3 e4 (by rw [h0]; exact hcn)
      unfold Lexer.scanStepU
      rw [handleStringLiteralsU_of_ne s (by rw [h0]; exact hcq)]
      simp only [Res.bind, Bool.false_eq_true, if_false]
      rw [handleCommentsU_of_ne s (by rw [h0]; exact hcs)]
      simp only [Res.bind, Bool.false_eq_true, if_false]
      rw [handleAlphaNumericCharsU_of_not s (by rw [h0]; exact hca) (by rw [h0]; exact hcd)]
      simp only [Res.bind, Bool.false_eq_true, if_false]
      rw [consumeTokenBuffer_of_empty s hbuf]
      simp only [Res.bind]
      unfold Lexer.handleWhiteSpacesU
      rw [e1, hb]
      rfl
    | lineComment body r hb hnb hr =>
      have hd0 : s.m_src.drop s.m_index = '/' :: '/' :: (body ++ NEW_LINE_CHAR :: (r ++ [c])) := by
        simpa using hd
      have h0 : charAt s.m_src s.m_index = '/' := charAt_of_drop_eq_cons hd0
      obtain ⟨s1, e1, e2, e3⟩ := handleCommentsU_line_closed s body (r ++ [c]) hb hnb hd0 hbuf
      have hex1 : s1.positionExact := by
        have := handleCommentsU_exact s hex
        rw [e1] at this
        exact this
      refine go s1 (NEW_LINE_CHAR :: r) ?_ ?_ e2 hex1 (by simpa using e3)
        (TriviaPrefix.blank NEW_LINE_CHAR r (by decide) hr) (by rw [h0]; decide)
      · simp only [List.length_cons, List.length_append]
        omega
      · unfold Lexer.scanStepU
        rw [handleStringLiteralsU_of_ne s (by rw [h0]; decide)]
        simp only [Res.bind, Bool.false_eq_true, if_false]
        rw [e1]
        rfl
    | blockComment body r hb hnb hr =>
      have hd0 : s.m_src.drop s.m_index = '/' :: '*' :: (body ++ '*' :: '/' :: (r ++ [c])) := by
        simpa using hd
      have h0 : charAt s.m_src s.m_index = '/' := charAt_of_drop_eq_cons hd0
      obtain ⟨s1, e1, e2, e3⟩ := handleCommentsU_block_closed s body (r ++ [c]) hb hnb hd0 hbuf
      have hex1 : s1.positionExact := by
        have := handleCommentsU_exact s hex
        rw [e1] at this
        exact this
      refine go s1 r ?_ ?_ e2 hex1 e3 hr (by rw [h0]; decide)
      · simp only [List.length_cons, List.length_append]
        omega
      · unfold Lexer.scanStepU
        rw [handleStringLiteralsU_of_ne s (by rw [h0]; decide)]
        simp only [Res.bind, Bool.false_eq_true, if_false]
        rw [e1]
        rfl

/-! ## Runs on the same remaining text -/

theorem charAt_add_eq_drop (src : List Char) (i j : Nat) :
    charAt src (i + j) = charAt (src.drop i) j := by
  unfold charAt
  simp [List.getD_eq_getElem?_getD, List.getElem?_drop]

theorem Lexer.sameView_charAt {pre : List Token} {t s : Lexer} (h : t.sameView pre s) (i : Nat) :
    charAt t.m_src (t.m_index + i) = charAt s.m_src (s.m_index + i) := by
  rw [charAt_add_eq_drop, charAt_add_eq_drop, h.1]

theorem Lexer.sameView_charAt_zero {pre : List Token} {t s : Lexer} (h : t.sameView pre s) :
    charAt t.m_src t.m_index = charAt s.m_src s.m_index :=
  Lexer.sameView_charAt h 0

theorem Lexer.sameView_advance {pre : List Token} {t s : Lexer} (h : t.sameView pre s) (k : Nat)
    (t1 s1 : Lexer) (a1 : t1.m_src = t.m_src) (a2 : t1.m_index = t.m_index + k)
    (a3 : t1.m_token_buffer = t.m_token_buffer) (a4 : t1.m_tokens = t.m_tokens)
    (b1 : s1.m_src = s.m_src) (b2 : s1.m_index = s.m_index + k)
    (b3 : s1.m_token_buffer = s.m_token_buffer) (b4 : s1.m_tokens = s.m_tokens) :
    t1.sameView pre s1 := by
  refine ⟨?_, ?_, ?_, ?_⟩
  · rw [a1, a2, b1, b2, ← List.drop_drop, ← List.drop_drop, h.1]
  · rw [a3, b3, h.2.1]
  · rw [a4, b4, h.2.2.1]
  · rw [a1, b1]
    exact h.2.2.2

theorem consumeTokenBuffer_sameView {pre : List Token} {t s s1 : Lexer} (h : t.sameView pre s)
    (hs : s.consumeTokenBuffer = Res.ok () s1) :
    ∃ t1, t.consumeTokenBuffer = Res.ok () t1 ∧ t1.sameView pre s1 := by
  unfold Lexer.consumeTokenBuffer at hs ⊢
  rw [h.2.1]
  by_cases hb : (!s.m_token_buffer.isEmpty) = true
  · simp only [hb, if_true] at hs ⊢
    by_cases hi : (bufferToToken s.m_token_buffer).m_type = TokenType.INVALID
    · simp [hi, Lexer.error] at hs
    · simp only [hi, Bool.false_eq_true, if_false, Res.ok.injEq, true_and] at hs ⊢
      refine ⟨_, rfl, ?_⟩
      rw [← hs]
      refine ⟨h.1, rfl, ?_, h.2.2.2⟩
      simp only
      rw [h.2.2.1, List.append_assoc]
  · simp only [hb, Bool.false_eq_true, if_false, Res.ok.injEq, true_and] at hs ⊢
    refine ⟨t, rfl, ?_⟩
    rw [← hs]
    exact h

theorem lineCommentLoopU_sameView {pre : List Token} :
    ∀ (f : Nat) (s s1 : Lexer), lineCommentLoopU f s = Res.ok () s1 →
      ∀ (g : Nat) (t : Lexer), f ≤ g → t.sameView pre s →
        ∃ t1, lineCommentLoopU g t = Res.ok () t1 ∧ t1.sameView pre s1 := by
  intro f
  induction f with
  | zero =>
    intro s s1 h
    simp [lineCommentLoopU] at h
  | succ f ih =>
    intro s s1 h g t hle hsim
    obtain ⟨g, rfl⟩ : ∃ k, g = k + 1 := ⟨g - 1, by omega⟩
    rw [lineCommentLoopU] at h ⊢
    rw [Lexer.sameView_charAt_zero hsim]
    by_cases hc : (charAt s.m_src s.m_index != STRING_TERMINATION_CHAR &&
        charAt s.m_src s.m_index != NEW_LINE_CHAR) = true
    · simp only [hc, if_true] at h ⊢
      exact ih _ s1 h g _ (by omega) (Lexer.sameView_advance hsim 1 _ _ rfl rfl rfl rfl rfl rfl rfl rfl)
    · simp only [hc, Bool.false_eq_true, if_false, Res.ok.injEq, true_and] at h ⊢
      refine ⟨t, rfl, ?_⟩
      rw [← h]
      exact hsim

theorem multilineCommentLoopU_sameView {pre : List Token} :
    ∀ (f : Nat) (s s1 : Lexer), multilineCommentLoopU f s = Res.ok () s1 →
      ∀ (g : Nat) (t : Lexer), f ≤ g → t.sameView pre s →
        ∃ t1, multilineCommentLoopU g t = Res.ok () t1 ∧ t1.sameView pre s1 := by
  intro f
  induction f with
  | zero =>
    intro s s1 h
    simp [multilineCommentLoopU] at h
  | succ f ih =>
    intro s s1 h g t hle hsim
    obtain ⟨g, rfl⟩ : ∃ k, g = k + 1 := ⟨g - 1, by omega⟩
    rw [multilineCommentLoopU] at h ⊢
    simp only [Nat.add_zero, Lexer.sameView_charAt_zero hsim, Lexer.sameView_charAt hsim 1] at h ⊢
    by_cases hc : (charAt s.m_src s.m_index != STRING_TERMINATION_CHAR) = true
    · simp only [hc, if_true] at h ⊢
      by_cases hcl : (charAt s.m_src s.m_index == '*' && charAt s.m_src (s.m_index + 1) == '/') = true
      · simp only [hcl, if_true, Res.ok.injEq, true_and] at h ⊢
        refine ⟨_, rfl, ?_⟩
        rw [← h]
        exact Lexer.sameView_advance hsim 2 _ _ rfl rfl rfl rfl rfl rfl rfl rfl
      · simp only [hcl, Bool.false_eq_true, if_false] at h ⊢
        by_cases hnl : (charAt s.m_src s.m_index == NEW_LINE_CHAR) = true
        · simp only [hnl, if_true] at h ⊢
          exact ih _ s1 h g _ (by omega)
            (Lexer.sameView_advance hsim 1 _ _ rfl rfl rfl rfl rfl rfl rfl rfl)
        · simp only [hnl, Bool.false_eq_true, if_false] at h ⊢
          exact ih _ s1 h g _ (by omega)
            (Lexer.sameView_advance hsim 1 _ _ rfl rfl rfl rfl rfl rfl rfl rfl)
    · simp only [hc, Bool.false_eq_true, if_false, Res.ok.injEq, true_and] at h ⊢
      refine ⟨t, rfl, ?_⟩
      rw [← h]
      exact hsim

theorem handleCommentsU_sameView {pre : List Token} {t s s1 : Lexer} {b : Bool}
    (hsim : t.sameView pre s) (h : s.handleCommentsU = Res.ok b s1) :
    ∃ t1, t.handleCommentsU = Res.ok b t1 ∧ t1.sameView pre s1 := by
  unfold Lexer.handleCommentsU at h ⊢
  simp only [Nat.add_zero, Lexer.sameView_charAt_zero hsim, Lexer.sameView_charAt hsim 1] at h ⊢
  by_cases h0 : (charAt s.m_src s.m_index != '/') = true
  · simp only [h0, if_true, Res.ok.injEq] at h ⊢
    exact ⟨t, ⟨h.1, rfl⟩, by rw [← h.2]; exact hsim⟩
  · simp only [h0, Bool.false_eq_true, if_false] at h ⊢
    by_cases h1 : (charAt s.m_src (s.m_index + 1) == '/') = true
    · simp only [h1, if_true] at h ⊢
      unfold Lexer.handleLineCommentsU at h ⊢
      obtain ⟨u1, m1, k1, k2⟩ := Res.bind_eq_ok h
      obtain ⟨u2, m2, k3, k4⟩ := Res.bind_eq_ok k1
      obtain ⟨n2, j1, j2⟩ := consumeTokenBuffer_sameView hsim k3
      obtain ⟨n1, j3, j4⟩ := lineCommentLoopU_sameView _ _ _ k4 (n2.m_src.length + 1)
        { n2 with m_index := n2.m_index + 2, m_offset := n2.m_offset + 2 }
        (by have := j2.2.2.2; omega)
        (Lexer.sameView_advance j2 2 _ _ rfl rfl rfl rfl rfl rfl rfl rfl)
      simp only [Res.ok.injEq] at k2
      refine ⟨n1, ?_, by rw [← k2.2]; exact j4⟩
      rw [j1]
      simp only [Res.bind]
      rw [j3, ← k2.1]
    · simp only [h1, Bool.false_eq_true, if_false] at h ⊢
      by_cases h2 : (charAt s.m_src (s.m_index + 1) == '*') = true
      · simp only [h2, if_true] at h ⊢
        unfold Lexer.handleMultilineCommentsU at h ⊢
        obtain ⟨u1, m1, k1, k2⟩ := Res.bind_eq_ok h
        obtain ⟨u2, m2, k3, k4⟩ := Res.bind_eq_ok k1
        obtain ⟨n2, j1, j2⟩ := consumeTokenBuffer_sameView hsim k3
        obtain ⟨n1, j3, j4⟩ := multilineCommentLoopU_sameView _ _ _ k4 (n2.m_src.length + 1)
          { n2 with m_index := n2.m_index + 2, m_offset := n2.m_offset + 2 }
          (by have := j2.2.2.2; omega)
          (Lexer.sameView_advance j2 2 _ _ rfl rfl rfl rfl rfl rfl rfl rfl)
        simp only [Res.ok.injEq] at k2
        refine ⟨n1, ?_, by rw [← k2.2]; exact j4⟩
        rw [j1]
        simp only [Res.bind]
        rw [j3, ← k2.1]
      · simp only [h2, Bool.false_eq_true, if_false, Res.ok.injEq] at h ⊢
        exact ⟨t, ⟨h.1, rfl⟩, by rw [← h.2]; exact hsim⟩

theorem whiteSpacesLoopU_sameView {pre : List Token} :
    ∀ (f : Nat) (s s1 : Lexer) (cw b : Bool), whiteSpacesLoopU f s cw = Res.ok b s1 →
      ∀ (g : Nat) (t : Lexer), f ≤ g → t.sameView pre s →
        ∃ t1, whiteSpacesLoopU g t cw = Res.ok b t1 ∧ t1.sameView pre s1 := by
  intro f
  induction f with
  | zero =>
    intro s s1 cw b h
    simp [whiteSpacesLoopU] at h
  | succ f ih =>
    intro s s1 cw b h g t hle hsim
    obtain ⟨g, rfl⟩ : ∃ k, g = k + 1 := ⟨g - 1, by omega⟩
    rw [whiteSpacesLoopU] at h ⊢
    rw [Lexer.sameView_charAt_zero hsim]
    by_cases hc : isBlank (charAt s.m_src s.m_index) = true
    · simp only [hc, if_true] at h ⊢
      obtain ⟨u1, m1, k1, k2⟩ := Res.bind_eq_ok h
      have hflush : ∃ n1, (if (!cw) = true then t.consumeTokenBuffer else Res.ok () t) = Res.ok () n1 ∧
          n1.sameView pre m1 := by
        by_cases hcw : (!cw) = true
        · simp only [hcw, if_true] at k1 ⊢
          exact consumeTokenBuffer_sameView hsim k1
        · simp only [hcw, Bool.false_eq_true, if_false, Res.ok.injEq, true_and] at k1 ⊢
          exact ⟨t, rfl, by rw [← k1]; exact hsim⟩
      obtain ⟨n1, j1, j2⟩ := hflush
      rw [j1]
      simp only [Res.bind]
      rw [Lexer.sameView_charAt_zero j2]
      by_cases hnl : (charAt m1.m_src m1.m_index == NEW_LINE_CHAR) = true
      · simp only [hnl, if_true] at k2 ⊢
        exact ih _ s1 true b k2 g _ (by omega)
          (Lexer.sameView_advance j2 1 _ _ rfl rfl rfl rfl rfl rfl rfl rfl)
      · simp only [hnl, Bool.false_eq_true, if_false] at k2 ⊢
        exact ih _ s1 true b k2 g _ (by omega)
          (Lexer.sameView_advance j2 1 _ _ rfl rfl rfl rfl rfl rfl rfl rfl)
    · simp only [hc, Bool.false_eq_true, if_false, Res.ok.injEq] at h ⊢
      exact ⟨t, ⟨h.1, rfl⟩, by rw [← h.2]; exact hsim⟩

theorem handleWhiteSpacesU_sameView {pre : List Token} {t s s1 : Lexer} {b : Bool}
    (hsim : t.sameView pre s) (h : s.handleWhiteSpacesU = Res.ok b s1) :
    ∃ t1, t.handleWhiteSpacesU = Res.ok b t1 ∧ t1.sameView pre s1 := by
  unfold Lexer.handleWhiteSpacesU at h ⊢
  exact whiteSpacesLoopU_sameView _ s s1 false b h _ t (by have := hsim.2.2.2; omega) hsim

theorem parseStringLoopU_sameView (A B : List Char) :
    ∀ (f : Nat) (st st1 : StrState), parseStringLoopU B f st = some st1 →
      ∀ (g : Nat) (ut : StrState), f ≤ g → A.drop ut.pos = B.drop st.pos → ut.value = st.value →
        ∃ ut1, parseStringLoopU A g ut = some ut1 ∧ A.drop ut1.pos = B.drop st1.pos ∧
          ut1.value = st1.value := by
  intro f
  induction f with
  | zero =>
    intro st st1 h
    simp [parseStringLoopU] at h
  | succ f ih =>
    intro st st1 h g ut hle hv hval
    obtain ⟨g, rfl⟩ : ∃ k, g = k + 1 := ⟨g - 1, by omega⟩
    have c0 : charAt A ut.pos = charAt B st.pos := by
      rw [charAt_eq_drop A, charAt_eq_drop B, hv]
    have c1 : charAt A (ut.pos + 1) = charAt B (st.pos + 1) := by
      rw [charAt_add_eq_drop A, charAt_add_eq_drop B, hv]
    have d1 : A.drop (ut.pos + 1) = B.drop (st.pos + 1) := by
      rw [← List.drop_drop, ← List.drop_drop, hv]
    have d2 : A.drop (ut.pos + 1 + 1) = B.drop (st.pos + 1 + 1) := by
      rw [← List.drop_drop, d1, List.drop_drop]
    rw [parseStringLoopU] at h ⊢
    simp only [c0, c1, hval] at h ⊢
    by_cases h0 : (charAt B st.pos != STRING_TERMINATION_CHAR && charAt B st.pos != QUOTE_CHAR) = true
    · simp only [h0, if_true] at h ⊢
      by_cases h1 : (charAt B st.pos == BACKSLASH_CHAR &&
          charAt B (st.pos + 1) != STRING_TERMINATION_CHAR) = true
      · simp only [h1, if_true] at h ⊢
        exact ih _ st1 h g _ (by omega) d2 rfl
      · simp only [h1, Bool.false_eq_true, if_false] at h ⊢
        by_cases h2 : (charAt B st.pos == '\n') = true
        · simp only [h2, if_true] at h ⊢
          exact ih _ st1 h g _ (by omega) d1 rfl
        · simp only [h2, Bool.false_eq_true, if_false] at h ⊢
          exact ih _ st1 h g _ (by omega) d1 rfl
    · simp only [h0, Bool.false_eq_true, if_false, Option.some.injEq] at h ⊢
      exact ⟨ut, rfl, by rw [← h]; exact hv, by rw [← h]; exact hval⟩

theorem parseStringLiteralU_sameView (A B : List Char) (p q l1 o1 l2 o2 : Nat) (tok : Token)
    (st : StrState) (h : parseStringLiteralU B q l2 o2 = some (tok, st))
    (hv : A.drop p = B.drop q) (hlen : B.length ≤ A.length) :
    ∃ ut, parseStringLiteralU A p l1 o1 = some (tok, ut) ∧ A.drop ut.pos = B.drop st.pos := by
  unfold parseStringLiteralU at h ⊢
  cases hB : parseStringLoopU B (B.length + 1)
      { value := [QUOTE_CHAR], pos := q + 1, line := l2, offset := o2 + 1 } with
  | none =>
    rw [hB] at h
    simp at h
  | some st0 =>
    rw [hB] at h
    obtain ⟨ut0, j1, j2, j3⟩ :=
      parseStringLoopU_sameView A B (B.length + 1) _ st0 hB (A.length + 1)
        { value := [QUOTE_CHAR], pos := p + 1, line := l1, offset := o1 + 1 } (by omega)
        (by
          show A.drop (p + 1) = B.drop (q + 1)
          rw [← List.drop_drop, ← List.drop_drop, hv])
        rfl
    have c0 : charAt A ut0.pos = charAt B st0.pos := by
      rw [charAt_eq_drop A, charAt_eq_drop B, j2]
    rw [j1]
    simp only [c0, j3] at h ⊢
    by_cases hq : (charAt B st0.pos == QUOTE_CHAR) = true
    · simp only [hq, if_true, Option.some.injEq, Prod.mk.injEq] at h ⊢
      refine ⟨_, ⟨h.1, rfl⟩, ?_⟩
      rw [← h.2]
      show A.drop (ut0.pos + 1) = B.drop (st0.pos + 1)
      rw [← List.drop_drop, ← List.drop_drop, j2]
    · simp only [hq, Bool.false_eq_true, if_false, Option.some.injEq, Prod.mk.injEq] at h ⊢
      refine ⟨_, ⟨h.1, rfl⟩, ?_⟩
      rw [← h.2]
      exact j2

theorem handleStringLiteralsU_sameView {pre : List Token} {t s s1 : Lexer} {b : Bool}
    (hsim : t.sameView pre s) (h : s.handleStringLiteralsU = Res.ok b s1) :
    ∃ t1, t.handleStringLiteralsU = Res.ok b t1 ∧ t1.sameView pre s1 := by
  unfold Lexer.handleStringLiteralsU at h ⊢
  simp only [Lexer.sameView_charAt_zero hsim] at h ⊢
  by_cases hq : (charAt s.m_src s.m_index == QUOTE_CHAR) = true
  · simp only [hq, if_true] at h ⊢
    obtain ⟨u1, m1, k1, k2⟩ := Res.bind_eq_ok h
    obtain ⟨n1, j1, j2⟩ := consumeTokenBuffer_sameView hsim k1
    rw [j1]
    simp only [Res.bind]
    cases hp : parseStringLiteralU m1.m_src m1.m_index m1.m_line m1.m_offset with
    | none =>
      rw [hp] at k2
      simp at k2
    | some r =>
      obtain ⟨tok, st⟩ := r
      rw [hp] at k2
      obtain ⟨ut, i1, i2⟩ :=
        parseStringLiteralU_sameView n1.m_src m1.m_src n1.m_index m1.m_index n1.m_line n1.m_offset
          m1.m_line m1.m_offset tok st hp j2.1 j2.2.2.2
      rw [i1]
      simp only at k2 ⊢
      by_cases hi : tok.m_type = TokenType.INVALID
      · simp [hi, Lexer.error] at k2
      · simp only [hi, if_false, Res.ok.injEq] at k2 ⊢
        refine ⟨_, ⟨k2.1, rfl⟩, ?_⟩
        rw [← k2.2]
        refine ⟨i2, j2.2.1, ?_, j2.2.2.2⟩
        simp only
        rw [j2.2.2.1, List.append_assoc]
  · simp only [hq, Bool.false_eq_true, if_false, Res.ok.injEq] at h ⊢
    exact ⟨t, ⟨h.1, rfl⟩, by rw [← h.2]; exact hsim⟩

theorem handleAlphaNumericCharsU_sameView {pre : List Token} {t s s1 : Lexer} {b : Bool}
    (hsim : t.sameView pre s) (h : s.handleAlphaNumericCharsU = Res.ok b s1) :
    ∃ t1, t.handleAlphaNumericCharsU = Res.ok b t1 ∧ t1.sameView pre s1 := by
  unfold Lexer.handleAlphaNumericCharsU at h ⊢
  simp only [Lexer.sameView_charAt_zero hsim, hsim.2.1] at h ⊢
  by_cases hc : (isAlphaNumeric (charAt s.m_src s.m_index) ||
      (charAt s.m_src s.m_index == '.' && !s.m_token_buffer.isEmpty &&
        isDigit (s.m_token_buffer.getLastD STRING_TERMINATION_CHAR))) = true
  · rw [if_pos hc] at h ⊢
    simp only [Res.ok.injEq] at h ⊢
    refine ⟨_, ⟨h.1, rfl⟩, ?_⟩
    rw [← h.2]
    refine ⟨?_, ?_, hsim.2.2.1, hsim.2.2.2⟩
    · show t.m_src.drop (t.m_index + 1) = s.m_src.drop (s.m_index + 1)
      rw [← List.drop_drop, ← List.drop_drop, hsim.1]
    · rfl
  · rw [if_neg hc] at h ⊢
    simp only [Res.ok.injEq] at h ⊢
    exact ⟨t, ⟨h.1, rfl⟩, by rw [← h.2]; exact hsim⟩

theorem handleDelimetersU_sameView {pre : List Token} {t s s1 : Lexer} {b : Bool}
    (hsim : t.sameView pre s) (h : s.handleDelimetersU = Res.ok b s1) :
    ∃ t1, t.handleDelimetersU = Res.ok b t1 ∧ t1.sameView pre s1 := by
  unfold Lexer.handleDelimetersU at h ⊢
  simp only [Lexer.sameView_charAt_zero hsim] at h ⊢
  by_cases hd : isDelimiter (charAt s.m_src s.m_index) = true
  · simp only [hd, if_true] at h ⊢
    by_cases hi : delimiterType (charAt s.m_src s.m_index) = TokenType.INVALID
    · simp [hi, Lexer.error] at h
    · simp only [hi, if_false, Res.ok.injEq] at h ⊢
      refine ⟨_, ⟨h.1, rfl⟩, ?_⟩
      rw [← h.2]
      refine ⟨?_, hsim.2.1, ?_, hsim.2.2.2⟩
      · show t.m_src.drop (t.m_index + 1) = s.m_src.drop (s.m_index + 1)
        rw [← List.drop_drop, ← List.drop_drop, hsim.1]
      · simp only
        rw [hsim.2.2.1, List.append_assoc]
  · simp only [hd, Bool.false_eq_true, if_false, Res.ok.injEq] at h ⊢
    exact ⟨t, ⟨h.1, rfl⟩, by rw [← h.2]; exact hsim⟩

theorem operatorMatches_sameView {pre : List Token} {t s : Lexer} (hsim : t.sameView pre s)
    (op : List Char) (i : Nat) : operatorMatches t op i = operatorMatches s op i := by
  induction op generalizing i with
  | nil => rfl
  | cons c cs ih =>
    unfold operatorMatches
    rw [Lexer.sameView_charAt hsim i, ih (i + 1)]

theorem operatorsLoopU_sameView {pre : List Token} {t s s1 : Lexer} {b : Bool}
    (hsim : t.sameView pre s) (tbl : List (List Char × TokenType))
    (h : operatorsLoopU s tbl = Res.ok b s1) :
    ∃ t1, operatorsLoopU t tbl = Res.ok b t1 ∧ t1.sameView pre s1 := by
  induction tbl with
  | nil =>
    simp only [operatorsLoopU, Res.ok.injEq] at h ⊢
    exact ⟨t, ⟨h.1, rfl⟩, by rw [← h.2]; exact hsim⟩
  | cons a l ih =>
    obtain ⟨op, ty⟩ := a
    unfold operatorsLoopU at h ⊢
    simp only [operatorMatches_sameView hsim] at h ⊢
    by_cases hm : operatorMatches s op 0 = true
    · simp only [hm, if_true, Res.ok.injEq] at h ⊢
      refine ⟨_, ⟨h.1, rfl⟩, ?_⟩
      rw [← h.2]
      refine ⟨?_, hsim.2.1, ?_, hsim.2.2.2⟩
      · show t.m_src.drop (t.m_index + op.length) = s.m_src.drop (s.m_index + op.length)
        rw [← List.drop_drop, ← List.drop_drop, hsim.1]
      · simp only
        rw [hsim.2.2.1, List.append_assoc]
    · simp only [hm, Bool.false_eq_true, if_false] at h ⊢
      exact ih h

theorem handleOperatorsU_sameView {pre : List Token} {t s s1 : Lexer} {b : Bool}
    (hsim : t.sameView pre s) (h : s.handleOperatorsU = Res.ok b s1) :
    ∃ t1, t.handleOperatorsU = Res.ok b t1 ∧ t1.sameView pre s1 :=
  operatorsLoopU_sameView hsim OPERATORS h

/-- One iteration of the scan loop that returns does the same on every state with
the same view. -/
theorem scanStepU_sameView {pre : List Token} {t s s1 : Lexer}
    (hsim : t.sameView pre s) (h : s.scanStepU = Res.ok () s1) :
    ∃ t1, t.scanStepU = Res.ok () t1 ∧ t1.sameView pre s1 := by
  unfold Lexer.scanStepU at h ⊢
  obtain ⟨b1, m1, k1, h⟩ := Res.bind_eq_ok h
  obtain ⟨n1, j1, sim1⟩ := handleStringLiteralsU_sameView hsim k1
  rw [j1]
  simp only [Res.bind]
  cases b1 with
  | true =>
    simp only [if_true, Res.ok.injEq, true_and] at h ⊢
    exact ⟨n1, rfl, by rw [← h]; exact sim1⟩
  | false =>
  simp only [Bool.false_eq_true, if_false] at h ⊢
  obtain ⟨b2, m2, k2, h⟩ := Res.bind_eq_ok h
  obtain ⟨n2, j2, sim2⟩ := handleCommentsU_sameView sim1 k2
  rw [j2]
  simp only [Res.bind]
  cases b2 with
  | true =>
    simp only [if_true, Res.ok.injEq, true_and] at h ⊢
    exact ⟨n2, rfl, by rw [← h]; exact sim2⟩
  | false =>
  simp only [Bool.false_eq_true, if_false] at h ⊢
  obtain ⟨b3, m3, k3, h⟩ := Res.bind_eq_ok h
  obtain ⟨n3, j3, sim3⟩ := handleAlphaNumericCharsU_sameView sim2 k3
  rw [j3]
  simp only [Res.bind]
  cases b3 with
  | true =>
    simp only [if_true, Res.ok.injEq, true_and] at h ⊢
    exact ⟨n3, rfl, by rw [← h]; exact sim3⟩
  | false =>
  simp only [Bool.false_eq_true, if_false] at h ⊢
  obtain ⟨u4, m4, k4, h⟩ := Res.bind_eq_ok h
  obtain ⟨n4, j4, sim4⟩ := consumeTokenBuffer_sameView sim3 k4
  rw [j4]
  simp only [Res.bind]
  obtain ⟨b5, m5, k5, h⟩ := Res.bind_eq_ok h
  obtain ⟨n5, j5, sim5⟩ := handleWhiteSpacesU_sameView sim4 k5
  rw [j5]
  simp only [Res.bind]
  cases b5 with
  | true =>
    simp only [if_true, Res.ok.injEq, true_and] at h ⊢
    exact ⟨n5, rfl, by rw [← h]; exact sim5⟩
  | false =>
  simp only [Bool.false_eq_true, if_false] at h ⊢
  obtain ⟨b6, m6, k6, h⟩ := Res.bind_eq_ok h
  obtain ⟨n6, j6, sim6⟩ := handleDelimetersU_sameView sim5 k6
  rw [j6]
  simp only [Res.bind]
  cases b6 with
  | true =>
    simp only [if_true, Res.ok.injEq, true_and] at h ⊢
    exact ⟨n6, rfl, by rw [← h]; exact sim6⟩
  | false =>
  simp only [Bool.false_eq_true, if_false] at h ⊢
  obtain ⟨b7, m7, k7, h⟩ := Res.bind_eq_ok h
  obtain ⟨n7, j7, sim7⟩ := handleOperatorsU_sameView sim6 k7
  rw [j7]
  simp only [Res.bind]
  cases b7 with
  | true =>
    simp only [if_true, Res.ok.injEq, true_and] at h ⊢
    exact ⟨n7, rfl, by rw [← h]; exact sim7⟩
  | false =>
    simp [Lexer.error] at h

/-- A scan loop that returns does the same, with at least as much budget, on every
state with the same view: the tokens returned are those of the other run after the
tokens that the state held in addition. -/
theorem scanLoopU_sameView {pre : List Token} :
    ∀ (f : Nat) (s s1 : Lexer) (ts : List Token), scanLoopU f s = Res.ok ts s1 →
      ∀ (g : Nat) (t : Lexer), f ≤ g → t.sameView pre s →
        ∃ t1, scanLoopU g t = Res.ok (pre ++ ts) t1 := by
  intro f
  induction f with
  | zero =>
    intro s s1 ts h
    simp [scanLoopU] at h
  | succ f ih =>
    intro s s1 ts h g t hle hsim
    obtain ⟨g, rfl⟩ : ∃ k, g = k + 1 := ⟨g - 1, by omega⟩
    rw [scanLoopU] at h ⊢
    rw [Lexer.sameView_charAt_zero hsim]
    by_cases hc : (charAt s.m_src s.m_index != STRING_TERMINATION_CHAR) = true
    · simp only [hc, if_true] at h ⊢
      obtain ⟨u, m1, k1, k2⟩ := Res.bind_eq_ok h
      obtain ⟨n1, j1, sim1⟩ := scanStepU_sameView hsim k1
      rw [j1]
      simp only [Res.bind]
      exact ih m1 s1 ts k2 g n1 (by omega) sim1
    · simp only [hc, Bool.false_eq_true, if_false, Res.ok.injEq] at h ⊢
      exact ⟨t, by rw [hsim.2.2.1, h.1], rfl⟩

/-! ## An identifier ahead of the input -/

theorem isAlphaNumeric_facts {c : Char} (h : isAlphaNumeric c = true) :
    c ≠ STRING_TERMINATION_CHAR ∧ c ≠ QUOTE_CHAR ∧ c ≠ '/' := by
  have key : 48 ≤ c.toNat := by
    have e : ((('A' ≤ c ∧ c ≤ 'Z') ∨ ('a' ≤ c ∧ c ≤ 'z')) ∨ c = '_') ∨ ('0' ≤ c ∧ c ≤ '9') := by
      simpa [isAlphaNumeric, isAlpha, isDigit] using h
    rcases e with ((⟨h1, _⟩ | ⟨h1, _⟩) | h1) | ⟨h1, _⟩
    · rw [Char.le_def] at h1
      exact le_trans (by decide) h1
    · rw [Char.le_def] at h1
      exact le_trans (by decide) h1
    · rw [h1]
      decide
    · rw [Char.le_def] at h1
      exact h1
  refine ⟨?_, ?_, ?_⟩ <;>
  · intro hc
    rw [hc] at key
    exact absurd key (by decide)

/-- On a letter, digit or underscore one iteration of the scan loop appends the
character to the buffer and moves one character on. -/
theorem scanStepU_alphaNumeric (s : Lexer) (h : isAlphaNumeric (charAt s.m_src s.m_index) = true) :
    s.scanStepU = Res.ok ()
      { s with m_token_buffer := s.m_token_buffer ++ [charAt s.m_src s.m_index],
               m_index := s.m_index + 1, m_offset := s.m_offset + 1 } := by
  obtain ⟨_, hq, hs⟩ := isAlphaNumeric_facts h
  unfold Lexer.scanStepU
  rw [handleStringLiteralsU_of_ne s hq]
  simp only [Res.bind, Bool.false_eq_true, if_false]
  rw [handleCommentsU_of_ne s hs]
  simp only [Res.bind, Bool.false_eq_true, if_false]
  simp [Lexer.handleAlphaNumericCharsU, h, Res.bind]

/-- Over a text of letters, digits and underscores the scan loop spends one
iteration per character and goes on with the text appended to the buffer. -/
theorem scanLoopU_accumulate (u : List Char) (hu : validIdentifierText u) :
    ∀ (fuel : Nat) (s : Lexer) (tail : List Char), s.m_src.drop s.m_index = u ++ tail →
      scanLoopU (fuel + u.length) s =
        scanLoopU fuel
          { s with m_token_buffer := s.m_token_buffer ++ u, m_index := s.m_index + u.length,
                   m_offset := s.m_offset + u.length } := by
  induction u with
  | nil =>
    intro fuel s tail _
    simp
  | cons c cs ih =>
    intro fuel s tail hd
    have hd0 : s.m_src.drop s.m_index = c :: (cs ++ tail) := by simpa using hd
    have h0 : charAt s.m_src s.m_index = c := charAt_of_drop_eq_cons hd0
    have hc : isAlphaNumeric c = true := hu c (List.mem_cons_self _ _)
    have hne : c ≠ STRING_TERMINATION_CHAR := (isAlphaNumeric_facts hc).1
    have hlen : fuel + (c :: cs).length = (fuel + cs.length) + 1 := by
      simp only [List.length_cons]
      omega
    rw [hlen, scanLoopU]
    simp only [h0, bne_iff_ne, ne_eq, hne, not_false_eq_true, if_true]
    rw [scanStepU_alphaNumeric s (by rw [h0]; exact hc)]
    simp only [Res.bind, h0]
    rw [ih (fun x hx => hu x (List.mem_cons_of_mem _ hx)) fuel _ tail
      (drop_succ_of_drop_eq_cons hd0)]
    simp only [List.length_cons, List.append_assoc, List.singleton_append, Nat.add_assoc,
      Nat.add_comm 1]

/-- On a character that is neither a letter, digit, underscore nor a period, one
iteration of the scan loop does what it does after a flush of the buffer. -/
theorem scanStepU_flush_first (s s2 : Lexer)
    (hna : isAlphaNumeric (charAt s.m_src s.m_index) = false)
    (hdot : charAt s.m_src s.m_index ≠ '.')
    (hflush : s.consumeTokenBuffer = Res.ok () s2) : s.scanStepU = s2.scanStepU := by
  have hfl := consumeTokenBuffer_ok_flushed s s2 () hflush
  have hb2 : s2.m_token_buffer = [] := Lexer.flushed_buffer hfl
  obtain ⟨c1, c2, _, _⟩ := Lexer.flushed_cursor hfl
  have hf2 : s2.consumeTokenBuffer = Res.ok () s2 := consumeTokenBuffer_of_empty s2 hb2
  have hal : s.handleAlphaNumericCharsU = Res.ok false s :=
    handleAlphaNumericCharsU_of_not s hna hdot
  have hal2 : s2.handleAlphaNumericCharsU = Res.ok false s2 :=
    handleAlphaNumericCharsU_of_not s2 (by rw [c1, c2]; exact hna) (by rw [c1, c2]; exact hdot)
  unfold Lexer.scanStepU
  by_cases hq : charAt s.m_src s.m_index = QUOTE_CHAR
  · have e1 : s.handleStringLiteralsU = s2.handleStringLiteralsU := by
      unfold Lexer.handleStringLiteralsU
      simp only [c1, c2, hq, beq_self_eq_true, if_true, hflush, hf2, Res.bind]
    rw [e1]
  · rw [handleStringLiteralsU_of_ne s hq, handleStringLiteralsU_of_ne s2 (by rw [c1, c2]; exact hq)]
    simp only [Res.bind, Bool.false_eq_true, if_false]
    by_cases hs : charAt s.m_src s.m_index = '/'
    · by_cases hs1 : charAt s.m_src (s.m_index + 1) = '/'
      · have e1 : s.handleCommentsU = s2.handleCommentsU := by
          unfold Lexer.handleCommentsU Lexer.handleLineCommentsU
          simp only [Nat.add_zero, c1, c2, hs, hs1, bne_self_eq_false, Bool.false_eq_true,
            if_false, beq_self_eq_true, if_true, hflush, hf2, Res.bind]
        rw [e1]
      · by_cases hs2 : charAt s.m_src (s.m_index + 1) = '*'
        · have e1 : s.handleCommentsU = s2.handleCommentsU := by
            unfold Lexer.handleCommentsU Lexer.handleMultilineCommentsU
            have hne : ¬ (('*' : Char) = '/') := by decide
            simp only [Nat.add_zero, c1, c2, hs, hs2, bne_self_eq_false, Bool.false_eq_true,
              if_false, beq_iff_eq, hne, beq_self_eq_true, if_true, hflush, hf2, Res.bind]
          rw [e1]
        · have e1 : s.handleCommentsU = Res.ok false s := by
            unfold Lexer.handleCommentsU
            simp [hs, hs1, hs2]
          have e2 : s2.handleCommentsU = Res.ok false s2 := by
            unfold Lexer.handleCommentsU
            simp [c1, c2, hs, hs1, hs2]
          rw [e1, e2]
          simp only [Res.bind, Bool.false_eq_true, if_false]
          rw [hal, hal2]
          simp only [Res.bind, Bool.false_eq_true, if_false]
          rw [hflush, hf2]
    · rw [handleCommentsU_of_ne s hs, handleCommentsU_of_ne s2 (by rw [c1, c2]; exact hs)]
      simp only [Res.bind, Bool.false_eq_true, if_false]
      rw [hal, hal2]
      simp only [Res.bind, Bool.false_eq_true, if_false]
      rw [hflush, hf2]

/-! ## Runs on sources that agree up to an index -/

theorem lineCommentLoopU_index_le (fuel : Nat) (s s1 : Lexer) (u : Unit)
    (h : lineCommentLoopU fuel s = Res.ok u s1) : s.m_index ≤ s1.m_index := by
  induction fuel generalizing s with
  | zero => simp [lineCommentLoopU] at h
  | succ n ih =>
    rw [lineCommentLoopU] at h
    split at h
    · have := ih _ h
      simp only at this
      omega
    · simp only [Res.ok.injEq, true_and] at h
      rw [← h]

theorem multilineCommentLoopU_index_le (fuel : Nat) (s s1 : Lexer) (u : Unit)
    (h : multilineCommentLoopU fuel s = Res.ok u s1) : s.m_index ≤ s1.m_index := by
  induction fuel generalizing s with
  | zero => simp [multilineCommentLoopU] at h
  | succ n ih =>
    rw [multilineCommentLoopU] at h
    split at h
    · simp only at h
      split at h
      · simp only [Res.ok.injEq, true_and] at h
        rw [← h]
        simp only
        omega
      · split at h
        · have := ih _ h
          simp only at this
          omega
        · have := ih _ h
          simp only at this
          omega
    · simp only [Res.ok.injEq, true_and] at h
      rw [← h]

theorem whiteSpacesLoopU_index_le (fuel : Nat) (s s1 : Lexer) (cw b : Bool)
    (h : whiteSpacesLoopU fuel s cw = Res.ok b s1) : s.m_index ≤ s1.m_index := by
  induction fuel generalizing s cw with
  | zero => simp [whiteSpacesLoopU] at h
  | succ n ih =>
    rw [whiteSpacesLoopU] at h
    split at h
    · obtain ⟨u, m1, k1, k2⟩ := Res.bind_eq_ok h
      have hm : m1.m_index = s.m_index := by
        by_cases hcw : (!cw) = true
        · simp only [hcw, if_true] at k1
          exact (Lexer.flushed_cursor (consumeTokenBuffer_ok_flushed _ _ _ k1)).2.1
        · simp only [hcw, Bool.false_eq_true, if_false, Res.ok.injEq, true_and] at k1
          rw [← k1]
      simp only at k2
      split at k2
      · have := ih _ _ k2
        simp only at this
        omega
      · have := ih _ _ k2
        simp only at this
        omega
    · simp only [Res.ok.injEq] at h
      rw [← h.2]

theorem parseStringLoopU_pos_le (src : List Char) (fuel : Nat) (st st1 : StrState)
    (h : parseStringLoopU src fuel st = some st1) : st.pos ≤ st1.pos := by
  induction fuel generalizing st with
  | zero => simp [parseStringLoopU] at h
  | succ n ih =>
    rw [parseStringLoopU] at h
    split at h
    · split at h
      · have := ih _ h
        simp only at this
        omega
      · split at h
        · have := ih _ h
          simp only at this
          omega
        · have := ih _ h
          simp only at this
          omega
    · simp only [Option.some.injEq] at h
      rw [← h]

theorem consumeTokenBuffer_withSource (s s1 : Lexer) (B : List Char)
    (h : s.consumeTokenBuffer = Res.ok () s1) :
    (s.withSource B).consumeTokenBuffer = Res.ok () (s1.withSource B) := by
  unfold Lexer.consumeTokenBuffer at h ⊢
  show (if (!s.m_token_buffer.isEmpty) = true then _ else _) = _
  by_cases hb : (!s.m_token_buffer.isEmpty) = true
  · simp only [hb, if_true] at h ⊢
    by_cases hi : (bufferToToken s.m_token_buffer).m_type = TokenType.INVALID
    · simp [hi, Lexer.error] at h
    · simp only [hi, if_false, Res.ok.injEq, true_and] at h
      rw [← h]
      simp [Lexer.withSource, hi]
  · simp only [hb, Bool.false_eq_true, if_false, Res.ok.injEq, true_and] at h ⊢
    rw [← h]

theorem lineCommentLoopU_local {L : Nat} {A B : List Char} (H : agreeBelow L A B) :
    ∀ (f : Nat) (s s1 : Lexer), s.m_src = A → lineCommentLoopU f s = Res.ok () s1 →
      s1.m_index ≤ L → ∀ g : Nat, f ≤ g →
        lineCommentLoopU g (s.withSource B) = Res.ok () (s1.withSource B) := by
  intro f
  induction f with
  | zero =>
    intro s s1 _ h
    simp [lineCommentLoopU] at h
  | succ f ih =>
    intro s s1 hsrc h hL g hle
    obtain ⟨g, rfl⟩ : ∃ k, g = k + 1 := ⟨g - 1, by omega⟩
    have hmono := lineCommentLoopU_index_le _ _ _ _ h
    rw [lineCommentLoopU] at h ⊢
    by_cases hlt : s.m_index < L
    · have hc : charAt (s.withSource B).m_src (s.withSource B).m_index = charAt s.m_src s.m_index := by
        show charAt B s.m_index = charAt s.m_src s.m_index
        rw [hsrc, H.1 _ hlt]
      rw [hc]
      by_cases hcond : (charAt s.m_src s.m_index != STRING_TERMINATION_CHAR &&
          charAt s.m_src s.m_index != NEW_LINE_CHAR) = true
      · simp only [hcond, if_true] at h ⊢
        exact ih _ s1 (by exact hsrc) h hL g (by omega)
      · simp only [hcond, Bool.false_eq_true, if_false, Res.ok.injEq, true_and] at h ⊢
        rw [← h]
    · have hidx : s.m_index = L := by omega
      have hcond : (charAt s.m_src s.m_index != STRING_TERMINATION_CHAR &&
          charAt s.m_src s.m_index != NEW_LINE_CHAR) = true := by
        rw [hsrc, hidx, H.2.1]
        decide
      simp only [hcond, if_true] at h
      have := lineCommentLoopU_index_le _ _ _ _ h
      simp only at this
      omega

theorem multilineCommentLoopU_past {L : Nat} {A B : List Char} (H : agreeBelow L A B)
    (f : Nat) (s s1 : Lexer) (hsrc : s.m_src = A) (hidx : s.m_index = L)
    (h : multilineCommentLoopU f s = Res.ok () s1) : L < s1.m_index := by
  cases f with
  | zero => simp [multilineCommentLoopU] at h
  | succ f =>
    have h0 : charAt s.m_src s.m_index = ' ' := by rw [hsrc, hidx, H.2.1]
    rw [multilineCommentLoopU] at h
    simp only [Nat.add_zero, h0] at h
    have e1 : ((' ' : Char) != STRING_TERMINATION_CHAR) = true := by decide
    have e2 : ((' ' : Char) == '*') = false := by decide
    have e3 : ((' ' : Char) == NEW_LINE_CHAR) = false := by decide
    simp only [e1, e2, e3, if_true, Bool.false_and, Bool.false_eq_true, if_false] at h
    have := multilineCommentLoopU_index_le _ _ _ _ h
    simp only at this
    omega

theorem multilineCommentLoopU_local {L : Nat} {A B : List Char} (H : agreeBelow L A B) :
    ∀ (f : Nat) (s s1 : Lexer), s.m_src = A → multilineCommentLoopU f s = Res.ok () s1 →
      s1.m_index ≤ L → ∀ g : Nat, f ≤ g →
        multilineCommentLoopU g (s.withSource B) = Res.ok () (s1.withSource B) := by
  intro f
  induction f with
  | zero =>
    intro s s1 _ h
    simp [multilineCommentLoopU] at h
  | succ f ih =>
    intro s s1 hsrc h hL g hle
    obtain ⟨g, rfl⟩ : ∃ k, g = k + 1 := ⟨g - 1, by omega⟩
    have hmono := multilineCommentLoopU_index_le _ _ _ _ h
    by_cases hlt : s.m_index < L
    · have hc : charAt (s.withSource B).m_src (s.withSource B).m_index = charAt s.m_src s.m_index := by
        show charAt B s.m_index = charAt s.m_src s.m_index
        rw [hsrc, H.1 _ hlt]
      rw [multilineCommentLoopU] at h ⊢
      simp only [Nat.add_zero, hc] at h ⊢
      by_cases hcond : (charAt s.m_src s.m_index != STRING_TERMINATION_CHAR) = true
      · simp only [hcond, if_true] at h ⊢
        by_cases hlt1 : s.m_index + 1 < L
        · have hc1 : charAt (s.withSource B).m_src ((s.withSource B).m_index + 1) =
              charAt s.m_src (s.m_index + 1) := by
            show charAt B (s.m_index + 1) = charAt s.m_src (s.m_index + 1)
            rw [hsrc, H.1 _ hlt1]
          simp only [hc1]
          by_cases hcl : (charAt s.m_src s.m_index == '*' &&
              charAt s.m_src (s.m_index + 1) == '/') = true
          · simp only [hcl, if_true, Res.ok.injEq, true_and] at h ⊢
            rw [← h]
            rfl
          · simp only [hcl, Bool.false_eq_true, if_false] at h ⊢
            by_cases hnl : (charAt s.m_src s.m_index == NEW_LINE_CHAR) = true
            · simp only [hnl, if_true] at h ⊢
              exact ih _ s1 (by exact hsrc) h hL g (by omega)
            · simp only [hnl, Bool.false_eq_true, if_false] at h ⊢
              exact ih _ s1 (by exact hsrc) h hL g (by omega)
        · -- the next character of `A` is the blank at `L`: the loop goes past it
          exfalso
          have hA1 : charAt s.m_src (s.m_index + 1) = ' ' := by
            have : s.m_index + 1 = L := by omega
            rw [hsrc, this, H.2.1]
          have e2 : ((' ' : Char) == '/') = false := by decide
          simp only [hA1, e2, Bool.and_false, Bool.false_eq_true, if_false] at h
          by_cases hnl : (charAt s.m_src s.m_index == NEW_LINE_CHAR) = true
          · simp only [hnl, if_true] at h
            have := multilineCommentLoopU_past H _ _ _ (by exact hsrc) (by simp only; omega) h
            omega
          · simp only [hnl, Bool.false_eq_true, if_false] at h
            have := multilineCommentLoopU_past H _ _ _ (by exact hsrc) (by simp only; omega) h
            omega
      · simp only [hcond, Bool.false_eq_true, if_false, Res.ok.injEq, true_and] at h ⊢
        rw [← h]
    · have := multilineCommentLoopU_past H _ _ _ hsrc (by omega) h
      omega

theorem whiteSpacesLoopU_local {L : Nat} {A B : List Char} (H : agreeBelow L A B) :
    ∀ (f : Nat) (s s1 : Lexer) (cw b : Bool), s.m_src = A →
      whiteSpacesLoopU f s cw = Res.ok b s1 → s1.m_index ≤ L → ∀ g : Nat, f ≤ g →
        whiteSpacesLoopU g (s.withSource B) cw = Res.ok b (s1.withSource B) := by
  intro f
  induction f with
  | zero =>
    intro s s1 cw b _ h
    simp [whiteSpacesLoopU] at h
  | succ f ih =>
    intro s s1 cw b hsrc h hL g hle
    obtain ⟨g, rfl⟩ : ∃ k, g = k + 1 := ⟨g - 1, by omega⟩
    have hmono := whiteSpacesLoopU_index_le _ _ _ _ _ h
    rw [whiteSpacesLoopU] at h ⊢
    by_cases hlt : s.m_index < L
    · have hc : charAt (s.withSource B).m_src (s.withSource B).m_index = charAt s.m_src s.m_index := by
        show charAt B s.m_index = charAt s.m_src s.m_index
        rw [hsrc, H.1 _ hlt]
      rw [hc]
      by_cases hb : isBlank (charAt s.m_src s.m_index) = true
      · simp only [hb, if_true] at h ⊢
        obtain ⟨u, m1, k1, k2⟩ := Res.bind_eq_ok h
        have hm : m1.m_src = s.m_src ∧ m1.m_index = s.m_index := by
          by_cases hcw : (!cw) = true
          · simp only [hcw, if_true] at k1
            have := Lexer.flushed_cursor (consumeTokenBuffer_ok_flushed _ _ _ k1)
            exact ⟨this.1, this.2.1⟩
          · simp only [hcw, Bool.false_eq_true, if_false, Res.ok.injEq, true_and] at k1
            rw [← k1]
            exact ⟨rfl, rfl⟩
        have hflush : (if (!cw) = true then (s.withSource B).consumeTokenBuffer
            else Res.ok () (s.withSource B)) = Res.ok () (m1.withSource B) := by
          by_cases hcw : (!cw) = true
          · simp only [hcw, if_true] at k1 ⊢
            exact consumeTokenBuffer_withSource s m1 B k1
          · simp only [hcw, Bool.false_eq_true, if_false, Res.ok.injEq, true_and] at k1 ⊢
            rw [← k1]
        rw [hflush]
        simp only [Res.bind]
        have hc2 : charAt (m1.withSource B).m_src (m1.withSource B).m_index =
            charAt m1.m_src m1.m_index := by
          show charAt B m1.m_index = charAt m1.m_src m1.m_index
          rw [hm.1, hm.2, hsrc, H.1 _ hlt]
        rw [hc2]
        by_cases hnl : (charAt m1.m_src m1.m_index == NEW_LINE_CHAR) = true
        · simp only [hnl, if_true] at k2 ⊢
          exact ih _ s1 true b (by simp only; rw [hm.1, hsrc]) k2 hL g (by omega)
        · simp only [hnl, Bool.false_eq_true, if_false] at k2 ⊢
          exact ih _ s1 true b (by simp only; rw [hm.1, hsrc]) k2 hL g (by omega)
      · simp only [hb, Bool.false_eq_true, if_false, Res.ok.injEq] at h ⊢
        exact ⟨h.1, by rw [← h.2]⟩
    · exfalso
      have hidx : s.m_index = L := by omega
      have hb : isBlank (charAt s.m_src s.m_index) = true := by
        rw [hsrc, hidx, H.2.1]
        decide
      simp only [hb, if_true] at h
      obtain ⟨u, m1, k1, k2⟩ := Res.bind_eq_ok h
      have hm : m1.m_index = s.m_index := by
        by_cases hcw : (!cw) = true
        · simp only [hcw, if_true] at k1
          exact (Lexer.flushed_cursor (consumeTokenBuffer_ok_flushed _ _ _ k1)).2.1
        · simp only [hcw, Bool.false_eq_true, if_false, Res.ok.injEq, true_and] at k1
          rw [← k1]
      split at k2
      · have := whiteSpacesLoopU_index_le _ _ _ _ _ k2
        simp only at this
        omega
      · have := whiteSpacesLoopU_index_le _ _ _ _ _ k2
        simp only at this
        omega

theorem parseStringLoopU_local {L : Nat} {A B : List Char} (H : agreeBelow L A B) :
    ∀ (f : Nat) (st st1 : StrState), parseStringLoopU A f st = some st1 → st1.pos < L →
      ∀ g : Nat, f ≤ g → parseStringLoopU B g st = some st1 := by
  intro f
  induction f with
  | zero =>
    intro st st1 h
    simp [parseStringLoopU] at h
  | succ f ih =>
    intro st st1 h hL g hle
    obtain ⟨g, rfl⟩ : ∃ k, g = k + 1 := ⟨g - 1, by omega⟩
    have hmono := parseStringLoopU_pos_le _ _ _ _ h
    have hlt : st.pos < L := by omega
    have hc : charAt B st.pos = charAt A st.pos := (H.1 _ hlt).symm
    rw [parseStringLoopU] at h ⊢
    rw [hc]
    by_cases h0 : (charAt A st.pos != STRING_TERMINATION_CHAR && charAt A st.pos != QUOTE_CHAR) = true
    · simp only [h0, if_true] at h ⊢
      by_cases hbs : (charAt A st.pos == BACKSLASH_CHAR) = true
      · by_cases hlt1 : st.pos + 1 < L
        · have hc1 : charAt B (st.pos + 1) = charAt A (st.pos + 1) := (H.1 _ hlt1).symm
          simp only [hc, hc1]
          by_cases h1 : (charAt A st.pos == BACKSLASH_CHAR &&
              charAt A (st.pos + 1) != STRING_TERMINATION_CHAR) = true
          · simp only [h1, if_true] at h ⊢
            exact ih _ st1 h hL g (by omega)
          · simp only [h1, Bool.false_eq_true, if_false] at h ⊢
            by_cases h2 : (charAt A st.pos == '\n') = true
            · simp only [h2, if_true] at h ⊢
              exact ih _ st1 h hL g (by omega)
            · simp only [h2, Bool.false_eq_true, if_false] at h ⊢
              exact ih _ st1 h hL g (by omega)
        · -- the escaped character of `A` is the blank at `L`: the loop goes past it
          exfalso
          have hA1 : charAt A (st.pos + 1) = ' ' := by
            have : st.pos + 1 = L := by omega
            rw [this, H.2.1]
          have e1 : ((' ' : Char) != STRING_TERMINATION_CHAR) = true := by decide
          simp only [hbs, hA1, e1, Bool.and_self, if_true] at h
          have := parseStringLoopU_pos_le _ _ _ _ h
          simp only at this
          omega
      · have hbs0 : (charAt A st.pos == BACKSLASH_CHAR) = false := by simpa using hbs
        simp only [hc, hbs0, Bool.false_and, Bool.false_eq_true, if_false] at h ⊢
        by_cases h2 : (charAt A st.pos == '\n') = true
        · simp only [h2, if_true] at h ⊢
          exact ih _ st1 h hL g (by omega)
        · simp only [h2, Bool.false_eq_true, if_false] at h ⊢
          exact ih _ st1 h hL g (by omega)
    · simp only [h0, Bool.false_eq_true, if_false, Option.some.injEq] at h ⊢
      exact h

theorem parseStringLiteralU_local {L : Nat} {A B : List Char} (H : agreeBelow L A B)
    (pos line offset : Nat) (tok : Token) (st : StrState)
    (h : parseStringLiteralU A pos line offset = some (tok, st))
    (hty : tok.m_type ≠ TokenType.INVALID) (hL : st.pos ≤ L) :
    parseStringLiteralU B pos line offset = some (tok, st) := by
  unfold parseStringLiteralU at h ⊢
  cases hA : parseStringLoopU A (A.length + 1)
      { value := [QUOTE_CHAR], pos := pos + 1, line := line, offset := offset + 1 } with
  | none =>
    rw [hA] at h
    simp at h
  | some st0 =>
    rw [hA] at h
    simp only at h
    by_cases hq : (charAt A st0.pos == QUOTE_CHAR) = true
    · simp only [hq, if_true, Option.some.injEq, Prod.mk.injEq] at h
      have hpos : st0.pos < L := by
        have := h.2
        rw [← this] at hL
        simp only at hL
        omega
      have hB := parseStringLoopU_local H _ _ st0 hA hpos (B.length + 1)
        (by have := H.2.2.2; omega)
      rw [hB]
      have hc : charAt B st0.pos = charAt A st0.pos := (H.1 _ hpos).symm
      simp only [hc, hq, if_true, Option.some.injEq, Prod.mk.injEq]
      exact h
    · simp only [hq, Bool.false_eq_true, if_false, Option.some.injEq, Prod.mk.injEq] at h
      rw [← h.1] at hty
      exact absurd rfl hty

theorem handleStringLiteralsU_local {L : Nat} {A B : List Char} (H : agreeBelow L A B)
    (s s1 : Lexer) (b : Bool) (hsrc : s.m_src = A) (hlt : s.m_index < L)
    (h : s.handleStringLiteralsU = Res.ok b s1) (hL : s1.m_index ≤ L) :
    (s.withSource B).handleStringLiteralsU = Res.ok b (s1.withSource B) := by
  have hc : charAt (s.withSource B).m_src (s.withSource B).m_index = charAt s.m_src s.m_index := by
    show charAt B s.m_index = charAt s.m_src s.m_index
    rw [hsrc, H.1 _ hlt]
  unfold Lexer.handleStringLiteralsU at h ⊢
  simp only [hc] at h ⊢
  by_cases hq : (charAt s.m_src s.m_index == QUOTE_CHAR) = true
  · simp only [hq, if_true] at h ⊢
    obtain ⟨u, m1, k1, k2⟩ := Res.bind_eq_ok h
    have hm := Lexer.flushed_cursor (consumeTokenBuffer_ok_flushed _ _ _ k1)
    rw [consumeTokenBuffer_withSource s m1 B k1]
    simp only [Res.bind]
    cases hp : parseStringLiteralU m1.m_src m1.m_index m1.m_line m1.m_offset with
    | none =>
      rw [hp] at k2
      simp at k2
    | some r =>
      obtain ⟨tok, st⟩ := r
      rw [hp] at k2
      simp only at k2
      by_cases hi : tok.m_type = TokenType.INVALID
      · simp [hi, Lexer.error] at k2
      · simp only [hi, if_false, Res.ok.injEq] at k2
        have hst : st.pos ≤ L := by
          have := k2.2
          rw [← this] at hL
          exact hL
        have hpA : parseStringLiteralU A m1.m_index m1.m_line m1.m_offset = some (tok, st) := by
          rw [← hsrc, ← hm.1]
          exact hp
        have hpB := parseStringLiteralU_local H _ _ _ tok st hpA hi hst
        have hpB2 : parseStringLiteralU (m1.withSource B).m_src (m1.withSource B).m_index
            (m1.withSource B).m_line (m1.withSource B).m_offset = some (tok, st) := hpB
        rw [hpB2]
        simp only [hi, if_false, Res.ok.injEq]
        refine ⟨k2.1, ?_⟩
        rw [← k2.2]
        rfl
  · simp only [hq, Bool.false_eq_true, if_false, Res.ok.injEq] at h ⊢
    exact ⟨h.1, by rw [← h.2]⟩

theorem handleCommentsU_local {L : Nat} {A B : List Char} (H : agreeBelow L A B)
    (s s1 : Lexer) (b : Bool) (hsrc : s.m_src = A) (hlt : s.m_index < L)
    (hsl : charAt A s.m_index = '/' → s.m_index + 1 < L)
    (h : s.handleCommentsU = Res.ok b s1) (hL : s1.m_index ≤ L) :
    (s.withSource B).handleCommentsU = Res.ok b (s1.withSource B) := by
  have hc : charAt (s.withSource B).m_src (s.withSource B).m_index = charAt s.m_src s.m_index := by
    show charAt B s.m_index = charAt s.m_src s.m_index
    rw [hsrc, H.1 _ hlt]
  unfold Lexer.handleCommentsU at h ⊢
  simp only [Nat.add_zero, hc] at h ⊢
  by_cases h0 : (charAt s.m_src s.m_index != '/') = true
  · simp only [h0, if_true, Res.ok.injEq] at h ⊢
    exact ⟨h.1, by rw [← h.2]⟩
  · have hs : charAt A s.m_index = '/' := by
      rw [← hsrc]
      simpa using h0
    have hlt1 : s.m_index + 1 < L := hsl hs
    have hc1 : charAt (s.withSource B).m_src ((s.withSource B).m_index + 1) =
        charAt s.m_src (s.m_index + 1) := by
      show charAt B (s.m_index + 1) = charAt s.m_src (s.m_index + 1)
      rw [hsrc, H.1 _ hlt1]
    simp only [h0, Bool.false_eq_true, if_false, hc1] at h ⊢
    by_cases h1 : (charAt s.m_src (s.m_index + 1) == '/') = true
    · simp only [h1, if_true] at h ⊢
      unfold Lexer.handleLineCommentsU at h ⊢
      obtain ⟨u1, m1, k1, k2⟩ := Res.bind_eq_ok h
      obtain ⟨u2, m2, k3, k4⟩ := Res.bind_eq_ok k1
      have hm := Lexer.flushed_cursor (consumeTokenBuffer_ok_flushed _ _ _ k3)
      simp only [Res.ok.injEq] at k2
      rw [consumeTokenBuffer_withSource s m2 B k3]
      simp only [Res.bind]
      have hB := lineCommentLoopU_local H _ _ m1 (by simp only; rw [hm.1, hsrc]) k4
        (by rw [k2.2]; exact hL) ((m2.withSource B).m_src.length + 1)
        (by
          show m2.m_src.length + 1 ≤ B.length + 1
          rw [hm.1, hsrc]
          have := H.2.2.2
          omega)
      have hB2 : lineCommentLoopU ((m2.withSource B).m_src.length + 1)
          { m2.withSource B with m_index := (m2.withSource B).m_index + 2,
                                 m_offset := (m2.withSource B).m_offset + 2 } =
          Res.ok () (m1.withSource B) := hB
      rw [hB2, ← k2.1, ← k2.2]
    · simp only [h1, Bool.false_eq_true, if_false] at h ⊢
      by_cases h2 : (charAt s.m_src (s.m_index + 1) == '*') = true
      · simp only [h2, if_true] at h ⊢
        unfold Lexer.handleMultilineCommentsU at h ⊢
        obtain ⟨u1, m1, k1, k2⟩ := Res.bind_eq_ok h
        obtain ⟨u2, m2, k3, k4⟩ := Res.bind_eq_ok k1
        have hm := Lexer.flushed_cursor (consumeTokenBuffer_ok_flushed _ _ _ k3)
        simp only [Res.ok.injEq] at k2
        rw [consumeTokenBuffer_withSource s m2 B k3]
        simp only [Res.bind]
        have hB := multilineCommentLoopU_local H _ _ m1 (by simp only; rw [hm.1, hsrc]) k4
          (by rw [k2.2]; exact hL) ((m2.withSource B).m_src.length + 1)
          (by
            show m2.m_src.length + 1 ≤ B.length + 1
            rw [hm.1, hsrc]
            have := H.2.2.2
            omega)
        have hB2 : multilineCommentLoopU ((m2.withSource B).m_src.length + 1)
            { m2.withSource B with m_index := (m2.withSource B).m_index + 2,
                                   m_offset := (m2.withSource B).m_offset + 2 } =
            Res.ok () (m1.withSource B) := hB
        rw [hB2, ← k2.1, ← k2.2]
      · simp only [h2, Bool.false_eq_true, if_false, Res.ok.injEq] at h ⊢
        exact ⟨h.1, by rw [← h.2]⟩

theorem handleAlphaNumericCharsU_local {L : Nat} {A B : List Char} (H : agreeBelow L A B)
    (s s1 : Lexer) (b : Bool) (hsrc : s.m_src = A) (hlt : s.m_index < L)
    (h : s.handleAlphaNumericCharsU = Res.ok b s1) :
    (s.withSource B).handleAlphaNumericCharsU = Res.ok b (s1.withSource B) := by
  have hc : charAt (s.withSource B).m_src (s.withSource B).m_index = charAt s.m_src s.m_index := by
    show charAt B s.m_index = charAt s.m_src s.m_index
    rw [hsrc, H.1 _ hlt]
  have hbuf : (s.withSource B).m_token_buffer = s.m_token_buffer := rfl
  unfold Lexer.handleAlphaNumericCharsU at h ⊢
  simp only [hc, hbuf] at h ⊢
  by_cases hcond : (isAlphaNumeric (charAt s.m_src s.m_index) ||
      (charAt s.m_src s.m_index == '.' && !s.m_token_buffer.isEmpty &&
        isDigit (s.m_token_buffer.getLastD STRING_TERMINATION_CHAR))) = true
  · rw [if_pos hcond] at h ⊢
    simp only [Res.ok.injEq] at h ⊢
    refine ⟨h.1, ?_⟩
    rw [← h.2]
    rfl
  · rw [if_neg hcond] at h ⊢
    simp only [Res.ok.injEq] at h ⊢
    exact ⟨h.1, by rw [← h.2]⟩

theorem handleWhiteSpacesU_local {L : Nat} {A B : List Char} (H : agreeBelow L A B)
    (s s1 : Lexer) (b : Bool) (hsrc : s.m_src = A)
    (h : s.handleWhiteSpacesU = Res.ok b s1) (hL : s1.m_index ≤ L) :
    (s.withSource B).handleWhiteSpacesU = Res.ok b (s1.withSource B) := by
  unfold Lexer.handleWhiteSpacesU at h ⊢
  exact whiteSpacesLoopU_local H _ s s1 false b hsrc h hL _
    (by
      show s.m_src.length + 1 ≤ B.length + 1
      rw [hsrc]
      have := H.2.2.2
      omega)

theorem handleDelimetersU_local {L : Nat} {A B : List Char} (H : agreeBelow L A B)
    (s s1 : Lexer) (b : Bool) (hsrc : s.m_src = A) (hlt : s.m_index < L)
    (h : s.handleDelimetersU = Res.ok b s1) :
    (s.withSource B).handleDelimetersU = Res.ok b (s1.withSource B) := by
  have hc : charAt (s.withSource B).m_src (s.withSource B).m_index = charAt s.m_src s.m_index := by
    show charAt B s.m_index = charAt s.m_src s.m_index
    rw [hsrc, H.1 _ hlt]
  unfold Lexer.handleDelimetersU at h ⊢
  simp only [hc] at h ⊢
  by_cases hd : isDelimiter (charAt s.m_src s.m_index) = true
  · simp only [hd, if_true] at h ⊢
    by_cases hi : delimiterType (charAt s.m_src s.m_index) = TokenType.INVALID
    · simp [hi, Lexer.error] at h
    · simp only [hi, if_false, Res.ok.injEq] at h ⊢
      refine ⟨h.1, ?_⟩
      rw [← h.2]
      rfl
  · simp only [hd, Bool.false_eq_true, if_false, Res.ok.injEq] at h ⊢
    exact ⟨h.1, by rw [← h.2]⟩

theorem operatorMatches_local {L : Nat} {A B : List Char} (H : agreeBelow L A B)
    (s : Lexer) (hsrc : s.m_src = A) :
    ∀ (op : List Char) (i : Nat), s.m_index + i ≤ L →
      (∀ c ∈ op.drop (L - (s.m_index + i)), c ≠ ' ' ∧ c ≠ '/') →
      operatorMatches (s.withSource B) op i = operatorMatches s op i := by
  intro op
  induction op with
  | nil =>
    intro i _ _
    rfl
  | cons c cs ih =>
    intro i hi hop
    unfold operatorMatches
    have hcB : charAt (s.withSource B).m_src ((s.withSource B).m_index + i) =
        charAt B (s.m_index + i) := rfl
    rw [hcB, hsrc]
    by_cases hlt : s.m_index + i < L
    · rw [← H.1 _ hlt]
      have hrec : operatorMatches (s.withSource B) cs (i + 1) = operatorMatches s cs (i + 1) := by
        refine ih (i + 1) (by omega) ?_
        intro d hd
        refine hop d ?_
        have hk : L - (s.m_index + i) = (L - (s.m_index + (i + 1))) + 1 := by omega
        rw [hk, List.drop_succ_cons]
        exact hd
      rw [hrec]
    · have hidx : s.m_index + i = L := by omega
      have hc := hop c (by
        have hk : L - (s.m_index + i) = 0 := by omega
        rw [hk]
        exact List.mem_cons_self _ _)
      have hA : (charAt A (s.m_index + i) != c) = true := by
        rw [hidx, H.2.1]
        simpa [bne_iff_ne] using fun h => hc.1 h.symm
      have hB : (charAt B (s.m_index + i) != c) = true := by
        rw [hidx, H.2.2.1]
        simpa [bne_iff_ne] using fun h => hc.2 h.symm
      simp [hA, hB]

theorem operatorsLoopU_local {L : Nat} {A B : List Char} (H : agreeBelow L A B)
    (s s1 : Lexer) (b : Bool) (hsrc : s.m_src = A) (hlt : s.m_index < L) :
    ∀ tbl : List (List Char × TokenType), (∀ p ∈ tbl, ∀ c ∈ p.1.tail, c ≠ ' ' ∧ c ≠ '/') →
      operatorsLoopU s tbl = Res.ok b s1 →
      operatorsLoopU (s.withSource B) tbl = Res.ok b (s1.withSource B) := by
  intro tbl
  induction tbl with
  | nil =>
    intro _ h
    simp only [operatorsLoopU, Res.ok.injEq] at h ⊢
    exact ⟨h.1, by rw [← h.2]⟩
  | cons a l ih =>
    intro htbl h
    obtain ⟨op, ty⟩ := a
    have hm : operatorMatches (s.withSource B) op 0 = operatorMatches s op 0 := by
      refine operatorMatches_local H s hsrc op 0 (by omega) ?_
      intro c hc
      refine htbl (op, ty) (List.mem_cons_self _ _) c ?_
      have hk : L - (s.m_index + 0) = (L - s.m_index - 1) + 1 := by omega
      rw [hk] at hc
      cases op with
      | nil => simp at hc
      | cons d ds =>
        rw [List.drop_succ_cons] at hc
        exact List.mem_of_mem_drop hc
    unfold operatorsLoopU at h ⊢
    rw [hm]
    by_cases hmt : operatorMatches s op 0 = true
    · simp only [hmt, if_true, Res.ok.injEq] at h ⊢
      refine ⟨h.1, ?_⟩
      rw [← h.2]
      rfl
    · simp only [hmt, Bool.false_eq_true, if_false] at h ⊢
      exact ih (fun p hp => htbl p (List.mem_cons_of_mem _ hp)) h

theorem handleOperatorsU_local {L : Nat} {A B : List Char} (H : agreeBelow L A B)
    (s s1 : Lexer) (b : Bool) (hsrc : s.m_src = A) (hlt : s.m_index < L)
    (h : s.handleOperatorsU = Res.ok b s1) :
    (s.withSource B).handleOperatorsU = Res.ok b (s1.withSource B) :=
  operatorsLoopU_local H s s1 b hsrc hlt OPERATORS (by decide) h

/-- One iteration of the scan loop that returns with the cursor at or before `L`
does the same on the other source. -/
theorem scanStepU_local {L : Nat} {A B : List Char} (H : agreeBelow L A B)
    (s s1 : Lexer) (hsrc : s.m_src = A) (hlt : s.m_index < L)
    (hsl : charAt A s.m_index = '/' → s.m_index + 1 < L)
    (h : s.scanStepU = Res.ok () s1) (hL : s1.m_index ≤ L) :
    (s.withSource B).scanStepU = Res.ok () (s1.withSource B) := by
  unfold Lexer.scanStepU at h ⊢
  obtain ⟨b1, m1, k1, h⟩ := Res.bind_eq_ok h
  cases b1 with
  | true =>
    simp only [if_true, Res.ok.injEq, true_and] at h
    rw [h] at k1
    rw [handleStringLiteralsU_local H s s1 true hsrc hlt k1 hL]
    rfl
  | false =>
  have e1 : m1 = s := by
    rcases handleStringLiteralsU_ok _ _ _ k1 with ⟨_, e⟩ | ⟨e, _⟩
    · exact e
    · exact absurd e (by decide)
  rw [e1] at k1 h
  rw [handleStringLiteralsU_local H s s false hsrc hlt k1 (by omega)]
  simp only [Res.bind, Bool.false_eq_true, if_false] at h ⊢
  obtain ⟨b2, m2, k2, h⟩ := Res.bind_eq_ok h
  cases b2 with
  | true =>
    simp only [if_true, Res.ok.injEq, true_and] at h
    rw [h] at k2
    rw [handleCommentsU_local H s s1 true hsrc hlt hsl k2 hL]
    rfl
  | false =>
  have e2 : m2 = s := by
    rcases handleCommentsU_ok _ _ _ k2 with ⟨_, e⟩ | ⟨e, _⟩
    · exact e
    · exact absurd e (by decide)
  rw [e2] at k2 h
  rw [handleCommentsU_local H s s false hsrc hlt hsl k2 (by omega)]
  simp only [Res.bind, Bool.false_eq_true, if_false] at h ⊢
  obtain ⟨b3, m3, k3, h⟩ := Res.bind_eq_ok h
  rw [handleAlphaNumericCharsU_local H s m3 b3 hsrc hlt k3]
  simp only [Res.bind]
  cases b3 with
  | true =>
    simp only [if_true, Res.ok.injEq, true_and] at h ⊢
    rw [h]
  | false =>
  have e3 : m3 = s := by
    rcases handleAlphaNumericCharsU_ok _ _ _ k3 with ⟨_, e⟩ | ⟨e, _⟩
    · exact e
    · exact absurd e (by decide)
  rw [e3] at h ⊢
  simp only [Bool.false_eq_true, if_false] at h ⊢
  obtain ⟨u4, m4, k4, h⟩ := Res.bind_eq_ok h
  have hfl := consumeTokenBuffer_ok_flushed _ _ _ k4
  have hm4 := Lexer.flushed_cursor hfl
  have hb4 : m4.m_token_buffer = [] := Lexer.flushed_buffer hfl
  have hsrc4 : m4.m_src = A := by rw [hm4.1, hsrc]
  have hlt4 : m4.m_index < L := by rw [hm4.2.1]; exact hlt
  rw [consumeTokenBuffer_withSource s m4 B k4]
  simp only [Res.bind]
  obtain ⟨b5, m5, k5, h⟩ := Res.bind_eq_ok h
  cases b5 with
  | true =>
    simp only [if_true, Res.ok.injEq, true_and] at h
    rw [h] at k5
    rw [handleWhiteSpacesU_local H m4 s1 true hsrc4 k5 hL]
    rfl
  | false =>
  have e5 : m5 = m4 := (whiteSpacesLoopU_ok _ _ _ _ _ hb4 k5).2.2 rfl
  rw [e5] at k5 h
  rw [handleWhiteSpacesU_local H m4 m4 false hsrc4 k5 (by omega)]
  simp only [Res.bind, Bool.false_eq_true, if_false] at h ⊢
  obtain ⟨b6, m6, k6, h⟩ := Res.bind_eq_ok h
  rw [handleDelimetersU_local H m4 m6 b6 hsrc4 hlt4 k6]
  simp only [Res.bind]
  cases b6 with
  | true =>
    simp only [if_true, Res.ok.injEq, true_and] at h ⊢
    rw [h]
  | false =>
  have e6 : m6 = m4 := by
    rcases handleDelimetersU_ok _ _ _ k6 with ⟨_, e⟩ | ⟨e, _⟩
    · exact e
    · exact absurd e (by decide)
  rw [e6] at h ⊢
  simp only [Bool.false_eq_true, if_false] at h ⊢
  obtain ⟨b7, m7, k7, h⟩ := Res.bind_eq_ok h
  rw [handleOperatorsU_local H m4 m7 b7 hsrc4 hlt4 k7]
  simp only [Res.bind]
  cases b7 with
  | true =>
    simp only [if_true, Res.ok.injEq, true_and] at h ⊢
    rw [h]
  | false =>
    simp [Lexer.error] at h

/-- The heads of the scan loop at or before `L` are heads of the scan of the other
source, after as many iterations, when no earlier head stands on a slash just before
`L`. -/
theorem ScanStepsU.local {L : Nat} {A B : List Char} (H : agreeBelow L A B)
    {s s2 : Lexer} {n : Nat} (h : ScanStepsU s n s2) (hs : s.inBounds) (hsrc : s.m_src = A)
    (hL : s2.m_index ≤ L)
    (hsl : ∀ (m : Nat) (t : Lexer), m < n → ScanStepsU s m t → charAt A t.m_index = '/' →
      t.m_index + 1 < L) :
    ScanStepsU (s.withSource B) n (s2.withSource B) := by
  induction h with
  | done s => exact ScanStepsU.done _
  | step s s1 s2 n hne hst hrest ih =>
    have ht := scanStepU_total s hs
    rw [hst] at ht
    obtain ⟨a1, p1⟩ := ht
    obtain ⟨a2, _⟩ := ScanStepsU.advances hrest a1.2.2
    have h1L : s1.m_index ≤ L := by
      have := a2.2.1
      omega
    have hlt : s.m_index < L := by omega
    refine ScanStepsU.step _ (s1.withSource B) _ n ?_
      (scanStepU_local H s s1 hsrc hlt (hsl 0 s (by omega) (ScanStepsU.done s)) hst h1L)
      (ih a1.2.2 (by rw [a1.1, hsrc]) hL
        (fun m t hm hmt => hsl (m + 1) t (by omega) (ScanStepsU.step s s1 t m hne hst hmt)))
    show charAt B s.m_index ≠ STRING_TERMINATION_CHAR
    rw [← H.1 _ hlt, ← hsrc]
    exact hne

/-! ## A block comment that is never closed -/

/-- The loop of `handleMultilineCommentsU` runs over a text without star-slash up to
the terminator, moving only the cursor. -/
theorem multilineCommentLoopU_open (body : List Char) (hb : ¬ (['*', '/'] <:+: body)) :
    ∀ (fuel : Nat) (s : Lexer), s.m_src.drop s.m_index = body → body.length < fuel →
      ∃ s1, multilineCommentLoopU fuel s = Res.ok () s1 ∧ s.cursorMoved s1 ∧
        charAt s1.m_src s1.m_index = STRING_TERMINATION_CHAR := by
  induction body with
  | nil =>
    intro fuel s hd hf
    obtain ⟨f, rfl⟩ : ∃ f, fuel = f + 1 := ⟨fuel - 1, by omega⟩
    have h0 : charAt s.m_src s.m_index = STRING_TERMINATION_CHAR := charAt_of_drop_eq_nil hd
    refine ⟨s, ?_, Lexer.cursorMoved_refl s, h0⟩
    rw [multilineCommentLoopU]
    simp [h0]
  | cons c cs ih =>
    intro fuel s hd hf
    simp only [List.length_cons] at hf
    obtain ⟨f, rfl⟩ : ∃ f, fuel = f + 1 := ⟨fuel - 1, by omega⟩
    have h0 : charAt s.m_src s.m_index = c := charAt_of_drop_eq_cons hd
    by_cases hc0 : c = STRING_TERMINATION_CHAR
    · refine ⟨s, ?_, Lexer.cursorMoved_refl s, by rw [h0, hc0]⟩
      rw [multilineCommentLoopU]
      simp [h0, hc0]
    · have h1 : charAt s.m_src (s.m_index + 1) = charAt cs 0 := charAt_succ_of_drop_eq_cons hd
      have hclose : ¬ (c = '*' ∧ charAt s.m_src (s.m_index + 1) = '/') := by
        rintro ⟨hc, hc1⟩
        rw [h1] at hc1
        cases cs with
        | nil =>
          rw [charAt_nil] at hc1
          exact absurd hc1 (by decide)
        | cons d ds =>
          rw [charAt_cons_zero] at hc1
          apply hb
          rw [hc, hc1]
          exact ⟨[], ds, rfl⟩
      have hcs : ¬ (['*', '/'] <:+: cs) := fun h => hb (List.infix_cons h)
      have hd1 := drop_succ_of_drop_eq_cons hd
      have step : ∀ t : Lexer, t.m_src = s.m_src → t.m_index = s.m_index + 1 →
          t.m_token_buffer = s.m_token_buffer → t.m_tokens = s.m_tokens →
          ∃ s1, multilineCommentLoopU f t = Res.ok () s1 ∧ s.cursorMoved s1 ∧
            charAt s1.m_src s1.m_index = STRING_TERMINATION_CHAR := by
        intro t a1 a2 a3 a4
        obtain ⟨s1, e1, e2, e3⟩ := ih hcs f t (by rw [a1, a2]; exact hd1) (by omega)
        exact ⟨s1, e1, ⟨e2.1.trans a1, e2.2.1.trans a3, e2.2.2.trans a4⟩, e3⟩
      rw [multilineCommentLoopU]
      simp only [h0, bne_iff_ne, ne_eq, hc0, not_false_eq_true, if_true, Nat.add_zero]
      split
      · next hcl =>
        simp only [Bool.and_eq_true, beq_iff_eq] at hcl
        exact absurd hcl hclose
      · split
        · exact step _ rfl rfl rfl rfl
        · exact step _ rfl rfl rfl rfl

/-- On a block comment that is never closed `handleCommentsU` returns true with the
cursor on the terminator, having moved only the cursor. -/
theorem handleCommentsU_block_open (s : Lexer) (r : List Char) (hb : ¬ (['*', '/'] <:+: r))
    (hd : s.m_src.drop s.m_index = '/' :: '*' :: r) (hbuf : s.m_token_buffer = []) :
    ∃ s1, s.handleCommentsU = Res.ok true s1 ∧ s.cursorMoved s1 ∧
      charAt s1.m_src s1.m_index = STRING_TERMINATION_CHAR := by
  have h0 : charAt s.m_src s.m_index = '/' := charAt_of_drop_eq_cons hd
  have h1 : charAt s.m_src (s.m_index + 1) = '*' := by
    rw [charAt_succ_of_drop_eq_cons hd]
    rfl
  have hd2 : s.m_src.drop (s.m_index + 2) = r :=
    drop_succ_of_drop_eq_cons (drop_succ_of_drop_eq_cons hd)
  have hlen : r.length < s.m_src.length + 1 := by
    have h2 : (s.m_src.drop (s.m_index + 2)).length = r.length := by rw [hd2]
    rw [List.length_drop] at h2
    omega
  obtain ⟨s1, e1, e2, e3⟩ :=
    multilineCommentLoopU_open r hb (s.m_src.length + 1)
      { s with m_index := s.m_index + 2, m_offset := s.m_offset + 2 } hd2 hlen
  refine ⟨s1, ?_, ⟨e2.1, e2.2.1, e2.2.2⟩, e3⟩
  have hne : ¬ (('*' : Char) = '/') := by decide
  unfold Lexer.handleCommentsU Lexer.handleMultilineCommentsU
  rw [consumeTokenBuffer_of_empty s hbuf]
  simp only [Nat.add_zero, h0, h1, bne_self_eq_false, Bool.false_eq_true, if_false,
    beq_iff_eq, hne, beq_self_eq_true, if_true, Res.bind]
  rw [e1]

/-- From a cursor at the head of a prefix of whitespace and comments that is followed
by a block comment never closed, with an empty buffer and budget for the prefix, the
scan loop returns the tokens collected so far. -/
theorem scanLoopU_triviaPrefix_open (r : List Char) (hr : ¬ (['*', '/'] <:+: r)) :
    ∀ (n : Nat) (rest : List Char), TriviaPrefix rest → rest.length ≤ n →
      ∀ (fuel : Nat) (s : Lexer), s.m_src.drop s.m_index = rest ++ '/' :: '*' :: r →
        s.m_token_buffer = [] → rest.length + 1 < fuel →
        ∃ s1, scanLoopU fuel s = Res.ok s.m_tokens s1 := by
  have htail : isBlank (charAt ('/' :: '*' :: r) 0) = false := by
    rw [charAt_cons_zero]
    decide
  -- at the opener of the last comment
  have last : ∀ (f : Nat) (s : Lexer), s.m_src.drop s.m_index = '/' :: '*' :: r →
      s.m_token_buffer = [] → ∃ s1, scanLoopU (f + 1 + 1) s = Res.ok s.m_tokens s1 := by
    intro f s hd hbuf
    have h0 : charAt s.m_src s.m_index = '/' := charAt_of_drop_eq_cons hd
    obtain ⟨s1, e1, e2, e3⟩ := handleCommentsU_block_open s r hr hd hbuf
    have hne : charAt s.m_src s.m_index ≠ STRING_TERMINATION_CHAR := by
      rw [h0]
      decide
    have hstep : s.scanStepU = Res.ok () s1 := by
      unfold Lexer.scanStepU
      rw [handleStringLiteralsU_of_ne s (by rw [h0]; decide)]
      simp only [Res.bind, Bool.false_eq_true, if_false]
      rw [e1]
      rfl
    refine ⟨s1, ?_⟩
    rw [scanLoopU]
    simp only [bne_iff_ne, ne_eq, hne, not_false_eq_true, if_true]
    rw [hstep]
    simp only [Res.bind]
    rw [scanLoopU_at_terminator f s1 e3, e2.2.2]
  intro n
  induction n with
  | zero =>
    intro rest _ hn fuel s hd hbuf hf
    obtain ⟨f, rfl⟩ : ∃ f, fuel = f + 1 + 1 := ⟨fuel - 2, by omega⟩
    have hnil : rest = [] := List.length_eq_zero.mp (by omega)
    rw [hnil, List.nil_append] at hd
    exact last f s hd hbuf
  | succ m ih =>
    intro rest ht hn fuel s hd hbuf hf
    obtain ⟨f, rfl⟩ : ∃ f, fuel = f + 1 + 1 := ⟨fuel - 2, by omega⟩
    -- the loop goes on from the state a handler leaves on a shorter prefix
    have go : ∀ (s1 : Lexer) (rest1 : List Char), rest1.length < rest.length →
        s.scanStepU = Res.ok () s1 → s.cursorMoved s1 →
        s1.m_src.drop s1.m_index = rest1 ++ '/' :: '*' :: r → TriviaPrefix rest1 →
        charAt s.m_src s.m_index ≠ STRING_TERMINATION_CHAR →
        ∃ s2, scanLoopU (f + 1 + 1) s = Res.ok s.m_tokens s2 := by
      intro s1 rest1 hlt hstep hmv hd1 ht1 hne
      obtain ⟨e, e1⟩ :=
        ih rest1 ht1 (by omega) (f + 1) s1 hd1 (by rw [hmv.2.1]; exact hbuf) (by omega)
      refine ⟨e, ?_⟩
      rw [scanLoopU]
      simp only [bne_iff_ne, ne_eq, hne, not_false_eq_true, if_true]
      rw [hstep]
      simp only [Res.bind]
      rw [e1, hmv.2.2]
    cases ht with
    | nil =>
      rw [List.nil_append] at hd
      exact last f s hd hbuf
    | blank c0 r0 hc0 hr0 =>
      have hd0 : s.m_src.drop s.m_index = c0 :: (r0 ++ '/' :: '*' :: r) := by simpa using hd
      have h0 : charAt s.m_src s.m_index = c0 := charAt_of_drop_eq_cons hd0
      obtain ⟨hcn, hcq, hcs, hca, hcd⟩ := isBlank_facts hc0
      obtain ⟨b, s1, rest1, e1, e2, e3, e4, e5, e6, e7⟩ :=
        whiteSpacesLoopU_triviaPrefix ('/' :: '*' :: r) htail (c0 :: r0)
          (TriviaPrefix.blank c0 r0 hc0 hr0) (s.m_src.length + 1) s false hd hbuf
          (by
            have h1 : (s.m_src.drop s.m_index).length = (c0 :: r0 ++ '/' :: '*' :: r).length := by
              rw [hd]
            have h2 := List.length_drop s.m_index s.m_src
            simp only [List.length_append, List.length_cons] at h1 ⊢
            omega)
      have hb : b = true := e6 (Or.inr (by rw [h0]; exact hc0))
      have hlt : rest1.length < (c0 :: r0).length := e7 (by rw [h0]; exact hc0)
      refine go s1 rest1 hlt ?_ e2 e3 e4 (by rw [h0]; exact hcn)
      unfold Lexer.scanStepU
      rw [handleStringLiteralsU_of_ne s (by rw [h0]; exact hcq)]
      simp only [Res.bind, Bool.false_eq_true, if_false]
      rw [handleCommentsU_of_ne s (by rw [h0]; exact hcs)]
      simp only [Res.bind, Bool.false_eq_true, if_false]
      rw [handleAlphaNumericCharsU_of_not s (by rw [h0]; exact hca) (by rw [h0]; exact hcd)]
      simp only [Res.bind, Bool.false_eq_true, if_false]
      rw [consumeTokenBuffer_of_empty s hbuf]
      simp only [Res.bind]
      unfold Lexer.handleWhiteSpacesU
      rw [e1, hb]
      rfl
    | lineComment body r0 hb hnb hr0 =>
      have hd0 : s.m_src.drop s.m_index =
          '/' :: '/' :: (body ++ NEW_LINE_CHAR :: (r0 ++ '/' :: '*' :: r)) := by
        simpa using hd
      have h0 : charAt s.m_src s.m_index = '/' := charAt_of_drop_eq_cons hd0
      obtain ⟨s1, e1, e2, e3⟩ :=
        handleCommentsU_line_closed s body (r0 ++ '/' :: '*' :: r) hb hnb hd0 hbuf
      refine go s1 (NEW_LINE_CHAR :: r0) ?_ ?_ e2 (by simpa using e3)
        (TriviaPrefix.blank NEW_LINE_CHAR r0 (by decide) hr0) (by rw [h0]; decide)
      · simp only [List.length_cons, List.length_append]
        omega
      · unfold Lexer.scanStepU
        rw [handleStringLiteralsU_of_ne s (by rw [h0]; decide)]
        simp only [Res.bind, Bool.false_eq_true, if_false]
        rw [e1]
        rfl
    | blockComment body r0 hb hnb hr0 =>
      have hd0 : s.m_src.drop s.m_index =
          '/' :: '*' :: (body ++ '*' :: '/' :: (r0 ++ '/' :: '*' :: r)) := by
        simpa using hd
      have h0 : charAt s.m_src s.m_index = '/' := charAt_of_drop_eq_cons hd0
      obtain ⟨s1, e1, e2, e3⟩ :=
        handleCommentsU_block_closed s body (r0 ++ '/' :: '*' :: r) hb hnb hd0 hbuf
      refine go s1 r0 ?_ ?_ e2 e3 hr0 (by rw [h0]; decide)
      · simp only [List.length_cons, List.length_append]
        omega
      · unfold Lexer.scanStepU
        rw [handleStringLiteralsU_of_ne s (by rw [h0]; decide)]
        simp only [Res.bind, Bool.false_eq_true, if_false]
        rw [e1]
        rfl

theorem triviaPrefix_of_blanks (l : List Char) (h : ∀ c ∈ l, isBlank c = true) :
    TriviaPrefix l := by
  induction l with
  | nil => exact TriviaPrefix.nil
  | cons c cs ih =>
    exact TriviaPrefix.blank c cs (h c (List.mem_cons_self _ _))
      (ih (fun d hd => h d (List.mem_cons_of_mem _ hd)))

theorem trivia_of_blanks (l : List Char) (h : ∀ c ∈ l, isBlank c = true) : Trivia l := by
  induction l with
  | nil => exact Trivia.nil
  | cons c cs ih =>
    exact Trivia.blank c cs (h c (List.mem_cons_self _ _))
      (ih (fun d hd => h d (List.mem_cons_of_mem _ hd)))

/-- At a head on a character that is neither the terminator, a letter, digit or
underscore nor a period, the scan loop goes on as it does after a flush of the
buffer. -/
theorem scanLoopU_flush_first (f : Nat) (s s2 : Lexer)
    (hne : charAt s.m_src s.m_index ≠ STRING_TERMINATION_CHAR)
    (hna : isAlphaNumeric (charAt s.m_src s.m_index) = false)
    (hdot : charAt s.m_src s.m_index ≠ '.')
    (hflush : s.consumeTokenBuffer = Res.ok () s2) : scanLoopU f s = scanLoopU f s2 := by
  cases f with
  | zero => rfl
  | succ f =>
    obtain ⟨c1, c2, _, _⟩ := Lexer.flushed_cursor (consumeTokenBuffer_ok_flushed s s2 () hflush)
    have hne2 : charAt s2.m_src s2.m_index ≠ STRING_TERMINATION_CHAR := by
      rw [c1, c2]
      exact hne
    rw [scanLoopU, scanLoopU, scanStepU_flush_first s s2 hna hdot hflush]
    simp only [bne_iff_ne, ne_eq, hne, hne2, not_false_eq_true, if_true]

theorem charAt_append_left (p x : List Char) (i : Nat) (h : i < p.length) :
    charAt (p ++ x) i = charAt p i := by
  unfold charAt
  simp [List.getD_eq_getElem?_getD, List.getElem?_append_left h]

theorem charAt_append_length (p x : List Char) : charAt (p ++ x) p.length = charAt x 0 := by
  rw [charAt_eq_drop, List.drop_left]

theorem agreeBelow_append (p r : List Char) :
    agreeBelow p.length (p ++ [' ']) (p ++ '/' :: '*' :: r) := by
  refine ⟨?_, ?_, ?_, ?_⟩
  · intro i hi
    rw [charAt_append_left p _ i hi, charAt_append_left p _ i hi]
  · rw [charAt_append_length]
    rfl
  · rw [charAt_append_length]
    rfl
  · simp only [List.length_append, List.length_cons, List.length_nil]
    omega

/-- After a text `p` that does not end inside a string literal or comment nor with
a slash taken as the division operator, a block comment that is never closed changes
nothing: the call returns the tokens that it returns on `p` followed by a blank. -/
theorem generateTokensU_open_block_comment (self other : Lexer) (p r : List Char)
    (ts : List Token)
    (h : (self.generateTokensU (some (p ++ [' ']))).outcome = Outcome.tokens ts)
    (hend : endsOutsideLiteralAndCommentU p) (hlast : ¬ endsWithSlashOperatorU p)
    (hr : ¬ (['*', '/'] <:+: r)) :
    (other.generateTokensU (some (p ++ '/' :: '*' :: r))).outcome = Outcome.tokens ts := by
  have H := agreeBelow_append p r
  obtain ⟨n, s, hsteps, hidx, hbl⟩ := hend
  obtain ⟨hadv, hn⟩ := ScanStepsU.advances hsteps (Lexer.start_inBounds _)
  have hsrc : s.m_src = p ++ [' '] := hadv.1
  have hn0 : n ≤ s.m_index := by
    have h0 : (Lexer.start (p ++ [' '])).m_index = 0 := rfl
    omega
  have hstepsB : ScanStepsU (Lexer.start (p ++ '/' :: '*' :: r)) n
      (s.withSource (p ++ '/' :: '*' :: r)) :=
    ScanStepsU.local H hsteps (Lexer.start_inBounds _) rfl hidx
      (fun m t _ hmt hc => by
        have hat := (ScanStepsU.advances hmt (Lexer.start_inBounds _)).1
        have hts : t.m_src = p ++ [' '] := hat.1
        have hti : t.m_index ≤ (p ++ [' ']).length := by
          have := hat.2.2.1
          rw [hts] at this
          exact this
        simp only [List.length_append, List.length_cons, List.length_nil] at hti
        by_contra hge
        have hcases : t.m_index + 1 = p.length ∨ t.m_index = p.length ∨
            t.m_index = p.length + 1 := by omega
        rcases hcases with h1 | h1 | h1
        · exact hlast ⟨m, t, hmt, h1, by rw [hts]; exact hc⟩
        · rw [h1, charAt_append_length] at hc
          exact absurd hc (by decide)
        · have hnul : charAt (p ++ [' ']) t.m_index = STRING_TERMINATION_CHAR := by
            apply charAt_of_drop_eq_nil
            apply List.drop_eq_nil_of_le
            simp only [List.length_append, List.length_cons, List.length_nil]
            omega
          rw [hnul] at hc
          exact absurd hc (by decide))
  -- the views at the head
  have hviewA : s.m_src.drop s.m_index = p.drop s.m_index ++ [' '] := by
    rw [hsrc, List.drop_append_of_le_length hidx]
  have hviewB : (p ++ '/' :: '*' :: r).drop s.m_index = p.drop s.m_index ++ '/' :: '*' :: r :=
    List.drop_append_of_le_length hidx
  have hblank : isBlank (charAt s.m_src s.m_index) = true := by
    rw [charAt_eq_drop, hviewA]
    cases hdp : p.drop s.m_index with
    | nil => rfl
    | cons c cs =>
      rw [List.cons_append, charAt_cons_zero]
      exact hbl c (by rw [hdp]; exact List.mem_cons_self _ _)
  obtain ⟨hcn, hcq, hcs, hca, hcd⟩ := isBlank_facts hblank
  have hheadB : charAt (p ++ '/' :: '*' :: r) s.m_index ≠ STRING_TERMINATION_CHAR ∧
      isAlphaNumeric (charAt (p ++ '/' :: '*' :: r) s.m_index) = false ∧
      charAt (p ++ '/' :: '*' :: r) s.m_index ≠ '.' := by
    rw [charAt_eq_drop, hviewB]
    cases hdp : p.drop s.m_index with
    | nil =>
      rw [List.nil_append, charAt_cons_zero]
      exact ⟨by decide, by decide, by decide⟩
    | cons c cs =>
      rw [List.cons_append, charAt_cons_zero]
      have := isBlank_facts (hbl c (by rw [hdp]; exact List.mem_cons_self _ _))
      exact ⟨this.1, this.2.2.2.1, this.2.2.2.2⟩
  -- the run on `p` followed by a blank, from the head on
  have hfuelA : (p ++ [' ']).length + 1 = n + (p.length + 2 - n) := by
    simp only [List.length_append, List.length_cons, List.length_nil]
    omega
  rw [generateTokensU_start, hfuelA, scanLoopU_of_steps hsteps] at h
  obtain ⟨f, hf⟩ : ∃ f, p.length + 2 - n = f + 1 := ⟨p.length + 1 - n, by omega⟩
  rw [hf] at h
  obtain ⟨s2, hflush⟩ : ∃ s2, s.consumeTokenBuffer = Res.ok () s2 := by
    cases hcb : s.consumeTokenBuffer with
    | ok u s2 => exact ⟨s2, rfl⟩
    | error msg e =>
      exfalso
      rw [scanLoopU] at h
      simp only [bne_iff_ne, ne_eq, hcn, not_false_eq_true, if_true] at h
      unfold Lexer.scanStepU at h
      rw [handleStringLiteralsU_of_ne s hcq] at h
      simp only [Res.bind, Bool.false_eq_true, if_false] at h
      rw [handleCommentsU_of_ne s hcs] at h
      simp only [Res.bind, Bool.false_eq_true, if_false] at h
      rw [handleAlphaNumericCharsU_of_not s hca hcd] at h
      simp only [Res.bind, Bool.false_eq_true, if_false] at h
      rw [hcb] at h
      simp [Res.outcome] at h
    | timeout =>
      exfalso
      have := consumeTokenBuffer_total s hadv.2.2
      rw [hcb] at this
      exact this
  have hfl := consumeTokenBuffer_ok_flushed s s2 () hflush
  have hb2 : s2.m_token_buffer = [] := Lexer.flushed_buffer hfl
  obtain ⟨c1, c2, _, _⟩ := Lexer.flushed_cursor hfl
  rw [scanLoopU_flush_first (f + 1) s s2 hcn hca hcd hflush] at h
  obtain ⟨eA, heA⟩ := scanLoopU_trivia (p.drop s.m_index ++ [' ']).length (p.drop s.m_index ++ [' '])
    (trivia_of_blanks _ (by
      intro c hc
      rcases List.mem_append.mp hc with hc | hc
      · exact hbl c hc
      · rw [List.mem_singleton.mp hc]
        rfl))
    (le_refl _) (f + 1) s2 (by rw [c1, c2]; exact hviewA) hb2
    (by
      simp only [List.length_append, List.length_drop, List.length_cons, List.length_nil]
      omega)
  rw [heA] at h
  have hts : s2.m_tokens = ts := by
    simpa [Res.outcome] using h
  -- the run on `p` followed by the comment
  have hfuelB : (p ++ '/' :: '*' :: r).length + 1 = n + (p.length + r.length + 3 - n) := by
    simp only [List.length_append, List.length_cons]
    omega
  rw [generateTokensU_start, hfuelB, scanLoopU_of_steps hstepsB,
    scanLoopU_flush_first _ (s.withSource (p ++ '/' :: '*' :: r))
      (s2.withSource (p ++ '/' :: '*' :: r)) hheadB.1 hheadB.2.1 hheadB.2.2
      (consumeTokenBuffer_withSource s s2 _ hflush)]
  obtain ⟨eB, heB⟩ := scanLoopU_triviaPrefix_open r hr (p.drop s.m_index).length (p.drop s.m_index)
    (triviaPrefix_of_blanks _ hbl) (le_refl _) (p.length + r.length + 3 - n)
    (s2.withSource (p ++ '/' :: '*' :: r))
    (by
      show (p ++ '/' :: '*' :: r).drop s2.m_index = _
      rw [c2]
      exact hviewB)
    hb2
    (by
      simp only [List.length_drop]
      omega)
  rw [heB]
  show Outcome.tokens s2.m_tokens = Outcome.tokens ts
  rw [hts]

/-! ## A slash operator just before the opener of a comment -/

theorem afterLineComment_cons_of_ne (c : Char) (x : List Char)
    (h0 : c ≠ STRING_TERMINATION_CHAR) (h1 : c ≠ NEW_LINE_CHAR) :
    afterLineComment (c :: x) = afterLineComment x := by
  unfold afterLineComment
  rw [List.dropWhile_cons]
  simp [h0, h1]

theorem afterLineComment_length_le (x : List Char) : (afterLineComment x).length ≤ x.length :=
  (List.dropWhile_suffix _).length_le

/-- The loop of `handleLineCommentsU` stops on the first newline or NUL of the text
ahead, or at its end, having moved only the cursor. -/
theorem lineCommentLoopU_afterLineComment :
    ∀ (x : List Char) (fuel : Nat) (s : Lexer), s.m_src.drop s.m_index = x → x.length < fuel →
      ∃ s1, lineCommentLoopU fuel s = Res.ok () s1 ∧ s.cursorMoved s1 ∧
        s1.m_src.drop s1.m_index = afterLineComment x := by
  intro x
  induction x with
  | nil =>
    intro fuel s hd hf
    obtain ⟨f, rfl⟩ : ∃ f, fuel = f + 1 := ⟨fuel - 1, by omega⟩
    have h0 : charAt s.m_src s.m_index = STRING_TERMINATION_CHAR := charAt_of_drop_eq_nil hd
    refine ⟨s, ?_, Lexer.cursorMoved_refl s, hd⟩
    rw [lineCommentLoopU]
    simp [h0]
  | cons c cs ih =>
    intro fuel s hd hf
    simp only [List.length_cons] at hf
    obtain ⟨f, rfl⟩ : ∃ f, fuel = f + 1 := ⟨fuel - 1, by omega⟩
    have h0 : charAt s.m_src s.m_index = c := charAt_of_drop_eq_cons hd
    by_cases hstop : c = STRING_TERMINATION_CHAR ∨ c = NEW_LINE_CHAR
    · refine ⟨s, ?_, Lexer.cursorMoved_refl s, ?_⟩
      · rw [lineCommentLoopU]
        rcases hstop with hc | hc
        · simp [h0, hc]
        · simp [h0, hc]
      · rw [hd]
        unfold afterLineComment
        rw [List.dropWhile_cons]
        rcases hstop with hc | hc
        · simp [hc]
        · simp [hc]
    · have hc0 : c ≠ STRING_TERMINATION_CHAR := fun h => hstop (Or.inl h)
      have hc1 : c ≠ NEW_LINE_CHAR := fun h => hstop (Or.inr h)
      obtain ⟨s1, e1, e2, e3⟩ :=
        ih f { s with m_index := s.m_index + 1, m_offset := s.m_offset + 1 }
          (drop_succ_of_drop_eq_cons hd) (by omega)
      refine ⟨s1, ?_, ⟨e2.1, e2.2.1, e2.2.2⟩, ?_⟩
      · rw [lineCommentLoopU]
        simpa [h0, hc0, hc1] using e1
      · rw [e3, afterLineComment_cons_of_ne c cs hc0 hc1]

/-- On two slashes `handleCommentsU` returns true with the cursor on the first
newline or NUL of the text after them, or at its end, having moved only the cursor. -/
theorem handleCommentsU_line_any (s : Lexer) (x : List Char)
    (hd : s.m_src.drop s.m_index = '/' :: '/' :: x) (hbuf : s.m_token_buffer = []) :
    ∃ s1, s.handleCommentsU = Res.ok true s1 ∧ s.cursorMoved s1 ∧
      s1.m_src.drop s1.m_index = afterLineComment x := by
  have h0 : charAt s.m_src s.m_index = '/' := charAt_of_drop_eq_cons hd
  have h1 : charAt s.m_src (s.m_index + 1) = '/' := by
    rw [charAt_succ_of_drop_eq_cons hd]
    rfl
  have hd2 : s.m_src.drop (s.m_index + 2) = x :=
    drop_succ_of_drop_eq_cons (drop_succ_of_drop_eq_cons hd)
  have hlen : x.length < s.m_src.length + 1 := by
    have h2 : (s.m_src.drop (s.m_index + 2)).length = x.length := by rw [hd2]
    rw [List.length_drop] at h2
    omega
  obtain ⟨s1, e1, e2, e3⟩ :=
    lineCommentLoopU_afterLineComment x (s.m_src.length + 1)
      { s with m_index := s.m_index + 2, m_offset := s.m_offset + 2 } hd2 hlen
  refine ⟨s1, ?_, ⟨e2.1, e2.2.1, e2.2.2⟩, e3⟩
  unfold Lexer.handleCommentsU Lexer.handleLineCommentsU
  rw [consumeTokenBuffer_of_empty s hbuf]
  simp only [Nat.add_zero, h0, h1, bne_self_eq_false, Bool.false_eq_true, if_false,
    beq_self_eq_true, if_true, Res.bind]
  rw [e1]

/-- On a slash followed by a blank `handleCommentsU` returns false and leaves the
state as it is. -/
theorem handleCommentsU_slash_blank (s : Lexer) (h0 : charAt s.m_src s.m_index = '/')
    (h1 : charAt s.m_src (s.m_index + 1) = ' ') : s.handleCommentsU = Res.ok false s := by
  unfold Lexer.handleCommentsU
  simp only [Nat.add_zero, h0, h1]
  rfl

/-- The heads of the scan loop strictly before `L` are heads of the scan of the
other source, after as many iterations. -/
theorem ScanStepsU.local_below {L : Nat} {A B : List Char} (H : agreeBelow L A B)
    {s s2 : Lexer} {n : Nat} (h : ScanStepsU s n s2) (hs : s.inBounds) (hsrc : s.m_src = A)
    (hL : s2.m_index < L) : ScanStepsU (s.withSource B) n (s2.withSource B) := by
  induction h with
  | done s => exact ScanStepsU.done _
  | step s s1 s2 n hne hst hrest ih =>
    have ht := scanStepU_total s hs
    rw [hst] at ht
    obtain ⟨a1, p1⟩ := ht
    obtain ⟨a2, _⟩ := ScanStepsU.advances hrest a1.2.2
    have h12 : s1.m_index ≤ s2.m_index := a2.2.1
    have hlt : s.m_index < L := by omega
    refine ScanStepsU.step _ (s1.withSource B) _ n ?_
      (scanStepU_local H s s1 hsrc hlt (fun _ => by omega) hst (by omega))
      (ih a1.2.2 (by rw [a1.1, hsrc]) hL)
    show charAt B s.m_index ≠ STRING_TERMINATION_CHAR
    rw [← H.1 _ hlt, ← hsrc]
    exact hne

/-- After a text `p` whose last slash the scan takes as the division operator, the
opener of a block comment is read as the second slash of a line comment: the call
returns the tokens that it returns on `p` followed by a blank, without the last one,
followed by the tokens of what is left of `r` after that line comment. -/
theorem generateTokensU_slash_before_open_comment (self other third : Lexer) (p r : List Char)
    (ts ts2 : List Token)
    (h : (self.generateTokensU (some (p ++ [' ']))).outcome = Outcome.tokens ts)
    (hsl : endsWithSlashOperatorU p)
    (h2 : (third.generateTokensU (some (afterLineComment r))).outcome = Outcome.tokens ts2) :
    (other.generateTokensU (some (p ++ '/' :: '*' :: r))).outcome =
      Outcome.tokens (ts.dropLast ++ ts2) := by
  have H := agreeBelow_append p r
  obtain ⟨n, s, hsteps, hidx, hc⟩ := hsl
  obtain ⟨hadv, hn⟩ := ScanStepsU.advances hsteps (Lexer.start_inBounds _)
  have hsrc : s.m_src = p ++ [' '] := hadv.1
  have hn0 : n ≤ s.m_index := by
    have h0 : (Lexer.start (p ++ [' '])).m_index = 0 := rfl
    omega
  have hstepsB : ScanStepsU (Lexer.start (p ++ '/' :: '*' :: r)) n
      (s.withSource (p ++ '/' :: '*' :: r)) :=
    ScanStepsU.local_below H hsteps (Lexer.start_inBounds _) rfl (by omega)
  -- the text of `p` up to its last slash
  have hlt : s.m_index < p.length := by omega
  have hcp : charAt p s.m_index = '/' := by
    rw [hsrc, charAt_append_left p _ _ hlt] at hc
    exact hc
  have hdp : p.drop s.m_index = ['/'] := by
    have hlen : (p.drop s.m_index).length = 1 := by
      rw [List.length_drop]
      omega
    cases hd : p.drop s.m_index with
    | nil => rw [hd] at hlen; simp at hlen
    | cons c cs =>
      rw [hd] at hlen
      have hcs : cs = [] := List.length_eq_zero.mp (by simpa using hlen)
      have hc0 : charAt p s.m_index = c := charAt_of_drop_eq_cons hd
      rw [hcs, ← hc0, hcp]
  have hviewA : s.m_src.drop s.m_index = ['/', ' '] := by
    rw [hsrc, List.drop_append_of_le_length (by omega), hdp]
    rfl
  have hviewB : (p ++ '/' :: '*' :: r).drop s.m_index = '/' :: '/' :: '*' :: r := by
    rw [List.drop_append_of_le_length (by omega), hdp]
    rfl
  have hcn : charAt s.m_src s.m_index ≠ STRING_TERMINATION_CHAR := by
    rw [hc]
    decide
  have hca : isAlphaNumeric (charAt s.m_src s.m_index) = false := by
    rw [hc]
    decide
  have hcd : charAt s.m_src s.m_index ≠ '.' := by
    rw [hc]
    decide
  have hcq : charAt s.m_src s.m_index ≠ QUOTE_CHAR := by
    rw [hc]
    decide
  have hc1 : charAt s.m_src (s.m_index + 1) = ' ' := by
    rw [charAt_succ_of_drop_eq_cons hviewA]
    rfl
  -- the run on `p` followed by a blank, from the head on the slash
  have hfuelA : (p ++ [' ']).length + 1 = n + (p.length + 2 - n) := by
    simp only [List.length_append, List.length_cons, List.length_nil]
    omega
  rw [generateTokensU_start, hfuelA, scanLoopU_of_steps hsteps] at h
  obtain ⟨f, hf⟩ : ∃ f, p.length + 2 - n = f + 1 + 1 + 1 := ⟨p.length - 1 - n, by omega⟩
  rw [hf] at h
  obtain ⟨s2, hflush⟩ : ∃ s2, s.consumeTokenBuffer = Res.ok () s2 := by
    cases hcb : s.consumeTokenBuffer with
    | ok u s2 => exact ⟨s2, rfl⟩
    | error msg e =>
      exfalso
      rw [scanLoopU] at h
      simp only [bne_iff_ne, ne_eq, hcn, not_false_eq_true, if_true] at h
      unfold Lexer.scanStepU at h
      rw [handleStringLiteralsU_of_ne s hcq] at h
      simp only [Res.bind, Bool.false_eq_true, if_false] at h
      rw [handleCommentsU_slash_blank s hc hc1] at h
      simp only [Res.bind, Bool.false_eq_true, if_false] at h
      rw [handleAlphaNumericCharsU_of_not s hca hcd] at h
      simp only [Res.bind, Bool.false_eq_true, if_false] at h
      rw [hcb] at h
      simp [Res.outcome] at h
    | timeout =>
      exfalso
      have := consumeTokenBuffer_total s hadv.2.2
      rw [hcb] at this
      exact this
  have hfl := consumeTokenBuffer_ok_flushed s s2 () hflush
  have hb2 : s2.m_token_buffer = [] := Lexer.flushed_buffer hfl
  obtain ⟨c1, c2, _, _⟩ := Lexer.flushed_cursor hfl
  rw [scanLoopU_flush_first (f + 1 + 1 + 1) s s2 hcn hca hcd hflush] at h
  have hfresh : ∃ e, scanLoopU 3 (Lexer.start ['/', ' ']) =
      Res.ok [Token.mk TokenType.DIVIDE []] e :=
    ⟨{ m_src := ['/', ' '], m_index := 2, m_line := 1, m_offset := 3, m_token_buffer := [],
       m_tokens := [Token.mk TokenType.DIVIDE []] }, by decide⟩
  obtain ⟨e0, he0⟩ := hfresh
  obtain ⟨eA, heA⟩ := scanLoopU_sameView 3 (Lexer.start ['/', ' ']) e0 _ he0 (f + 1 + 1 + 1) s2
    (by omega)
    (show s2.sameView s2.m_tokens (Lexer.start ['/', ' ']) from
      ⟨by rw [c1, c2, hviewA]; rfl, hb2, by simp [Lexer.start], by
        show 2 ≤ s2.m_src.length
        rw [c1, hsrc]
        simp only [List.length_append, List.length_cons, List.length_nil]
        omega⟩)
  rw [heA] at h
  have hts : ts = s2.m_tokens ++ [Token.mk TokenType.DIVIDE []] := by
    have : s2.m_tokens ++ [Token.mk TokenType.DIVIDE []] = ts := by
      simpa [Res.outcome] using h
    exact this.symm
  have hdl : ts.dropLast = s2.m_tokens := by
    rw [hts, List.dropLast_concat]
  -- the run on what is left after the line comment
  obtain ⟨e2, he2⟩ : ∃ e, scanLoopU ((afterLineComment r).length + 1)
      (Lexer.start (afterLineComment r)) = Res.ok ts2 e := by
    rw [generateTokensU_start] at h2
    cases hres : scanLoopU ((afterLineComment r).length + 1) (Lexer.start (afterLineComment r)) with
    | ok a e =>
      rw [hres] at h2
      simp only [Res.outcome, Outcome.tokens.injEq] at h2
      exact ⟨e, by rw [h2]⟩
    | error msg e =>
      rw [hres] at h2
      simp [Res.outcome] at h2
    | timeout =>
      rw [hres] at h2
      simp [Res.outcome] at h2
  -- the run on `p` followed by the comment
  have hheadB : charAt (p ++ '/' :: '*' :: r) s.m_index = '/' := by
    rw [charAt_append_left p _ _ hlt]
    exact hcp
  have hfuelB : (p ++ '/' :: '*' :: r).length + 1 = n + (p.length + r.length + 3 - n) := by
    simp only [List.length_append, List.length_cons]
    omega
  obtain ⟨g, hg⟩ : ∃ g, p.length + r.length + 3 - n = g + 1 := ⟨p.length + r.length + 2 - n, by omega⟩
  rw [generateTokensU_start, hfuelB, scanLoopU_of_steps hstepsB, hg,
    scanLoopU_flush_first _ (s.withSource (p ++ '/' :: '*' :: r))
      (s2.withSource (p ++ '/' :: '*' :: r))
      (by show charAt (p ++ '/' :: '*' :: r) s.m_index ≠ _; rw [hheadB]; decide)
      (by show isAlphaNumeric (charAt (p ++ '/' :: '*' :: r) s.m_index) = false; rw [hheadB]; decide)
      (by show charAt (p ++ '/' :: '*' :: r) s.m_index ≠ _; rw [hheadB]; decide)
      (consumeTokenBuffer_withSource s s2 _ hflush)]
  have hd3 : (s2.withSource (p ++ '/' :: '*' :: r)).m_src.drop
      (s2.withSource (p ++ '/' :: '*' :: r)).m_index = '/' :: '/' :: ('*' :: r) := by
    show (p ++ '/' :: '*' :: r).drop s2.m_index = _
    rw [c2]
    exact hviewB
  obtain ⟨s3, k1, k2, k3⟩ :=
    handleCommentsU_line_any (s2.withSource (p ++ '/' :: '*' :: r)) ('*' :: r) hd3 hb2
  have hstep : (s2.withSource (p ++ '/' :: '*' :: r)).scanStepU = Res.ok () s3 := by
    unfold Lexer.scanStepU
    rw [handleStringLiteralsU_of_ne _ (by
      show charAt (p ++ '/' :: '*' :: r) s2.m_index ≠ QUOTE_CHAR
      rw [c2, hheadB]
      decide)]
    simp only [Res.bind, Bool.false_eq_true, if_false]
    rw [k1]
    rfl
  have hne3 : charAt (s2.withSource (p ++ '/' :: '*' :: r)).m_src
      (s2.withSource (p ++ '/' :: '*' :: r)).m_index ≠ STRING_TERMINATION_CHAR := by
    show charAt (p ++ '/' :: '*' :: r) s2.m_index ≠ STRING_TERMINATION_CHAR
    rw [c2, hheadB]
    decide
  rw [scanLoopU]
  simp only [bne_iff_ne, ne_eq, hne3, not_false_eq_true, if_true]
  rw [hstep]
  simp only [Res.bind]
  have hal : afterLineComment ('*' :: r) = afterLineComment r :=
    afterLineComment_cons_of_ne '*' r (by decide) (by decide)
  have hsim : s3.sameView s2.m_tokens (Lexer.start (afterLineComment r)) := by
    refine ⟨?_, ?_, ?_, ?_⟩
    · rw [k3, hal]
      rfl
    · rw [k2.2.1]
      exact hb2
    · rw [k2.2.2]
      simp [Lexer.start, Lexer.withSource]
    · show (afterLineComment r).length ≤ s3.m_src.length
      rw [k2.1]
      show (afterLineComment r).length ≤ (p ++ '/' :: '*' :: r).length
      have := afterLineComment_length_le r
      simp only [List.length_append, List.length_cons]
      omega
  obtain ⟨t1, ht1⟩ := scanLoopU_sameView _ _ e2 ts2 he2 g s3
    (by
      have := afterLineComment_length_le r
      omega)
    hsim
  rw [ht1, hdl]
  rfl

/-! ## Wrap-around: the scan and its counterpart on unbounded counters -/

theorem generateTokens_some (self : Lexer) (src : List Char) :
    self.generateTokens (some src) =
      scanLoop (src.length + 1)
        { m_src := src, m_index := 0, m_line := 1, m_offset := 1, m_token_buffer := [], m_tokens := [] } :=
  rfl

theorem wrap32_of_lt {n : Nat} (h : n < 4294967296) : wrap32 n = n :=
  Nat.mod_eq_of_lt h

theorem wrap32_lt (n : Nat) : wrap32 n < 4294967296 :=
  Nat.mod_lt n (by decide)

theorem wrap32_wrap32_add (a b : Nat) : wrap32 (wrap32 a + b) = wrap32 (a + b) := by
  unfold wrap32
  omega

theorem wrap32_one : wrap32 1 = 1 := rfl

theorem Lexer.wrapped_src (s : Lexer) : s.wrapped.m_src = s.m_src := rfl

theorem Lexer.wrapped_index (s : Lexer) : s.wrapped.m_index = s.m_index := rfl

theorem Lexer.wrapped_buffer (s : Lexer) : s.wrapped.m_token_buffer = s.m_token_buffer := rfl

theorem Lexer.wrapped_tokens (s : Lexer) : s.wrapped.m_tokens = s.m_tokens := rfl

theorem Lexer.wrapped_line (s : Lexer) : s.wrapped.m_line = wrap32 s.m_line := rfl

theorem Lexer.wrapped_offset (s : Lexer) : s.wrapped.m_offset = wrap32 s.m_offset := rfl

theorem Res.wraps_ok {α : Type} (a : α) (s : Lexer) (src : List Char) (k : Nat)
    (h1 : s.m_src = src) (h2 : s.m_index ≤ k) :
    Res.Wraps (Res.ok a s.wrapped) (Res.ok a s) src k :=
  ⟨rfl, h1, h2⟩

theorem Res.wraps_error {α : Type} (s : Lexer) (src : List Char) (k : Nat) :
    Res.Wraps (s.wrapped.error : Res α) (s.error : Res α) src k :=
  ⟨rfl, trivial⟩

theorem Res.wraps_timeout {α : Type} (src : List Char) (k : Nat) :
    Res.Wraps (Res.timeout : Res α) (Res.timeout : Res α) src k :=
  ⟨rfl, trivial⟩

theorem Res.wraps_bind {α β : Type} {rf ru : Res α} {ff fu : α → Lexer → Res β}
    {src : List Char} {k : Nat} (h : Res.Wraps rf ru src k)
    (hf : ∀ a s1, s1.m_src = src → s1.m_index ≤ k → Res.Wraps (ff a s1.wrapped) (fu a s1) src k) :
    Res.Wraps (rf.bind ff) (ru.bind fu) src k := by
  obtain ⟨h1, h2⟩ := h
  cases ru with
  | ok a s1 =>
    rw [h1]
    exact hf a s1 h2.1 h2.2
  | error msg s1 =>
    rw [h1]
    exact ⟨rfl, trivial⟩
  | timeout =>
    rw [h1]
    exact ⟨rfl, trivial⟩

/-- An index at most `k` that holds another character than the NUL at `k` is below
`k`. -/
theorem lt_of_charAt_ne {src : List Char} {i k : Nat} (hk : charAt src k = STRING_TERMINATION_CHAR)
    (hi : i ≤ k) (hne : charAt src i ≠ STRING_TERMINATION_CHAR) : i < k := by
  rcases Nat.lt_or_ge i k with h | h
  · exact h
  · have : i = k := by omega
    rw [this] at hne
    exact absurd hk hne

theorem consumeTokenBuffer_wraps (s : Lexer) (k : Nat) (hi : s.m_index ≤ k) :
    Res.Wraps s.wrapped.consumeTokenBuffer s.consumeTokenBuffer s.m_src k := by
  unfold Lexer.consumeTokenBuffer
  simp only [Lexer.wrapped_buffer, Lexer.wrapped_tokens]
  by_cases hb : (!s.m_token_buffer.isEmpty) = true
  · simp only [hb, if_true]
    by_cases hinv : (bufferToToken s.m_token_buffer).m_type = TokenType.INVALID
    · simp only [hinv, if_true]
      exact Res.wraps_error s _ k
    · simp only [hinv, if_false]
      exact Res.wraps_ok () { s with m_tokens := s.m_tokens ++ [bufferToToken s.m_token_buffer],
                                     m_token_buffer := [] } _ k rfl hi
  · simp only [hb, Bool.false_eq_true, if_false]
    exact Res.wraps_ok () s _ k rfl hi

theorem lineCommentLoop_wraps {src : List Char} {k : Nat}
    (hk : charAt src k = STRING_TERMINATION_CHAR) (hk32 : k < 4294967296) :
    ∀ (fuel : Nat) (s : Lexer), s.m_src = src → s.m_index ≤ k →
      Res.Wraps (lineCommentLoop fuel s.wrapped) (lineCommentLoopU fuel s) src k := by
  intro fuel
  induction fuel with
  | zero =>
    intro s _ _
    exact Res.wraps_timeout src k
  | succ n ih =>
    intro s hsrc hi
    rw [lineCommentLoop, lineCommentLoopU]
    simp only [Lexer.wrapped_src, Lexer.wrapped_index]
    by_cases hc : (charAt s.m_src s.m_index != STRING_TERMINATION_CHAR &&
        charAt s.m_src s.m_index != NEW_LINE_CHAR) = true
    · have hne : charAt src s.m_index ≠ STRING_TERMINATION_CHAR := by
        rw [← hsrc]
        intro h0
        simp [h0] at hc
      have hlt := lt_of_charAt_ne hk hi hne
      simp only [hc, if_true]
      have ih' := ih { s with m_index := s.m_index + 1, m_offset := s.m_offset + 1 } hsrc
        (by simp only; omega)
      have e : Lexer.wrapped { s with m_index := s.m_index + 1, m_offset := s.m_offset + 1 } =
          { s.wrapped with m_index := wrap32 (s.m_index + 1),
                           m_offset := wrap32 (s.wrapped.m_offset + 1) } := by
        simp only [Lexer.wrapped, wrap32_wrap32_add, wrap32_of_lt (show s.m_index + 1 < 4294967296 by omega)]
      rw [e] at ih'
      exact ih'
    · simp only [hc, Bool.false_eq_true, if_false]
      exact Res.wraps_ok () s src k hsrc hi
theorem Res.wraps_ok_of_eq {α : Type} (a : α) (sf su : Lexer) (src : List Char) (k : Nat)
    (e : sf = su.wrapped) (h1 : su.m_src = src) (h2 : su.m_index ≤ k) :
    Res.Wraps (Res.ok a sf) (Res.ok a su) src k := by
  rw [e]
  exact Res.wraps_ok a su src k h1 h2

theorem Res.wraps_error_of_eq {α : Type} (sf su : Lexer) (src : List Char) (k : Nat)
    (e : sf = su.wrapped) : Res.Wraps (sf.error : Res α) (su.error : Res α) src k := by
  rw [e]
  exact Res.wraps_error su src k

/-- After the flush of the buffer, which both runs make alike, it is enough to
relate the two continuations from the flushed state. -/
theorem Res.wraps_after_flush {β : Type} (s : Lexer) (k : Nat) (hi : s.m_index ≤ k)
    (ff fu : Unit → Lexer → Res β)
    (hf : ∀ s1, s.flushed s1 → Res.Wraps (ff () s1.wrapped) (fu () s1) s.m_src k) :
    Res.Wraps (s.wrapped.consumeTokenBuffer.bind ff) (s.consumeTokenBuffer.bind fu) s.m_src k := by
  have hw := consumeTokenBuffer_wraps s k hi
  cases hcb : s.consumeTokenBuffer with
  | ok u s1 =>
    rw [hcb] at hw
    rw [hw.1]
    exact hf s1 (consumeTokenBuffer_ok_flushed s s1 u hcb)
  | error msg s1 =>
    rw [hcb] at hw
    rw [hw.1]
    exact ⟨rfl, trivial⟩
  | timeout =>
    rw [hcb] at hw
    rw [hw.1]
    exact ⟨rfl, trivial⟩

theorem handleLineComments_wraps {src : List Char} {k : Nat}
    (hk : charAt src k = STRING_TERMINATION_CHAR) (hk32 : k < 4294967296)
    (s : Lexer) (hsrc : s.m_src = src) (h2 : s.m_index + 2 ≤ k) :
    Res.Wraps s.wrapped.handleLineComments s.handleLineCommentsU src k := by
  unfold Lexer.handleLineComments Lexer.handleLineCommentsU
  rw [← hsrc]
  refine Res.wraps_after_flush s k (by omega) _ _ ?_
  intro s1 hfl
  obtain ⟨c1, c2, c3, c4⟩ := Lexer.flushed_cursor hfl
  have ih' := lineCommentLoop_wraps hk hk32 (s1.m_src.length + 1)
    { s1 with m_index := s1.m_index + 2, m_offset := s1.m_offset + 2 } (by rw [← hsrc, ← c1])
    (by simp only; omega)
  have e : Lexer.wrapped { s1 with m_index := s1.m_index + 2, m_offset := s1.m_offset + 2 } =
      { s1.wrapped with m_index := wrap32 (s1.wrapped.m_index + 2),
                        m_offset := wrap32 (s1.wrapped.m_offset + 2) } := by
    simp only [Lexer.wrapped, wrap32_wrap32_add,
      wrap32_of_lt (show s1.m_index + 2 < 4294967296 by omega)]
  rw [e, ← hsrc] at ih'
  exact ih'

theorem multilineCommentLoop_wraps {src : List Char} {k : Nat}
    (hk : charAt src k = STRING_TERMINATION_CHAR) (hk32 : k < 4294967296) :
    ∀ (fuel : Nat) (s : Lexer), s.m_src = src → s.m_index ≤ k →
      Res.Wraps (multilineCommentLoop fuel s.wrapped) (multilineCommentLoopU fuel s) src k := by
  intro fuel
  induction fuel with
  | zero =>
    intro s _ _
    exact Res.wraps_timeout src k
  | succ n ih =>
    intro s hsrc hi
    rw [multilineCommentLoop, multilineCommentLoopU]
    simp only [Lexer.wrapped_src, Lexer.wrapped_index, Nat.add_zero]
    by_cases hc : (charAt s.m_src s.m_index != STRING_TERMINATION_CHAR) = true
    · have hne : charAt src s.m_index ≠ STRING_TERMINATION_CHAR := by
        rw [← hsrc]
        simpa using hc
      have hlt := lt_of_charAt_ne hk hi hne
      have w0 : wrap32 s.m_index = s.m_index := wrap32_of_lt (by omega)
      have w1 : wrap32 (s.m_index + 1) = s.m_index + 1 := wrap32_of_lt (by omega)
      simp only [hc, if_true, w0, w1]
      by_cases hcl : (charAt s.m_src s.m_index == '*' && charAt s.m_src (s.m_index + 1) == '/') = true
      · simp only [hcl, if_true]
        have h1 : charAt src (s.m_index + 1) ≠ STRING_TERMINATION_CHAR := by
          rw [← hsrc]
          simp only [Bool.and_eq_true, beq_iff_eq] at hcl
          rw [hcl.2]
          decide
        have hlt1 := lt_of_charAt_ne hk (show s.m_index + 1 ≤ k by omega) h1
        refine Res.wraps_ok_of_eq () _ { s with m_index := s.m_index + 2, m_offset := s.m_offset + 2 }
          src k ?_ hsrc (by simp only; omega)
        simp only [Lexer.wrapped, wrap32_wrap32_add,
          wrap32_of_lt (show s.m_index + 2 < 4294967296 by omega)]
      · simp only [hcl, Bool.false_eq_true, if_false]
        by_cases hnl : (charAt s.m_src s.m_index == NEW_LINE_CHAR) = true
        · simp only [hnl, if_true]
          have ih' := ih { s with m_index := s.m_index + 1, m_line := s.m_line + 1, m_offset := 1 }
            hsrc (by simp only; omega)
          have e : Lexer.wrapped
              { s with m_index := s.m_index + 1, m_line := s.m_line + 1, m_offset := 1 } =
              { s.wrapped with m_index := s.m_index + 1, m_line := wrap32 (s.wrapped.m_line + 1),
                               m_offset := 1 } := by
            simp only [Lexer.wrapped, wrap32_wrap32_add, wrap32_one]
          rw [e] at ih'
          exact ih'
        · simp only [hnl, Bool.false_eq_true, if_false]
          have ih' := ih { s with m_index := s.m_index + 1, m_offset := s.m_offset + 1 }
            hsrc (by simp only; omega)
          have e : Lexer.wrapped { s with m_index := s.m_index + 1, m_offset := s.m_offset + 1 } =
              { s.wrapped with m_index := s.m_index + 1,
                               m_offset := wrap32 (s.wrapped.m_offset + 1) } := by
            simp only [Lexer.wrapped, wrap32_wrap32_add]
          rw [e] at ih'
          exact ih'
    · simp only [hc, Bool.false_eq_true, if_false]
      exact Res.wraps_ok () s src k hsrc hi

theorem handleMultilineComments_wraps {src : List Char} {k : Nat}
    (hk : charAt src k = STRING_TERMINATION_CHAR) (hk32 : k < 4294967296)
    (s : Lexer) (hsrc : s.m_src = src) (h2 : s.m_index + 2 ≤ k) :
    Res.Wraps s.wrapped.handleMultilineComments s.handleMultilineCommentsU src k := by
  unfold Lexer.handleMultilineComments Lexer.handleMultilineCommentsU
  rw [← hsrc]
  refine Res.wraps_after_flush s k (by omega) _ _ ?_
  intro s1 hfl
  obtain ⟨c1, c2, c3, c4⟩ := Lexer.flushed_cursor hfl
  have ih' := multilineCommentLoop_wraps hk hk32 (s1.m_src.length + 1)
    { s1 with m_index := s1.m_index + 2, m_offset := s1.m_offset + 2 } (by rw [← hsrc, ← c1])
    (by simp only; omega)
  have e : Lexer.wrapped { s1 with m_index := s1.m_index + 2, m_offset := s1.m_offset + 2 } =
      { s1.wrapped with m_index := wrap32 (s1.wrapped.m_index + 2),
                        m_offset := wrap32 (s1.wrapped.m_offset + 2) } := by
    simp only [Lexer.wrapped, wrap32_wrap32_add,
      wrap32_of_lt (show s1.m_index + 2 < 4294967296 by omega)]
  rw [e, ← hsrc] at ih'
  exact ih'

theorem handleComments_wraps {src : List Char} {k : Nat}
    (hk : charAt src k = STRING_TERMINATION_CHAR) (hk32 : k < 4294967296)
    (s : Lexer) (hsrc : s.m_src = src) (hi : s.m_index ≤ k) :
    Res.Wraps s.wrapped.handleComments s.handleCommentsU src k := by
  unfold Lexer.handleComments Lexer.handleCommentsU
  have w0 : wrap32 s.m_index = s.m_index := wrap32_of_lt (by omega)
  simp only [Lexer.wrapped_src, Lexer.wrapped_index, Nat.add_zero, w0]
  by_cases h0 : (charAt s.m_src s.m_index != '/') = true
  · simp only [h0, if_true]
    exact Res.wraps_ok false s src k hsrc hi
  · have hs : charAt s.m_src s.m_index = '/' := by simpa using h0
    have hne : charAt src s.m_index ≠ STRING_TERMINATION_CHAR := by
      rw [← hsrc, hs]
      decide
    have hlt := lt_of_charAt_ne hk hi hne
    have w1 : wrap32 (s.m_index + 1) = s.m_index + 1 := wrap32_of_lt (by omega)
    simp only [h0, Bool.false_eq_true, if_false, w1]
    -- a second character of a comment opener is not the terminator
    have two : ∀ c : Char, c ≠ STRING_TERMINATION_CHAR → charAt s.m_src (s.m_index + 1) = c →
        s.m_index + 2 ≤ k := by
      intro c hc h1
      have h1 : charAt src (s.m_index + 1) ≠ STRING_TERMINATION_CHAR := by
        rw [← hsrc, h1]
        exact hc
      have := lt_of_charAt_ne hk (show s.m_index + 1 ≤ k by omega) h1
      omega
    by_cases h1 : (charAt s.m_src (s.m_index + 1) == '/') = true
    · simp only [h1, if_true]
      have h2 := two '/' (by decide) (by simpa using h1)
      refine Res.wraps_bind (handleLineComments_wraps hk hk32 s hsrc h2) ?_
      intro _ s1 a1 a2
      exact Res.wraps_ok true s1 src k a1 a2
    · simp only [h1, Bool.false_eq_true, if_false]
      by_cases h2 : (charAt s.m_src (s.m_index + 1) == '*') = true
      · simp only [h2, if_true]
        have h3 := two '*' (by decide) (by simpa using h2)
        refine Res.wraps_bind (handleMultilineComments_wraps hk hk32 s hsrc h3) ?_
        intro _ s1 a1 a2
        exact Res.wraps_ok true s1 src k a1 a2
      · simp only [h2, Bool.false_eq_true, if_false]
        exact Res.wraps_ok false s src k hsrc hi

theorem whiteSpacesLoop_wraps {src : List Char} {k : Nat}
    (hk : charAt src k = STRING_TERMINATION_CHAR) (hk32 : k < 4294967296) :
    ∀ (fuel : Nat) (s : Lexer) (cw : Bool), s.m_src = src → s.m_index ≤ k →
      Res.Wraps (whiteSpacesLoop fuel s.wrapped cw) (whiteSpacesLoopU fuel s cw) src k := by
  intro fuel
  induction fuel with
  | zero =>
    intro s _ _ _
    exact Res.wraps_timeout src k
  | succ n ih =>
    intro s cw hsrc hi
    rw [whiteSpacesLoop, whiteSpacesLoopU]
    simp only [Lexer.wrapped_src, Lexer.wrapped_index]
    by_cases hc : isBlank (charAt s.m_src s.m_index) = true
    · have hne : charAt src s.m_index ≠ STRING_TERMINATION_CHAR := by
        rw [← hsrc]
        exact (isBlank_facts hc).1
      have hlt := lt_of_charAt_ne hk hi hne
      simp only [hc, if_true]
      -- the continuation from the state after the optional flush
      have cont : ∀ s1 : Lexer, s1.m_src = src → s1.m_index = s.m_index →
          Res.Wraps
            (whiteSpacesLoop n
              { (if (charAt s1.wrapped.m_src s1.wrapped.m_index == NEW_LINE_CHAR) = true then
                    { s1.wrapped with m_offset := 1, m_line := wrap32 (s1.wrapped.m_line + 1) }
                  else { s1.wrapped with m_offset := wrap32 (s1.wrapped.m_offset + 1) }) with
                m_index := wrap32
                  ((if (charAt s1.wrapped.m_src s1.wrapped.m_index == NEW_LINE_CHAR) = true then
                      { s1.wrapped with m_offset := 1, m_line := wrap32 (s1.wrapped.m_line + 1) }
                    else { s1.wrapped with m_offset := wrap32 (s1.wrapped.m_offset + 1) }).m_index + 1) }
              true)
            (whiteSpacesLoopU n
              { (if (charAt s1.m_src s1.m_index == NEW_LINE_CHAR) = true then
                    { s1 with m_offset := 1, m_line := s1.m_line + 1 }
                  else { s1 with m_offset := s1.m_offset + 1 }) with
                m_index :=
                  (if (charAt s1.m_src s1.m_index == NEW_LINE_CHAR) = true then
                      { s1 with m_offset := 1, m_line := s1.m_line + 1 }
                    else { s1 with m_offset := s1.m_offset + 1 }).m_index + 1 }
              true) src k := by
        intro s1 a1 a2
        simp only [Lexer.wrapped_src, Lexer.wrapped_index]
        have w1 : wrap32 (s1.m_index + 1) = s1.m_index + 1 := wrap32_of_lt (by omega)
        by_cases hnl : (charAt s1.m_src s1.m_index == NEW_LINE_CHAR) = true
        · simp only [hnl, if_true, w1]
          have ih' := ih { s1 with m_offset := 1, m_line := s1.m_line + 1, m_index := s1.m_index + 1 }
            true a1 (by simp only; omega)
          have e : Lexer.wrapped
              { s1 with m_offset := 1, m_line := s1.m_line + 1, m_index := s1.m_index + 1 } =
              { s1.wrapped with m_offset := 1, m_line := wrap32 (s1.wrapped.m_line + 1),
                                m_index := s1.m_index + 1 } := by
            simp only [Lexer.wrapped, wrap32_wrap32_add, wrap32_one]
          rw [e] at ih'
          exact ih'
        · simp only [hnl, Bool.false_eq_true, if_false, w1]
          have ih' := ih { s1 with m_offset := s1.m_offset + 1, m_index := s1.m_index + 1 }
            true a1 (by simp only; omega)
          have e : Lexer.wrapped { s1 with m_offset := s1.m_offset + 1, m_index := s1.m_index + 1 } =
              { s1.wrapped with m_offset := wrap32 (s1.wrapped.m_offset + 1),
                                m_index := s1.m_index + 1 } := by
            simp only [Lexer.wrapped, wrap32_wrap32_add]
          rw [e] at ih'
          exact ih'
      by_cases hcw : (!cw) = true
      · simp only [hcw, if_true]
        rw [← hsrc]
        refine Res.wraps_after_flush s k hi _ _ ?_
        intro s1 hfl
        obtain ⟨c1, c2, _, _⟩ := Lexer.flushed_cursor hfl
        rw [hsrc]
        exact cont s1 (by rw [c1, hsrc]) c2
      · simp only [hcw, Bool.false_eq_true, if_false, Res.bind]
        exact cont s hsrc rfl
    · simp only [hc, Bool.false_eq_true, if_false]
      exact Res.wraps_ok cw s src k hsrc hi

theorem handleWhiteSpaces_wraps {src : List Char} {k : Nat}
    (hk : charAt src k = STRING_TERMINATION_CHAR) (hk32 : k < 4294967296)
    (s : Lexer) (hsrc : s.m_src = src) (hi : s.m_index ≤ k) :
    Res.Wraps s.wrapped.handleWhiteSpaces s.handleWhiteSpacesU src k :=
  whiteSpacesLoop_wraps hk hk32 _ s false hsrc hi
theorem parseStringLoop_wraps {src : List Char} {k : Nat}
    (hk : charAt src k = STRING_TERMINATION_CHAR) (hk32 : k < 4294967296) :
    ∀ (fuel : Nat) (st : StrState), st.pos ≤ k →
      parseStringLoop src fuel st.wrapped = (parseStringLoopU src fuel st).map StrState.wrapped ∧
      ∀ st1, parseStringLoopU src fuel st = some st1 → st1.pos ≤ k := by
  intro fuel
  induction fuel with
  | zero =>
    intro st _
    refine ⟨rfl, ?_⟩
    intro st1 h
    simp [parseStringLoopU] at h
  | succ n ih =>
    intro st hi
    rw [parseStringLoop, parseStringLoopU]
    have hpos : st.wrapped.pos = st.pos := rfl
    have hval : st.wrapped.value = st.value := rfl
    simp only [hpos, hval]
    by_cases h0 : (charAt src st.pos != STRING_TERMINATION_CHAR && charAt src st.pos != QUOTE_CHAR) = true
    · have hne : charAt src st.pos ≠ STRING_TERMINATION_CHAR := by
        intro h
        simp [h] at h0
      have hlt := lt_of_charAt_ne hk hi hne
      have w1 : wrap32 (st.pos + 1) = st.pos + 1 := wrap32_of_lt (by omega)
      simp only [h0, if_true, w1]
      by_cases h1 : (charAt src st.pos == BACKSLASH_CHAR &&
          charAt src (st.pos + 1) != STRING_TERMINATION_CHAR) = true
      · have hne1 : charAt src (st.pos + 1) ≠ STRING_TERMINATION_CHAR := by
          intro h
          simp [h] at h1
        have hlt1 := lt_of_charAt_ne hk (show st.pos + 1 ≤ k by omega) hne1
        have w2 : wrap32 (st.pos + 1 + 1) = st.pos + 1 + 1 := wrap32_of_lt (by omega)
        simp only [h1, if_true, w2]
        have ih' := ih
          { value := st.value ++ [charAt src st.pos] ++ [charAt src (st.pos + 1)],
            pos := st.pos + 1 + 1, line := st.line, offset := st.offset + 1 + 1 }
          (by simp only; omega)
        have e : StrState.wrapped
            { value := st.value ++ [charAt src st.pos] ++ [charAt src (st.pos + 1)],
              pos := st.pos + 1 + 1, line := st.line, offset := st.offset + 1 + 1 } =
            { value := st.value ++ [charAt src st.pos] ++ [charAt src (st.pos + 1)],
              pos := st.pos + 1 + 1, line := st.wrapped.line,
              offset := wrap32 (wrap32 (st.wrapped.offset + 1) + 1) } := by
          simp only [StrState.wrapped, wrap32_wrap32_add]
        rw [e] at ih'
        exact ih'
      · simp only [h1, Bool.false_eq_true, if_false]
        by_cases h2 : (charAt src st.pos == '\n') = true
        · simp only [h2, if_true]
          have ih' := ih
            { value := st.value ++ [charAt src st.pos], pos := st.pos + 1, line := st.line + 1,
              offset := 1 + 1 }
            (by simp only; omega)
          have e : StrState.wrapped
              { value := st.value ++ [charAt src st.pos], pos := st.pos + 1, line := st.line + 1,
                offset := 1 + 1 } =
              { value := st.value ++ [charAt src st.pos], pos := st.pos + 1,
                line := wrap32 (st.wrapped.line + 1), offset := wrap32 (1 + 1) } := by
            simp only [StrState.wrapped, wrap32_wrap32_add]
          rw [e] at ih'
          exact ih'
        · simp only [h2, Bool.false_eq_true, if_false]
          have ih' := ih
            { value := st.value ++ [charAt src st.pos], pos := st.pos + 1, line := st.line,
              offset := st.offset + 1 }
            (by simp only; omega)
          have e : StrState.wrapped
              { value := st.value ++ [charAt src st.pos], pos := st.pos + 1, line := st.line,
                offset := st.offset + 1 } =
              { value := st.value ++ [charAt src st.pos], pos := st.pos + 1,
                line := st.wrapped.line, offset := wrap32 (st.wrapped.offset + 1) } := by
            simp only [StrState.wrapped, wrap32_wrap32_add]
          rw [e] at ih'
          exact ih'
    · simp only [h0, Bool.false_eq_true, if_false, Option.map_some', Option.some.injEq]
      refine ⟨trivial, ?_⟩
      intro st1 h
      rw [← h]
      exact hi

theorem parseStringLiteral_wraps {src : List Char} {k : Nat}
    (hk : charAt src k = STRING_TERMINATION_CHAR) (hk32 : k < 4294967296)
    (pos line offset : Nat) (hpos : pos < k) :
    parseStringLiteral src pos (wrap32 line) (wrap32 offset) =
        (parseStringLiteralU src pos line offset).map (fun r => (r.1, r.2.wrapped)) ∧
      ∀ tok st, parseStringLiteralU src pos line offset = some (tok, st) → st.pos ≤ k := by
  unfold parseStringLiteral parseStringLiteralU
  have w1 : wrap32 (pos + 1) = pos + 1 := wrap32_of_lt (by omega)
  have e : ({ value := [QUOTE_CHAR], pos := wrap32 (pos + 1), line := wrap32 line,
              offset := wrap32 (wrap32 offset + 1) } : StrState) =
      StrState.wrapped { value := [QUOTE_CHAR], pos := pos + 1, line := line, offset := offset + 1 } := by
    simp only [StrState.wrapped, wrap32_wrap32_add, w1]
  obtain ⟨j1, j2⟩ := parseStringLoop_wraps hk hk32 (src.length + 1)
    { value := [QUOTE_CHAR], pos := pos + 1, line := line, offset := offset + 1 }
    (by simp only; omega)
  rw [e, j1]
  cases hU : parseStringLoopU src (src.length + 1)
      { value := [QUOTE_CHAR], pos := pos + 1, line := line, offset := offset + 1 } with
  | none =>
    refine ⟨rfl, ?_⟩
    intro tok st h
    simp at h
  | some st0 =>
    have hst0 := j2 st0 hU
    simp only [Option.map_some']
    have hp : st0.wrapped.pos = st0.pos := rfl
    have hv : st0.wrapped.value = st0.value := rfl
    simp only [hp, hv]
    by_cases hq : (charAt src st0.pos == QUOTE_CHAR) = true
    · have hne : charAt src st0.pos ≠ STRING_TERMINATION_CHAR := by
        have : charAt src st0.pos = QUOTE_CHAR := by simpa using hq
        rw [this]
        decide
      have hlt := lt_of_charAt_ne hk hst0 hne
      have w2 : wrap32 (st0.pos + 1) = st0.pos + 1 := wrap32_of_lt (by omega)
      simp only [hq, if_true, Option.map_some', Option.some.injEq, Prod.mk.injEq, true_and, w2]
      refine ⟨?_, ?_⟩
      · simp only [StrState.wrapped, wrap32_wrap32_add]
      · intro tok st h
        rw [← h.2]
        simp only
        omega
    · simp only [hq, Bool.false_eq_true, if_false, Option.map_some', Option.some.injEq,
        Prod.mk.injEq, true_and]
      intro tok st h
      rw [← h.2]
      exact hst0

theorem handleStringLiterals_wraps {src : List Char} {k : Nat}
    (hk : charAt src k = STRING_TERMINATION_CHAR) (hk32 : k < 4294967296)
    (s : Lexer) (hsrc : s.m_src = src) (hi : s.m_index ≤ k) :
    Res.Wraps s.wrapped.handleStringLiterals s.handleStringLiteralsU src k := by
  unfold Lexer.handleStringLiterals Lexer.handleStringLiteralsU
  simp only [Lexer.wrapped_src, Lexer.wrapped_index]
  by_cases hq : (charAt s.m_src s.m_index == QUOTE_CHAR) = true
  · have hne : charAt src s.m_index ≠ STRING_TERMINATION_CHAR := by
      have : charAt s.m_src s.m_index = QUOTE_CHAR := by simpa using hq
      rw [← hsrc, this]
      decide
    have hlt := lt_of_charAt_ne hk hi hne
    simp only [hq, if_true]
    rw [← hsrc]
    refine Res.wraps_after_flush s k hi _ _ ?_
    intro s1 hfl
    obtain ⟨c1, c2, _, _⟩ := Lexer.flushed_cursor hfl
    have hsrc1 : s1.m_src = src := by rw [c1, hsrc]
    obtain ⟨j1, j2⟩ := parseStringLiteral_wraps hk hk32 s1.m_index s1.m_line s1.m_offset
      (by rw [c2]; exact hlt)
    simp only [Lexer.wrapped_src, Lexer.wrapped_index, Lexer.wrapped_line, Lexer.wrapped_offset,
      Lexer.wrapped_tokens, hsrc1, hsrc]
    rw [j1]
    cases hU : parseStringLiteralU src s1.m_index s1.m_line s1.m_offset with
    | none => exact Res.wraps_timeout src k
    | some r =>
      obtain ⟨tok, st⟩ := r
      have hst := j2 tok st hU
      simp only [Option.map_some']
      by_cases hinv : tok.m_type = TokenType.INVALID
      · simp only [hinv, if_true]
        refine Res.wraps_error_of_eq _
          { s1 with m_src := src, m_index := st.pos, m_line := st.line, m_offset := st.offset }
          src k ?_
        simp only [Lexer.wrapped, StrState.wrapped]
      · simp only [hinv, if_false]
        refine Res.wraps_ok_of_eq true _
          { s1 with m_src := src, m_index := st.pos, m_line := st.line, m_offset := st.offset,
                    m_tokens := s1.m_tokens ++ [tok] } src k ?_ rfl hst
        simp only [Lexer.wrapped, StrState.wrapped]
  · simp only [hq, Bool.false_eq_true, if_false]
    exact Res.wraps_ok false s src k hsrc hi

theorem handleAlphaNumericChars_wraps {src : List Char} {k : Nat}
    (hk : charAt src k = STRING_TERMINATION_CHAR) (hk32 : k < 4294967296)
    (s : Lexer) (hsrc : s.m_src = src) (hi : s.m_index ≤ k) :
    Res.Wraps s.wrapped.handleAlphaNumericChars s.handleAlphaNumericCharsU src k := by
  unfold Lexer.handleAlphaNumericChars Lexer.handleAlphaNumericCharsU
  simp only [Lexer.wrapped_src, Lexer.wrapped_index, Lexer.wrapped_buffer]
  by_cases hc : (isAlphaNumeric (charAt s.m_src s.m_index) ||
      (charAt s.m_src s.m_index == '.' && !s.m_token_buffer.isEmpty &&
        isDigit (s.m_token_buffer.getLastD STRING_TERMINATION_CHAR))) = true
  · have hne : charAt src s.m_index ≠ STRING_TERMINATION_CHAR := by
      rw [← hsrc]
      intro h0
      have a : isAlphaNumeric STRING_TERMINATION_CHAR = false := by decide
      have b : (STRING_TERMINATION_CHAR == '.') = false := by decide
      rw [h0] at hc
      simp [a, b] at hc
    have hlt := lt_of_charAt_ne hk hi hne
    rw [if_pos hc, if_pos hc]
    refine Res.wraps_ok_of_eq true _
      { s with m_token_buffer := s.m_token_buffer ++ [charAt s.m_src s.m_index],
               m_index := s.m_index + 1, m_offset := s.m_offset + 1 } src k ?_ hsrc
      (by simp only; omega)
    simp only [Lexer.wrapped, wrap32_wrap32_add,
      wrap32_of_lt (show s.m_index + 1 < 4294967296 by omega)]
  · rw [if_neg hc, if_neg hc]
    exact Res.wraps_ok false s src k hsrc hi

theorem handleDelimeters_wraps {src : List Char} {k : Nat}
    (hk : charAt src k = STRING_TERMINATION_CHAR) (hk32 : k < 4294967296)
    (s : Lexer) (hsrc : s.m_src = src) (hi : s.m_index ≤ k) :
    Res.Wraps s.wrapped.handleDelimeters s.handleDelimetersU src k := by
  unfold Lexer.handleDelimeters Lexer.handleDelimetersU
  simp only [Lexer.wrapped_src, Lexer.wrapped_index, Lexer.wrapped_tokens]
  by_cases hd : isDelimiter (charAt s.m_src s.m_index) = true
  · have hne : charAt src s.m_index ≠ STRING_TERMINATION_CHAR := by
      rw [← hsrc]
      intro h0
      rw [h0] at hd
      exact absurd hd (by decide)
    have hlt := lt_of_charAt_ne hk hi hne
    simp only [hd, if_true]
    by_cases hinv : delimiterType (charAt s.m_src s.m_index) = TokenType.INVALID
    · simp only [hinv, if_true]
      exact Res.wraps_error s src k
    · simp only [hinv, if_false]
      refine Res.wraps_ok_of_eq true _
        { s with m_tokens := s.m_tokens ++ [Token.mk (delimiterType (charAt s.m_src s.m_index)) []],
                 m_index := s.m_index + 1 } src k ?_ hsrc (by simp only; omega)
      simp only [Lexer.wrapped, wrap32_of_lt (show s.m_index + 1 < 4294967296 by omega)]
  · simp only [hd, Bool.false_eq_true, if_false]
    exact Res.wraps_ok false s src k hsrc hi

theorem operatorMatches_wrapped (s : Lexer) (op : List Char) (i : Nat) :
    operatorMatches s.wrapped op i = operatorMatches s op i := by
  induction op generalizing i with
  | nil => rfl
  | cons c cs ih =>
    unfold operatorMatches
    rw [ih (i + 1)]
    rfl

/-- A spelling that matches does not reach the NUL at `k`. -/
theorem operatorMatches_le {src : List Char} {k : Nat}
    (hk : charAt src k = STRING_TERMINATION_CHAR) (s : Lexer) (hsrc : s.m_src = src) :
    ∀ (op : List Char) (i : Nat), s.m_index + i ≤ k → operatorMatches s op i = true →
      s.m_index + i + op.length ≤ k := by
  intro op
  induction op with
  | nil =>
    intro i hi _
    simpa using hi
  | cons c cs ih =>
    intro i hi h
    unfold operatorMatches at h
    by_cases h0 : charAt s.m_src (s.m_index + i) = STRING_TERMINATION_CHAR
    · simp [h0] at h
    · have hlt := lt_of_charAt_ne hk hi (by rw [← hsrc]; exact h0)
      by_cases h1 : charAt s.m_src (s.m_index + i) = c
      · simp only [h1, beq_iff_eq, bne_self_eq_false, Bool.or_false] at h
        have hc0 : ¬ (c = STRING_TERMINATION_CHAR) := by
          rw [← h1]
          exact h0
        simp only [hc0, if_false] at h
        have := ih (i + 1) (by omega) h
        simp only [List.length_cons]
        omega
      · simp [h0, h1] at h

theorem operatorsLoop_wraps {src : List Char} {k : Nat}
    (hk : charAt src k = STRING_TERMINATION_CHAR) (hk32 : k < 4294967296)
    (s : Lexer) (hsrc : s.m_src = src) (hi : s.m_index ≤ k) :
    ∀ tbl : List (List Char × TokenType),
      Res.Wraps (operatorsLoop s.wrapped tbl) (operatorsLoopU s tbl) src k := by
  intro tbl
  induction tbl with
  | nil => exact Res.wraps_ok false s src k hsrc hi
  | cons a l ih =>
    obtain ⟨op, ty⟩ := a
    unfold operatorsLoop operatorsLoopU
    simp only [operatorMatches_wrapped, Lexer.wrapped_tokens]
    by_cases hm : operatorMatches s op 0 = true
    · have hle := operatorMatches_le hk s hsrc op 0 (by omega) hm
      simp only [hm, if_true]
      refine Res.wraps_ok_of_eq true _
        { s with m_tokens := s.m_tokens ++ [Token.mk ty []],
                 m_index := s.m_index + op.length, m_offset := s.m_offset + op.length } src k ?_ hsrc
        (by simp only; omega)
      simp only [Lexer.wrapped, wrap32_wrap32_add,
        wrap32_of_lt (show s.m_index + op.length < 4294967296 by omega)]
    · simp only [hm, Bool.false_eq_true, if_false]
      exact ih

theorem handleOperators_wraps {src : List Char} {k : Nat}
    (hk : charAt src k = STRING_TERMINATION_CHAR) (hk32 : k < 4294967296)
    (s : Lexer) (hsrc : s.m_src = src) (hi : s.m_index ≤ k) :
    Res.Wraps s.wrapped.handleOperators s.handleOperatorsU src k :=
  operatorsLoop_wraps hk hk32 s hsrc hi OPERATORS

/-- One iteration of the scan loop, from a head at or before a NUL that lies below
index 2^32, is the iteration on unbounded counters with its counters reduced. -/
theorem scanStep_wraps {src : List Char} {k : Nat}
    (hk : charAt src k = STRING_TERMINATION_CHAR) (hk32 : k < 4294967296)
    (s : Lexer) (hsrc : s.m_src = src) (hi : s.m_index ≤ k) :
    Res.Wraps s.wrapped.scanStep s.scanStepU src k := by
  unfold Lexer.scanStep Lexer.scanStepU
  refine Res.wraps_bind (handleStringLiterals_wraps hk hk32 s hsrc hi) ?_
  intro b1 s1 a1 i1
  cases b1 with
  | true => exact Res.wraps_ok () s1 src k a1 i1
  | false =>
  simp only [Bool.false_eq_true, if_false]
  refine Res.wraps_bind (handleComments_wraps hk hk32 s1 a1 i1) ?_
  intro b2 s2 a2 i2
  cases b2 with
  | true => exact Res.wraps_ok () s2 src k a2 i2
  | false =>
  simp only [Bool.false_eq_true, if_false]
  refine Res.wraps_bind (handleAlphaNumericChars_wraps hk hk32 s2 a2 i2) ?_
  intro b3 s3 a3 i3
  cases b3 with
  | true => exact Res.wraps_ok () s3 src k a3 i3
  | false =>
  simp only [Bool.false_eq_true, if_false]
  have hcb := consumeTokenBuffer_wraps s3 k i3
  rw [a3] at hcb
  refine Res.wraps_bind hcb ?_
  intro _ s4 a4 i4
  refine Res.wraps_bind (handleWhiteSpaces_wraps hk hk32 s4 a4 i4) ?_
  intro b5 s5 a5 i5
  cases b5 with
  | true => exact Res.wraps_ok () s5 src k a5 i5
  | false =>
  simp only [Bool.false_eq_true, if_false]
  refine Res.wraps_bind (handleDelimeters_wraps hk hk32 s5 a5 i5) ?_
  intro b6 s6 a6 i6
  cases b6 with
  | true => exact Res.wraps_ok () s6 src k a6 i6
  | false =>
  simp only [Bool.false_eq_true, if_false]
  refine Res.wraps_bind (handleOperators_wraps hk hk32 s6 a6 i6) ?_
  intro b7 s7 a7 i7
  cases b7 with
  | true => exact Res.wraps_ok () s7 src k a7 i7
  | false => exact Res.wraps_error s7 src k

/-- The scan loop, from a head at or before a NUL that lies below index 2^32, is the
scan loop on unbounded counters with its counters reduced. -/
theorem scanLoop_wraps {src : List Char} {k : Nat}
    (hk : charAt src k = STRING_TERMINATION_CHAR) (hk32 : k < 4294967296) :
    ∀ (fuel : Nat) (s : Lexer), s.m_src = src → s.m_index ≤ k →
      scanLoop fuel s.wrapped = (scanLoopU fuel s).wrapped := by
  intro fuel
  induction fuel with
  | zero =>
    intro s _ _
    rfl
  | succ n ih =>
    intro s hsrc hi
    rw [scanLoop, scanLoopU]
    simp only [Lexer.wrapped_src, Lexer.wrapped_index, Lexer.wrapped_tokens]
    by_cases hc : (charAt s.m_src s.m_index != STRING_TERMINATION_CHAR) = true
    · simp only [hc, if_true]
      obtain ⟨h1, h2⟩ := scanStep_wraps hk hk32 s hsrc hi
      rw [h1]
      cases hU : s.scanStepU with
      | ok u s1 =>
        rw [hU] at h2
        simp only [Res.wrapped, Res.bind]
        exact ih s1 h2.1 h2.2
      | error msg s1 => rfl
      | timeout => rfl
    · simp only [hc, Bool.false_eq_true, if_false]
      rfl

/-- On an input with a NUL below index 2^32 (the end of the list counts as one)
`generateTokens` is `generateTokensU` with the counters of its final state reduced
modulo 2^32. -/
theorem generateTokens_wraps (self : Lexer) (src : List Char) (k : Nat)
    (hk : charAt src k = STRING_TERMINATION_CHAR) (hk32 : k < 4294967296) :
    self.generateTokens (some src) = (self.generateTokensU (some src)).wrapped := by
  rw [generateTokens_some, generateTokensU_some]
  exact scanLoop_wraps hk hk32 (src.length + 1)
    { m_src := src, m_index := 0, m_line := 1, m_offset := 1, m_token_buffer := [], m_tokens := [] }
    rfl (Nat.zero_le k)
/-! ## A call that returns has not wrapped its index -/

theorem consumeTokenBuffer_indexFits {src : List Char} (s : Lexer) (h : s.indexFits src) :
    s.consumeTokenBuffer.Returns (fun _ s1 => s1.indexFits src) := by
  unfold Lexer.consumeTokenBuffer
  split
  · simp only
    split
    · exact Lexer.returns_error _ _
    · exact h
  · exact h

theorem lineCommentLoop_indexFits {src : List Char} (fuel : Nat) (s : Lexer)
    (h : s.indexFits src) : (lineCommentLoop fuel s).Returns (fun _ s1 => s1.indexFits src) := by
  induction fuel generalizing s with
  | zero => trivial
  | succ n ih =>
    unfold lineCommentLoop
    split
    · exact ih _ ⟨h.1, wrap32_lt _⟩
    · exact h

theorem multilineCommentLoop_indexFits {src : List Char} (fuel : Nat) (s : Lexer)
    (h : s.indexFits src) :
    (multilineCommentLoop fuel s).Returns (fun _ s1 => s1.indexFits src) := by
  induction fuel generalizing s with
  | zero => trivial
  | succ n ih =>
    unfold multilineCommentLoop
    split
    · simp only
      split
      · exact ⟨h.1, wrap32_lt _⟩
      · split
        · exact ih _ ⟨h.1, wrap32_lt _⟩
        · exact ih _ ⟨h.1, wrap32_lt _⟩
    · exact h

theorem handleComments_indexFits {src : List Char} (s : Lexer) (h : s.indexFits src) :
    s.handleComments.Returns (fun _ s1 => s1.indexFits src) := by
  unfold Lexer.handleComments
  simp only
  split
  · exact h
  · split
    · have hl : s.handleLineComments.Returns (fun _ s1 => s1.indexFits src) := by
        unfold Lexer.handleLineComments
        refine Res.returns_bind (consumeTokenBuffer_indexFits s h) ?_
        intro _ s1 h1
        exact lineCommentLoop_indexFits _ _ ⟨h1.1, wrap32_lt _⟩
      refine Res.returns_bind hl ?_
      intro _ s1 h1
      exact h1
    · split
      · have hl : s.handleMultilineComments.Returns (fun _ s1 => s1.indexFits src) := by
          unfold Lexer.handleMultilineComments
          refine Res.returns_bind (consumeTokenBuffer_indexFits s h) ?_
          intro _ s1 h1
          exact multilineCommentLoop_indexFits _ _ ⟨h1.1, wrap32_lt _⟩
        refine Res.returns_bind hl ?_
        intro _ s1 h1
        exact h1
      · exact h

theorem whiteSpacesLoop_indexFits {src : List Char} (fuel : Nat) (s : Lexer) (cw : Bool)
    (h : s.indexFits src) :
    (whiteSpacesLoop fuel s cw).Returns (fun _ s1 => s1.indexFits src) := by
  induction fuel generalizing s cw with
  | zero => trivial
  | succ n ih =>
    unfold whiteSpacesLoop
    split
    · have hflush : (if (!cw) = true then s.consumeTokenBuffer else Res.ok () s).Returns
          (fun _ s1 => s1.indexFits src) := by
        split
        · exact consumeTokenBuffer_indexFits s h
        · exact h
      refine Res.returns_bind hflush ?_
      intro _ s1 h1
      simp only
      split
      · exact ih _ true ⟨h1.1, wrap32_lt _⟩
      · exact ih _ true ⟨h1.1, wrap32_lt _⟩
    · exact h

theorem parseStringLoop_pos_lt (src : List Char) (fuel : Nat) (st st1 : StrState)
    (hp : st.pos < 4294967296) (h : parseStringLoop src fuel st = some st1) :
    st1.pos < 4294967296 := by
  induction fuel generalizing st with
  | zero => simp [parseStringLoop] at h
  | succ n ih =>
    rw [parseStringLoop] at h
    split at h
    · split at h
      · exact ih _ (wrap32_lt _) h
      · split at h
        · exact ih _ (wrap32_lt _) h
        · exact ih _ (wrap32_lt _) h
    · simp only [Option.some.injEq] at h
      rw [← h]
      exact hp

theorem parseStringLiteral_pos_lt (src : List Char) (pos line offset : Nat) (tok : Token)
    (st : StrState) (h : parseStringLiteral src pos line offset = some (tok, st)) :
    st.pos < 4294967296 := by
  unfold parseStringLiteral at h
  split at h
  · simp at h
  · next st0 hst0 =>
    have h0 := parseStringLoop_pos_lt src _ _ st0 (wrap32_lt _) hst0
    split at h
    · simp only [Option.some.injEq, Prod.mk.injEq] at h
      rw [← h.2]
      exact wrap32_lt _
    · simp only [Option.some.injEq, Prod.mk.injEq] at h
      rw [← h.2]
      exact h0

theorem handleStringLiterals_indexFits {src : List Char} (s : Lexer) (h : s.indexFits src) :
    s.handleStringLiterals.Returns (fun _ s1 => s1.indexFits src) := by
  unfold Lexer.handleStringLiterals
  simp only
  split
  · refine Res.returns_bind (consumeTokenBuffer_indexFits s h) ?_
    intro _ s1 h1
    split
    · trivial
    · next tok st hp =>
      split
      · exact Lexer.returns_error _ _
      · exact ⟨h1.1, parseStringLiteral_pos_lt _ _ _ _ tok st hp⟩
  · exact h

theorem handleAlphaNumericChars_indexFits {src : List Char} (s : Lexer) (h : s.indexFits src) :
    s.handleAlphaNumericChars.Returns (fun _ s1 => s1.indexFits src) := by
  unfold Lexer.handleAlphaNumericChars
  simp only
  split
  · exact ⟨h.1, wrap32_lt _⟩
  · exact h

theorem handleDelimeters_indexFits {src : List Char} (s : Lexer) (h : s.indexFits src) :
    s.handleDelimeters.Returns (fun _ s1 => s1.indexFits src) := by
  unfold Lexer.handleDelimeters
  simp only
  split
  · split
    · exact Lexer.returns_error _ _
    · exact ⟨h.1, wrap32_lt _⟩
  · exact h

theorem operatorsLoop_indexFits {src : List Char} (s : Lexer) (h : s.indexFits src)
    (tbl : List (List Char × TokenType)) :
    (operatorsLoop s tbl).Returns (fun _ s1 => s1.indexFits src) := by
  induction tbl with
  | nil => exact h
  | cons a l ih =>
    obtain ⟨op, ty⟩ := a
    unfold operatorsLoop
    simp only
    split
    · exact ⟨h.1, wrap32_lt _⟩
    · exact ih

theorem scanStep_indexFits {src : List Char} (s : Lexer) (h : s.indexFits src) :
    s.scanStep.Returns (fun _ s1 => s1.indexFits src) := by
  unfold Lexer.scanStep
  refine Res.returns_bind (handleStringLiterals_indexFits s h) ?_
  intro b1 s1 h1
  split
  · exact h1
  refine Res.returns_bind (handleComments_indexFits s1 h1) ?_
  intro b2 s2 h2
  split
  · exact h2
  refine Res.returns_bind (handleAlphaNumericChars_indexFits s2 h2) ?_
  intro b3 s3 h3
  split
  · exact h3
  refine Res.returns_bind (consumeTokenBuffer_indexFits s3 h3) ?_
  intro _ s4 h4
  refine Res.returns_bind (whiteSpacesLoop_indexFits _ s4 false h4) ?_
  intro b5 s5 h5
  split
  · exact h5
  refine Res.returns_bind (handleDelimeters_indexFits s5 h5) ?_
  intro b6 s6 h6
  split
  · exact h6
  refine Res.returns_bind (operatorsLoop_indexFits s6 h6 OPERATORS) ?_
  intro b7 s7 h7
  split
  · exact h7
  · exact Lexer.returns_error _ _

/-- The scan loop returns only from a head on a NUL, and that head has an index
below 2^32. -/
theorem scanLoop_indexFits (src : List Char) (fuel : Nat) (s : Lexer) (h : s.indexFits src) :
    (scanLoop fuel s).Returns
      (fun _ s1 => s1.indexFits src ∧ charAt s1.m_src s1.m_index = STRING_TERMINATION_CHAR) := by
  induction fuel generalizing s with
  | zero => trivial
  | succ n ih =>
    unfold scanLoop
    split
    · refine Res.returns_bind (scanStep_indexFits s h) ?_
      intro _ s1 h1
      exact ih s1 h1
    · next hc =>
      refine ⟨h, ?_⟩
      simpa using hc

/-- A call of `generateTokens` that returns has met a NUL below index 2^32, so its
index has not wrapped: the call on unbounded counters returns the same tokens. -/
theorem generateTokens_returns_unbounded (self : Lexer) (src : Option (List Char))
    (ts : List Token) (h : (self.generateTokens src).outcome = Outcome.tokens ts) :
    (self.generateTokensU src).outcome = Outcome.tokens ts := by
  cases src with
  | none => exact h
  | some l =>
    have hret := scanLoop_indexFits l (l.length + 1)
      { m_src := l, m_index := 0, m_line := 1, m_offset := 1, m_token_buffer := [], m_tokens := [] }
      ⟨rfl, by show (0 : Nat) < 4294967296; omega⟩
    rw [← generateTokens_some self l] at hret
    cases hF : self.generateTokens (some l) with
    | ok ts1 e =>
      rw [hF] at h hret
      obtain ⟨⟨e1, e2⟩, e3⟩ := hret
      have hw := generateTokens_wraps self l e.m_index (by rw [← e1]; exact e3) e2
      rw [hF] at hw
      cases hU : self.generateTokensU (some l) with
      | ok ts2 e' =>
        rw [hU] at hw
        simp only [Res.wrapped, Res.ok.injEq] at hw
        rw [← hw.1]
        exact h
      | error msg e' =>
        rw [hU] at hw
        simp [Res.wrapped] at hw
      | timeout =>
        rw [hU] at hw
        simp [Res.wrapped] at hw
    | error msg e =>
      rw [hF] at h
      simp [Res.outcome] at h
    | timeout =>
      rw [hF] at h
      simp [Res.outcome] at h

/-- On an input of fewer than 2^32 characters `generateTokens` returns the tokens
that `generateTokensU` returns. -/
theorem generateTokens_tokens_of_unbounded (self : Lexer) (src : List Char) (ts : List Token)
    (hlen : src.length < 4294967296)
    (h : (self.generateTokensU (some src)).outcome = Outcome.tokens ts) :
    (self.generateTokens (some src)).outcome = Outcome.tokens ts := by
  have hk : charAt src src.length = STRING_TERMINATION_CHAR := by
    unfold charAt
    simp
  rw [generateTokens_wraps self src src.length hk hlen]
  cases hU : self.generateTokensU (some src) with
  | ok ts1 e =>
    rw [hU] at h
    exact h
  | error msg e =>
    rw [hU] at h
    simp [Res.outcome] at h
  | timeout =>
    rw [hU] at h
    simp [Res.outcome] at h

/-! ## Whole scans on unbounded counters -/

/-- On a text of blanks, line comments and closed block comments `generateTokensU`
returns no token. -/
theorem generateTokensU_trivia (self : Lexer) (src : List Char) (ht : Trivia src) :
    (self.generateTokensU (some src)).outcome = Outcome.tokens [] := by
  rw [generateTokensU_some]
  obtain ⟨s1, e1⟩ :=
    scanLoopU_trivia src.length src ht (le_refl _) (src.length + 1)
      { m_src := src, m_index := 0, m_line := 1, m_offset := 1, m_token_buffer := [], m_tokens := [] }
      rfl rfl (by omega)
  rw [e1]
  rfl

/-- On quote, body, quote, the body being made of string units, `generateTokensU`
returns the one STRING token whose text is the whole input. -/
theorem generateTokensU_string_literal (self : Lexer) (body : List Char) (hb : StringBody body) :
    (self.generateTokensU (some (QUOTE_CHAR :: (body ++ [QUOTE_CHAR])))).outcome =
      Outcome.tokens [Token.mk TokenType.STRING (QUOTE_CHAR :: (body ++ [QUOTE_CHAR]))] := by
  rw [generateTokensU_some]
  obtain ⟨s1, e1, e2, e3, e4, _⟩ :=
    handleStringLiteralsU_closed
      { m_src := QUOTE_CHAR :: (body ++ [QUOTE_CHAR]), m_index := 0, m_line := 1, m_offset := 1,
        m_token_buffer := [], m_tokens := [] }
      body [] hb rfl rfl
  simp only at e2 e3 e4
  have hlen : (QUOTE_CHAR :: (body ++ [QUOTE_CHAR])).length + 1 = (body.length + 1) + 1 + 1 := by
    simp
  have hq : QUOTE_CHAR ≠ STRING_TERMINATION_CHAR := by decide
  have hend : charAt s1.m_src s1.m_index = STRING_TERMINATION_CHAR := by
    apply charAt_of_drop_eq_nil
    apply List.drop_eq_nil_of_le
    rw [e2, e3]
    simp
  rw [hlen, scanLoopU]
  simp only [charAt_cons_zero, bne_iff_ne, ne_eq, hq, not_false_eq_true, if_true]
  unfold Lexer.scanStepU
  rw [e1]
  simp only [Res.bind, if_true]
  rw [scanLoopU]
  simp [hend, e4, Res.outcome]

/-- On an opening quote followed by an open string body `generateTokensU` throws with
the cursor on the terminator. -/
theorem generateTokensU_unterminated_string (self : Lexer) (body : List Char)
    (hb : OpenStringBody body) :
    ∃ s1, self.generateTokensU (some (QUOTE_CHAR :: body)) =
        Res.error (errorMessage s1.m_line s1.m_offset) s1 ∧
      charAt s1.m_src s1.m_index = STRING_TERMINATION_CHAR := by
  rw [generateTokensU_some]
  obtain ⟨s1, e1, e2⟩ :=
    handleStringLiteralsU_open
      { m_src := QUOTE_CHAR :: body, m_index := 0, m_line := 1, m_offset := 1,
        m_token_buffer := [], m_tokens := [] }
      body hb rfl rfl
  refine ⟨s1, ?_, e2⟩
  have hq : QUOTE_CHAR ≠ STRING_TERMINATION_CHAR := by decide
  rw [List.length_cons, scanLoopU]
  simp only [charAt_cons_zero, bne_iff_ne, ne_eq, hq, not_false_eq_true, if_true]
  unfold Lexer.scanStepU
  rw [e1]
  rfl

/-- Every token that `generateTokensU` returns has an emittable category. -/
theorem generateTokensU_emittable_tokens (self : Lexer) (src : Option (List Char))
    (ts : List Token) (h : (self.generateTokensU src).outcome = Outcome.tokens ts) :
    ∀ t ∈ ts, (t.m_type ≠ TokenType.INVALID ∧ t.m_type ≠ TokenType.EOF_TOKEN ∧
      t.m_type ≠ TokenType.CHAR) ∧ isLexemeCategory t.m_type := by
  have hret : (self.generateTokensU src).Returns (fun ts _ => ∀ t ∈ ts, emittable t.m_type) := by
    cases src with
    | none =>
      intro t ht
      simp at ht
    | some l =>
      rw [generateTokensU_some]
      apply scanLoopU_emittable
      intro t ht
      simp at ht
  cases hg : self.generateTokensU src with
  | ok ts1 s1 =>
    rw [hg] at h hret
    have hts : ts1 = ts := by
      simpa [Res.outcome] using h
    subst hts
    intro t ht
    exact ⟨hret t ht, (emittable_iff_isLexemeCategory _).mp (hret t ht)⟩
  | error msg s1 =>
    rw [hg] at h
    simp [Res.outcome] at h
  | timeout =>
    rw [hg] at h
    simp [Res.outcome] at h

/-- An identifier ahead of an input that starts with no letter, digit, underscore or
period adds its IDENTIFIER token in front of the tokens of that input. -/
theorem generateTokensU_identifier_ahead (self other : Lexer) (c0 : Char)
    (cs r : List Char) (ts : List Token)
    (ha : isAlpha c0 = true) (hv : validIdentifierText (c0 :: cs))
    (hk : (c0 :: cs) ∉ KEYWORDS.map Prod.fst)
    (hr : charAt r 0 ≠ STRING_TERMINATION_CHAR)
    (hna : isAlphaNumeric (charAt r 0) = false) (hdot : charAt r 0 ≠ '.')
    (h : (self.generateTokensU (some r)).outcome = Outcome.tokens ts) :
    (other.generateTokensU (some ((c0 :: cs) ++ r))).outcome =
      Outcome.tokens (Token.mk TokenType.IDENTIFIER (c0 :: cs) :: ts) := by
  -- the run on `r` alone
  obtain ⟨e, he⟩ : ∃ e, scanLoopU (r.length + 1) (Lexer.start r) = Res.ok ts e := by
    rw [generateTokensU_start] at h
    cases hres : scanLoopU (r.length + 1) (Lexer.start r) with
    | ok a e =>
      rw [hres] at h
      simp only [Res.outcome, Outcome.tokens.injEq] at h
      exact ⟨e, by rw [h]⟩
    | error msg e =>
      rw [hres] at h
      simp [Res.outcome] at h
    | timeout =>
      rw [hres] at h
      simp [Res.outcome] at h
  -- the state at the end of the identifier and the state after its flush
  let sw : Lexer :=
    { m_src := (c0 :: cs) ++ r, m_index := (c0 :: cs).length, m_line := 1,
      m_offset := 1 + (c0 :: cs).length, m_token_buffer := c0 :: cs, m_tokens := [] }
  let s2 : Lexer :=
    { sw with m_tokens := [Token.mk TokenType.IDENTIFIER (c0 :: cs)], m_token_buffer := [] }
  have hacc : scanLoopU (((c0 :: cs) ++ r).length + 1) (Lexer.start ((c0 :: cs) ++ r)) =
      scanLoopU (r.length + 1) sw := by
    have hlen : ((c0 :: cs) ++ r).length + 1 = (r.length + 1) + (c0 :: cs).length := by
      simp only [List.length_append]
      omega
    rw [hlen, scanLoopU_accumulate (c0 :: cs) hv (r.length + 1) (Lexer.start ((c0 :: cs) ++ r)) r rfl]
    simp [Lexer.start, sw]
  have hhead : charAt sw.m_src sw.m_index = charAt r 0 := by
    show charAt ((c0 :: cs) ++ r) ((c0 :: cs).length) = charAt r 0
    rw [charAt_eq_drop, List.drop_left]
  have htok : bufferToToken (c0 :: cs) = Token.mk TokenType.IDENTIFIER (c0 :: cs) := by
    have hl := KEYWORDS_lookup_of_not_mem hk
    have hd := isDigit_false_of_isAlpha ha
    have hn := (identifierLoop_iff _).mpr hv
    simp [bufferToToken, hl, hd, ha, hn]
  have hflush : sw.consumeTokenBuffer = Res.ok () s2 := by
    unfold Lexer.consumeTokenBuffer
    simp [sw, s2, htok]
  have hstep : sw.scanStepU = s2.scanStepU :=
    scanStepU_flush_first sw s2 (by rw [hhead]; exact hna) (by rw [hhead]; exact hdot) hflush
  have hloop : scanLoopU (r.length + 1) sw = scanLoopU (r.length + 1) s2 := by
    rw [scanLoopU, scanLoopU, hstep, hhead]
    simp only [bne_iff_ne, ne_eq, hr, not_false_eq_true, if_true]
  have hsim : s2.sameView [Token.mk TokenType.IDENTIFIER (c0 :: cs)] (Lexer.start r) := by
    refine ⟨?_, rfl, rfl, ?_⟩
    · show ((c0 :: cs) ++ r).drop ((c0 :: cs).length) = r.drop 0
      rw [List.drop_left]
      rfl
    · show r.length ≤ ((c0 :: cs) ++ r).length
      simp only [List.length_append]
      omega
  obtain ⟨t1, ht1⟩ := scanLoopU_sameView (r.length + 1) (Lexer.start r) e ts he (r.length + 1) s2
    (le_refl _) hsim
  rw [generateTokensU_start, hacc, hloop, ht1]
  rfl

/-- Keyword, operator and delimiter tokens have empty text; IDENTIFIER, NUMBER and
STRING tokens have a non-empty text that is a contiguous part of the input. -/
theorem generateTokensU_text_payload (self : Lexer) (src : List Char) (ts : List Token)
    (h : (self.generateTokensU (some src)).outcome = Outcome.tokens ts) :
    ∀ t ∈ ts,
      ((t.m_type ∈ KEYWORDS.map Prod.snd ∨ t.m_type ∈ OPERATORS.map Prod.snd ∨
          t.m_type ∈ DELIMITER_TYPES) → t.m_value = []) ∧
      ((t.m_type = TokenType.IDENTIFIER ∨ t.m_type = TokenType.NUMBER ∨
          t.m_type = TokenType.STRING) → t.m_value ≠ [] ∧ t.m_value <:+: src) := by
  have hI : TokenType.IDENTIFIER ∉ KEYWORDS.map Prod.snd ∧
      TokenType.IDENTIFIER ∉ OPERATORS.map Prod.snd ∧ TokenType.IDENTIFIER ∉ DELIMITER_TYPES := by
    decide
  have hN : TokenType.NUMBER ∉ KEYWORDS.map Prod.snd ∧
      TokenType.NUMBER ∉ OPERATORS.map Prod.snd ∧ TokenType.NUMBER ∉ DELIMITER_TYPES := by
    decide
  have hS : TokenType.STRING ∉ KEYWORDS.map Prod.snd ∧
      TokenType.STRING ∉ OPERATORS.map Prod.snd ∧ TokenType.STRING ∉ DELIMITER_TYPES := by
    decide
  have shape := generateTokensU_tokens
    (fun t =>
      ((t.m_type ∈ KEYWORDS.map Prod.snd ∨ t.m_type ∈ OPERATORS.map Prod.snd ∨
          t.m_type ∈ DELIMITER_TYPES) → t.m_value = []) ∧
      ((t.m_type = TokenType.IDENTIFIER ∨ t.m_type = TokenType.NUMBER ∨
          t.m_type = TokenType.STRING) → t.m_value ≠ []))
    (by
      intro b hb hinv
      rcases bufferToToken_cases b with ⟨ty, hm, he⟩ | ⟨_, _, _, he⟩ | ⟨_, _, _, he⟩ | he
      · rw [he]
        refine ⟨fun _ => rfl, ?_⟩
        rintro (h1 | h1 | h1)
        · exact absurd h1 (KEYWORDS_not_literal _ hm).1
        · exact absurd h1 (KEYWORDS_not_literal _ hm).2.1
        · exact absurd h1 (KEYWORDS_not_literal _ hm).2.2
      · rw [he]
        refine ⟨?_, fun _ => hb⟩
        rintro (h1 | h1 | h1)
        · exact absurd h1 hN.1
        · exact absurd h1 hN.2.1
        · exact absurd h1 hN.2.2
      · rw [he]
        refine ⟨?_, fun _ => hb⟩
        rintro (h1 | h1 | h1)
        · exact absurd h1 hI.1
        · exact absurd h1 hI.2.1
        · exact absurd h1 hI.2.2
      · rw [he] at hinv
        exact absurd rfl hinv)
    (by
      intro l pos line offset st hq hp
      refine ⟨?_, fun _ => (parseStringLiteralU_slice l pos line offset _ st hq hp).2⟩
      rintro (h1 | h1 | h1)
      · exact absurd h1 hS.1
      · exact absurd h1 hS.2.1
      · exact absurd h1 hS.2.2)
    (by
      intro c _ hne
      refine ⟨fun _ => rfl, ?_⟩
      rintro (h1 | h1 | h1)
      · exact absurd h1 (delimiterType_not_literal c hne).1
      · exact absurd h1 (delimiterType_not_literal c hne).2.1
      · exact absurd h1 (delimiterType_not_literal c hne).2.2)
    (by
      intro p hp
      refine ⟨fun _ => rfl, ?_⟩
      rintro (h1 | h1 | h1)
      · exact absurd h1 (OPERATORS_not_literal p hp).1
      · exact absurd h1 (OPERATORS_not_literal p hp).2.1
      · exact absurd h1 (OPERATORS_not_literal p hp).2.2)
    self (some src) ts h
  have slice : ∀ t ∈ ts, t.m_value <:+: src := by
    cases hg : self.generateTokensU (some src) with
    | ok ts1 s1 =>
      rw [hg] at h
      have hts : ts1 = ts := by simpa [Res.outcome] using h
      subst hts
      rw [generateTokensU_start] at hg
      obtain ⟨n, _, hsteps, _, hts⟩ := scanLoopU_ok_steps _ _ _ _ hg
      rw [hts]
      exact (ScanStepsU.slices hsteps).2.2
    | error msg s1 =>
      rw [hg] at h
      simp [Res.outcome] at h
    | timeout =>
      rw [hg] at h
      simp [Res.outcome] at h
  intro t ht
  exact ⟨(shape t ht).1, fun hl => ⟨(shape t ht).2 hl, slice t ht⟩⟩

/-- The text of every IDENTIFIER token starts with a letter or underscore, goes on
with letters, digits and underscores, and is no keyword spelling. -/
theorem generateTokensU_identifier_shape (self : Lexer) (src : Option (List Char)) (ts : List Token)
    (h : (self.generateTokensU src).outcome = Outcome.tokens ts) :
    ∀ t ∈ ts, t.m_type = TokenType.IDENTIFIER →
      (∃ c cs, t.m_value = c :: cs ∧ isAlpha c = true ∧ ∀ d ∈ cs, isAlphaNumeric d = true) ∧
      t.m_value ∉ KEYWORDS.map Prod.fst := by
  refine generateTokensU_tokens
    (fun t => t.m_type = TokenType.IDENTIFIER →
      (∃ c cs, t.m_value = c :: cs ∧ isAlpha c = true ∧ ∀ d ∈ cs, isAlphaNumeric d = true) ∧
      t.m_value ∉ KEYWORDS.map Prod.fst) ?_ ?_ ?_ ?_ self src ts h
  · intro b _ _ hty
    rcases bufferToToken_cases b with ⟨ty, hm, he⟩ | ⟨_, _, _, he⟩ | ⟨hk, ⟨c, cs, hb, ha⟩, hv, he⟩ | he
    · rw [he] at hty
      exact absurd hty (KEYWORDS_not_literal _ hm).1
    · rw [he] at hty
      simp at hty
    · rw [he]
      refine ⟨⟨c, cs, hb, ha, ?_⟩, hk⟩
      intro d hd
      exact hv d (by rw [hb]; exact List.mem_cons_of_mem _ hd)
    · rw [he] at hty
      simp at hty
  · intro _ _ _ _ _ _ _ hty
    simp at hty
  · intro c _ hne hty
    exact absurd hty (delimiterType_not_literal c hne).1
  · intro p hp hty
    exact absurd hty (OPERATORS_not_literal p hp).1

/-- The text of every NUMBER token starts with a digit and holds digits and at most
one period. -/
theorem generateTokensU_number_shape (self : Lexer) (src : Option (List Char)) (ts : List Token)
    (h : (self.generateTokensU src).outcome = Outcome.tokens ts) :
    ∀ t ∈ ts, t.m_type = TokenType.NUMBER →
      (∃ c cs, t.m_value = c :: cs ∧ isDigit c = true) ∧ t.m_value.head? ≠ some '.' ∧
      (∀ d ∈ t.m_value, isDigit d = true ∨ d = '.') ∧ t.m_value.count '.' ≤ 1 := by
  refine generateTokensU_tokens
    (fun t => t.m_type = TokenType.NUMBER →
      (∃ c cs, t.m_value = c :: cs ∧ isDigit c = true) ∧ t.m_value.head? ≠ some '.' ∧
      (∀ d ∈ t.m_value, isDigit d = true ∨ d = '.') ∧ t.m_value.count '.' ≤ 1) ?_ ?_ ?_ ?_
    self src ts h
  · intro b _ _ hty
    rcases bufferToToken_cases b with ⟨ty, hm, he⟩ | ⟨_, ⟨c, cs, hb, hd⟩, hv, he⟩ | ⟨_, _, _, he⟩ | he
    · rw [he] at hty
      exact absurd hty (KEYWORDS_not_literal _ hm).2.1
    · rw [he]
      refine ⟨⟨c, cs, hb, hd⟩, ?_, hv.1, hv.2⟩
      simp only [hb, List.head?_cons, ne_eq, Option.some.injEq]
      intro hc
      rw [hc] at hd
      exact absurd hd (by decide)
    · rw [he] at hty
      simp at hty
    · rw [he] at hty
      simp at hty
  · intro _ _ _ _ _ _ _ hty
    simp at hty
  · intro c _ hne hty
    exact absurd hty (delimiterType_not_literal c hne).2.1
  · intro p hp hty
    exact absurd hty (OPERATORS_not_literal p hp).2.1

/-- After a prefix of whitespace and comments an unrecognised character makes
`generateTokensU` throw with the true line and column in the message. -/
theorem generateTokensU_error_position (self : Lexer) (p : List Char) (c : Char)
    (hp : TriviaPrefix p) (hc : unrecognised c) :
    ∃ e, self.generateTokensU (some (p ++ [c])) = Res.error (errorMessage e.m_line e.m_offset) e ∧
      e.m_line = 1 + p.count NEW_LINE_CHAR ∧
      e.m_offset = 1 + (p.reverse.takeWhile (fun d => d != NEW_LINE_CHAR)).length := by
  have hstart : (Lexer.start (p ++ [c])).positionExact := by
    simp [Lexer.positionExact, Lexer.start, trueLine, trueColumn]
  obtain ⟨e, e1, e2, e3, e4⟩ :=
    scanLoopU_triviaPrefix c hc p.length p hp (le_refl _) ((p ++ [c]).length + 1)
      (Lexer.start (p ++ [c])) rfl rfl hstart (by simp only [List.length_append]; omega)
  have hsrc : e.m_src = p ++ [c] := e2
  have hidx : e.m_index = p.length := by
    have h1 : (e.m_src.drop e.m_index).length = 1 := by rw [e4]; rfl
    rw [hsrc, List.length_drop, List.length_append] at h1
    simp only [List.length_cons, List.length_nil] at h1
    omega
  have hline : e.m_line = 1 + p.count NEW_LINE_CHAR := by
    rw [e3.1, hsrc, hidx]
    simp [trueLine]
  have hcol : e.m_offset = 1 + (p.reverse.takeWhile (fun d => d != NEW_LINE_CHAR)).length := by
    rw [e3.2, hsrc, hidx]
    simp [trueColumn]
  exact ⟨e, by rw [generateTokensU_start, e1], hline, hcol⟩

/-- On an input free of the NUL every head of the scan is at or before the
terminator, every iteration throws or moves the index forward, and `generateTokensU`
terminates. -/
theorem generateTokensU_monotone_cursor (self : Lexer) (src : List Char)
    (hnul : STRING_TERMINATION_CHAR ∉ src) :
    (∀ (n : Nat) (s : Lexer), ScanStepsU (Lexer.start src) n s →
      s.m_index ≤ terminatorPosition src ∧ n ≤ s.m_index ∧ n ≤ src.length ∧
      s.scanStepU.Total
        (fun _ s1 => s.m_index < s1.m_index ∧ s1.m_index ≤ terminatorPosition src)
        (fun e => e.m_index ≤ terminatorPosition src)) ∧
    (self.generateTokensU (some src)).Total
      (fun _ s1 => s1.m_index = terminatorPosition src)
      (fun e => e.m_index ≤ terminatorPosition src) ∧
    (self.generateTokensU (some src)).outcome ≠ Outcome.diverges := by
  have hpos := terminatorPosition_of_nul_free src hnul
  refine ⟨?_, ?_, generateTokensU_ne_timeout self (some src)⟩
  · intro n s hs
    obtain ⟨⟨a1, a2, a3⟩, hn⟩ := ScanStepsU.advances hs (Lexer.start_inBounds src)
    have hsrc : s.m_src = src := a1
    have hidx : s.m_index ≤ src.length := by
      have := a3.1
      rw [hsrc] at this
      exact this
    have hn0 : n ≤ s.m_index := by
      have h0 : (Lexer.start src).m_index = 0 := rfl
      omega
    refine ⟨by rw [hpos]; exact hidx, hn0, by omega, ?_⟩
    refine Res.total_mono (scanStepU_total s a3) ?_ ?_
    · intro _ s1 ⟨b1, b2⟩
      refine ⟨b2, ?_⟩
      have := b1.2.2.1
      rw [b1.1, hsrc] at this
      rw [hpos]
      exact this
    · intro e b1
      have := b1.2.2.1
      rw [b1.1, hsrc] at this
      rw [hpos]
      exact this
  · rw [generateTokensU_start]
    have ht := scanLoopU_total (src.length + 1) (Lexer.start src) (Lexer.start_inBounds src)
      (by simp only [Lexer.start]; omega)
    refine Res.total_mono ht ?_ ?_
    · intro _ s1 ⟨b1, b2⟩
      have hsrc : s1.m_src = src := b1.1
      have hle := b1.2.2.1
      rw [hsrc] at hle b2
      rw [hpos]
      by_contra hne
      have hlt : s1.m_index < src.length := by omega
      have hmem : charAt src s1.m_index ∈ src := by
        unfold charAt
        rw [List.getD_eq_getElem _ _ hlt]
        exact List.getElem_mem _
      rw [b2] at hmem
      exact hnul hmem
    · intro e b1
      have := b1.2.2.1
      rw [b1.1] at this
      rw [hpos]
      exact this

/-! ## Transfer between the two runs -/

theorem charAt_length (src : List Char) : charAt src src.length = STRING_TERMINATION_CHAR := by
  unfold charAt
  simp

/-- On an input of fewer than 2^32 characters `generateTokens` is `generateTokensU`
with the counters of its final state reduced modulo 2^32. -/
theorem generateTokens_of_length (self : Lexer) (src : List Char)
    (hlen : src.length < 4294967296) :
    self.generateTokens (some src) = (self.generateTokensU (some src)).wrapped :=
  generateTokens_wraps self src src.length (charAt_length src) hlen

theorem Res.total_wrapped {α : Type} {r : Res α} {P Q : α → Lexer → Prop} {E F : Lexer → Prop}
    (h : r.Total P E) (hp : ∀ a s, P a s → Q a s.wrapped) (he : ∀ s, E s → F s.wrapped) :
    r.wrapped.Total Q F := by
  cases r with
  | ok a s => exact hp a s h
  | error msg s => exact he s h
  | timeout => exact h

/-- On an input of fewer than 2^32 characters no call of `generateTokens` exhausts a
loop budget. -/
theorem generateTokens_total (self : Lexer) (src : List Char) (hlen : src.length < 4294967296) :
    (self.generateTokens (some src)).outcome ≠ Outcome.diverges := by
  rw [generateTokens_of_length self src hlen]
  have h := generateTokensU_ne_timeout self (some src)
  cases hU : self.generateTokensU (some src) with
  | ok ts e => simp [Res.wrapped, Res.outcome]
  | error msg e => simp [Res.wrapped, Res.outcome]
  | timeout =>
    rw [hU] at h
    exact absurd rfl h

/-- The heads of the scan loop, below a NUL that lies below index 2^32, are the
heads of the scan on unbounded counters with their counters reduced. -/
theorem ScanSteps.unbounded {src : List Char} {k : Nat}
    (hk : charAt src k = STRING_TERMINATION_CHAR) (hk32 : k < 4294967296) :
    ∀ (n : Nat) (su sf : Lexer), ScanSteps su.wrapped n sf → su.m_src = src → su.m_index ≤ k →
      ∃ su1, ScanStepsU su n su1 ∧ sf = su1.wrapped ∧ su1.m_src = src ∧ su1.m_index ≤ k := by
  intro n
  induction n with
  | zero =>
    intro su sf h hsrc hi
    cases h
    exact ⟨su, ScanStepsU.done su, rfl, hsrc, hi⟩
  | succ m ih =>
    intro su sf h hsrc hi
    cases h with
    | step _ s1 _ _ hne hst hrest =>
      obtain ⟨w1, w2⟩ := scanStep_wraps hk hk32 su hsrc hi
      rw [hst] at w1
      cases hU : su.scanStepU with
      | ok u su1 =>
        rw [hU] at w1 w2
        simp only [Res.wrapped, Res.ok.injEq, true_and] at w1
        rw [w1] at hrest
        obtain ⟨su2, a1, a2, a3, a4⟩ := ih su1 sf hrest w2.1 w2.2
        exact ⟨su2, ScanStepsU.step su su1 su2 m hne hU a1, a2, a3, a4⟩
      | error msg e =>
        rw [hU] at w1
        simp [Res.wrapped] at w1
      | timeout =>
        rw [hU] at w1
        simp [Res.wrapped] at w1

/-- The outer loop of `handleOperators` emits the first entry of the table whose
spelling matches, if any. -/
theorem operatorsLoop_eq (s : Lexer) (tbl : List (List Char × TokenType)) :
    operatorsLoop s tbl =
      match tbl.find? (fun p => operatorMatches s p.1 0) with
      | some p =>
        Res.ok true
          { s with m_tokens := s.m_tokens ++ [Token.mk p.2 []],
                   m_index := wrap32 (s.m_index + p.1.length),
                   m_offset := wrap32 (s.m_offset + p.1.length) }
      | none => Res.ok false s := by
  induction tbl with
  | nil => rfl
  | cons a l ih =>
    obtain ⟨op, ty⟩ := a
    unfold operatorsLoop
    by_cases h : operatorMatches s op 0 = true
    · simp [h]
    · simp [h, ih]

/-- A call of `generateTokens` that returns has met a NUL below index 2^32: on an
input whose characters up to index 2^32 hold no NUL, no call returns. -/
theorem generateTokens_returns_terminator (self : Lexer) (src : List Char) (ts : List Token)
    (h : (self.generateTokens (some src)).outcome = Outcome.tokens ts) :
    ∃ k, k < 4294967296 ∧ charAt src k = STRING_TERMINATION_CHAR := by
  have hret := scanLoop_indexFits src (src.length + 1)
    { m_src := src, m_index := 0, m_line := 1, m_offset := 1, m_token_buffer := [], m_tokens := [] }
    ⟨rfl, by show (0 : Nat) < 4294967296; omega⟩
  rw [← generateTokens_some self src] at hret
  cases hF : self.generateTokens (some src) with
  | ok ts1 e =>
    rw [hF] at hret
    obtain ⟨⟨e1, e2⟩, e3⟩ := hret
    exact ⟨e.m_index, e2, by rw [← e1]; exact e3⟩
  | error msg e =>
    rw [hF] at h
    simp [Res.outcome] at h
  | timeout =>
    rw [hF] at h
    simp [Res.outcome] at h

/-- On an input of at least 2^32 characters none of which is the NUL, no call of
`generateTokens` returns: a `uint32_t` index cannot reach the terminator. -/
theorem generateTokens_beyond_index_range (self : Lexer) (src : List Char) (ts : List Token)
    (hlen : 4294967296 ≤ src.length) (hnul : STRING_TERMINATION_CHAR ∉ src) :
    (self.generateTokens (some src)).outcome ≠ Outcome.tokens ts := by
  intro h
  obtain ⟨k, hk, hc⟩ := generateTokens_returns_terminator self src ts h
  have hlt : k < src.length := by omega
  have hmem : charAt src k ∈ src := by
    unfold charAt
    rw [List.getD_eq_getElem _ _ hlt]
    exact List.getElem_mem _
  rw [hc] at hmem
  exact hnul hmem

/-! ## The heads of the scan loop in both runs -/

/-- The heads of the scan on unbounded counters, below a NUL that lies below index
2^32, are heads of the scan loop once their counters are reduced. -/
theorem ScanStepsU.reduced {src : List Char} {k : Nat}
    (hk : charAt src k = STRING_TERMINATION_CHAR) (hk32 : k < 4294967296)
    {su su1 : Lexer} {n : Nat} (h : ScanStepsU su n su1) (hsrc : su.m_src = src)
    (hi : su.m_index ≤ k) : ScanSteps su.wrapped n su1.wrapped := by
  induction h with
  | done s => exact ScanSteps.done _
  | step s s1 s2 n hne hst hrest ih =>
    obtain ⟨w1, w2⟩ := scanStep_wraps hk hk32 s hsrc hi
    rw [hst] at w1 w2
    exact ScanSteps.step _ s1.wrapped _ n hne w1 (ih w2.1 w2.2)

theorem Lexer.start_wrapped (src : List Char) : (Lexer.start src).wrapped = Lexer.start src :=
  rfl

theorem endsOutsideLiteralAndComment_unbounded (p : List Char)
    (hlen : (p ++ [' ']).length < 4294967296) (h : endsOutsideLiteralAndComment p) :
    endsOutsideLiteralAndCommentU p := by
  obtain ⟨n, s, hs, hi, hb⟩ := h
  rw [← Lexer.start_wrapped] at hs
  obtain ⟨su, a1, a2, _, _⟩ :=
    ScanSteps.unbounded (charAt_length _) hlen n (Lexer.start (p ++ [' '])) s hs rfl (Nat.zero_le _)
  rw [a2] at hi hb
  exact ⟨n, su, a1, hi, hb⟩

theorem endsWithSlashOperator_unbounded (p : List Char)
    (hlen : (p ++ [' ']).length < 4294967296) (h : endsWithSlashOperator p) :
    endsWithSlashOperatorU p := by
  obtain ⟨n, s, hs, hi, hc⟩ := h
  rw [← Lexer.start_wrapped] at hs
  obtain ⟨su, a1, a2, _, _⟩ :=
    ScanSteps.unbounded (charAt_length _) hlen n (Lexer.start (p ++ [' '])) s hs rfl (Nat.zero_le _)
  rw [a2] at hi hc
  exact ⟨n, su, a1, hi, hc⟩

theorem endsWithSlashOperator_of_unbounded (p : List Char)
    (hlen : (p ++ [' ']).length < 4294967296) (h : endsWithSlashOperatorU p) :
    endsWithSlashOperator p := by
  obtain ⟨n, s, hs, hi, hc⟩ := h
  have hw := ScanStepsU.reduced (charAt_length _) hlen hs rfl (Nat.zero_le _)
  rw [Lexer.start_wrapped] at hw
  exact ⟨n, s.wrapped, hw, hi, hc⟩

/-- The head reached after one more iteration is reached from the state that the
first iteration returns. -/
theorem ScanSteps.after_first {s s2 : Lexer} {n : Nat} (h : ScanSteps s (n + 1) s2)
    (s1 : Lexer) (hst : s.scanStep = Res.ok () s1) : ScanSteps s1 n s2 := by
  cases h with
  | step _ t _ _ hne ht hrest =>
    rw [hst] at ht
    simp only [Res.ok.injEq, true_and] at ht
    rw [ht]
    exact hrest

/-- A head on the terminator is the last one. -/
theorem ScanSteps.at_terminator {s s2 : Lexer} {n : Nat} (h : ScanSteps s n s2)
    (hnul : charAt s.m_src s.m_index = STRING_TERMINATION_CHAR) : s2 = s := by
  cases h with
  | done => rfl
  | step _ t _ _ hne ht hrest => exact absurd hnul hne

/-! ## The classifiers and the keyword table against the specification -/

theorem RESERVED_WORDS_eq : RESERVED_WORDS = KEYWORDS := by
  decide

theorem char_of_toNat {c : Char} {n : Nat} (h : c.toNat = n) : c = Char.ofNat n := by
  rw [← h, Char.ofNat_toNat]

theorem isDigit_iff_isDecimalDigit (c : Char) : isDigit c = true ↔ isDecimalDigit c := by
  unfold isDecimalDigit
  constructor
  · intro h
    simp only [isDigit, Bool.and_eq_true, decide_eq_true_eq] at h
    obtain ⟨h1, h2⟩ := h
    have h1n : 48 ≤ c.toNat := h1
    have h2n : c.toNat ≤ 57 := h2
    have hc : ∀ n, c.toNat = n → c = Char.ofNat n := fun n h => char_of_toNat h
    generalize c.toNat = n at h1n h2n hc
    have := hc n rfl
    interval_cases n <;> subst this <;> decide
  · intro h
    have hall : ∀ d ∈ "0123456789".toList, isDigit d = true := by decide
    exact hall c h

theorem isAlpha_iff_isLetterOrUnderscore (c : Char) :
    isAlpha c = true ↔ isLetterOrUnderscore c := by
  unfold isLetterOrUnderscore
  constructor
  · intro h
    simp only [isAlpha, Bool.or_eq_true, Bool.and_eq_true, decide_eq_true_eq, beq_iff_eq] at h
    have hc : ∀ n, c.toNat = n → c = Char.ofNat n := fun n h => char_of_toNat h
    rcases h with (⟨h1, h2⟩ | ⟨h1, h2⟩) | h
    · have h1n : 65 ≤ c.toNat := h1
      have h2n : c.toNat ≤ 90 := h2
      generalize c.toNat = n at h1n h2n hc
      have := hc n rfl
      right
      left
      interval_cases n <;> subst this <;> decide
    · have h1n : 97 ≤ c.toNat := h1
      have h2n : c.toNat ≤ 122 := h2
      generalize c.toNat = n at h1n h2n hc
      have := hc n rfl
      left
      interval_cases n <;> subst this <;> decide
    · exact Or.inr (Or.inr h)
  · intro h
    have h1 : ∀ d ∈ "abcdefghijklmnopqrstuvwxyz".toList, isAlpha d = true := by decide
    have h2 : ∀ d ∈ "ABCDEFGHIJKLMNOPQRSTUVWXYZ".toList, isAlpha d = true := by decide
    rcases h with h | h | h
    · exact h1 c h
    · exact h2 c h
    · rw [h]
      decide

theorem isAlphaNumeric_iff (c : Char) :
    isAlphaNumeric c = true ↔ (isLetterOrUnderscore c ∨ isDecimalDigit c) := by
  unfold isAlphaNumeric
  rw [Bool.or_eq_true, isAlpha_iff_isLetterOrUnderscore, isDigit_iff_isDecimalDigit]

theorem validNumberText_iff (b : List Char) : validNumberText b ↔ digitsWithOnePeriodAtMost b := by
  unfold validNumberText digitsWithOnePeriodAtMost
  simp only [isDigit_iff_isDecimalDigit]

theorem validIdentifierText_iff (b : List Char) :
    validIdentifierText b ↔ lettersDigitsUnderscores b := by
  unfold validIdentifierText lettersDigitsUnderscores
  simp only [isAlphaNumeric_iff]

/-! ## The claims -/

/-- C1 (code evaluated at the claim's inputs): for each of the twelve reserved
words, and in particular for `true`, `generateTokens` on exactly that word returns
the empty token sequence: the scan loop stops at the terminator with the word still
in the accumulation buffer, which is never flushed.  Followed by a blank, `true`
does give the one token TRUE with empty text. -/
theorem C1_keyword_alone_yields_no_token (self : Lexer) :
    (∀ p ∈ KEYWORDS, (self.generateTokens (some p.1)).outcome = Outcome.tokens []) ∧
    (self.generateTokens (some "true".toList)).outcome = Outcome.tokens [] ∧
    (self.generateTokens (some "true ".toList)).outcome =
      Outcome.tokens [Token.mk TokenType.TRUE []] := by
  simp only [generateTokens_some]
  decide

/-- C2 (code evaluated at the claim's inputs): `generateTokens` on `3.14` returns
the empty sequence instead of one NUMBER token, and on `3.1.4` it returns the empty
sequence instead of raising the error; once a blank follows the lexeme the
expected NUMBER token, respectively the error, does appear. -/
theorem C2_number_alone_yields_no_token (self : Lexer) :
    (self.generateTokens (some "3.14".toList)).outcome = Outcome.tokens [] ∧
    (self.generateTokens (some "3.1.4".toList)).outcome = Outcome.tokens [] ∧
    (self.generateTokens (some "3.14 ".toList)).outcome =
      Outcome.tokens [Token.mk TokenType.NUMBER "3.14".toList] ∧
    (self.generateTokens (some "3.1.4 ".toList)).outcome =
      Outcome.lexError "Lexer error at line 1:6" := by
  simp only [generateTokens_some]
  decide

/-- C3: `generateTokens` on `int x = 42;` returns exactly the five tokens INT,
IDENTIFIER(x), ASSIGN, NUMBER(42), SEMICOLON, with empty text on INT, ASSIGN and
SEMICOLON. -/
theorem C3_int_x_assign_42 (self : Lexer) :
    (self.generateTokens (some "int x = 42;".toList)).outcome =
      Outcome.tokens
        [ Token.mk TokenType.INT [],
          Token.mk TokenType.IDENTIFIER "x".toList,
          Token.mk TokenType.ASSIGN [],
          Token.mk TokenType.NUMBER "42".toList,
          Token.mk TokenType.SEMICOLON [] ] := by
  simp only [generateTokens_some]
  decide

/-- C5: when some spelling of the `OPERATORS` table is a prefix of the remaining
input at the cursor, `handleOperators` returns true having appended exactly one
token, of the category of the longest such spelling and with empty text, and having
advanced the index and the column by that spelling's length, both sums reduced
modulo 2^32 as `m_index += op_length` and `m_offset += op_length` reduce them; and
the input `==` yields exactly the one token EQUAL. -/
theorem C5_handleOperators_longest_match (s : Lexer) (op : List Char) (ty : TokenType)
    (hmem : (op, ty) ∈ OPERATORS)
    (hpre : ∃ t, remainingInput s.m_src s.m_index = op ++ t)
    (hmax : ∀ op' ty', (op', ty') ∈ OPERATORS →
      (∃ t, remainingInput s.m_src s.m_index = op' ++ t) → op'.length ≤ op.length) :
    s.handleOperators =
        Res.ok true
          { s with m_tokens := s.m_tokens ++ [Token.mk ty []],
                   m_index := wrap32 (s.m_index + op.length),
                   m_offset := wrap32 (s.m_offset + op.length) } ∧
    ∀ self : Lexer,
      (self.generateTokens (some "==".toList)).outcome =
        Outcome.tokens [Token.mk TokenType.EQUAL []] := by
  constructor
  · have hP : operatorMatches s op 0 = true :=
      (operatorMatches_iff s op 0 (OPERATORS_nul_free _ hmem)).mpr (by simpa using hpre)
    unfold Lexer.handleOperators
    rw [operatorsLoop_eq]
    cases hfind : OPERATORS.find? (fun p => operatorMatches s p.1 0) with
    | none =>
      have hnone := List.find?_eq_none.mp hfind (op, ty) hmem
      simp [hP] at hnone
    | some x =>
      have hxmem : x ∈ OPERATORS := List.mem_of_find?_eq_some hfind
      have hPx : operatorMatches s x.1 0 = true := by
        have := List.find?_some hfind
        simpa using this
      have hxpre : ∃ t, remainingInput s.m_src s.m_index = x.1 ++ t := by
        have := (operatorMatches_iff s x.1 0 (OPERATORS_nul_free _ hxmem)).mp hPx
        simpa using this
      have hle : x.1.length ≤ op.length := hmax x.1 x.2 hxmem hxpre
      have hge : op.length ≤ x.1.length :=
        find_first_is_longest (fun p => operatorMatches s p.1 0) OPERATORS OPERATORS_sorted x hfind
          (op, ty) hmem hP
      obtain ⟨t, ht⟩ := hpre
      obtain ⟨u, hu⟩ := hxpre
      have hop : x.1 = op := by
        have h := ht.symm.trans hu
        exact (List.append_inj h (by omega)).1.symm
      have hty : x.2 = ty := OPERATORS_functional x hxmem (op, ty) hmem hop
      simp [hop, hty]
  · intro self
    simp only [generateTokens_some]
    decide

/-- C5 at the state of a scan of `==` with the cursor on byte 0, once with the
column counter at 1 and once with the column counter at its largest value
4294967295, from where the sum wraps to 1. -/
theorem C5_handleOperators_longest_match_witness :
    (['=', '='], TokenType.EQUAL) ∈ OPERATORS ∧
    Lexer.handleOperators
        { m_src := ['=', '='], m_index := 0, m_line := 1, m_offset := 1, m_token_buffer := [],
          m_tokens := [] } =
      Res.ok true
        { m_src := ['=', '='], m_index := 2, m_line := 1, m_offset := 3, m_token_buffer := [],
          m_tokens := [Token.mk TokenType.EQUAL []] } ∧
    Lexer.handleOperators
        { m_src := ['=', '='], m_index := 0, m_line := 1, m_offset := 4294967295,
          m_token_buffer := [], m_tokens := [] } =
      Res.ok true
        { m_src := ['=', '='], m_index := 2, m_line := 1, m_offset := 1, m_token_buffer := [],
          m_tokens := [Token.mk TokenType.EQUAL []] } :=
  ⟨by decide,
    (C5_handleOperators_longest_match
      { m_src := ['=', '='], m_index := 0, m_line := 1, m_offset := 1, m_token_buffer := [],
        m_tokens := [] }
      ['=', '='] TokenType.EQUAL (by decide) ⟨[], by decide⟩
      (fun op' ty' h _ => by
        have hall : ∀ p ∈ OPERATORS, p.1.length ≤ 2 := by decide
        exact hall (op', ty') h)).1,
    (C5_handleOperators_longest_match
      { m_src := ['=', '='], m_index := 0, m_line := 1, m_offset := 4294967295,
        m_token_buffer := [], m_tokens := [] }
      ['=', '='] TokenType.EQUAL (by decide) ⟨[], by decide⟩
      (fun op' ty' h _ => by
        have hall : ∀ p ∈ OPERATORS, p.1.length ≤ 2 := by decide
        exact hall (op', ty') h)).1⟩

/-- C8: whenever `generateTokens` returns a token sequence, no token in it has
category INVALID, EOF_TOKEN or CHAR, and each is a keyword, IDENTIFIER, NUMBER,
STRING, operator or delimiter token. -/
theorem C8_no_sentinel_or_char_token (self : Lexer) (src : Option (List Char))
    (ts : List Token) (h : (self.generateTokens src).outcome = Outcome.tokens ts) :
    ∀ t ∈ ts, (t.m_type ≠ TokenType.INVALID ∧ t.m_type ≠ TokenType.EOF_TOKEN ∧
      t.m_type ≠ TokenType.CHAR) ∧ isLexemeCategory t.m_type :=
  generateTokensU_emittable_tokens self src ts (generateTokens_returns_unbounded self src ts h)

/-- C8 at the scan of `x = "s";` and its STRING token. -/
theorem C8_no_sentinel_or_char_token_witness :
    (Lexer.new.generateTokens (some ['x', ' ', '=', ' ', QUOTE_CHAR, 's', QUOTE_CHAR, ';'])).outcome =
      Outcome.tokens
        [Token.mk TokenType.IDENTIFIER ['x'], Token.mk TokenType.ASSIGN [],
          Token.mk TokenType.STRING [QUOTE_CHAR, 's', QUOTE_CHAR], Token.mk TokenType.SEMICOLON []] ∧
    ((Token.mk TokenType.STRING [QUOTE_CHAR, 's', QUOTE_CHAR]).m_type ≠ TokenType.INVALID ∧
      (Token.mk TokenType.STRING [QUOTE_CHAR, 's', QUOTE_CHAR]).m_type ≠ TokenType.EOF_TOKEN ∧
      (Token.mk TokenType.STRING [QUOTE_CHAR, 's', QUOTE_CHAR]).m_type ≠ TokenType.CHAR) ∧
    isLexemeCategory (Token.mk TokenType.STRING [QUOTE_CHAR, 's', QUOTE_CHAR]).m_type :=
  ⟨by decide,
    C8_no_sentinel_or_char_token Lexer.new
      (some ['x', ' ', '=', ' ', QUOTE_CHAR, 's', QUOTE_CHAR, ';'])
      [Token.mk TokenType.IDENTIFIER ['x'], Token.mk TokenType.ASSIGN [],
        Token.mk TokenType.STRING [QUOTE_CHAR, 's', QUOTE_CHAR], Token.mk TokenType.SEMICOLON []]
      (by decide) (Token.mk TokenType.STRING [QUOTE_CHAR, 's', QUOTE_CHAR]) (by decide)⟩

/-- C9 (code evaluated at a failing input): on `;@` the error is raised with the
cursor on byte 1, whose true position is line 1, column 2, but the column counter
is still 1 and the message reads `1:1`: `handleDelimeters` advances the index
without advancing the column. -/
theorem C9_delimiter_leaves_column_behind (self : Lexer) :
    ∃ s : Lexer,
      self.generateTokens (some ";@".toList) = Res.error "Lexer error at line 1:1" s ∧
      s.m_index = 1 ∧ s.m_line = 1 ∧ s.m_offset = 1 ∧
      trueLine s.m_src s.m_index = 1 ∧ trueColumn s.m_src s.m_index = 2 := by
  refine ⟨{ m_src := ";@".toList, m_index := 1, m_line := 1, m_offset := 1, m_token_buffer := [],
            m_tokens := [Token.mk TokenType.SEMICOLON []] }, ?_, rfl, rfl, rfl, ?_, ?_⟩
  · simp only [generateTokens_some]
    decide
  · decide
  · decide

/-- C10: the outcome of `generateTokens` does not depend on the prior state of the
lexer object: from any two prior states the same input gives the same token
sequence or the same error message; in particular a second scan of the same input
from the state left behind by the first one repeats its outcome. -/
theorem C10_outcome_independent_of_prior_state (l₁ l₂ : Lexer) (src : Option (List Char)) :
    (l₁.generateTokens src).outcome = (l₂.generateTokens src).outcome ∧
    (∀ ts s, l₁.generateTokens src = Res.ok ts s →
      (s.generateTokens src).outcome = Outcome.tokens ts) ∧
    (∀ msg s, l₁.generateTokens src = Res.error msg s →
      (s.generateTokens src).outcome = Outcome.lexError msg) := by
  have out : ∀ a b : Lexer, (a.generateTokens src).outcome = (b.generateTokens src).outcome := by
    intro a b
    cases src with
    | none => rfl
    | some t => rw [generateTokens_some, generateTokens_some]
  refine ⟨out l₁ l₂, ?_, ?_⟩
  · intro ts s h
    rw [out s l₁, h]
    rfl
  · intro msg s h
    rw [out s l₁, h]
    rfl

/-- C10 at the input `x = 1;` scanned from a fresh lexer and from a lexer left
with stale fields. -/
theorem C10_outcome_independent_of_prior_state_witness :
    (Lexer.new.generateTokens (some "x = 1;".toList)).outcome =
      (Lexer.generateTokens
        { m_src := ['@'], m_index := 7, m_line := 3, m_offset := 9, m_token_buffer := ['q'],
          m_tokens := [Token.mk TokenType.INVALID ['?']] }
        (some "x = 1;".toList)).outcome :=
  (C10_outcome_independent_of_prior_state Lexer.new
    { m_src := ['@'], m_index := 7, m_line := 3, m_offset := 9, m_token_buffer := ['q'],
      m_tokens := [Token.mk TokenType.INVALID ['?']] }
    (some "x = 1;".toList)).1

/-- C12: for a non-empty buffer `b` with first character `c0`, `bufferToToken`
decides in this order: one of the twelve reserved words gives that word's category
with empty text; otherwise a leading digit gives NUMBER with text `b` exactly when
every character is a digit except at most one period, and INVALID if not; otherwise
a leading letter or underscore gives IDENTIFIER with text `b` exactly when every
character is a letter, digit or underscore, and INVALID if not; otherwise INVALID.
`consumeTokenBuffer` on that buffer throws exactly when the result is INVALID.  The
reserved words, the digits and the letters are those of the specification
(`RESERVED_WORDS`, `isDecimalDigit`, `isLetterOrUnderscore`), not the table and the
classifiers of the code. -/
theorem C12_bufferToToken_disambiguation (b : List Char) (c0 : Char) (cs : List Char)
    (hb : b = c0 :: cs) :
    (∀ ty, (b, ty) ∈ RESERVED_WORDS → bufferToToken b = Token.mk ty []) ∧
    (b ∉ RESERVED_WORDS.map Prod.fst → isDecimalDigit c0 →
      (bufferToToken b = Token.mk TokenType.NUMBER b ↔ digitsWithOnePeriodAtMost b) ∧
      (¬ digitsWithOnePeriodAtMost b → (bufferToToken b).m_type = TokenType.INVALID)) ∧
    (b ∉ RESERVED_WORDS.map Prod.fst → ¬ isDecimalDigit c0 → isLetterOrUnderscore c0 →
      (bufferToToken b = Token.mk TokenType.IDENTIFIER b ↔ lettersDigitsUnderscores b) ∧
      (¬ lettersDigitsUnderscores b → (bufferToToken b).m_type = TokenType.INVALID)) ∧
    (b ∉ RESERVED_WORDS.map Prod.fst → ¬ isDecimalDigit c0 → ¬ isLetterOrUnderscore c0 →
      (bufferToToken b).m_type = TokenType.INVALID) ∧
    (∀ s : Lexer, s.m_token_buffer = b →
      ((∃ msg s1, s.consumeTokenBuffer = Res.error msg s1) ↔
        (bufferToToken b).m_type = TokenType.INVALID)) := by
  subst hb
  rw [RESERVED_WORDS_eq, ← isDigit_iff_isDecimalDigit, ← isAlpha_iff_isLetterOrUnderscore,
    ← validNumberText_iff, ← validIdentifierText_iff]
  refine ⟨?_, ?_, ?_, ?_, ?_⟩
  · intro ty hty
    simp [bufferToToken, KEYWORDS_lookup_of_mem hty]
  · intro hk hd
    have hl := KEYWORDS_lookup_of_not_mem hk
    by_cases hv : validNumberText (c0 :: cs)
    · have hn := (numberLoop_false_iff _).mpr hv
      simp [bufferToToken, hl, hd, hn, hv]
    · have hn : numberLoop (c0 :: cs) false = false := by
        have := (numberLoop_false_iff (c0 :: cs)).not.mpr hv
        simpa using this
      simp [bufferToToken, hl, hd, hn, hv]
  · intro hk hd ha
    have hd : isDigit c0 = false := by simpa using hd
    have hl := KEYWORDS_lookup_of_not_mem hk
    by_cases hv : validIdentifierText (c0 :: cs)
    · have hn := (identifierLoop_iff _).mpr hv
      simp [bufferToToken, hl, hd, ha, hn, hv]
    · have hn : identifierLoop (c0 :: cs) = false := by
        have := (identifierLoop_iff (c0 :: cs)).not.mpr hv
        simpa using this
      simp [bufferToToken, hl, hd, ha, hn, hv]
  · intro hk hd ha
    have hd : isDigit c0 = false := by simpa using hd
    have ha : isAlpha c0 = false := by simpa using ha
    have hl := KEYWORDS_lookup_of_not_mem hk
    simp [bufferToToken, hl, hd, ha]
  · intro s hs
    unfold Lexer.consumeTokenBuffer
    rw [hs]
    by_cases hi : (bufferToToken (c0 :: cs)).m_type = TokenType.INVALID
    · simp [hi, Lexer.error]
    · simp [hi]

/-- C12 at the buffers `if`, `42`, `3.1.4`, `x1`, `x.1` and `@`, one for each clause
and each of its outcomes, and at the flush of `3.1.4`. -/
theorem C12_bufferToToken_disambiguation_witness :
    bufferToToken ['i', 'f'] = Token.mk TokenType.IF [] ∧
    bufferToToken ['4', '2'] = Token.mk TokenType.NUMBER ['4', '2'] ∧
    (bufferToToken ['3', '.', '1', '.', '4']).m_type = TokenType.INVALID ∧
    bufferToToken ['x', '1'] = Token.mk TokenType.IDENTIFIER ['x', '1'] ∧
    (bufferToToken ['x', '.', '1']).m_type = TokenType.INVALID ∧
    (bufferToToken ['@']).m_type = TokenType.INVALID ∧
    (∃ msg s1, Lexer.consumeTokenBuffer
      { m_src := [], m_index := 0, m_line := 1, m_offset := 1,
        m_token_buffer := ['3', '.', '1', '.', '4'], m_tokens := [] } = Res.error msg s1) :=
  ⟨(C12_bufferToToken_disambiguation ['i', 'f'] 'i' ['f'] rfl).1 TokenType.IF (by decide),
    ((C12_bufferToToken_disambiguation ['4', '2'] '4' ['2'] rfl).2.1 (by decide) (by decide)).1.mpr
      (by decide),
    ((C12_bufferToToken_disambiguation ['3', '.', '1', '.', '4'] '3' ['.', '1', '.', '4'] rfl).2.1
      (by decide) (by decide)).2 (by decide),
    ((C12_bufferToToken_disambiguation ['x', '1'] 'x' ['1'] rfl).2.2.1
      (by decide) (by decide) (by decide)).1.mpr (by decide),
    ((C12_bufferToToken_disambiguation ['x', '.', '1'] 'x' ['.', '1'] rfl).2.2.1
      (by decide) (by decide) (by decide)).2 (by decide),
    (C12_bufferToToken_disambiguation ['@'] '@' [] rfl).2.2.2.1 (by decide) (by decide) (by decide),
    ((C12_bufferToToken_disambiguation ['3', '.', '1', '.', '4'] '3' ['.', '1', '.', '4'] rfl).2.2.2.2
      { m_src := [], m_index := 0, m_line := 1, m_offset := 1,
        m_token_buffer := ['3', '.', '1', '.', '4'], m_tokens := [] } rfl).mpr
      (((C12_bufferToToken_disambiguation ['3', '.', '1', '.', '4'] '3' ['.', '1', '.', '4'] rfl).2.1
        (by decide) (by decide)).2 (by decide))⟩

/-- C13: whenever `generateTokens` returns a token sequence for the input `src`,
every keyword, operator and delimiter token in it has empty text, and every
IDENTIFIER, NUMBER and STRING token has a non-empty text that is a contiguous part
of `src`. -/
theorem C13_text_payload_by_category (self : Lexer) (src : List Char) (ts : List Token)
    (h : (self.generateTokens (some src)).outcome = Outcome.tokens ts) :
    ∀ t ∈ ts,
      ((t.m_type ∈ KEYWORDS.map Prod.snd ∨ t.m_type ∈ OPERATORS.map Prod.snd ∨
          t.m_type ∈ DELIMITER_TYPES) → t.m_value = []) ∧
      ((t.m_type = TokenType.IDENTIFIER ∨ t.m_type = TokenType.NUMBER ∨
          t.m_type = TokenType.STRING) → t.m_value ≠ [] ∧ t.m_value <:+: src) :=
  generateTokensU_text_payload self src ts (generateTokens_returns_unbounded self (some src) ts h)

/-- C13 at the scan of `if (x1 >= 2.5)` followed by a blank, and its NUMBER token. -/
theorem C13_text_payload_by_category_witness :
    (Lexer.new.generateTokens (some "if (x1 >= 2.5) ".toList)).outcome =
      Outcome.tokens
        [Token.mk TokenType.IF [], Token.mk TokenType.PARENTHESIS_OPEN [],
          Token.mk TokenType.IDENTIFIER ['x', '1'], Token.mk TokenType.GREATER_EQUAL [],
          Token.mk TokenType.NUMBER ['2', '.', '5'], Token.mk TokenType.PARENTHESIS_CLOSE []] ∧
    (Token.mk TokenType.NUMBER ['2', '.', '5']).m_value ≠ [] ∧
    (Token.mk TokenType.NUMBER ['2', '.', '5']).m_value <:+: "if (x1 >= 2.5) ".toList :=
  ⟨by decide,
    ((C13_text_payload_by_category Lexer.new "if (x1 >= 2.5) ".toList
      [Token.mk TokenType.IF [], Token.mk TokenType.PARENTHESIS_OPEN [],
        Token.mk TokenType.IDENTIFIER ['x', '1'], Token.mk TokenType.GREATER_EQUAL [],
        Token.mk TokenType.NUMBER ['2', '.', '5'], Token.mk TokenType.PARENTHESIS_CLOSE []]
      (by decide) (Token.mk TokenType.NUMBER ['2', '.', '5']) (by decide)).2 (Or.inr (Or.inl rfl)))⟩

/-- C14: whenever `generateTokens` returns a token sequence, the text of every
IDENTIFIER token in it is non-empty, starts with a letter or an underscore,
consists of letters, digits and underscores, and is not one of the twelve keyword
spellings. -/
theorem C14_identifier_shape (self : Lexer) (src : Option (List Char)) (ts : List Token)
    (h : (self.generateTokens src).outcome = Outcome.tokens ts) :
    ∀ t ∈ ts, t.m_type = TokenType.IDENTIFIER →
      (∃ c cs, t.m_value = c :: cs ∧ isAlpha c = true ∧ ∀ d ∈ cs, isAlphaNumeric d = true) ∧
      t.m_value ∉ KEYWORDS.map Prod.fst :=
  generateTokensU_identifier_shape self src ts (generateTokens_returns_unbounded self src ts h)

/-- C14 at the scan of `int x1 = 42;` and its IDENTIFIER token. -/
theorem C14_identifier_shape_witness :
    (Lexer.new.generateTokens (some "int x1 = 42;".toList)).outcome =
      Outcome.tokens
        [Token.mk TokenType.INT [], Token.mk TokenType.IDENTIFIER ['x', '1'],
          Token.mk TokenType.ASSIGN [], Token.mk TokenType.NUMBER ['4', '2'],
          Token.mk TokenType.SEMICOLON []] ∧
    ((∃ c cs, (Token.mk TokenType.IDENTIFIER ['x', '1']).m_value = c :: cs ∧ isAlpha c = true ∧
        ∀ d ∈ cs, isAlphaNumeric d = true) ∧
      (Token.mk TokenType.IDENTIFIER ['x', '1']).m_value ∉ KEYWORDS.map Prod.fst) :=
  ⟨by decide,
    C14_identifier_shape Lexer.new (some "int x1 = 42;".toList)
      [Token.mk TokenType.INT [], Token.mk TokenType.IDENTIFIER ['x', '1'],
        Token.mk TokenType.ASSIGN [], Token.mk TokenType.NUMBER ['4', '2'],
        Token.mk TokenType.SEMICOLON []]
      (by decide) (Token.mk TokenType.IDENTIFIER ['x', '1']) (by decide) rfl⟩

/-- C15 (counterexample): the input `1.` followed by a blank yields the single token
NUMBER with text `1.`, whose period is its last character. -/
theorem C15_number_may_end_with_period :
    (Lexer.new.generateTokens (some ['1', '.', ' '])).outcome =
      Outcome.tokens [Token.mk TokenType.NUMBER ['1', '.']] ∧
    (Token.mk TokenType.NUMBER ['1', '.']).m_value.getLast? = some '.' := by
  decide

/-- C15 (amended): whenever `generateTokens` returns a token sequence, the text of
every NUMBER token in it starts with a digit, so that a period is never its first
character, and consists of digits and at most one period. -/
theorem C15_number_shape (self : Lexer) (src : Option (List Char)) (ts : List Token)
    (h : (self.generateTokens src).outcome = Outcome.tokens ts) :
    ∀ t ∈ ts, t.m_type = TokenType.NUMBER →
      (∃ c cs, t.m_value = c :: cs ∧ isDigit c = true) ∧ t.m_value.head? ≠ some '.' ∧
      (∀ d ∈ t.m_value, isDigit d = true ∨ d = '.') ∧ t.m_value.count '.' ≤ 1 :=
  generateTokensU_number_shape self src ts (generateTokens_returns_unbounded self src ts h)

/-- C15 (amended) at the scan of `x = 3.14;` and its NUMBER token. -/
theorem C15_number_shape_witness :
    (Lexer.new.generateTokens (some "x = 3.14;".toList)).outcome =
      Outcome.tokens
        [Token.mk TokenType.IDENTIFIER ['x'], Token.mk TokenType.ASSIGN [],
          Token.mk TokenType.NUMBER ['3', '.', '1', '4'], Token.mk TokenType.SEMICOLON []] ∧
    ((∃ c cs, (Token.mk TokenType.NUMBER ['3', '.', '1', '4']).m_value = c :: cs ∧
        isDigit c = true) ∧
      (Token.mk TokenType.NUMBER ['3', '.', '1', '4']).m_value.head? ≠ some '.' ∧
      (∀ d ∈ (Token.mk TokenType.NUMBER ['3', '.', '1', '4']).m_value, isDigit d = true ∨ d = '.') ∧
      (Token.mk TokenType.NUMBER ['3', '.', '1', '4']).m_value.count '.' ≤ 1) :=
  ⟨by decide,
    C15_number_shape Lexer.new (some "x = 3.14;".toList)
      [Token.mk TokenType.IDENTIFIER ['x'], Token.mk TokenType.ASSIGN [],
        Token.mk TokenType.NUMBER ['3', '.', '1', '4'], Token.mk TokenType.SEMICOLON []]
      (by decide) (Token.mk TokenType.NUMBER ['3', '.', '1', '4']) (by decide) rfl⟩

/-- C16 (code evaluated at a failing input): in the scan of `x1.5` followed by a blank, the head of the
loop reached after four iterations holds the buffer `x1.5`, whose first character
is a letter; its flush throws, and `generateTokens` fails with the lexer error. -/
theorem C16_identifier_buffer_fails_validation :
    (∃ s, ScanSteps (Lexer.start ['x', '1', '.', '5', ' ']) 4 s ∧
      s.m_token_buffer = ['x', '1', '.', '5'] ∧ isAlpha 'x' = true ∧
      s.consumeTokenBuffer = Res.error "Lexer error at line 1:5" s) ∧
    (Lexer.new.generateTokens (some ['x', '1', '.', '5', ' '])).outcome =
      Outcome.lexError "Lexer error at line 1:5" := by
  refine ⟨⟨{ m_src := ['x', '1', '.', '5', ' '], m_index := 4, m_line := 1, m_offset := 5,
             m_token_buffer := ['x', '1', '.', '5'], m_tokens := [] }, ?_, rfl, by decide,
           by decide⟩, by decide⟩
  refine ScanSteps.step _
    { m_src := ['x', '1', '.', '5', ' '], m_index := 1, m_line := 1, m_offset := 2,
      m_token_buffer := ['x'], m_tokens := [] } _ 3 (by decide) (by decide) ?_
  refine ScanSteps.step _
    { m_src := ['x', '1', '.', '5', ' '], m_index := 2, m_line := 1, m_offset := 3,
      m_token_buffer := ['x', '1'], m_tokens := [] } _ 2 (by decide) (by decide) ?_
  refine ScanSteps.step _
    { m_src := ['x', '1', '.', '5', ' '], m_index := 3, m_line := 1, m_offset := 4,
      m_token_buffer := ['x', '1', '.'], m_tokens := [] } _ 1 (by decide) (by decide) ?_
  exact ScanSteps.step _ _ _ 0 (by decide) (by decide) (ScanSteps.done _)

/-- C17 (code evaluated at failing inputs): on the literal quote, newline, `x`,
quote, entered at line 1, column 1, `parseStringLiteral` returns with line 2 and
column 4, although two characters were consumed after the newline and the true
column is 3: the branch for a newline sets the column to 1 and the common
`offset++` then counts the newline itself.  On the literal quote, backslash,
newline, quote it returns with line 1, although the true line is 2: the escape
branch consumes the newline without touching the line counter. -/
theorem C17_newline_in_string_miscounted :
    (parseStringLiteral [QUOTE_CHAR, '\n', 'x', QUOTE_CHAR] 0 1 1 =
        some (Token.mk TokenType.STRING [QUOTE_CHAR, '\n', 'x', QUOTE_CHAR],
          { value := [QUOTE_CHAR, '\n', 'x', QUOTE_CHAR], pos := 4, line := 2, offset := 4 }) ∧
      trueLine [QUOTE_CHAR, '\n', 'x', QUOTE_CHAR] 4 = 2 ∧
      trueColumn [QUOTE_CHAR, '\n', 'x', QUOTE_CHAR] 4 = 3) ∧
    (parseStringLiteral [QUOTE_CHAR, BACKSLASH_CHAR, '\n', QUOTE_CHAR] 0 1 1 =
        some (Token.mk TokenType.STRING [QUOTE_CHAR, BACKSLASH_CHAR, '\n', QUOTE_CHAR],
          { value := [QUOTE_CHAR, BACKSLASH_CHAR, '\n', QUOTE_CHAR], pos := 4, line := 1,
            offset := 5 }) ∧
      trueLine [QUOTE_CHAR, BACKSLASH_CHAR, '\n', QUOTE_CHAR] 4 = 2 ∧
      trueColumn [QUOTE_CHAR, BACKSLASH_CHAR, '\n', QUOTE_CHAR] 4 = 2) := by
  decide

/-- C19 (counterexample to the claim as stated): take `p` the single slash and `r`
empty.  The call on `p` followed by a blank returns one DIVIDE token, `p` does not
end inside a string literal or comment (the operator handler has taken the slash
when the scan reaches the end of `p`) and `r` holds no star-slash; yet on `p`
followed by slash-star the call returns no token, the two slashes opening a line
comment. -/
theorem C19_slash_before_open_comment :
    (Lexer.new.generateTokens (some (['/'] ++ [' ']))).outcome =
      Outcome.tokens [Token.mk TokenType.DIVIDE []] ∧
    endsOutsideLiteralAndComment ['/'] ∧ ¬ (['*', '/'] <:+: ([] : List Char)) ∧
    (Lexer.new.generateTokens (some (['/'] ++ '/' :: '*' :: []))).outcome = Outcome.tokens [] := by
  refine ⟨?_, ?_, by decide, ?_⟩
  · simp only [generateTokens_some]
    decide
  · refine ⟨1, { m_src := ['/', ' '], m_index := 1, m_line := 1, m_offset := 2,
                 m_token_buffer := [], m_tokens := [Token.mk TokenType.DIVIDE []] }, ?_,
             by decide, by decide⟩
    exact ScanSteps.step _ _ _ 0 (by decide) (by decide) (ScanSteps.done _)
  · simp only [generateTokens_some]
    decide

/-- C19 (amended): let `p` not end inside a string literal or comment, let `r` hold
no star-slash, let `p` followed by slash-star and `r` have fewer than 2^32
characters, and let `generateTokens` on `p` followed by a blank return the tokens
`ts`.  If the last character of `p` is not a slash that the scan takes as the
division operator, `generateTokens` on `p` followed by slash-star and `r` returns
the same tokens `ts`, whatever the prior states of the objects.  If it is, the two
slashes open a line comment: the call returns `ts` without its last token, followed
by the tokens `ts2` that `generateTokens` returns on what is left of `r` from its
first newline or NUL on, whenever that call returns.  On slash-star followed by `r`
alone the call returns no token. -/
theorem C19_unterminated_block_comment_lenient (self other third : Lexer) (p r : List Char)
    (ts : List Token)
    (h : (self.generateTokens (some (p ++ [' ']))).outcome = Outcome.tokens ts)
    (hend : endsOutsideLiteralAndComment p)
    (hr : ¬ (['*', '/'] <:+: r))
    (hlen : (p ++ '/' :: '*' :: r).length < 4294967296) :
    (¬ endsWithSlashOperator p →
      (other.generateTokens (some (p ++ '/' :: '*' :: r))).outcome = Outcome.tokens ts) ∧
    (endsWithSlashOperator p → ∀ ts2 : List Token,
      (third.generateTokens (some (afterLineComment r))).outcome = Outcome.tokens ts2 →
      (other.generateTokens (some (p ++ '/' :: '*' :: r))).outcome =
        Outcome.tokens (ts.dropLast ++ ts2)) ∧
    (other.generateTokens (some ('/' :: '*' :: r))).outcome = Outcome.tokens [] := by
  have hlp : (p ++ [' ']).length < 4294967296 := by
    simp only [List.length_append, List.length_cons, List.length_nil] at hlen ⊢
    omega
  have hlr : ('/' :: '*' :: r).length < 4294967296 := by
    simp only [List.length_append, List.length_cons] at hlen ⊢
    omega
  have hU := generateTokens_returns_unbounded self _ ts h
  refine ⟨?_, ?_, ?_⟩
  · intro hns
    exact generateTokens_tokens_of_unbounded other _ ts hlen
      (generateTokensU_open_block_comment self other p r ts hU
        (endsOutsideLiteralAndComment_unbounded p hlp hend)
        (fun hu => hns (endsWithSlashOperator_of_unbounded p hlp hu)) hr)
  · intro hs ts2 h2
    exact generateTokens_tokens_of_unbounded other _ _ hlen
      (generateTokensU_slash_before_open_comment self other third p r ts ts2 hU
        (endsWithSlashOperator_unbounded p hlp hs)
        (generateTokens_returns_unbounded third _ ts2 h2))
  · have h0 : (Lexer.new.generateTokensU (some ([] ++ [' ']))).outcome = Outcome.tokens [] := by
      decide
    have hend0 : endsOutsideLiteralAndCommentU [] :=
      ⟨0, Lexer.start ([] ++ [' ']), ScanStepsU.done _, le_refl _, by simp⟩
    have hns0 : ¬ endsWithSlashOperatorU [] := by
      rintro ⟨n, s, _, hi, _⟩
      simp at hi
    exact generateTokens_tokens_of_unbounded other _ [] hlr
      (generateTokensU_open_block_comment Lexer.new other [] r [] h0 hend0 hns0 hr)

/-- C19 (amended) at `p` the text `x/*a*/`, whose last slash closes a comment, with
`r` the text `c*` and a newline, and at `p` the single slash, taken as the division
operator, with `r` a newline and a slash. -/
theorem C19_unterminated_block_comment_lenient_witness :
    ((Lexer.new.generateTokens (some ("x/*a*/".toList ++ [' ']))).outcome =
        Outcome.tokens [Token.mk TokenType.IDENTIFIER ['x']] ∧
      endsOutsideLiteralAndComment "x/*a*/".toList ∧ ¬ endsWithSlashOperator "x/*a*/".toList ∧
      ¬ (['*', '/'] <:+: ['c', '*', '\n']) ∧
      ("x/*a*/".toList ++ '/' :: '*' :: ['c', '*', '\n']).length < 4294967296 ∧
      (Lexer.new.generateTokens (some ("x/*a*/".toList ++ '/' :: '*' :: ['c', '*', '\n']))).outcome =
        Outcome.tokens [Token.mk TokenType.IDENTIFIER ['x']]) ∧
    ((Lexer.new.generateTokens (some (['/'] ++ [' ']))).outcome =
        Outcome.tokens [Token.mk TokenType.DIVIDE []] ∧
      endsOutsideLiteralAndComment ['/'] ∧ endsWithSlashOperator ['/'] ∧
      ¬ (['*', '/'] <:+: ['\n', '/']) ∧
      (['/'] ++ '/' :: '*' :: ['\n', '/']).length < 4294967296 ∧
      (Lexer.new.generateTokens (some (afterLineComment ['\n', '/']))).outcome =
        Outcome.tokens [Token.mk TokenType.DIVIDE []] ∧
      (Lexer.new.generateTokens (some (['/'] ++ '/' :: '*' :: ['\n', '/']))).outcome =
        Outcome.tokens
          ([Token.mk TokenType.DIVIDE []].dropLast ++ [Token.mk TokenType.DIVIDE []])) := by
  have h1 : (Lexer.new.generateTokens (some ("x/*a*/".toList ++ [' ']))).outcome =
      Outcome.tokens [Token.mk TokenType.IDENTIFIER ['x']] := by
    decide
  have hend1 : endsOutsideLiteralAndComment "x/*a*/".toList :=
    ⟨2, { m_src := "x/*a*/ ".toList, m_index := 6, m_line := 1, m_offset := 7,
          m_token_buffer := [], m_tokens := [Token.mk TokenType.IDENTIFIER ['x']] },
      ScanSteps.step _
        { m_src := "x/*a*/ ".toList, m_index := 1, m_line := 1, m_offset := 2,
          m_token_buffer := ['x'], m_tokens := [] } _ 1 (by decide) (by decide)
        (ScanSteps.step _ _ _ 0 (by decide) (by decide) (ScanSteps.done _)),
      by decide, by decide⟩
  have hns1 : ¬ endsWithSlashOperator "x/*a*/".toList := by
    rintro ⟨n, s, hs, hi, _⟩
    cases n with
    | zero =>
      cases hs
      simp [Lexer.start] at hi
    | succ n =>
      have hs1 := ScanSteps.after_first hs
        { m_src := "x/*a*/ ".toList, m_index := 1, m_line := 1, m_offset := 2,
          m_token_buffer := ['x'], m_tokens := [] } (by decide)
      cases n with
      | zero =>
        cases hs1
        simp at hi
      | succ n =>
        have hs2 := ScanSteps.after_first hs1
          { m_src := "x/*a*/ ".toList, m_index := 6, m_line := 1, m_offset := 7,
            m_token_buffer := [], m_tokens := [Token.mk TokenType.IDENTIFIER ['x']] } (by decide)
        cases n with
        | zero =>
          cases hs2
          simp at hi
        | succ n =>
          have hs3 := ScanSteps.after_first hs2
            { m_src := "x/*a*/ ".toList, m_index := 7, m_line := 1, m_offset := 8,
              m_token_buffer := [], m_tokens := [Token.mk TokenType.IDENTIFIER ['x']] } (by decide)
          have := ScanSteps.at_terminator hs3 (by decide)
          rw [this] at hi
          simp at hi
  have h2 : (Lexer.new.generateTokens (some (['/'] ++ [' ']))).outcome =
      Outcome.tokens [Token.mk TokenType.DIVIDE []] := by
    decide
  have hend2 : endsOutsideLiteralAndComment ['/'] :=
    ⟨1, { m_src := ['/', ' '], m_index := 1, m_line := 1, m_offset := 2,
          m_token_buffer := [], m_tokens := [Token.mk TokenType.DIVIDE []] },
      ScanSteps.step _ _ _ 0 (by decide) (by decide) (ScanSteps.done _), by decide, by decide⟩
  have hs2 : endsWithSlashOperator ['/'] :=
    ⟨0, Lexer.start (['/'] ++ [' ']), ScanSteps.done _, by decide, by decide⟩
  have h3 : (Lexer.new.generateTokens (some (afterLineComment ['\n', '/']))).outcome =
      Outcome.tokens [Token.mk TokenType.DIVIDE []] := by
    decide
  exact ⟨⟨h1, hend1, hns1, by decide, by decide,
      (C19_unterminated_block_comment_lenient Lexer.new Lexer.new Lexer.new "x/*a*/".toList
        ['c', '*', '\n'] _ h1 hend1 (by decide) (by decide)).1 hns1⟩,
    ⟨h2, hend2, hs2, by decide, by decide, h3,
      (C19_unterminated_block_comment_lenient Lexer.new Lexer.new Lexer.new ['/']
        ['\n', '/'] _ h2 hend2 (by decide) (by decide)).2.1 hs2 _ h3⟩⟩

end parsec
